import Mathlib

/-!
Verification of the `flv_codec` crate: an incremental decoder/encoder for the
FLV container format.  Bytes are modelled as natural numbers (meaningful
values are `< 256`), machine integers as `Nat`/`Int` with explicit wrapping,
and every fallible operation returns `Except DecodeError`.  Each decoder of
the crate (`bytecodec` combinators plus the FLV-specific state machines) is
modelled as an explicit resumable state machine: `decode` consumes a prefix
of the presented buffer and returns the new state together with the number of
bytes consumed, `finish` turns an idle state into the decoded item and resets
the machine, and `isIdle` tells whether `finish` may be called.
-/

/-- Interpretation of a 32-bit pattern (given as a `Nat`) as a signed 32-bit
integer, the `as i32` cast of Rust. -/
def toI32 (n : Nat) : Int :=
  if n % 2 ^ 32 < 2 ^ 31 then ((n % 2 ^ 32 : Nat) : Int) else ((n % 2 ^ 32 : Nat) : Int) - 2 ^ 32

/-- Bit pattern (as a `Nat` below `2^32`) of a signed 32-bit integer. -/
def toU32 (x : Int) : Nat := (x % (2 ^ 32 : Int)).toNat

/-- Wrapping multiplication by 256 on `i32`, the semantics of `x << 8` in Rust
release builds. -/
def i32shl8 (x : Int) : Int := toI32 (toU32 (x * 256))

/-- Arithmetic shift right by 8 on `i32`: floor division by 256. -/
def i32shr8 (x : Int) : Int := Int.fdiv x 256

/-- Big-endian value of a byte list (most significant byte first). -/
def beVal (l : List Nat) : Nat := l.foldl (fun a b => a * 256 + b) 0

/-- Kind of an FLV tag, used to report which tag a size-mismatch error refers
to.  Modelled from the spec: the crate's public `TagKind` enum, whose source
file is absent from the snapshot (only `lib.rs`/`file.rs` reference it). -/
inductive TagKind where
  | audio
  | video
  | scriptData
deriving DecidableEq, Repr

/-- Error values of the codec.  The crate reports `bytecodec::ErrorKind`
values with human-readable messages; the constructors below keep exactly the
distinctions the spec draws (§7): malformed signature and unknown version are
separate fatal header errors, `invalidInput` covers unrecognized enum codes,
out-of-range declared sizes and redundant-size mismatches (the latter carry
the offending tag's kind), and the remaining kinds mirror
`UnexpectedEos` / `IncompleteDecoding` / `InconsistentState`. -/
inductive DecodeError where
  | malformedSignature
  | unknownVersion
  | invalidInput (kind : Option TagKind)
  | unexpectedEos
  | incompleteDecoding
  | inconsistentState
deriving DecidableEq, Repr

/-- Tag type codes of the 11-byte tag header (`tag.rs`). -/
inductive TagType where
  | audio
  | video
  | scriptData
deriving DecidableEq, Repr

/-- Mapping of a tag-type byte to `TagType` (`TagHeaderDecoder::finish_decoding`):
8 is audio, 9 is video, 18 is script data, anything else is invalid input. -/
def TagType.from_u8 (b : Nat) : Except DecodeError TagType :=
  if b = 8 then .ok .audio
  else if b = 9 then .ok .video
  else if b = 18 then .ok .scriptData
  else .error (.invalidInput none)

/-- Sound format codes (`SoundFormat` in the source). -/
inductive SoundFormat where
  | linearPcmPlatformEndian
  | adpcm
  | mp3
  | linearPcmLittleEndian
  | nellymoser16khzMono
  | nellymoser8KhzMono
  | nellymoser
  | g711AlawLogarithmicPcm
  | g711MuLawLogarithmicPcm
  | aac
  | speex
  | mp3_8khz
  | deviceSpecificSound
deriving DecidableEq, Repr

/-- Exhaustive mapping of the 4-bit sound-format code (`SoundFormat::from_u8`). -/
def SoundFormat.from_u8 (b : Nat) : Except DecodeError SoundFormat :=
  match b with
  | 0 => .ok .linearPcmPlatformEndian
  | 1 => .ok .adpcm
  | 2 => .ok .mp3
  | 3 => .ok .linearPcmLittleEndian
  | 4 => .ok .nellymoser16khzMono
  | 5 => .ok .nellymoser8KhzMono
  | 6 => .ok .nellymoser
  | 7 => .ok .g711AlawLogarithmicPcm
  | 8 => .ok .g711MuLawLogarithmicPcm
  | 10 => .ok .aac
  | 11 => .ok .speex
  | 14 => .ok .mp3_8khz
  | 15 => .ok .deviceSpecificSound
  | _ => .error (.invalidInput none)

/-- Sound rate codes (`SoundRate::from_u8`). -/
inductive SoundRate where
  | khz5
  | khz11
  | khz22
  | khz44
deriving DecidableEq, Repr

/-- Mapping of the 2-bit sound-rate code (`SoundRate::from_u8`). -/
def SoundRate.from_u8 (b : Nat) : Except DecodeError SoundRate :=
  match b with
  | 0 => .ok .khz5
  | 1 => .ok .khz11
  | 2 => .ok .khz22
  | 3 => .ok .khz44
  | _ => .error (.invalidInput none)

/-- Sample size flag (`SoundSize`): one bit, cannot fail. -/
inductive SoundSize where
  | bit8
  | bit16
deriving DecidableEq, Repr

/-- Conversion of the sound-size bit (`SoundSize::from_bool`). -/
def SoundSize.from_bool (b : Bool) : SoundSize := if b then .bit16 else .bit8

/-- Channel flag (`SoundType`): one bit, cannot fail. -/
inductive SoundType where
  | mono
  | stereo
deriving DecidableEq, Repr

/-- Conversion of the sound-type bit (`SoundType::from_bool`). -/
def SoundType.from_bool (b : Bool) : SoundType := if b then .stereo else .mono

/-- AAC packet type codes (`AacPacketType::from_u8`). -/
inductive AacPacketType where
  | sequenceHeader
  | raw
deriving DecidableEq, Repr

/-- Mapping of the AAC packet-type byte (`AacPacketType::from_u8`). -/
def AacPacketType.from_u8 (b : Nat) : Except DecodeError AacPacketType :=
  match b with
  | 0 => .ok .sequenceHeader
  | 1 => .ok .raw
  | _ => .error (.invalidInput none)

/-- Video frame type codes (`FrameType::from_u8`). -/
inductive FrameType where
  | keyFrame
  | interFrame
  | disposableInterFrame
  | generatedKeyFrame
  | videoInfoOrCommandFrame
deriving DecidableEq, Repr

/-- Mapping of the 4-bit frame-type code (`FrameType::from_u8`). -/
def FrameType.from_u8 (b : Nat) : Except DecodeError FrameType :=
  match b with
  | 1 => .ok .keyFrame
  | 2 => .ok .interFrame
  | 3 => .ok .disposableInterFrame
  | 4 => .ok .generatedKeyFrame
  | 5 => .ok .videoInfoOrCommandFrame
  | _ => .error (.invalidInput none)

/-- Video codec identifiers (`CodecId::from_u8`). -/
inductive CodecId where
  | jpeg
  | h263
  | screenVideo
  | vp6
  | vp6WithAlpha
  | screenVideoV2
  | avc
deriving DecidableEq, Repr

/-- Mapping of the 4-bit codec-id code (`CodecId::from_u8`). -/
def CodecId.from_u8 (b : Nat) : Except DecodeError CodecId :=
  match b with
  | 1 => .ok .jpeg
  | 2 => .ok .h263
  | 3 => .ok .screenVideo
  | 4 => .ok .vp6
  | 5 => .ok .vp6WithAlpha
  | 6 => .ok .screenVideoV2
  | 7 => .ok .avc
  | _ => .error (.invalidInput none)

/-- AVC packet type codes (`AvcPacketType::from_u8`). -/
inductive AvcPacketType where
  | sequenceHeader
  | nalUnit
  | endOfSequence
deriving DecidableEq, Repr

/-- Mapping of the AVC packet-type byte (`AvcPacketType::from_u8`). -/
def AvcPacketType.from_u8 (b : Nat) : Except DecodeError AvcPacketType :=
  match b with
  | 0 => .ok .sequenceHeader
  | 1 => .ok .nalUnit
  | 2 => .ok .endOfSequence
  | _ => .error (.invalidInput none)

/-- Stream identifier, a 24-bit unsigned value (`stream.rs`). -/
structure StreamId where
  val : Nat
deriving DecidableEq, Repr

/-- Validated construction of a stream id (`StreamId::new`): values above
`0xFF_FFFF` are rejected with an invalid-input error. -/
def StreamId.new (id : Nat) : Except DecodeError StreamId :=
  if id ≤ 0xFFFFFF then .ok ⟨id⟩ else .error (.invalidInput none)

/-- Signed 32-bit timestamp in milliseconds (`time.rs`). -/
structure Timestamp where
  val : Int
deriving DecidableEq, Repr

/-- Construction of a timestamp (`Timestamp::new`), no validation. -/
def Timestamp.new (milliseconds : Int) : Timestamp := ⟨milliseconds⟩

/-- Signed 24-bit time offset in milliseconds (`time.rs`). -/
structure TimeOffset where
  val : Int
deriving DecidableEq, Repr

/-- Validated construction of a time offset (`TimeOffset::new`): the source
checks `((offset << 8) >> 8) == offset` in `i32` arithmetic, rejecting values
outside the signed 24-bit range. -/
def TimeOffset.new (offset : Int) : Except DecodeError TimeOffset :=
  if i32shr8 (i32shl8 offset) = offset then .ok ⟨offset⟩ else .error (.invalidInput none)

/-- Sign extension of a raw 24-bit value (`TimeOffset::from_u24`):
`((n << 8) as i32) >> 8`. -/
def TimeOffset.from_u24 (n : Nat) : TimeOffset :=
  ⟨i32shr8 (toI32 (n % 2 ^ 24 * 256))⟩

/-- Composition time offset carried by AVC video tags (`tag.rs`); decoded by
the same sign-extension as `TimeOffset::from_u24`. -/
structure CompositionTimeOffset where
  val : Int
deriving DecidableEq, Repr

/-- Sign extension of the 24-bit composition-time field
(`CompositionTimeOffset::from_u24`). -/
def CompositionTimeOffset.from_u24 (n : Nat) : CompositionTimeOffset :=
  ⟨i32shr8 (toI32 (n % 2 ^ 24 * 256))⟩

/-- Audio tag (`tag.rs`): header fields plus the audio payload metadata and
the raw audio data bytes. -/
structure AudioTag where
  timestamp : Timestamp
  stream_id : StreamId
  sound_format : SoundFormat
  sound_rate : SoundRate
  sound_size : SoundSize
  sound_type : SoundType
  aac_packet_type : Option AacPacketType
  data : List Nat
deriving DecidableEq, Repr

/-- Video tag (`tag.rs`): header fields plus the video payload metadata and
the raw video data bytes. -/
structure VideoTag where
  timestamp : Timestamp
  stream_id : StreamId
  frame_type : FrameType
  codec_id : CodecId
  avc_packet_type : Option AvcPacketType
  composition_time : Option CompositionTimeOffset
  data : List Nat
deriving DecidableEq, Repr

/-- Script-data tag (`tag.rs`): opaque data bytes only. -/
structure ScriptDataTag where
  timestamp : Timestamp
  stream_id : StreamId
  data : List Nat
deriving DecidableEq, Repr

/-- Tagged union of the three tag kinds (`tag.rs`). -/
inductive Tag where
  | audio (t : AudioTag)
  | video (t : VideoTag)
  | scriptData (t : ScriptDataTag)
deriving DecidableEq, Repr

/-- Tag type of a tag value (`Tag::tag_type`). -/
def Tag.tag_type : Tag → TagType
  | .audio _ => .audio
  | .video _ => .video
  | .scriptData _ => .scriptData

/-- Timestamp accessor (`Tag::timestamp`). -/
def Tag.timestamp : Tag → Timestamp
  | .audio t => t.timestamp
  | .video t => t.timestamp
  | .scriptData t => t.timestamp

/-- Stream-id accessor (`Tag::stream_id`). -/
def Tag.stream_id : Tag → StreamId
  | .audio t => t.stream_id
  | .video t => t.stream_id
  | .scriptData t => t.stream_id

/-- Kind accessor.  Modelled from the spec: `Tag::kind`, used by
`FileDecoder::finish_decoding` to tag size-mismatch errors, lives in the
crate's final `tag.rs` which is absent from the snapshot. -/
def Tag.kind : Tag → TagKind
  | .audio _ => .audio
  | .video _ => .video
  | .scriptData _ => .scriptData

/-- Byte length of the payload of a tag as the encoder lays it out (§6):
audio tags start with the sound-descriptor byte, then the AAC packet-type
byte exactly when present, then the data; video tags start with the
frame-type/codec byte, then the AVC packet-type byte and 3-byte composition
time exactly when present, then the data; script-data tags are the bare
data. -/
def Tag.data_byte_size : Tag → Nat
  | .audio t => 1 + (if t.aac_packet_type.isSome then 1 else 0) + t.data.length
  | .video t => 1 + (if t.avc_packet_type.isSome then 4 else 0) + t.data.length
  | .scriptData t => t.data.length

/-- Encoded byte length of a tag.  Modelled from the spec: `Tag::tag_size`
(absent from the snapshot, referenced by `FileEncoder::start_encoding` and
`FileDecoder::finish_decoding`) is the exact encoded byte length including
the 11-byte tag header (§3). -/
def Tag.tag_size (t : Tag) : Nat := 11 + t.data_byte_size

/-- Byte of the tag-type code written by the encoder. -/
def TagType.to_u8 : TagType → Nat
  | .audio => 8
  | .video => 9
  | .scriptData => 18

/-- Big-endian bytes of the low 24 bits of a value. -/
def u24beBytes (n : Nat) : List Nat :=
  [n / 2 ^ 16 % 256, n / 2 ^ 8 % 256, n % 256]

/-- Big-endian bytes of the low 32 bits of a value. -/
def u32beBytes (n : Nat) : List Nat :=
  [n / 2 ^ 24 % 256, n / 2 ^ 16 % 256, n / 2 ^ 8 % 256, n % 256]

/-- Code byte written for an AAC packet type. -/
def AacPacketType.to_u8 : AacPacketType → Nat
  | .sequenceHeader => 0
  | .raw => 1

/-- Code of a sound format. -/
def SoundFormat.to_u8 : SoundFormat → Nat
  | .linearPcmPlatformEndian => 0
  | .adpcm => 1
  | .mp3 => 2
  | .linearPcmLittleEndian => 3
  | .nellymoser16khzMono => 4
  | .nellymoser8KhzMono => 5
  | .nellymoser => 6
  | .g711AlawLogarithmicPcm => 7
  | .g711MuLawLogarithmicPcm => 8
  | .aac => 10
  | .speex => 11
  | .mp3_8khz => 14
  | .deviceSpecificSound => 15

/-- Code of a sound rate. -/
def SoundRate.to_u8 : SoundRate → Nat
  | .khz5 => 0
  | .khz11 => 1
  | .khz22 => 2
  | .khz44 => 3

/-- Bit of a sound size. -/
def SoundSize.to_u8 : SoundSize → Nat
  | .bit8 => 0
  | .bit16 => 1

/-- Bit of a sound type. -/
def SoundType.to_u8 : SoundType → Nat
  | .mono => 0
  | .stereo => 1

/-- Code of a frame type. -/
def FrameType.to_u8 : FrameType → Nat
  | .keyFrame => 1
  | .interFrame => 2
  | .disposableInterFrame => 3
  | .generatedKeyFrame => 4
  | .videoInfoOrCommandFrame => 5

/-- Code of a codec id. -/
def CodecId.to_u8 : CodecId → Nat
  | .jpeg => 1
  | .h263 => 2
  | .screenVideo => 3
  | .vp6 => 4
  | .vp6WithAlpha => 5
  | .screenVideoV2 => 6
  | .avc => 7

/-- Code byte written for an AVC packet type. -/
def AvcPacketType.to_u8 : AvcPacketType → Nat
  | .sequenceHeader => 0
  | .nalUnit => 1
  | .endOfSequence => 2

/-- Payload bytes of a tag as written by the encoder.  Modelled from the
spec: the tag encoder (absent from the snapshot) writes the variant-specific
conditional fields then the raw data, in the same field order as decoding
(§4.4, §6). -/
def Tag.encodePayload : Tag → List Nat
  | .audio t =>
      (t.sound_format.to_u8 * 16 + t.sound_rate.to_u8 * 4 +
        t.sound_size.to_u8 * 2 + t.sound_type.to_u8) ::
      ((t.aac_packet_type.map (fun p => [p.to_u8])).getD [] ++ t.data)
  | .video t =>
      (t.frame_type.to_u8 * 16 + t.codec_id.to_u8) ::
      ((match t.avc_packet_type, t.composition_time with
        | some p, some c => p.to_u8 :: u24beBytes (toU32 c.val % 2 ^ 24)
        | _, _ => []) ++ t.data)
  | .scriptData t => t.data

/-- Encoded bytes of a whole tag.  Modelled from the spec: the tag encoder
(absent from the snapshot) writes the 11-byte header — tag-type code, 3-byte
big-endian data size, 3-byte low timestamp, 1-byte high timestamp, 3-byte
stream id — followed by the payload (§4.4, §6). -/
def Tag.encode (t : Tag) : List Nat :=
  t.tag_type.to_u8 ::
    (u24beBytes t.data_byte_size ++
      u24beBytes (toU32 t.timestamp.val % 2 ^ 24) ++
      [toU32 t.timestamp.val / 2 ^ 24] ++
      u24beBytes t.stream_id.val) ++
  t.encodePayload

/-- Resumable decoder interface (the `bytecodec::Decode` trait, §4.1): a
state type together with `decode` (consume a prefix of the buffer; the `Bool`
argument is the end-of-stream flag, true exactly when the stream ends right
after the presented buffer), `finish` (turn accumulated state into the item
and reset), and `isIdle`. -/
structure Dec (σ α : Type) where
  decode : σ → List Nat → Bool → Except DecodeError (σ × Nat)
  finish : σ → Except DecodeError (σ × α)
  isIdle : σ → Bool

/-- State machine of `bytecodec`'s fixed-size byte-buffer decoders
(`CopyableBytesDecoder<[u8; n]>`, underlying `U8Decoder`, `U24beDecoder`,
`U32beDecoder` and the signature decoder): it accumulates exactly `n` bytes.
`decode` copies as much as available, failing with `UnexpectedEos` when the
stream ends before the buffer fills; `finish` requires a full buffer and
resets it. -/
def copyDec (n : Nat) : Dec (List Nat) (List Nat) where
  decode s buf eos :=
    let take := min (n - s.length) buf.length
    let s' := s ++ buf.take take
    if s'.length = n then .ok (s', take)
    else if eos then .error .unexpectedEos
    else .ok (s', take)
  finish s := if s.length = n then .ok ([], s) else .error .incompleteDecoding
  isIdle s := s.length = n

/-- Composition of a decoder with a fallible interpretation of its item (the
pattern of `U8Decoder`/`U24beDecoder` reading their integer out of the filled
buffer, and of decoders whose `finish_decoding` validates the raw value). -/
def mapDec (d : Dec σ α) (f : α → Except DecodeError β) : Dec σ β where
  decode := d.decode
  finish s := do
    let (s', a) ← d.finish s
    let b ← f a
    .ok (s', b)
  isIdle := d.isIdle

/-- Decoder of one unsigned byte (`U8Decoder`). -/
def u8Dec : Dec (List Nat) Nat := mapDec (copyDec 1) (fun l => .ok (beVal l))

/-- Decoder of a 24-bit big-endian integer (`U24beDecoder`). -/
def u24Dec : Dec (List Nat) Nat := mapDec (copyDec 3) (fun l => .ok (beVal l))

/-- Decoder of a 32-bit big-endian integer (`U32beDecoder`). -/
def u32Dec : Dec (List Nat) Nat := mapDec (copyDec 4) (fun l => .ok (beVal l))

/-- Sequential composition of two decoders (`TupleDecoder<(D0, D1)>` and the
`bytecodec_try_decode!` chain): the first decoder runs to idleness before the
second starts; `decode` returns early as soon as a sub-decoder is left
non-idle. -/
def tupleDec (d1 : Dec σ α) (d2 : Dec τ β) : Dec (σ × τ) (α × β) where
  decode s buf eos :=
    if d1.isIdle s.1 then
      if d2.isIdle s.2 then .ok (s, 0)
      else do
        let (t', m) ← d2.decode s.2 buf eos
        .ok ((s.1, t'), m)
    else do
      let (s', n) ← d1.decode s.1 buf eos
      if d1.isIdle s' then
        if d2.isIdle s.2 then .ok ((s', s.2), n)
        else do
          let (t', m) ← d2.decode s.2 (buf.drop n) eos
          .ok ((s', t'), n + m)
      else .ok ((s', s.2), n)
  finish s := do
    let (s', a) ← d1.finish s.1
    let (t', b) ← d2.finish s.2
    .ok ((s', t'), (a, b))
  isIdle s := d1.isIdle s.1 && d2.isIdle s.2

/-- State of a `Peekable` combinator: the inner state plus the cached item. -/
structure PeekState (σ α : Type) where
  inner : σ
  item : Option α
deriving DecidableEq, Repr

/-- The `Peekable` combinator of `bytecodec`: as soon as the inner decoder
becomes idle its item is finished and cached, so it can be inspected (peeked)
before `finish_decoding` is called. -/
def peekDec (d : Dec σ α) : Dec (PeekState σ α) α where
  decode s buf eos :=
    match s.item with
    | some _ => .ok (s, 0)
    | none => do
      let (i', n) ← d.decode s.inner buf eos
      if d.isIdle i' then do
        let (i'', a) ← d.finish i'
        .ok (⟨i'', some a⟩, n)
      else .ok (⟨i', none⟩, n)
  finish s :=
    match s.item with
    | some a => .ok (⟨s.inner, none⟩, a)
    | none => do
      let (i', a) ← d.finish s.inner
      .ok (⟨i', none⟩, a)
  isIdle s := s.item.isSome

/-- State of a `Length` combinator: the inner state plus the declared region
size and the bytes of the region still to be consumed. -/
structure LengthState (σ : Type) where
  inner : σ
  expected : Nat
  remaining : Nat
deriving DecidableEq, Repr

/-- The `Length` combinator of `bytecodec` (§4.4, §9): restricts the inner
decoder to a region of exactly `expected` bytes.  The buffer shown to the
inner decoder is truncated to the remaining region size and the inner
end-of-stream flag is fabricated at the region boundary; if the inner decoder
becomes idle with region bytes still unconsumed, exact consumption is
violated and decoding fails. -/
def lengthDec (d : Dec σ α) : Dec (LengthState σ) α where
  decode s buf eos :=
    let limit := min buf.length s.remaining
    let innerEos := limit = s.remaining
    do
      let (i', n) ← d.decode s.inner (buf.take limit) innerEos
      let rem := s.remaining - n
      if d.isIdle i' && rem != 0 then .error (.invalidInput none)
      else .ok (⟨i', s.expected, rem⟩, n)
  finish s :=
    if s.remaining ≠ 0 then .error .incompleteDecoding
    else do
      let (i', a) ← d.finish s.inner
      .ok (⟨i', s.expected, s.expected⟩, a)
  isIdle s := s.remaining = 0 && d.isIdle s.inner

/-- Sets the expected byte count of a `Length` combinator
(`Length::set_expected_bytes`), resetting the remaining count alongside. -/
def LengthState.set_expected_bytes (s : LengthState σ) (n : Nat) : LengthState σ :=
  ⟨s.inner, n, n⟩

/-- State of a `MaybeEos` combinator: the inner state plus whether any byte
of the current item has already been consumed. -/
structure MaybeEosState (σ : Type) where
  inner : σ
  started : Bool
deriving DecidableEq, Repr

/-- The `MaybeEos` combinator of `bytecodec`: tolerates the end of the stream
between items.  When the stream is flagged as ended, no bytes remain, and no
byte of the current item has been consumed yet, `decode` succeeds without
consuming instead of letting the inner decoder fail with `UnexpectedEos`;
otherwise it is a transparent wrapper. -/
def maybeEosDec (d : Dec σ α) : Dec (MaybeEosState σ) α where
  decode s buf eos :=
    if s.started = false ∧ buf = [] ∧ eos then .ok (s, 0)
    else do
      let (i', n) ← d.decode s.inner buf eos
      .ok (⟨i', s.started || decide (0 < n)⟩, n)
  finish s := do
    let (i', a) ← d.finish s.inner
    .ok (⟨i', false⟩, a)
  isIdle s := d.isIdle s.inner

/-- State of a `RemainingBytesDecoder`: the accumulated bytes and whether the
end of the (possibly region-limited) stream has been reached. -/
structure RemainingState where
  bytes : List Nat
  reached : Bool
deriving DecidableEq, Repr

/-- The `RemainingBytesDecoder` of `bytecodec`: accumulates every byte until
the end of the stream and is idle exactly once the end has been reached. -/
def remainingDec : Dec RemainingState (List Nat) where
  decode s buf eos :=
    if s.reached then .ok (s, 0)
    else .ok (⟨s.bytes ++ buf, eos⟩, buf.length)
  finish s := .ok (⟨[], false⟩, s.bytes)
  isIdle s := s.reached

/-- The `PaddingDecoder` of `bytecodec` (used via `Length` for the file
header's padding region): consumes and discards every byte until the end of
the (region-limited) stream. -/
def paddingDec : Dec Bool Unit where
  decode s buf eos := if s then .ok (s, 0) else .ok (eos, buf.length)
  finish _ := .ok (false, ())
  isIdle s := s

/-- One step of the `bytecodec_try_decode!` macro: a sub-decoder that is not
yet idle consumes from the buffer at the current offset; the returned flag
tells the composite decoder to return early because the sub-decoder still
needs bytes. -/
def tryStep (d : Dec σ α) (s : σ) (buf : List Nat) (o : Nat) (eos : Bool) :
    Except DecodeError (σ × Nat × Bool) :=
  if d.isIdle s then .ok (s, o, false)
  else do
    let (s', n) ← d.decode s (buf.drop o) eos
    .ok (s', o + n, !d.isIdle s')

/-- Decoded 11-byte tag header (`TagHeader` in `tag.rs`). -/
structure TagHeader where
  tag_type : TagType
  data_size : Nat
  timestamp : Timestamp
  stream_id : StreamId
deriving DecidableEq, Repr

/-- Buffer states of the five fixed-size fields of `TagHeaderDecoder`. -/
abbrev TagHeaderBufs :=
  List Nat × (List Nat × (List Nat × (List Nat × List Nat)))

/-- Interpretation step of `TagHeaderDecoder::finish_decoding`: validate the
tag-type byte and the 24-bit bound on the declared size, and reassemble the
split timestamp by placing the extended byte in bits 24–31 of the low 24-bit
field, reinterpreted as `i32`. -/
def TagHeader.assemble (v : Nat × (Nat × (Nat × (Nat × Nat)))) :
    Except DecodeError TagHeader := do
  let tag_type ← TagType.from_u8 v.1
  let data_size := v.2.1
  if data_size > 0xFFFFFF then .error (.invalidInput none)
  else
    let timestamp := Timestamp.mk (toI32 (v.2.2.1 ||| v.2.2.2.1 <<< 24))
    .ok ⟨tag_type, data_size, timestamp, StreamId.mk v.2.2.2.2⟩

/-- The `TagHeaderDecoder` of `tag.rs`: five fixed-size fields decoded in
sequence (type byte, 24-bit size, 24-bit low timestamp, extended timestamp
byte, 24-bit stream id) followed by the validating reassembly. -/
def tagHeaderDec : Dec TagHeaderBufs TagHeader :=
  mapDec (tupleDec u8Dec (tupleDec u24Dec (tupleDec u24Dec (tupleDec u8Dec u24Dec))))
    TagHeader.assemble

/-- Fresh state of the tag-header decoder. -/
def tagHeaderInit : TagHeaderBufs := ([], [], [], [], [])

/-- Payload fields of a decoded audio tag (`AudioTagData`). -/
structure AudioTagData where
  sound_format : SoundFormat
  sound_rate : SoundRate
  sound_size : SoundSize
  sound_type : SoundType
  aac_packet_type : Option AacPacketType
  data : List Nat
deriving DecidableEq, Repr

/-- State of the `AudioTagDataDecoder`: the peekable sound-descriptor byte,
the AAC packet-type byte buffer, and the remaining-bytes accumulator. -/
structure AudioTagDataDecoder where
  header : PeekState (List Nat) Nat
  aac_packet_type : List Nat
  data : RemainingState
deriving DecidableEq, Repr

/-- Fresh state of the audio payload decoder. -/
def AudioTagDataDecoder.init : AudioTagDataDecoder := ⟨⟨[], none⟩, [], ⟨[], false⟩⟩

/-- The conditional-field discriminant of the audio payload
(`AudioTagDataDecoder::is_aac_packet`): the top four bits of the peeked
sound-descriptor byte equal 10 (AAC). -/
def AudioTagDataDecoder.is_aac_packet (s : AudioTagDataDecoder) : Bool :=
  match s.header.item with
  | some b => b / 16 = 10
  | none => false

/-- The `AudioTagDataDecoder` of `tag.rs`: the sound-descriptor byte, then —
only when the peeked format is AAC — one packet-type byte, then all remaining
payload bytes; `finish_decoding` splits the descriptor into its four fields
and decodes the packet-type byte exactly in the AAC case. -/
def audioTagDataDec : Dec AudioTagDataDecoder AudioTagData where
  decode s buf eos := do
    let (h, o₁, stop₁) ← tryStep (peekDec u8Dec) s.header buf 0 eos
    let s₁ : AudioTagDataDecoder := ⟨h, s.aac_packet_type, s.data⟩
    if stop₁ then .ok (s₁, o₁)
    else if s₁.is_aac_packet then do
      let (a, o₂, stop₂) ← tryStep u8Dec s₁.aac_packet_type buf o₁ eos
      let s₂ : AudioTagDataDecoder := ⟨h, a, s.data⟩
      if stop₂ then .ok (s₂, o₂)
      else do
        let (d, o₃, _) ← tryStep remainingDec s₂.data buf o₂ eos
        .ok (⟨h, a, d⟩, o₃)
    else do
      let (d, o₃, _) ← tryStep remainingDec s₁.data buf o₁ eos
      .ok (⟨h, s₁.aac_packet_type, d⟩, o₃)
  finish s := do
    let (h', b) ← (peekDec u8Dec).finish s.header
    let sound_format ← SoundFormat.from_u8 (b / 16)
    let sound_rate ← SoundRate.from_u8 (b / 4 % 4)
    let sound_size := SoundSize.from_bool (Nat.land b 2 ≠ 0)
    let sound_type := SoundType.from_bool (Nat.land b 1 ≠ 0)
    let (a', aac_packet_type) ←
      if sound_format = SoundFormat.aac then do
        let (a', ab) ← u8Dec.finish s.aac_packet_type
        let p ← AacPacketType.from_u8 ab
        .ok (a', some p)
      else .ok (s.aac_packet_type, none)
    let (d', data) ← remainingDec.finish s.data
    .ok (⟨h', a', d'⟩, ⟨sound_format, sound_rate, sound_size, sound_type, aac_packet_type, data⟩)
  isIdle s := s.data.reached

/-- Payload fields of a decoded video tag (`VideoTagData`). -/
structure VideoTagData where
  frame_type : FrameType
  codec_id : CodecId
  avc_packet_type : Option AvcPacketType
  composition_time : Option CompositionTimeOffset
  data : List Nat
deriving DecidableEq, Repr

/-- The `FrameTypeAndCodecDecoder` of `tag.rs`: one byte split into the
frame-type code (top four bits) and the codec id (bottom four bits), both
validated. -/
def frameTypeAndCodecDec : Dec (List Nat) (FrameType × CodecId) :=
  mapDec u8Dec (fun b => do
    let frame_type ← FrameType.from_u8 (b / 16)
    let codec_id ← CodecId.from_u8 (b % 16)
    .ok (frame_type, codec_id))

/-- State of the `VideoTagDataDecoder`: the peekable frame-type/codec byte,
the AVC packet-type byte buffer, the 24-bit composition-time buffer, and the
remaining-bytes accumulator. -/
structure VideoTagDataDecoder where
  frame_type_and_codec : PeekState (List Nat) (FrameType × CodecId)
  avc_packet_type : List Nat
  composition_time : List Nat
  data : RemainingState
deriving DecidableEq, Repr

/-- Fresh state of the video payload decoder. -/
def VideoTagDataDecoder.init : VideoTagDataDecoder := ⟨⟨[], none⟩, [], [], ⟨[], false⟩⟩

/-- The conditional-field discriminant of the video payload
(`VideoTagDataDecoder::is_avc_packet`): the peeked pair is an AVC codec id
with a frame type other than the video-info/command frame. -/
def VideoTagDataDecoder.is_avc_packet (s : VideoTagDataDecoder) : Bool :=
  match s.frame_type_and_codec.item with
  | some t => t.1 ≠ FrameType.videoInfoOrCommandFrame ∧ t.2 = CodecId.avc
  | none => false

/-- The `VideoTagDataDecoder` of `tag.rs`: the frame-type/codec byte, then —
only for AVC packets — one packet-type byte and a 24-bit composition time,
then all remaining payload bytes. -/
def videoTagDataDec : Dec VideoTagDataDecoder VideoTagData where
  decode s buf eos := do
    let (h, o₁, stop₁) ← tryStep (peekDec frameTypeAndCodecDec) s.frame_type_and_codec buf 0 eos
    let s₁ : VideoTagDataDecoder := ⟨h, s.avc_packet_type, s.composition_time, s.data⟩
    if stop₁ then .ok (s₁, o₁)
    else if s₁.is_avc_packet then do
      let (a, o₂, stop₂) ← tryStep u8Dec s₁.avc_packet_type buf o₁ eos
      let s₂ : VideoTagDataDecoder := ⟨h, a, s.composition_time, s.data⟩
      if stop₂ then .ok (s₂, o₂)
      else do
        let (c, o₃, stop₃) ← tryStep u24Dec s₂.composition_time buf o₂ eos
        let s₃ : VideoTagDataDecoder := ⟨h, a, c, s.data⟩
        if stop₃ then .ok (s₃, o₃)
        else do
          let (d, o₄, _) ← tryStep remainingDec s₃.data buf o₃ eos
          .ok (⟨h, a, c, d⟩, o₄)
    else do
      let (d, o₄, _) ← tryStep remainingDec s₁.data buf o₁ eos
      .ok (⟨h, s₁.avc_packet_type, s₁.composition_time, d⟩, o₄)
  finish s := do
    let is_avc := s.is_avc_packet
    let (h', ftc) ← (peekDec frameTypeAndCodecDec).finish s.frame_type_and_codec
    let (a', avc_packet_type) ←
      if is_avc then do
        let (a', ab) ← u8Dec.finish s.avc_packet_type
        let p ← AvcPacketType.from_u8 ab
        .ok (a', some p)
      else .ok (s.avc_packet_type, (none : Option AvcPacketType))
    let (c', composition_time) ←
      if is_avc then do
        let (c', cv) ← u24Dec.finish s.composition_time
        .ok (c', some (CompositionTimeOffset.from_u24 cv))
      else .ok (s.composition_time, (none : Option CompositionTimeOffset))
    let (d', data) ← remainingDec.finish s.data
    .ok (⟨h', a', c', d'⟩, ⟨ftc.1, ftc.2, avc_packet_type, composition_time, data⟩)
  isIdle s := s.data.reached

/-- Payload of a decoded script-data tag (`ScriptDataTagData`). -/
structure ScriptDataTagData where
  data : List Nat
deriving DecidableEq, Repr

/-- The `ScriptDataTagDataDecoder` of `tag.rs`: all remaining payload bytes,
verbatim. -/
def scriptDataTagDataDec : Dec RemainingState ScriptDataTagData :=
  mapDec remainingDec (fun data => .ok ⟨data⟩)

/-- Decoded payload of one tag, before merging with the header fields
(`TagData`). -/
inductive TagData where
  | audio (d : AudioTagData)
  | video (d : VideoTagData)
  | scriptData (d : ScriptDataTagData)
deriving DecidableEq, Repr

/-- State of the polymorphic payload dispatch (`TagDataDecoder` in `tag.rs`):
one variant per payload kind, plus the consumed/empty sentinel. -/
inductive TagDataDecoder where
  | audio (s : AudioTagDataDecoder)
  | video (s : VideoTagDataDecoder)
  | scriptData (s : RemainingState)
  | none
deriving DecidableEq, Repr

/-- The `TagDataDecoder` of `tag.rs`: dispatches every operation to the
active payload decoder; the `none` sentinel reports an inconsistent state and
is installed again by `finish_decoding`. -/
def tagDataDec : Dec TagDataDecoder TagData where
  decode s buf eos :=
    match s with
    | .audio d => do
      let (d', n) ← audioTagDataDec.decode d buf eos
      .ok (.audio d', n)
    | .video d => do
      let (d', n) ← videoTagDataDec.decode d buf eos
      .ok (.video d', n)
    | .scriptData d => do
      let (d', n) ← scriptDataTagDataDec.decode d buf eos
      .ok (.scriptData d', n)
    | .none => .error .inconsistentState
  finish s :=
    match s with
    | .audio d => do
      let (_, a) ← audioTagDataDec.finish d
      .ok (.none, .audio a)
    | .video d => do
      let (_, a) ← videoTagDataDec.finish d
      .ok (.none, .video a)
    | .scriptData d => do
      let (_, a) ← scriptDataTagDataDec.finish d
      .ok (.none, .scriptData a)
    | .none => .error .inconsistentState
  isIdle s :=
    match s with
    | .audio d => audioTagDataDec.isIdle d
    | .video d => videoTagDataDec.isIdle d
    | .scriptData d => scriptDataTagDataDec.isIdle d
    | .none => true

/-- Fresh payload-decoder state for a given tag type, as installed by
`TagDecoder::decode` once the header is peekable. -/
def TagDataDecoder.forType : TagType → TagDataDecoder
  | .audio => .audio AudioTagDataDecoder.init
  | .video => .video VideoTagDataDecoder.init
  | .scriptData => .scriptData ⟨[], false⟩

/-- State of the `TagDecoder` of `tag.rs`: the peekable tag header and the
length-limited payload dispatch. -/
structure TagDecoder where
  header : PeekState TagHeaderBufs TagHeader
  data : LengthState TagDataDecoder
deriving DecidableEq, Repr

/-- Fresh state of the tag decoder (its `Default` instance: an empty header
buffer and the `None` payload sentinel limited to zero bytes). -/
def TagDecoder.init : TagDecoder := ⟨⟨tagHeaderInit, none⟩, ⟨.none, 0, 0⟩⟩

/-- Merging of the decoded header fields with the decoded payload fields into
the `Tag` union (`TagDecoder::finish_decoding`). -/
def TagData.merge (h : TagHeader) : TagData → Tag
  | .audio d =>
      .audio ⟨h.timestamp, h.stream_id, d.sound_format, d.sound_rate, d.sound_size,
        d.sound_type, d.aac_packet_type, d.data⟩
  | .video d =>
      .video ⟨h.timestamp, h.stream_id, d.frame_type, d.codec_id, d.avc_packet_type,
        d.composition_time, d.data⟩
  | .scriptData d => .scriptData ⟨h.timestamp, h.stream_id, d.data⟩

/-- The `TagDecoder` of `tag.rs`: the 11-byte header is decoded and peeked
first; when it completes, the matching payload decoder is installed, bounded
to exactly the declared data size; the payload then runs to completion and
`finish_decoding` merges header and payload fields. -/
def tagDec : Dec TagDecoder Tag where
  decode s buf eos :=
    if (peekDec tagHeaderDec).isIdle s.header then do
      let (d, o, _) ← tryStep (lengthDec tagDataDec) s.data buf 0 eos
      .ok (⟨s.header, d⟩, o)
    else do
      let (h, o₁, stop₁) ← tryStep (peekDec tagHeaderDec) s.header buf 0 eos
      if stop₁ then .ok (⟨h, s.data⟩, o₁)
      else
        match h.item with
        | none => .error .inconsistentState
        | some hd => do
          let data : LengthState TagDataDecoder :=
            ⟨TagDataDecoder.forType hd.tag_type, hd.data_size, hd.data_size⟩
          let (d, o₂, _) ← tryStep (lengthDec tagDataDec) data buf o₁ eos
          .ok (⟨h, d⟩, o₂)
  finish s := do
    let (h', hd) ← (peekDec tagHeaderDec).finish s.header
    let (d', data) ← (lengthDec tagDataDec).finish s.data
    .ok (⟨h', d'⟩, data.merge hd)
  isIdle s := (peekDec tagHeaderDec).isIdle s.header && (lengthDec tagDataDec).isIdle s.data

/-- Decoded FLV file header (`Header` in `header.rs`). -/
structure Header where
  has_audio : Bool
  has_video : Bool
deriving DecidableEq, Repr

/-- State of the `HeaderDecoder` of `header.rs`: the 3-byte signature buffer,
version and flags byte buffers, the peekable 4-byte data offset, and the
length-limited padding skipper. -/
structure HeaderDecoder where
  signature : List Nat
  version : List Nat
  flags : List Nat
  data_offset : PeekState (List Nat) Nat
  padding : LengthState Bool
deriving DecidableEq, Repr

/-- Fresh state of the file-header decoder. -/
def HeaderDecoder.init : HeaderDecoder := ⟨[], [], [], ⟨[], none⟩, ⟨false, 0, 0⟩⟩

/-- The `HeaderDecoder` of `header.rs`: signature, version and flags bytes
are buffered without validation; once the 4-byte data offset completes it is
peeked, values below 9 are rejected, and the padding skipper is bounded to
`offset - 9` bytes.  Signature and version are only validated in
`finish_decoding`. -/
def headerDec : Dec HeaderDecoder Header where
  decode s buf eos := do
    let (sg, o₁, stop₁) ← tryStep (copyDec 3) s.signature buf 0 eos
    let s₁ : HeaderDecoder := ⟨sg, s.version, s.flags, s.data_offset, s.padding⟩
    if stop₁ then .ok (s₁, o₁)
    else do
      let (v, o₂, stop₂) ← tryStep u8Dec s₁.version buf o₁ eos
      let s₂ : HeaderDecoder := ⟨sg, v, s.flags, s.data_offset, s.padding⟩
      if stop₂ then .ok (s₂, o₂)
      else do
        let (f, o₃, stop₃) ← tryStep u8Dec s₂.flags buf o₂ eos
        let s₃ : HeaderDecoder := ⟨sg, v, f, s.data_offset, s.padding⟩
        if stop₃ then .ok (s₃, o₃)
        else if (peekDec u32Dec).isIdle s₃.data_offset then do
          let (p, o₅, _) ← tryStep (lengthDec paddingDec) s₃.padding buf o₃ eos
          .ok (⟨sg, v, f, s₃.data_offset, p⟩, o₅)
        else do
          let (df, o₄, stop₄) ← tryStep (peekDec u32Dec) s₃.data_offset buf o₃ eos
          let s₄ : HeaderDecoder := ⟨sg, v, f, df, s.padding⟩
          if stop₄ then .ok (s₄, o₄)
          else
            match df.item with
            | none => .error .inconsistentState
            | some off =>
              if off < 9 then .error (.invalidInput none)
              else do
                let pad := s₄.padding.set_expected_bytes (off - 9)
                let (p, o₅, _) ← tryStep (lengthDec paddingDec) pad buf o₄ eos
                .ok (⟨sg, v, f, df, p⟩, o₅)
  finish s := do
    let (sg', sig) ← (copyDec 3).finish s.signature
    if sig ≠ [70, 76, 86] then .error .malformedSignature
    else do
      let (v', ver) ← u8Dec.finish s.version
      if ver ≠ 1 then .error .unknownVersion
      else do
        let (f', fl) ← u8Dec.finish s.flags
        let has_audio := Nat.land fl 4 ≠ 0
        let has_video := Nat.land fl 1 ≠ 0
        let df' :=
          match (peekDec u32Dec).finish s.data_offset with
          | .ok (st, _) => st
          | .error _ => s.data_offset
        let pd' :=
          match (lengthDec paddingDec).finish s.padding with
          | .ok (st, _) => st
          | .error _ => s.padding
        .ok (⟨sg', v', f', df', pd'.set_expected_bytes 0⟩, ⟨has_audio, has_video⟩)
  isIdle s :=
    (copyDec 3).isIdle s.signature && u8Dec.isIdle s.version && u8Dec.isIdle s.flags &&
      (peekDec u32Dec).isIdle s.data_offset && (lengthDec paddingDec).isIdle s.padding

/-- Composite decoder of the file header followed by the first 4-byte
previous-tag-size field, cached for peeking
(`Peekable<TupleDecoder<(HeaderDecoder, U32beDecoder)>>` in `file.rs`). -/
def fileHeaderDec : Dec (PeekState (HeaderDecoder × List Nat) (Header × Nat)) (Header × Nat) :=
  peekDec (tupleDec headerDec u32Dec)

/-- State of the `FileDecoder` of `file.rs`: the peekable (header, first
previous-tag-size) pair, the end-of-stream tolerant tag decoder, and the
4-byte redundant size field after each tag. -/
structure FileDecoder where
  header : PeekState (HeaderDecoder × List Nat) (Header × Nat)
  tag : MaybeEosState TagDecoder
  prev_tag_size : List Nat
deriving DecidableEq, Repr

/-- Fresh state of the file decoder. -/
def FileDecoder.init : FileDecoder :=
  ⟨⟨(HeaderDecoder.init, []), none⟩, ⟨TagDecoder.init, false⟩, []⟩

/-- Accessor for the decoded file header (`FileDecoder::header`): `none`
until the peekable (header, first previous-tag-size) pair has produced its
value. -/
def FileDecoder.headerValue (s : FileDecoder) : Option Header :=
  s.header.item.map (fun t => t.1)

/-- The `FileDecoder` of `file.rs`: decodes the file header together with the
first previous-tag-size field, which must equal 0; afterwards it repeatedly
decodes a tag followed by its 4-byte redundant size field, and
`finish_decoding` cross-checks that field against the tag's computed
`tag_size`, reporting mismatches as invalid input tagged with the tag's
kind. -/
def fileDec : Dec FileDecoder Tag where
  decode s buf eos :=
    if fileHeaderDec.isIdle s.header then do
      let (t, o₂, stop₂) ← tryStep (maybeEosDec tagDec) s.tag buf 0 eos
      if stop₂ then .ok (⟨s.header, t, s.prev_tag_size⟩, o₂)
      else do
        let (p, o₃, _) ← tryStep u32Dec s.prev_tag_size buf o₂ eos
        .ok (⟨s.header, t, p⟩, o₃)
    else do
      let (h, o₁, stop₁) ← tryStep fileHeaderDec s.header buf 0 eos
      if stop₁ then .ok (⟨h, s.tag, s.prev_tag_size⟩, o₁)
      else if (h.item.map (fun t => t.2)) ≠ some 0 then .error (.invalidInput none)
      else do
        let (t, o₂, stop₂) ← tryStep (maybeEosDec tagDec) s.tag buf o₁ eos
        if stop₂ then .ok (⟨h, t, s.prev_tag_size⟩, o₂)
        else do
          let (p, o₃, _) ← tryStep u32Dec s.prev_tag_size buf o₂ eos
          .ok (⟨h, t, p⟩, o₃)
  finish s := do
    let (t', tag) ← (maybeEosDec tagDec).finish s.tag
    let (p', prev_tag_size) ← u32Dec.finish s.prev_tag_size
    if tag.tag_size ≠ prev_tag_size then .error (.invalidInput (some tag.kind))
    else .ok (⟨s.header, t', p'⟩, tag)
  isIdle s := (maybeEosDec tagDec).isIdle s.tag && u32Dec.isIdle s.prev_tag_size

/-- Driving loop of a decoder over one buffer (the way `decode_exact`-style
callers use the codec): repeatedly decode from the remaining bytes, and
whenever the decoder goes idle, finish the current item and continue; stop —
keeping the unconsumed remainder — once the decoder is left hungry.  The
fuel argument only bounds the number of loop iterations; `none` means it ran
out. -/
def runDec (d : Dec σ α) :
    Nat → σ → List Nat → Bool → Option (Except DecodeError (σ × List α × List Nat))
  | 0, _, _, _ => none
  | fuel + 1, s, bs, eos =>
    match d.decode s bs eos with
    | .error e => some (.error e)
    | .ok (s', n) =>
      if d.isIdle s' then
        match d.finish s' with
        | .error e => some (.error e)
        | .ok (s'', a) =>
          match runDec d fuel s'' (bs.drop n) eos with
          | none => none
          | some (.error e) => some (.error e)
          | some (.ok (sf, items, left)) => some (.ok (sf, a :: items, left))
      else some (.ok (s', [], bs.drop n))

/-- Driving loop over a sequence of chunks: every chunk but the last is
presented with the end-of-stream flag unset, the last with it set; bytes a
chunk leaves unconsumed are presented again in front of the next chunk. -/
def runChunks (d : Dec σ α) (fuel : Nat) :
    σ → List (List Nat) → Option (Except DecodeError (σ × List α × List Nat))
  | s, [] => some (.ok (s, [], []))
  | s, [c] => runDec d fuel s c true
  | s, c :: c₂ :: rest =>
    match runDec d fuel s c false with
    | none => none
    | some (.error e) => some (.error e)
    | some (.ok (s', items, left)) =>
      match runChunks d fuel s' ((left ++ c₂) :: rest) with
      | none => none
      | some (.error e) => some (.error e)
      | some (.ok (sf, items₂, l)) => some (.ok (sf, items ++ items₂, l))
termination_by _ cs => cs.length

/-- Canonical fuel for driving a buffer to completion: two loop iterations
per byte plus slack covers every reachable schedule. -/
def bufFuel (bs : List Nat) : Nat := 2 * bs.length + 2

/-- Whole-file decoding of one contiguous buffer. -/
def runFile (bs : List Nat) : Option (Except DecodeError (FileDecoder × List Tag × List Nat)) :=
  runDec fileDec (bufFuel bs) FileDecoder.init bs true

/-- Whole-file decoding of a chunked byte stream. -/
def runFileChunks (cs : List (List Nat)) :
    Option (Except DecodeError (FileDecoder × List Tag × List Nat)) :=
  runChunks fileDec (bufFuel cs.flatten) FileDecoder.init cs


/-- Disjoint combination of a value below `2^24` with a high part shifted
into bits 24 and up is plain addition. -/
theorem lor_shift24 (a b : Nat) (h : a < 2 ^ 24) : a ||| b <<< 24 = a + b * 2 ^ 24 := by
  rw [Nat.lor_comm, Nat.shiftLeft_eq, Nat.mul_comm]
  rw [(Nat.mul_add_lt_is_or h b).symm]
  omega

/-- Reinterpreting the bit pattern of an in-range signed 32-bit value yields
the value back. -/
theorem toI32_toU32 (x : Int) (h1 : -(2 ^ 31) ≤ x) (h2 : x < 2 ^ 31) :
    toI32 (toU32 x) = x := by
  unfold toI32 toU32
  rcases le_or_lt 0 x with hx | hx
  · have : x % (2 ^ 32 : Int) = x := by omega
    rw [this]
    have hxn : x.toNat < 2 ^ 31 := by omega
    have : x.toNat % 2 ^ 32 = x.toNat := Nat.mod_eq_of_lt (by omega)
    simp only [this]
    split
    · omega
    · omega
  · have : x % (2 ^ 32 : Int) = x + 2 ^ 32 := by omega
    rw [this]
    have hxn : (x + 2 ^ 32).toNat = x.toNat + ((x + 2 ^ 32).toNat - x.toNat) := by omega
    have h3 : ((x + 2 ^ 32) : Int).toNat < 2 ^ 32 := by omega
    have h4 : 2 ^ 31 ≤ ((x + 2 ^ 32) : Int).toNat := by omega
    have : ((x + 2 ^ 32) : Int).toNat % 2 ^ 32 = ((x + 2 ^ 32) : Int).toNat :=
      Nat.mod_eq_of_lt h3
    simp only [this]
    split
    · omega
    · omega

/-- Round trip of the wrapping shift pair used by `TimeOffset::new`: shifting
an in-range `i32` left by 8 (wrapping) and arithmetically back right by 8
returns the value exactly for the signed 24-bit range. -/
theorem i32_shift_roundtrip (x : Int) (h1 : -(2 ^ 31) ≤ x) (h2 : x < 2 ^ 31) :
    i32shr8 (i32shl8 x) = x ↔ (-(2 ^ 23) ≤ x ∧ x < 2 ^ 23) := by
  unfold i32shr8 i32shl8 toI32 toU32
  split
  · rw [Int.fdiv_eq_ediv _ (by norm_num)]
    omega
  · rw [Int.fdiv_eq_ediv _ (by norm_num)]
    omega

/-- The claim names `C6`: the validated constructors accept exactly their
documented ranges.  For every `u32` value, `StreamId::new` succeeds iff the
value is at most `0xFFFFFF` and otherwise fails with an invalid-input error;
for every `i32` value, `TimeOffset::new` succeeds iff the value lies in
`[-0x800000, 0x7FFFFF]` and otherwise fails with an invalid-input error; in
particular at the six boundary inputs named by the claim. -/
theorem C6_constructor_bounds :
    (∀ id : Nat, id < 2 ^ 32 →
      ((∃ s, StreamId.new id = .ok s) ↔ id ≤ 0xFFFFFF) ∧
      (0xFFFFFF < id → StreamId.new id = .error (.invalidInput none))) ∧
    (∀ x : Int, -(2 ^ 31) ≤ x → x < 2 ^ 31 →
      ((∃ t, TimeOffset.new x = .ok t) ↔ (-0x800000 ≤ x ∧ x ≤ 0x7FFFFF)) ∧
      (¬(-0x800000 ≤ x ∧ x ≤ 0x7FFFFF) → TimeOffset.new x = .error (.invalidInput none))) ∧
    (∃ s, StreamId.new 0xFFFFFF = .ok s) ∧
    StreamId.new 0x1000000 = .error (.invalidInput none) ∧
    (∃ t, TimeOffset.new 0x7FFFFF = .ok t) ∧
    TimeOffset.new 0x800000 = .error (.invalidInput none) ∧
    (∃ t, TimeOffset.new (-0x800000) = .ok t) ∧
    TimeOffset.new (-0x800001) = .error (.invalidInput none) := by
  have hs : ∀ id : Nat, id < 2 ^ 32 →
      ((∃ s, StreamId.new id = .ok s) ↔ id ≤ 0xFFFFFF) ∧
      (0xFFFFFF < id → StreamId.new id = .error (.invalidInput none)) := by
    intro id _
    unfold StreamId.new
    constructor
    · constructor
      · intro ⟨s, hs⟩
        by_contra h
        simp [h] at hs
      · intro h
        exact ⟨⟨id⟩, by simp [h]⟩
    · intro h
      simp [Nat.not_le.mpr h]
  have ht : ∀ x : Int, -(2 ^ 31) ≤ x → x < 2 ^ 31 →
      ((∃ t, TimeOffset.new x = .ok t) ↔ (-0x800000 ≤ x ∧ x ≤ 0x7FFFFF)) ∧
      (¬(-0x800000 ≤ x ∧ x ≤ 0x7FFFFF) → TimeOffset.new x = .error (.invalidInput none)) := by
    intro x h1 h2
    have hr := i32_shift_roundtrip x h1 h2
    unfold TimeOffset.new
    constructor
    · constructor
      · intro ⟨t, hth⟩
        split at hth
        · rename_i he
          have := hr.mp he
          omega
        · exact absurd hth (by simp)
      · intro h
        have he : i32shr8 (i32shl8 x) = x := hr.mpr (by omega)
        exact ⟨⟨x⟩, by simp [he]⟩
    · intro h
      have he : ¬ i32shr8 (i32shl8 x) = x := fun hc => h (by have := hr.mp hc; omega)
      simp [he]
  refine ⟨hs, ht, ?_, ?_, ?_, ?_, ?_, ?_⟩
  · exact ((hs 0xFFFFFF (by norm_num)).1).mpr (by norm_num)
  · exact (hs 0x1000000 (by norm_num)).2 (by norm_num)
  · exact ((ht 0x7FFFFF (by norm_num) (by norm_num)).1).mpr (by norm_num)
  · exact (ht 0x800000 (by norm_num) (by norm_num)).2 (by norm_num)
  · exact ((ht (-0x800000) (by norm_num) (by norm_num)).1).mpr (by norm_num)
  · exact (ht (-0x800001) (by norm_num) (by norm_num)).2 (by norm_num)

/-- Witness for `C6_constructor_bounds` at the boundary inputs named by the
claim. -/
theorem C6_constructor_bounds_witness :
    (∃ s, StreamId.new 0xFFFFFF = .ok s) ∧
    StreamId.new 0x1000000 = .error (.invalidInput none) ∧
    (∃ t, TimeOffset.new (-0x800000) = .ok t) ∧
    TimeOffset.new (-0x800001) = .error (.invalidInput none) :=
  ⟨((C6_constructor_bounds.1 0xFFFFFF (by decide)).1).mpr (by decide),
   (C6_constructor_bounds.1 0x1000000 (by decide)).2 (by decide),
   ((C6_constructor_bounds.2.1 (-0x800000) (by decide) (by decide)).1).mpr (by decide),
   (C6_constructor_bounds.2.1 (-0x800001) (by decide) (by decide)).2 (by decide)⟩

/-- Inversion of a successful `Except` bind. -/
theorem bind_ok {α β : Type} {x : Except DecodeError α} {f : α → Except DecodeError β} {b : β}
    (h : (x >>= f) = .ok b) : ∃ a, x = .ok a ∧ f a = .ok b := by
  cases x with
  | ok a => exact ⟨a, rfl, h⟩
  | error e => simp [Bind.bind, Except.bind] at h

/-- Inversion of a successful `Except` bind, simp form. -/
theorem bind_ok_iff {α β : Type} {x : Except DecodeError α} {f : α → Except DecodeError β} {b : β} :
    (x >>= f) = .ok b ↔ ∃ a, x = .ok a ∧ f a = .ok b := by
  constructor
  · exact bind_ok
  · rintro ⟨a, rfl, hf⟩
    exact hf

/-- An error never binds to a success. -/
theorem bind_error {α β : Type} {e : DecodeError} {f : α → Except DecodeError β} :
    ((Except.error e : Except DecodeError α) >>= f) = Except.error e := rfl

/-- The aac-packet-type field produced by the audio payload decoder is
populated exactly for the AAC sound format. -/
theorem audio_finish_aac_iff (s s' : AudioTagDataDecoder) (d : AudioTagData)
    (h : audioTagDataDec.finish s = .ok (s', d)) :
    (d.aac_packet_type.isSome ↔ d.sound_format = SoundFormat.aac) := by
  unfold audioTagDataDec at h
  simp only at h
  obtain ⟨⟨h', b⟩, h1, h⟩ := bind_ok h
  obtain ⟨sf, h2, h⟩ := bind_ok h
  obtain ⟨sr, h3, h⟩ := bind_ok h
  by_cases hsf : sf = SoundFormat.aac
  · rw [if_pos hsf] at h
    obtain ⟨⟨a₂, ab⟩, h4, h⟩ := bind_ok h
    obtain ⟨p, h5, h⟩ := bind_ok h
    obtain ⟨y, h6, h⟩ := bind_ok h
    obtain ⟨⟨d₂, data⟩, h7, h⟩ := bind_ok h
    simp only [Except.ok.injEq, Prod.mk.injEq] at h
    simp only [Except.ok.injEq] at h6
    obtain ⟨-, hd⟩ := h
    subst hd
    cases h6
    simp [hsf]
  · rw [if_neg hsf] at h
    obtain ⟨y, h6, h⟩ := bind_ok h
    obtain ⟨⟨d₂, data⟩, h7, h⟩ := bind_ok h
    simp only [Except.ok.injEq, Prod.mk.injEq] at h
    simp only [Except.ok.injEq] at h6
    obtain ⟨-, hd⟩ := h
    subst hd
    cases h6
    simp [hsf]

/-- Well-behavedness bundle of a decoder with respect to an invariant `WF` on
its reachable states: the invariant is preserved by `decode` and `finish`,
`finish` resets the decoder to a non-idle state, `decode` never consumes more
than offered, and a decoder left non-idle has consumed the entire buffer
(§4.1: it suspends only for lack of input). -/
structure DecOk (d : Dec σ α) (WF : σ → Prop) : Prop where
  wf_decode : ∀ s buf eos s' n, WF s → d.decode s buf eos = .ok (s', n) → WF s'
  wf_finish : ∀ s s' a, WF s → d.finish s = .ok (s', a) → WF s'
  fresh_finish : ∀ s s' a, WF s → d.finish s = .ok (s', a) → d.isIdle s' = false
  consume_le : ∀ s buf eos s' n, d.decode s buf eos = .ok (s', n) → n ≤ buf.length
  consumes_all : ∀ s buf eos s' n, WF s → d.decode s buf eos = .ok (s', n) →
    d.isIdle s' = false → n = buf.length

/-- Decode-side half of `DecOk`, for decoders whose `finish` does not reset
to a non-idle state (the payload dispatch parks on an idle sentinel). -/
structure StepOk (d : Dec σ α) (WF : σ → Prop) : Prop where
  wf_decode : ∀ s buf eos s' n, WF s → d.decode s buf eos = .ok (s', n) → WF s'
  consume_le : ∀ s buf eos s' n, d.decode s buf eos = .ok (s', n) → n ≤ buf.length
  consumes_all : ∀ s buf eos s' n, WF s → d.decode s buf eos = .ok (s', n) →
    d.isIdle s' = false → n = buf.length

/-- The decode-side half of a full well-behavedness bundle. -/
def DecOk.toStep {d : Dec σ α} {WF : σ → Prop} (h : DecOk d WF) : StepOk d WF :=
  ⟨h.wf_decode, h.consume_le, h.consumes_all⟩

/-- A decoder that successfully decodes with the end-of-stream flag set ends
idle: at a true end of stream it either completes or fails. -/
def EosIdle (d : Dec σ α) (WF : σ → Prop) : Prop :=
  ∀ s buf s' n, WF s → d.decode s buf true = .ok (s', n) → d.isIdle s' = true

/-- Invariant of the byte-buffer decoder: never more bytes than wanted. -/
@[reducible]
def CopyWF (n : Nat) (s : List Nat) : Prop := s.length ≤ n

/-- Characterization of a successful byte-buffer decode step. -/
theorem copy_decode_ok {n : Nat} {s buf : List Nat} {eos : Bool} {s' : List Nat} {m : Nat}
    (h : (copyDec n).decode s buf eos = .ok (s', m)) :
    s' = s ++ buf.take (min (n - s.length) buf.length) ∧
    m = min (n - s.length) buf.length ∧ (s'.length ≠ n → eos = false) := by
  unfold copyDec at h
  simp only at h
  split at h
  · rename_i hc
    simp only [Except.ok.injEq, Prod.mk.injEq] at h
    exact ⟨h.1.symm, h.2.symm, fun hne => absurd (h.1 ▸ hc) hne⟩
  · split at h
    · exact absurd h (by simp)
    · rename_i heos
      simp only [Except.ok.injEq, Prod.mk.injEq] at h
      exact ⟨h.1.symm, h.2.symm, fun _ => by simpa using heos⟩

/-- Well-behavedness of the fixed-size byte-buffer decoder. -/
theorem copyOk (n : Nat) (hn : 0 < n) : DecOk (copyDec n) (CopyWF n) where
  wf_decode := by
    intro s buf eos s' m hwf h
    obtain ⟨hs, hm, -⟩ := copy_decode_ok h
    subst hs
    unfold CopyWF at *
    simp only [List.length_append, List.length_take]
    omega
  wf_finish := by
    intro s s' a hwf h
    unfold copyDec at h
    simp only at h
    split at h
    · simp only [Except.ok.injEq, Prod.mk.injEq] at h
      simp [CopyWF, ← h.1]
    · exact absurd h (by simp)
  fresh_finish := by
    intro s s' a hwf h
    unfold copyDec at h
    simp only at h
    split at h
    · simp only [Except.ok.injEq, Prod.mk.injEq] at h
      simp only [copyDec, ← h.1]
      simp
      omega
    · exact absurd h (by simp)
  consume_le := by
    intro s buf eos s' m h
    obtain ⟨-, hm, -⟩ := copy_decode_ok h
    omega
  consumes_all := by
    intro s buf eos s' m hwf h hni
    obtain ⟨hs, hm, -⟩ := copy_decode_ok h
    subst hs
    unfold CopyWF at hwf
    simp only [copyDec, List.length_append, List.length_take] at hni
    simp only [decide_eq_false_iff_not] at hni
    omega

/-- At a true end of stream the byte-buffer decoder completes or fails. -/
theorem copyEosIdle (n : Nat) : EosIdle (copyDec n) (CopyWF n) := by
  intro s buf s' m hwf h
  obtain ⟨-, -, hc⟩ := copy_decode_ok h
  by_contra hni
  simp only [copyDec, decide_eq_true_eq] at hni
  simpa using hc hni

/-- Well-behavedness is preserved by the interpreting wrapper. -/
theorem mapOk {d : Dec σ α} {WF : σ → Prop} (hd : DecOk d WF)
    (f : α → Except DecodeError β) : DecOk (mapDec d f) WF where
  wf_decode := hd.wf_decode
  wf_finish := by
    intro s s' a hwf h
    unfold mapDec at h
    simp only at h
    obtain ⟨⟨s₁, a₁⟩, h1, h⟩ := bind_ok h
    obtain ⟨b, h2, h⟩ := bind_ok h
    simp only [Except.ok.injEq, Prod.mk.injEq] at h
    exact h.1 ▸ hd.wf_finish _ _ _ hwf h1
  fresh_finish := by
    intro s s' a hwf h
    unfold mapDec at h
    simp only at h
    obtain ⟨⟨s₁, a₁⟩, h1, h⟩ := bind_ok h
    obtain ⟨b, h2, h⟩ := bind_ok h
    simp only [Except.ok.injEq, Prod.mk.injEq] at h
    exact h.1 ▸ hd.fresh_finish _ _ _ hwf h1
  consume_le := hd.consume_le
  consumes_all := hd.consumes_all

/-- End-of-stream completion is preserved by the interpreting wrapper. -/
theorem mapEosIdle {d : Dec σ α} {WF : σ → Prop} (hd : EosIdle d WF)
    (f : α → Except DecodeError β) : EosIdle (mapDec d f) WF := hd

/-- Invariant of a sequential pair of decoders. -/
@[reducible]
def TupleWF (W1 : σ → Prop) (W2 : τ → Prop) (s : σ × τ) : Prop := W1 s.1 ∧ W2 s.2

/-- Well-behavedness of the sequential pair. -/
theorem tupleOk {d1 : Dec σ α} {d2 : Dec τ β} {W1 : σ → Prop} {W2 : τ → Prop}
    (h1 : DecOk d1 W1) (h2 : DecOk d2 W2) : DecOk (tupleDec d1 d2) (TupleWF W1 W2) where
  wf_decode := by
    intro s buf eos s' n hwf h
    unfold tupleDec at h
    simp only at h
    split at h
    · split at h
      · simp only [Except.ok.injEq, Prod.mk.injEq] at h
        exact h.1 ▸ hwf
      · obtain ⟨⟨t', m⟩, hd2, h⟩ := bind_ok h
        simp only [Except.ok.injEq, Prod.mk.injEq] at h
        rw [← h.1]
        exact ⟨hwf.1, h2.wf_decode _ _ _ _ _ hwf.2 hd2⟩
    · obtain ⟨⟨s₁, n₁⟩, hd1, h⟩ := bind_ok h
      have hw1 : W1 s₁ := h1.wf_decode _ _ _ _ _ hwf.1 hd1
      split at h
      · split at h
        · simp only [Except.ok.injEq, Prod.mk.injEq] at h
          rw [← h.1]
          exact ⟨hw1, hwf.2⟩
        · obtain ⟨⟨t', m⟩, hd2, h⟩ := bind_ok h
          simp only [Except.ok.injEq, Prod.mk.injEq] at h
          rw [← h.1]
          exact ⟨hw1, h2.wf_decode _ _ _ _ _ hwf.2 hd2⟩
      · simp only [Except.ok.injEq, Prod.mk.injEq] at h
        rw [← h.1]
        exact ⟨hw1, hwf.2⟩
  wf_finish := by
    intro s s' a hwf h
    unfold tupleDec at h
    simp only at h
    obtain ⟨⟨s₁, a₁⟩, hf1, h⟩ := bind_ok h
    obtain ⟨⟨t₁, b₁⟩, hf2, h⟩ := bind_ok h
    simp only [Except.ok.injEq, Prod.mk.injEq] at h
    rw [← h.1]
    exact ⟨h1.wf_finish _ _ _ hwf.1 hf1, h2.wf_finish _ _ _ hwf.2 hf2⟩
  fresh_finish := by
    intro s s' a hwf h
    unfold tupleDec at h
    simp only at h
    obtain ⟨⟨s₁, a₁⟩, hf1, h⟩ := bind_ok h
    obtain ⟨⟨t₁, b₁⟩, hf2, h⟩ := bind_ok h
    simp only [Except.ok.injEq, Prod.mk.injEq] at h
    rw [← h.1]
    simp only [tupleDec]
    rw [h1.fresh_finish _ _ _ hwf.1 hf1]
    simp
  consume_le := by
    intro s buf eos s' n h
    unfold tupleDec at h
    simp only at h
    split at h
    · split at h
      · simp only [Except.ok.injEq, Prod.mk.injEq] at h
        omega
      · obtain ⟨⟨t', m⟩, hd2, h⟩ := bind_ok h
        simp only [Except.ok.injEq, Prod.mk.injEq] at h
        have := h2.consume_le _ _ _ _ _ hd2
        omega
    · obtain ⟨⟨s₁, n₁⟩, hd1, h⟩ := bind_ok h
      have hle1 := h1.consume_le _ _ _ _ _ hd1
      split at h
      · split at h
        · simp only [Except.ok.injEq, Prod.mk.injEq] at h
          omega
        · obtain ⟨⟨t', m⟩, hd2, h⟩ := bind_ok h
          simp only [Except.ok.injEq, Prod.mk.injEq] at h
          have hle2 := h2.consume_le _ _ _ _ _ hd2
          simp only [List.length_drop] at hle2
          omega
      · simp only [Except.ok.injEq, Prod.mk.injEq] at h
        omega
  consumes_all := by
    intro s buf eos s' n hwf h hni
    unfold tupleDec at h
    simp only at h
    split at h
    · rename_i hi1
      split at h
      · rename_i hi2
        simp only [Except.ok.injEq, Prod.mk.injEq] at h
        rw [← h.1] at hni
        simp only [tupleDec, hi1, hi2] at hni
        simp at hni
      · obtain ⟨⟨t', m⟩, hd2, h⟩ := bind_ok h
        simp only [Except.ok.injEq, Prod.mk.injEq] at h
        rw [← h.1] at hni
        simp only [tupleDec, Bool.and_eq_false_iff] at hni
        rcases hni with hni | hni
        · rw [hi1] at hni
          exact absurd hni (by simp)
        · have := h2.consumes_all _ _ _ _ _ hwf.2 hd2 hni
          omega
    · rename_i hi1
      obtain ⟨⟨s₁, n₁⟩, hd1, h⟩ := bind_ok h
      split at h
      · rename_i hio1
        split at h
        · rename_i hi2
          simp only [Except.ok.injEq, Prod.mk.injEq] at h
          rw [← h.1] at hni
          simp only [tupleDec, hio1, hi2] at hni
          simp at hni
        · obtain ⟨⟨t', m⟩, hd2, h⟩ := bind_ok h
          simp only [Except.ok.injEq, Prod.mk.injEq] at h
          rw [← h.1] at hni
          simp only [tupleDec, Bool.and_eq_false_iff] at hni
          rcases hni with hni | hni
          · rw [hio1] at hni
            exact absurd hni (by simp)
          · have hall1 := h1.consumes_all _ _ _ _ _ hwf.1 hd1
            have := h2.consumes_all _ _ _ _ _ hwf.2 hd2 hni
            simp only [List.length_drop] at this
            have hle1 := h1.consume_le _ _ _ _ _ hd1
            omega
      · rename_i hio1
        simp only [Except.ok.injEq, Prod.mk.injEq] at h
        have := h1.consumes_all _ _ _ _ _ hwf.1 hd1 (by simpa using hio1)
        omega

/-- End-of-stream completion of the sequential pair. -/
theorem tupleEosIdle {d1 : Dec σ α} {d2 : Dec τ β} {W1 : σ → Prop} {W2 : τ → Prop}
    (e1 : EosIdle d1 W1) (e2 : EosIdle d2 W2) :
    EosIdle (tupleDec d1 d2) (TupleWF W1 W2) := by
  intro s buf s' n hwf h
  unfold tupleDec at h
  simp only at h
  split at h
  · rename_i hi1
    split at h
    · rename_i hi2
      simp only [Except.ok.injEq, Prod.mk.injEq] at h
      rw [← h.1]
      simp [tupleDec, hi1, hi2]
    · obtain ⟨⟨t', m⟩, hd2, h⟩ := bind_ok h
      simp only [Except.ok.injEq, Prod.mk.injEq] at h
      rw [← h.1]
      simp [tupleDec, hi1, e2 _ _ _ _ hwf.2 hd2]
  · obtain ⟨⟨s₁, n₁⟩, hd1, h⟩ := bind_ok h
    have hio1 := e1 _ _ _ _ hwf.1 hd1
    split at h
    · split at h
      · rename_i hi2
        simp only [Except.ok.injEq, Prod.mk.injEq] at h
        rw [← h.1]
        simp [tupleDec, hio1, hi2]
      · obtain ⟨⟨t', m⟩, hd2, h⟩ := bind_ok h
        simp only [Except.ok.injEq, Prod.mk.injEq] at h
        rw [← h.1]
        simp [tupleDec, hio1, e2 _ _ _ _ hwf.2 hd2]
    · rename_i hio1'
      rw [hio1] at hio1'
      exact absurd hio1' (by simp)

/-- Invariant of a `Peekable` state: the inner decoder is never idle (a
cached item goes together with a freshly reset inner decoder). -/
@[reducible]
def PeekWF (d : Dec σ α) (WF : σ → Prop) (s : PeekState σ α) : Prop :=
  WF s.inner ∧ d.isIdle s.inner = false

/-- Well-behavedness of the `Peekable` combinator. -/
theorem peekOk {d : Dec σ α} {WF : σ → Prop} (hd : DecOk d WF) :
    DecOk (peekDec d) (PeekWF d WF) where
  wf_decode := by
    intro s buf eos s' n hwf h
    unfold peekDec at h
    simp only at h
    split at h
    · simp only [Except.ok.injEq, Prod.mk.injEq] at h
      exact h.1 ▸ hwf
    · obtain ⟨⟨i₁, n₁⟩, hd1, h⟩ := bind_ok h
      have hw1 : WF i₁ := hd.wf_decode _ _ _ _ _ hwf.1 hd1
      split at h
      · obtain ⟨⟨i₂, a⟩, hf, h⟩ := bind_ok h
        simp only [Except.ok.injEq, Prod.mk.injEq] at h
        rw [← h.1]
        exact ⟨hd.wf_finish _ _ _ hw1 hf, hd.fresh_finish _ _ _ hw1 hf⟩
      · rename_i hni
        simp only [Except.ok.injEq, Prod.mk.injEq] at h
        rw [← h.1]
        exact ⟨hw1, by simpa using hni⟩
  wf_finish := by
    intro s s' a hwf h
    unfold peekDec at h
    simp only at h
    split at h
    · simp only [Except.ok.injEq, Prod.mk.injEq] at h
      rw [← h.1]
      exact hwf
    · obtain ⟨⟨i₁, a₁⟩, hf, h⟩ := bind_ok h
      simp only [Except.ok.injEq, Prod.mk.injEq] at h
      rw [← h.1]
      exact ⟨hd.wf_finish _ _ _ hwf.1 hf, hd.fresh_finish _ _ _ hwf.1 hf⟩
  fresh_finish := by
    intro s s' a hwf h
    unfold peekDec at h
    simp only at h
    split at h
    · simp only [Except.ok.injEq, Prod.mk.injEq] at h
      rw [← h.1]
      simp [peekDec]
    · obtain ⟨⟨i₁, a₁⟩, hf, h⟩ := bind_ok h
      simp only [Except.ok.injEq, Prod.mk.injEq] at h
      rw [← h.1]
      simp [peekDec]
  consume_le := by
    intro s buf eos s' n h
    unfold peekDec at h
    simp only at h
    split at h
    · simp only [Except.ok.injEq, Prod.mk.injEq] at h
      omega
    · obtain ⟨⟨i₁, n₁⟩, hd1, h⟩ := bind_ok h
      have := hd.consume_le _ _ _ _ _ hd1
      split at h
      · obtain ⟨⟨i₂, a⟩, hf, h⟩ := bind_ok h
        simp only [Except.ok.injEq, Prod.mk.injEq] at h
        omega
      · simp only [Except.ok.injEq, Prod.mk.injEq] at h
        omega
  consumes_all := by
    intro s buf eos s' n hwf h hni
    unfold peekDec at h
    simp only at h
    split at h
    · rename_i a ha
      simp only [Except.ok.injEq, Prod.mk.injEq] at h
      rw [← h.1] at hni
      simp [peekDec, ha] at hni
    · obtain ⟨⟨i₁, n₁⟩, hd1, h⟩ := bind_ok h
      split at h
      · obtain ⟨⟨i₂, a⟩, hf, h⟩ := bind_ok h
        simp only [Except.ok.injEq, Prod.mk.injEq] at h
        rw [← h.1] at hni
        simp [peekDec] at hni
      · rename_i hnio
        simp only [Except.ok.injEq, Prod.mk.injEq] at h
        have := hd.consumes_all _ _ _ _ _ hwf.1 hd1 (by simpa using hnio)
        omega

/-- End-of-stream completion of the `Peekable` combinator. -/
theorem peekEosIdle {d : Dec σ α} {WF : σ → Prop} (e : EosIdle d WF) :
    EosIdle (peekDec d) (PeekWF d WF) := by
  intro s buf s' n hwf h
  unfold peekDec at h
  simp only at h
  split at h
  · rename_i a ha
    simp only [Except.ok.injEq, Prod.mk.injEq] at h
    rw [← h.1]
    simp [peekDec, ha]
  · obtain ⟨⟨i₁, n₁⟩, hd1, h⟩ := bind_ok h
    have hio := e _ _ _ _ hwf.1 hd1
    split at h
    · obtain ⟨⟨i₂, a⟩, hf, h⟩ := bind_ok h
      simp only [Except.ok.injEq, Prod.mk.injEq] at h
      rw [← h.1]
      simp [peekDec]
    · rename_i hnio
      rw [hio] at hnio
      exact absurd hnio (by simp)

/-- Well-behavedness of the remaining-bytes accumulator. -/
theorem remainingOk : DecOk remainingDec (fun _ => True) where
  wf_decode := by intro s buf eos s' n _ h; trivial
  wf_finish := by intro s s' a _ h; trivial
  fresh_finish := by
    intro s s' a _ h
    unfold remainingDec at *
    simp only [Except.ok.injEq, Prod.mk.injEq] at h
    rw [← h.1]
  consume_le := by
    intro s buf eos s' n h
    unfold remainingDec at h
    simp only at h
    split at h <;> simp only [Except.ok.injEq, Prod.mk.injEq] at h <;> omega
  consumes_all := by
    intro s buf eos s' n _ h hni
    unfold remainingDec at *
    simp only at h
    split at h
    · rename_i hr
      simp only [Except.ok.injEq, Prod.mk.injEq] at h
      rw [← h.1] at hni
      simp [hr] at hni
    · simp only [Except.ok.injEq, Prod.mk.injEq] at h
      omega

/-- End-of-stream completion of the remaining-bytes accumulator. -/
theorem remainingEosIdle : EosIdle remainingDec (fun _ => True) := by
  intro s buf s' n _ h
  unfold remainingDec at *
  simp only at h
  split at h
  · rename_i hr
    simp only [Except.ok.injEq, Prod.mk.injEq] at h
    rw [← h.1]
    exact hr
  · simp only [Except.ok.injEq, Prod.mk.injEq] at h
    rw [← h.1]

/-- Well-behavedness of the padding skipper. -/
theorem paddingOk : DecOk paddingDec (fun _ => True) where
  wf_decode := by intro s buf eos s' n _ h; trivial
  wf_finish := by intro s s' a _ h; trivial
  fresh_finish := by
    intro s s' a _ h
    unfold paddingDec at *
    simp only [Except.ok.injEq, Prod.mk.injEq] at h
    rw [← h.1]
  consume_le := by
    intro s buf eos s' n h
    unfold paddingDec at h
    simp only at h
    split at h <;> simp only [Except.ok.injEq, Prod.mk.injEq] at h <;> omega
  consumes_all := by
    intro s buf eos s' n _ h hni
    unfold paddingDec at *
    simp only at h
    split at h
    · rename_i hr
      simp only [Except.ok.injEq, Prod.mk.injEq] at h
      rw [← h.1] at hni
      simp [hr] at hni
    · simp only [Except.ok.injEq, Prod.mk.injEq] at h
      omega

/-- End-of-stream completion of the padding skipper. -/
theorem paddingEosIdle : EosIdle paddingDec (fun _ => True) := by
  intro s buf s' n _ h
  unfold paddingDec at *
  simp only at h
  split at h
  · rename_i hr
    simp only [Except.ok.injEq, Prod.mk.injEq] at h
    rw [← h.1]
    exact hr
  · simp only [Except.ok.injEq, Prod.mk.injEq] at h
    rw [← h.1]

/-- Invariant of a `Length` state: an idle inner decoder appears only with an
exhausted region. -/
@[reducible]
def LengthWF (d : Dec σ α) (WF : σ → Prop) (s : LengthState σ) : Prop :=
  WF s.inner ∧ (d.isIdle s.inner = true → s.remaining = 0)

/-- Characterization of a successful length-limited decode step. -/
theorem length_decode_ok {d : Dec σ α} {s : LengthState σ} {buf : List Nat} {eos : Bool}
    {s' : LengthState σ} {n : Nat}
    (h : (lengthDec d).decode s buf eos = .ok (s', n)) :
    ∃ i', d.decode s.inner (buf.take (min buf.length s.remaining))
        (decide (min buf.length s.remaining = s.remaining)) = .ok (i', n) ∧
      s' = ⟨i', s.expected, s.remaining - n⟩ ∧
      ¬(d.isIdle i' = true ∧ s.remaining - n ≠ 0) := by
  unfold lengthDec at h
  simp only at h
  obtain ⟨⟨i₁, n₁⟩, hd1, h⟩ := bind_ok h
  split at h
  · exact absurd h (by simp)
  · rename_i hchk
    simp only [Except.ok.injEq, Prod.mk.injEq] at h
    refine ⟨i₁, ?_, ?_, ?_⟩
    · rw [hd1, h.2]
    · rw [← h.1, h.2]
    · rw [h.2] at hchk
      simpa using hchk

/-- Well-behavedness of the `Length` combinator. -/
theorem lengthOk {d : Dec σ α} {WF : σ → Prop} (hd : DecOk d WF) (he : EosIdle d WF) :
    DecOk (lengthDec d) (LengthWF d WF) where
  wf_decode := by
    intro s buf eos s' n hwf h
    obtain ⟨i', hdec, hs, hchk⟩ := length_decode_ok h
    subst hs
    exact ⟨hd.wf_decode _ _ _ _ _ hwf.1 hdec, by intro hi; by_contra hr; exact hchk ⟨hi, hr⟩⟩
  wf_finish := by
    intro s s' a hwf h
    unfold lengthDec at h
    simp only at h
    split at h
    · exact absurd h (by simp)
    · obtain ⟨⟨i₁, a₁⟩, hf, h⟩ := bind_ok h
      simp only [Except.ok.injEq, Prod.mk.injEq] at h
      rw [← h.1]
      refine ⟨hd.wf_finish _ _ _ hwf.1 hf, ?_⟩
      intro hi
      rw [hd.fresh_finish _ _ _ hwf.1 hf] at hi
      exact absurd hi (by simp)
  fresh_finish := by
    intro s s' a hwf h
    unfold lengthDec at h
    simp only at h
    split at h
    · exact absurd h (by simp)
    · obtain ⟨⟨i₁, a₁⟩, hf, h⟩ := bind_ok h
      simp only [Except.ok.injEq, Prod.mk.injEq] at h
      rw [← h.1]
      simp only [lengthDec]
      rw [hd.fresh_finish _ _ _ hwf.1 hf]
      simp
  consume_le := by
    intro s buf eos s' n h
    obtain ⟨i', hdec, hs, hchk⟩ := length_decode_ok h
    have := hd.consume_le _ _ _ _ _ hdec
    simp only [List.length_take] at this
    omega
  consumes_all := by
    intro s buf eos s' n hwf h hni
    obtain ⟨i', hdec, hs, hchk⟩ := length_decode_ok h
    subst hs
    simp only [lengthDec, Bool.and_eq_false_iff] at hni
    by_cases hbf : buf.length ≤ s.remaining
    · have hmin : min buf.length s.remaining = buf.length := by omega
      rw [hmin] at hdec
      simp only [List.take_length] at hdec
      by_cases hii : d.isIdle i' = true
      · have hr0 : s.remaining - n = 0 := by
          by_contra hr
          exact hchk ⟨hii, hr⟩
        have := hd.consume_le _ _ _ _ _ hdec
        rcases hni with hni | hni
        · simp only [decide_eq_false_iff_not] at hni
          omega
        · rw [hii] at hni
          exact absurd hni (by simp)
      · have := hd.consumes_all _ _ _ _ _ hwf.1 hdec (by simpa using hii)
        exact this
    · have hmin : min buf.length s.remaining = s.remaining := by omega
      rw [hmin] at hdec
      simp only [decide_eq_true_eq] at hdec
      have hii := he _ _ _ _ hwf.1 (by simpa using hdec)
      have hr0 : s.remaining - n = 0 := by
        by_contra hr
        exact hchk ⟨hii, hr⟩
      rcases hni with hni | hni
      · have := hd.consume_le _ _ _ _ _ hdec
        simp only [List.length_take] at this
        simp only [decide_eq_false_iff_not] at hni
        omega
      · rw [hii] at hni
        exact absurd hni (by simp)

/-- Well-behavedness of the `MaybeEos` combinator. -/
theorem maybeEosOk {d : Dec σ α} {WF : σ → Prop} (hd : DecOk d WF) :
    DecOk (maybeEosDec d) (fun s => WF s.inner) where
  wf_decode := by
    intro s buf eos s' n hwf h
    unfold maybeEosDec at h
    simp only at h
    split at h
    · simp only [Except.ok.injEq, Prod.mk.injEq] at h
      exact h.1 ▸ hwf
    · obtain ⟨⟨i₁, n₁⟩, hd1, h⟩ := bind_ok h
      simp only [Except.ok.injEq, Prod.mk.injEq] at h
      rw [← h.1]
      exact hd.wf_decode _ _ _ _ _ hwf hd1
  wf_finish := by
    intro s s' a hwf h
    unfold maybeEosDec at h
    simp only at h
    obtain ⟨⟨i₁, a₁⟩, hf, h⟩ := bind_ok h
    simp only [Except.ok.injEq, Prod.mk.injEq] at h
    rw [← h.1]
    exact hd.wf_finish _ _ _ hwf hf
  fresh_finish := by
    intro s s' a hwf h
    unfold maybeEosDec at h
    simp only at h
    obtain ⟨⟨i₁, a₁⟩, hf, h⟩ := bind_ok h
    simp only [Except.ok.injEq, Prod.mk.injEq] at h
    rw [← h.1]
    simpa [maybeEosDec] using hd.fresh_finish _ _ _ hwf hf
  consume_le := by
    intro s buf eos s' n h
    unfold maybeEosDec at h
    simp only at h
    split at h
    · simp only [Except.ok.injEq, Prod.mk.injEq] at h
      omega
    · obtain ⟨⟨i₁, n₁⟩, hd1, h⟩ := bind_ok h
      simp only [Except.ok.injEq, Prod.mk.injEq] at h
      have := hd.consume_le _ _ _ _ _ hd1
      omega
  consumes_all := by
    intro s buf eos s' n hwf h hni
    unfold maybeEosDec at h
    simp only at h
    split at h
    · rename_i hg
      simp only [Except.ok.injEq, Prod.mk.injEq] at h
      rw [hg.2.1]
      simp [← h.2]
    · obtain ⟨⟨i₁, n₁⟩, hd1, h⟩ := bind_ok h
      simp only [Except.ok.injEq, Prod.mk.injEq] at h
      simp only [maybeEosDec] at hni
      rw [← h.1] at hni
      have := hd.consumes_all _ _ _ _ _ hwf hd1 hni
      omega

/-- A `tryStep` on an idle sub-decoder is skipped. -/
theorem tryStep_idle {d : Dec σ α} {s : σ} {buf : List Nat} {o : Nat} {eos : Bool}
    (h : d.isIdle s = true) : tryStep d s buf o eos = .ok (s, o, false) := by
  unfold tryStep
  simp [h]

/-- Case analysis of a successful `tryStep`. -/
theorem tryStep_ok {d : Dec σ α} {s : σ} {buf : List Nat} {o : Nat} {eos : Bool}
    {s' : σ} {o' : Nat} {st : Bool}
    (h : tryStep d s buf o eos = .ok (s', o', st)) :
    (d.isIdle s = true ∧ s' = s ∧ o' = o ∧ st = false) ∨
    (d.isIdle s = false ∧ ∃ n, d.decode s (buf.drop o) eos = .ok (s', n) ∧ o' = o + n ∧
      st = !d.isIdle s') := by
  unfold tryStep at h
  split at h
  · rename_i hi
    simp only [Except.ok.injEq, Prod.mk.injEq] at h
    exact Or.inl ⟨hi, h.1.symm, h.2.1.symm, h.2.2.symm⟩
  · rename_i hi
    obtain ⟨⟨s₁, n₁⟩, hd1, h⟩ := bind_ok h
    simp only [Except.ok.injEq, Prod.mk.injEq] at h
    obtain ⟨hh1, hh2, hh3⟩ := h
    subst hh1
    exact Or.inr ⟨by simpa using hi, n₁, hd1, hh2.symm, hh3.symm⟩

/-- The invariant survives a `tryStep`. -/
theorem tryStep_wf {d : Dec σ α} {WF : σ → Prop} (hd : StepOk d WF)
    {s : σ} {buf : List Nat} {o : Nat} {eos : Bool} {s' : σ} {o' : Nat} {st : Bool}
    (hwf : WF s) (h : tryStep d s buf o eos = .ok (s', o', st)) : WF s' := by
  rcases tryStep_ok h with ⟨-, hs, -, -⟩ | ⟨-, n, hdec, -, -⟩
  · exact hs ▸ hwf
  · exact hd.wf_decode _ _ _ _ _ hwf hdec

/-- Offsets only grow through a `tryStep`, and never past the buffer (or the
incoming offset when that already exceeds the buffer). -/
theorem tryStep_o {d : Dec σ α} {WF : σ → Prop} (hd : StepOk d WF)
    {s : σ} {buf : List Nat} {o : Nat} {eos : Bool} {s' : σ} {o' : Nat} {st : Bool}
    (h : tryStep d s buf o eos = .ok (s', o', st)) : o ≤ o' ∧ o' ≤ max o buf.length := by
  rcases tryStep_ok h with ⟨-, -, ho, -⟩ | ⟨-, n, hdec, ho, -⟩
  · omega
  · have := hd.consume_le _ _ _ _ _ hdec
    simp only [List.length_drop] at this
    omega

/-- A continuing `tryStep` leaves the sub-decoder idle. -/
theorem tryStep_false {d : Dec σ α} {s : σ} {buf : List Nat} {o : Nat} {eos : Bool}
    {s' : σ} {o' : Nat}
    (h : tryStep d s buf o eos = .ok (s', o', false)) : d.isIdle s' = true := by
  rcases tryStep_ok h with ⟨hi, hs, -, -⟩ | ⟨-, n, hdec, -, hst⟩
  · exact hs ▸ hi
  · cases hi : d.isIdle s' with
    | true => rfl
    | false => rw [hi] at hst; exact absurd hst.symm (by simp)

/-- A stopping `tryStep` left its sub-decoder hungry having consumed the
whole rest of the buffer. -/
theorem tryStep_true {d : Dec σ α} {WF : σ → Prop} (hd : StepOk d WF)
    {s : σ} {buf : List Nat} {o : Nat} {eos : Bool} {s' : σ} {o' : Nat}
    (hwf : WF s) (h : tryStep d s buf o eos = .ok (s', o', true)) :
    d.isIdle s' = false ∧ o' = max o buf.length := by
  rcases tryStep_ok h with ⟨-, -, -, hst⟩ | ⟨-, n, hdec, ho, hst⟩
  · exact absurd hst.symm (by simp)
  · have hni : d.isIdle s' = false := by
      cases hi : d.isIdle s' with
      | false => rfl
      | true => rw [hi] at hst; exact absurd hst.symm (by simp)
    have := hd.consumes_all _ _ _ _ _ hwf hdec hni
    simp only [List.length_drop] at this
    constructor
    · exact hni
    · omega

/-- With the end-of-stream flag set, a successful `tryStep` always
continues, leaving the sub-decoder idle. -/
theorem tryStep_eos {d : Dec σ α} {WF : σ → Prop} (he : EosIdle d WF)
    {s : σ} {buf : List Nat} {o : Nat} {s' : σ} {o' : Nat} {st : Bool}
    (hwf : WF s) (h : tryStep d s buf o true = .ok (s', o', st)) :
    st = false ∧ d.isIdle s' = true := by
  rcases tryStep_ok h with ⟨hi, hs, -, hst⟩ | ⟨-, n, hdec, -, hst⟩
  · exact ⟨hst, hs ▸ hi⟩
  · have := he _ _ _ _ hwf hdec
    rw [this] at hst
    exact ⟨by simpa using hst, this⟩

/-- Well-behavedness of the one-byte decoder. -/
theorem u8Ok : DecOk u8Dec (CopyWF 1) := mapOk (copyOk 1 (by omega)) _

/-- Well-behavedness of the 24-bit decoder. -/
theorem u24Ok : DecOk u24Dec (CopyWF 3) := mapOk (copyOk 3 (by omega)) _

/-- Well-behavedness of the 32-bit decoder. -/
theorem u32Ok : DecOk u32Dec (CopyWF 4) := mapOk (copyOk 4 (by omega)) _

/-- End-of-stream completion of the one-byte decoder. -/
theorem u8EosIdle : EosIdle u8Dec (CopyWF 1) := mapEosIdle (copyEosIdle 1) _

/-- End-of-stream completion of the 24-bit decoder. -/
theorem u24EosIdle : EosIdle u24Dec (CopyWF 3) := mapEosIdle (copyEosIdle 3) _

/-- End-of-stream completion of the 32-bit decoder. -/
theorem u32EosIdle : EosIdle u32Dec (CopyWF 4) := mapEosIdle (copyEosIdle 4) _

/-- Well-behavedness of the frame-type/codec byte decoder. -/
theorem ftcOk : DecOk frameTypeAndCodecDec (CopyWF 1) := mapOk u8Ok _

/-- End-of-stream completion of the frame-type/codec byte decoder. -/
theorem ftcEosIdle : EosIdle frameTypeAndCodecDec (CopyWF 1) := mapEosIdle u8EosIdle _

/-- Invariant of the five buffered tag-header fields. -/
@[reducible]
def TagHeaderBufsWF : TagHeaderBufs → Prop :=
  TupleWF (CopyWF 1) (TupleWF (CopyWF 3) (TupleWF (CopyWF 3) (TupleWF (CopyWF 1) (CopyWF 3))))

/-- Well-behavedness of the tag-header decoder. -/
theorem tagHeaderOk : DecOk tagHeaderDec TagHeaderBufsWF :=
  mapOk (tupleOk u8Ok (tupleOk u24Ok (tupleOk u24Ok (tupleOk u8Ok u24Ok)))) _

/-- End-of-stream completion of the tag-header decoder. -/
theorem tagHeaderEosIdle : EosIdle tagHeaderDec TagHeaderBufsWF :=
  mapEosIdle (tupleEosIdle u8EosIdle (tupleEosIdle u24EosIdle
    (tupleEosIdle u24EosIdle (tupleEosIdle u8EosIdle u24EosIdle)))) _

/-- Invariant of the audio payload decoder state. -/
@[reducible]
def AudioWF (s : AudioTagDataDecoder) : Prop :=
  PeekWF u8Dec (CopyWF 1) s.header ∧ CopyWF 1 s.aac_packet_type

/-- Invariant of the video payload decoder state. -/
@[reducible]
def VideoWF (s : VideoTagDataDecoder) : Prop :=
  PeekWF frameTypeAndCodecDec (CopyWF 1) s.frame_type_and_codec ∧
    CopyWF 1 s.avc_packet_type ∧ CopyWF 3 s.composition_time

/-- Invariant of the payload dispatch state. -/
@[reducible]
def TagDataWF : TagDataDecoder → Prop
  | .audio s => AudioWF s
  | .video s => VideoWF s
  | .scriptData _ => True
  | .none => True

/-- Invariant of the tag decoder state: the payload invariant is only
meaningful once the header has been decoded and the payload decoder
dispatched (after `finish_decoding` the parked payload sentinel is idle with
a stale region size, but a fresh one is installed before it is ever used). -/
@[reducible]
def TagWF (s : TagDecoder) : Prop :=
  PeekWF tagHeaderDec TagHeaderBufsWF s.header ∧
    ((peekDec tagHeaderDec).isIdle s.header = true → LengthWF tagDataDec TagDataWF s.data)

/-- Invariant of the file-header decoder state: in addition to the
per-component invariants, the padding skipper is untouched (fresh, zero
expected bytes) until the data offset that determines its size has been
decoded. -/
@[reducible]
def HeaderWF (s : HeaderDecoder) : Prop :=
  CopyWF 3 s.signature ∧ CopyWF 1 s.version ∧ CopyWF 1 s.flags ∧
    PeekWF u32Dec (CopyWF 4) s.data_offset ∧ LengthWF paddingDec (fun _ => True) s.padding ∧
    ((peekDec u32Dec).isIdle s.data_offset = false → s.padding = ⟨false, 0, 0⟩)

/-- Invariant of the file decoder state. -/
@[reducible]
def FileWF (s : FileDecoder) : Prop :=
  PeekWF (tupleDec headerDec u32Dec) (TupleWF HeaderWF (CopyWF 4)) s.header ∧
    TagWF s.tag.inner ∧ CopyWF 4 s.prev_tag_size

/-- Characterization of a `tryStep` on the remaining-bytes accumulator. -/
theorem tryStep_remaining {s : RemainingState} {buf : List Nat} {o : Nat} {eos : Bool}
    {s' : RemainingState} {o' : Nat} {st : Bool}
    (h : tryStep remainingDec s buf o eos = .ok (s', o', st)) :
    (s'.reached = false → o' = max o buf.length) ∧ (eos = true → s'.reached = true) ∧
      o ≤ o' ∧ o' ≤ max o buf.length := by
  rcases tryStep_ok h with ⟨hi, hs, ho, -⟩ | ⟨-, m, hdec, ho, -⟩
  · subst hs
    simp only [remainingDec] at hi
    exact ⟨fun hf => absurd hi (by rw [hf]; simp), fun _ => hi, by omega, by omega⟩
  · unfold remainingDec at hdec
    simp only at hdec
    split at hdec
    · rename_i hr
      simp only [Except.ok.injEq, Prod.mk.injEq] at hdec
      obtain ⟨hs, hm⟩ := hdec
      subst hs
      exact ⟨fun hf => absurd hr (by rw [hf]; simp), fun _ => hr, by omega, by omega⟩
    · simp only [Except.ok.injEq, Prod.mk.injEq] at hdec
      obtain ⟨hs, hm⟩ := hdec
      subst hs
      simp only [List.length_drop] at hm
      exact ⟨fun _ => by omega, fun he => by simp [he], by omega, by omega⟩

/-- Characterization of a successful audio-payload decode step: the invariant
survives, the offset stays within the buffer, a non-idle outcome consumed the
whole buffer, and with the end-of-stream flag set the outcome is idle. -/
theorem audio_decode_props (s : AudioTagDataDecoder) (buf : List Nat) (eos : Bool)
    (s' : AudioTagDataDecoder) (n : Nat) (hwf : AudioWF s)
    (h : audioTagDataDec.decode s buf eos = .ok (s', n)) :
    AudioWF s' ∧ n ≤ buf.length ∧
      (audioTagDataDec.isIdle s' = false → n = buf.length) ∧
      (eos = true → audioTagDataDec.isIdle s' = true) := by
  have hpOk : StepOk (peekDec u8Dec) (PeekWF u8Dec (CopyWF 1)) := (peekOk u8Ok).toStep
  have hpEos : EosIdle (peekDec u8Dec) (PeekWF u8Dec (CopyWF 1)) := peekEosIdle u8EosIdle
  unfold audioTagDataDec at h
  simp only at h
  obtain ⟨⟨h₁, o₁, stop₁⟩, hstep₁, h⟩ := bind_ok h
  have hwf₁ := tryStep_wf hpOk hwf.1 hstep₁
  have ho₁ := tryStep_o hpOk hstep₁
  split at h
  · rename_i hst₁
    simp only at hst₁
    subst hst₁
    simp only [Except.ok.injEq, Prod.mk.injEq] at h
    obtain ⟨hs, hn⟩ := h
    rw [← hs, ← hn]
    obtain ⟨hni₁, ho₁'⟩ := tryStep_true hpOk hwf.1 hstep₁
    refine ⟨⟨hwf₁, hwf.2⟩, ?_, ?_, ?_⟩
    · omega
    · intro _
      omega
    · intro heos
      subst heos
      obtain ⟨hst, -⟩ := tryStep_eos hpEos hwf.1 hstep₁
      exact absurd hst (by simp)
  · rename_i hst₁
    simp only at hst₁
    split at h
    · obtain ⟨⟨a₂, o₂, stop₂⟩, hstep₂, h⟩ := bind_ok h
      have hwf₂ := tryStep_wf u8Ok.toStep hwf.2 hstep₂
      have ho₂ := tryStep_o u8Ok.toStep hstep₂
      split at h
      · rename_i hst₂
        simp only at hst₂
        subst hst₂
        simp only [Except.ok.injEq, Prod.mk.injEq] at h
        obtain ⟨hs, hn⟩ := h
        rw [← hs, ← hn]
        obtain ⟨hni₂, ho₂'⟩ := tryStep_true u8Ok.toStep hwf.2 hstep₂
        refine ⟨⟨hwf₁, hwf₂⟩, ?_, ?_, ?_⟩
        · omega
        · intro _
          omega
        · intro heos
          subst heos
          obtain ⟨hst, -⟩ := tryStep_eos u8EosIdle hwf.2 hstep₂
          exact absurd hst (by simp)
      · obtain ⟨⟨d₃, o₃, stop₃⟩, hstep₃, h⟩ := bind_ok h
        obtain ⟨hr₁, hr₂, hr₃⟩ := tryStep_remaining hstep₃
        simp only [Except.ok.injEq, Prod.mk.injEq] at h
        obtain ⟨hs, hn⟩ := h
        rw [← hs, ← hn]
        refine ⟨⟨hwf₁, hwf₂⟩, ?_, ?_, ?_⟩
        · omega
        · intro hni
          simp only [audioTagDataDec] at hni
          have := hr₁ hni
          omega
        · intro heos
          exact hr₂ heos
    · obtain ⟨⟨d₃, o₃, stop₃⟩, hstep₃, h⟩ := bind_ok h
      obtain ⟨hr₁, hr₂, hr₃⟩ := tryStep_remaining hstep₃
      simp only [Except.ok.injEq, Prod.mk.injEq] at h
      obtain ⟨hs, hn⟩ := h
      rw [← hs, ← hn]
      refine ⟨⟨hwf₁, hwf.2⟩, ?_, ?_, ?_⟩
      · omega
      · intro hni
        simp only [audioTagDataDec] at hni
        have := hr₁ hni
        omega
      · intro heos
        exact hr₂ heos

/-- Characterization of a successful video-payload decode step, mirroring
`audio_decode_props`. -/
theorem video_decode_props (s : VideoTagDataDecoder) (buf : List Nat) (eos : Bool)
    (s' : VideoTagDataDecoder) (n : Nat) (hwf : VideoWF s)
    (h : videoTagDataDec.decode s buf eos = .ok (s', n)) :
    VideoWF s' ∧ n ≤ buf.length ∧
      (videoTagDataDec.isIdle s' = false → n = buf.length) ∧
      (eos = true → videoTagDataDec.isIdle s' = true) := by
  have hpOk : StepOk (peekDec frameTypeAndCodecDec) (PeekWF frameTypeAndCodecDec (CopyWF 1)) :=
    (peekOk ftcOk).toStep
  have hpEos : EosIdle (peekDec frameTypeAndCodecDec) (PeekWF frameTypeAndCodecDec (CopyWF 1)) :=
    peekEosIdle ftcEosIdle
  unfold videoTagDataDec at h
  simp only at h
  obtain ⟨⟨h₁, o₁, stop₁⟩, hstep₁, h⟩ := bind_ok h
  have hwf₁ := tryStep_wf hpOk hwf.1 hstep₁
  have ho₁ := tryStep_o hpOk hstep₁
  split at h
  · rename_i hst₁
    simp only at hst₁
    subst hst₁
    simp only [Except.ok.injEq, Prod.mk.injEq] at h
    obtain ⟨hs, hn⟩ := h
    rw [← hs, ← hn]
    obtain ⟨hni₁, ho₁'⟩ := tryStep_true hpOk hwf.1 hstep₁
    refine ⟨⟨hwf₁, hwf.2⟩, by omega, fun _ => by omega, ?_⟩
    intro heos
    subst heos
    obtain ⟨hst, -⟩ := tryStep_eos hpEos hwf.1 hstep₁
    exact absurd hst (by simp)
  · rename_i hst₁
    simp only at hst₁
    split at h
    · obtain ⟨⟨a₂, o₂, stop₂⟩, hstep₂, h⟩ := bind_ok h
      have hwf₂ := tryStep_wf u8Ok.toStep hwf.2.1 hstep₂
      have ho₂ := tryStep_o u8Ok.toStep hstep₂
      split at h
      · rename_i hst₂
        simp only at hst₂
        subst hst₂
        simp only [Except.ok.injEq, Prod.mk.injEq] at h
        obtain ⟨hs, hn⟩ := h
        rw [← hs, ← hn]
        obtain ⟨hni₂, ho₂'⟩ := tryStep_true u8Ok.toStep hwf.2.1 hstep₂
        refine ⟨⟨hwf₁, hwf₂, hwf.2.2⟩, by omega, fun _ => by omega, ?_⟩
        intro heos
        subst heos
        obtain ⟨hst, -⟩ := tryStep_eos u8EosIdle hwf.2.1 hstep₂
        exact absurd hst (by simp)
      · obtain ⟨⟨c₃, o₃, stop₃⟩, hstep₃, h⟩ := bind_ok h
        have hwf₃ := tryStep_wf u24Ok.toStep hwf.2.2 hstep₃
        have ho₃ := tryStep_o u24Ok.toStep hstep₃
        split at h
        · rename_i hst₃
          simp only at hst₃
          subst hst₃
          simp only [Except.ok.injEq, Prod.mk.injEq] at h
          obtain ⟨hs, hn⟩ := h
          rw [← hs, ← hn]
          obtain ⟨hni₃, ho₃'⟩ := tryStep_true u24Ok.toStep hwf.2.2 hstep₃
          refine ⟨⟨hwf₁, hwf₂, hwf₃⟩, by omega, fun _ => by omega, ?_⟩
          intro heos
          subst heos
          obtain ⟨hst, -⟩ := tryStep_eos u24EosIdle hwf.2.2 hstep₃
          exact absurd hst (by simp)
        · obtain ⟨⟨d₄, o₄, stop₄⟩, hstep₄, h⟩ := bind_ok h
          obtain ⟨hr₁, hr₂, hr₃⟩ := tryStep_remaining hstep₄
          simp only [Except.ok.injEq, Prod.mk.injEq] at h
          obtain ⟨hs, hn⟩ := h
          rw [← hs, ← hn]
          refine ⟨⟨hwf₁, hwf₂, hwf₃⟩, by omega, ?_, fun heos => hr₂ heos⟩
          intro hni
          simp only [videoTagDataDec] at hni
          have := hr₁ hni
          omega
    · obtain ⟨⟨d₄, o₄, stop₄⟩, hstep₄, h⟩ := bind_ok h
      obtain ⟨hr₁, hr₂, hr₃⟩ := tryStep_remaining hstep₄
      simp only [Except.ok.injEq, Prod.mk.injEq] at h
      obtain ⟨hs, hn⟩ := h
      rw [← hs, ← hn]
      refine ⟨⟨hwf₁, hwf.2.1, hwf.2.2⟩, by omega, ?_, fun heos => hr₂ heos⟩
      intro hni
      simp only [videoTagDataDec] at hni
      have := hr₁ hni
      omega

/-- Characterization of a successful script-data payload decode step. -/
theorem script_decode_props (s : RemainingState) (buf : List Nat) (eos : Bool)
    (s' : RemainingState) (n : Nat)
    (h : scriptDataTagDataDec.decode s buf eos = .ok (s', n)) :
    n ≤ buf.length ∧
      (scriptDataTagDataDec.isIdle s' = false → n = buf.length) ∧
      (eos = true → scriptDataTagDataDec.isIdle s' = true) := by
  refine ⟨remainingOk.consume_le _ _ _ _ _ h, ?_, ?_⟩
  · exact remainingOk.consumes_all _ _ _ _ _ trivial h
  · intro heos
    subst heos
    exact remainingEosIdle _ _ _ _ trivial h

/-- Characterization of a successful payload-dispatch decode step. -/
theorem tagData_decode_props (s : TagDataDecoder) (buf : List Nat) (eos : Bool)
    (s' : TagDataDecoder) (n : Nat) (hwf : TagDataWF s)
    (h : tagDataDec.decode s buf eos = .ok (s', n)) :
    TagDataWF s' ∧ n ≤ buf.length ∧
      (tagDataDec.isIdle s' = false → n = buf.length) ∧
      (eos = true → tagDataDec.isIdle s' = true) := by
  unfold tagDataDec at h
  simp only at h
  cases s with
  | audio d =>
    obtain ⟨⟨d', m⟩, hd1, h⟩ := bind_ok h
    simp only [Except.ok.injEq, Prod.mk.injEq] at h
    obtain ⟨hs, hn⟩ := h
    subst hn
    rw [← hs]
    obtain ⟨hw, hle, hall, heos⟩ := audio_decode_props _ _ _ _ _ hwf hd1
    exact ⟨hw, hle, hall, heos⟩
  | video d =>
    obtain ⟨⟨d', m⟩, hd1, h⟩ := bind_ok h
    simp only [Except.ok.injEq, Prod.mk.injEq] at h
    obtain ⟨hs, hn⟩ := h
    subst hn
    rw [← hs]
    obtain ⟨hw, hle, hall, heos⟩ := video_decode_props _ _ _ _ _ hwf hd1
    exact ⟨hw, hle, hall, heos⟩
  | scriptData d =>
    obtain ⟨⟨d', m⟩, hd1, h⟩ := bind_ok h
    simp only [Except.ok.injEq, Prod.mk.injEq] at h
    obtain ⟨hs, hn⟩ := h
    subst hn
    rw [← hs]
    obtain ⟨hle, hall, heos⟩ := script_decode_props _ _ _ _ _ hd1
    exact ⟨trivial, hle, hall, heos⟩
  | none => exact absurd h (by simp)

/-- The audio payload decoder never consumes more than offered. -/
theorem audioTagDataDec_le {s : AudioTagDataDecoder} {buf : List Nat} {eos : Bool}
    {s' : AudioTagDataDecoder} {n : Nat}
    (h : audioTagDataDec.decode s buf eos = .ok (s', n)) : n ≤ buf.length := by
  unfold audioTagDataDec at h
  simp only at h
  obtain ⟨⟨h₁, o₁, stop₁⟩, hstep₁, h⟩ := bind_ok h
  have ho₁ := tryStep_o (peekOk u8Ok).toStep hstep₁
  split at h
  · simp only [Except.ok.injEq, Prod.mk.injEq] at h
    omega
  · split at h
    · obtain ⟨⟨a₂, o₂, stop₂⟩, hstep₂, h⟩ := bind_ok h
      have ho₂ := tryStep_o u8Ok.toStep hstep₂
      split at h
      · simp only [Except.ok.injEq, Prod.mk.injEq] at h
        omega
      · obtain ⟨⟨d₃, o₃, stop₃⟩, hstep₃, h⟩ := bind_ok h
        have ho₃ := tryStep_o remainingOk.toStep hstep₃
        simp only [Except.ok.injEq, Prod.mk.injEq] at h
        omega
    · obtain ⟨⟨d₃, o₃, stop₃⟩, hstep₃, h⟩ := bind_ok h
      have ho₃ := tryStep_o remainingOk.toStep hstep₃
      simp only [Except.ok.injEq, Prod.mk.injEq] at h
      omega

/-- The video payload decoder never consumes more than offered. -/
theorem videoTagDataDec_le {s : VideoTagDataDecoder} {buf : List Nat} {eos : Bool}
    {s' : VideoTagDataDecoder} {n : Nat}
    (h : videoTagDataDec.decode s buf eos = .ok (s', n)) : n ≤ buf.length := by
  unfold videoTagDataDec at h
  simp only at h
  obtain ⟨⟨h₁, o₁, stop₁⟩, hstep₁, h⟩ := bind_ok h
  have ho₁ := tryStep_o (peekOk ftcOk).toStep hstep₁
  split at h
  · simp only [Except.ok.injEq, Prod.mk.injEq] at h
    omega
  · split at h
    · obtain ⟨⟨a₂, o₂, stop₂⟩, hstep₂, h⟩ := bind_ok h
      have ho₂ := tryStep_o u8Ok.toStep hstep₂
      split at h
      · simp only [Except.ok.injEq, Prod.mk.injEq] at h
        omega
      · obtain ⟨⟨c₃, o₃, stop₃⟩, hstep₃, h⟩ := bind_ok h
        have ho₃ := tryStep_o u24Ok.toStep hstep₃
        split at h
        · simp only [Except.ok.injEq, Prod.mk.injEq] at h
          omega
        · obtain ⟨⟨d₄, o₄, stop₄⟩, hstep₄, h⟩ := bind_ok h
          have ho₄ := tryStep_o remainingOk.toStep hstep₄
          simp only [Except.ok.injEq, Prod.mk.injEq] at h
          omega
    · obtain ⟨⟨d₄, o₄, stop₄⟩, hstep₄, h⟩ := bind_ok h
      have ho₄ := tryStep_o remainingOk.toStep hstep₄
      simp only [Except.ok.injEq, Prod.mk.injEq] at h
      omega

/-- Decode-side well-behavedness of the payload dispatch. -/
theorem tagDataStepOk : StepOk tagDataDec TagDataWF where
  wf_decode := fun s buf eos s' n hwf h => (tagData_decode_props s buf eos s' n hwf h).1
  consume_le := by
    intro s buf eos s' n h
    unfold tagDataDec at h
    simp only at h
    cases s with
    | audio d =>
      obtain ⟨⟨d', m⟩, hd1, h⟩ := bind_ok h
      simp only [Except.ok.injEq, Prod.mk.injEq] at h
      exact h.2 ▸ (audioTagDataDec_le hd1)
    | video d =>
      obtain ⟨⟨d', m⟩, hd1, h⟩ := bind_ok h
      simp only [Except.ok.injEq, Prod.mk.injEq] at h
      exact h.2 ▸ (videoTagDataDec_le hd1)
    | scriptData d =>
      obtain ⟨⟨d', m⟩, hd1, h⟩ := bind_ok h
      simp only [Except.ok.injEq, Prod.mk.injEq] at h
      exact h.2 ▸ (remainingOk.consume_le _ _ _ _ _ hd1)
    | none => exact absurd h (by simp)
  consumes_all := fun s buf eos s' n hwf h hni =>
    (tagData_decode_props s buf eos s' n hwf h).2.2.1 hni

/-- End-of-stream completion of the payload dispatch. -/
theorem tagDataEosIdle : EosIdle tagDataDec TagDataWF :=
  fun s buf s' n hwf h => (tagData_decode_props s buf true s' n hwf h).2.2.2 rfl

/-- Decode-side well-behavedness of the `Length` combinator, assuming only
decode-side properties of the inner decoder. -/
theorem lengthStepOk {d : Dec σ α} {WF : σ → Prop} (hd : StepOk d WF) (he : EosIdle d WF) :
    StepOk (lengthDec d) (LengthWF d WF) where
  wf_decode := by
    intro s buf eos s' n hwf h
    obtain ⟨i', hdec, hs, hchk⟩ := length_decode_ok h
    subst hs
    exact ⟨hd.wf_decode _ _ _ _ _ hwf.1 hdec, by intro hi; by_contra hr; exact hchk ⟨hi, hr⟩⟩
  consume_le := by
    intro s buf eos s' n h
    obtain ⟨i', hdec, hs, hchk⟩ := length_decode_ok h
    have := hd.consume_le _ _ _ _ _ hdec
    simp only [List.length_take] at this
    omega
  consumes_all := by
    intro s buf eos s' n hwf h hni
    obtain ⟨i', hdec, hs, hchk⟩ := length_decode_ok h
    subst hs
    simp only [lengthDec, Bool.and_eq_false_iff] at hni
    by_cases hbf : buf.length ≤ s.remaining
    · have hmin : min buf.length s.remaining = buf.length := by omega
      rw [hmin] at hdec
      simp only [List.take_length] at hdec
      by_cases hii : d.isIdle i' = true
      · have hr0 : s.remaining - n = 0 := by
          by_contra hr
          exact hchk ⟨hii, hr⟩
        have := hd.consume_le _ _ _ _ _ hdec
        rcases hni with hni | hni
        · simp only [decide_eq_false_iff_not] at hni
          omega
        · rw [hii] at hni
          exact absurd hni (by simp)
      · exact hd.consumes_all _ _ _ _ _ hwf.1 hdec (by simpa using hii)
    · have hmin : min buf.length s.remaining = s.remaining := by omega
      rw [hmin] at hdec
      simp only [decide_eq_true_eq] at hdec
      have hii := he _ _ _ _ hwf.1 (by simpa using hdec)
      have hr0 : s.remaining - n = 0 := by
        by_contra hr
        exact hchk ⟨hii, hr⟩
      rcases hni with hni | hni
      · have := hd.consume_le _ _ _ _ _ hdec
        simp only [List.length_take] at this
        simp only [decide_eq_false_iff_not] at hni
        omega
      · rw [hii] at hni
        exact absurd hni (by simp)

/-- The length-limited payload decoder of one tag. -/
def tagDataLenDec : Dec (LengthState TagDataDecoder) TagData := lengthDec tagDataDec

/-- Decode-side well-behavedness of the length-limited payload decoder. -/
theorem tagDataLenStepOk : StepOk (lengthDec tagDataDec) (LengthWF tagDataDec TagDataWF) :=
  lengthStepOk tagDataStepOk tagDataEosIdle

/-- Characterization of a successful tag decode step. -/
theorem tag_decode_props (s : TagDecoder) (buf : List Nat) (eos : Bool)
    (s' : TagDecoder) (n : Nat) (hwf : TagWF s)
    (h : tagDec.decode s buf eos = .ok (s', n)) :
    TagWF s' ∧ n ≤ buf.length ∧ (tagDec.isIdle s' = false → n = buf.length) := by
  have hpOk : StepOk (peekDec tagHeaderDec) (PeekWF tagHeaderDec TagHeaderBufsWF) :=
    (peekOk tagHeaderOk).toStep
  unfold tagDec at h
  simp only at h
  split at h
  · rename_i hhi
    obtain ⟨⟨d₁, o₁, st₁⟩, hstep₁, h⟩ := bind_ok h
    simp only [Except.ok.injEq, Prod.mk.injEq] at h
    obtain ⟨hs, hn⟩ := h
    rw [← hs, ← hn]
    have hlwf := hwf.2 hhi
    have hwl := tryStep_wf tagDataLenStepOk hlwf hstep₁
    have hol := tryStep_o tagDataLenStepOk hstep₁
    refine ⟨⟨hwf.1, fun _ => hwl⟩, by omega, ?_⟩
    intro hni
    simp only [tagDec, hhi, Bool.true_and] at hni
    rcases tryStep_ok hstep₁ with ⟨hi, hds, ho, -⟩ | ⟨hi, m, hdec, hom, -⟩
    · rw [hds] at hni
      rw [hi] at hni
      exact absurd hni (by simp)
    · have := tagDataLenStepOk.consumes_all _ _ _ _ _ hlwf hdec hni
      simp only [List.length_drop] at this
      have := tagDataLenStepOk.consume_le _ _ _ _ _ hdec
      omega
  · rename_i hhi
    obtain ⟨⟨h₁, o₁, stop₁⟩, hstep₁, h⟩ := bind_ok h
    have hwf₁ := tryStep_wf hpOk hwf.1 hstep₁
    have ho₁ := tryStep_o hpOk hstep₁
    split at h
    · rename_i hst₁
      simp only at hst₁
      subst hst₁
      simp only [Except.ok.injEq, Prod.mk.injEq] at h
      obtain ⟨hs, hn⟩ := h
      rw [← hs, ← hn]
      obtain ⟨hni₁, ho₁'⟩ := tryStep_true hpOk hwf.1 hstep₁
      refine ⟨⟨hwf₁, fun hi => absurd hi (by rw [hni₁]; simp)⟩, by omega, fun _ => by omega⟩
    · rename_i hst₁
      simp only at hst₁
      have hio₁ : (peekDec tagHeaderDec).isIdle h₁ = true := by
        rcases tryStep_ok hstep₁ with ⟨hi, hs, -, -⟩ | ⟨-, m, hdec, -, hst⟩
        · exact hs ▸ hi
        · cases hi : (peekDec tagHeaderDec).isIdle h₁ with
          | true => rfl
          | false =>
            rw [hi] at hst
            simp only [Bool.not_false] at hst
            exact absurd hst hst₁
      split at h
      · exact absurd h (by simp)
      · rename_i hd hitem
        obtain ⟨⟨d₂, o₂, st₂⟩, hstep₂, h⟩ := bind_ok h
        simp only [Except.ok.injEq, Prod.mk.injEq] at h
        obtain ⟨hs, hn⟩ := h
        rw [← hs, ← hn]
        have hfreshwf : LengthWF tagDataDec TagDataWF
            ⟨TagDataDecoder.forType hd.tag_type, hd.data_size, hd.data_size⟩ := by
          constructor
          · cases hd.tag_type <;> simp [TagDataDecoder.forType, TagDataWF, AudioWF, VideoWF,
              PeekWF, CopyWF, AudioTagDataDecoder.init, VideoTagDataDecoder.init,
              u8Dec, mapDec, copyDec, frameTypeAndCodecDec, peekDec]
          · intro hi
            cases ht : hd.tag_type <;> rw [ht] at hi <;>
              simp [TagDataDecoder.forType, tagDataDec, audioTagDataDec, videoTagDataDec,
                scriptDataTagDataDec, mapDec, remainingDec, AudioTagDataDecoder.init,
                VideoTagDataDecoder.init] at hi
        have hwl := tryStep_wf tagDataLenStepOk hfreshwf hstep₂
        have hol := tryStep_o tagDataLenStepOk hstep₂
        refine ⟨⟨hwf₁, fun _ => hwl⟩, by omega, ?_⟩
        intro hni
        simp only [tagDec] at hni
        rw [hio₁, Bool.true_and] at hni
        rcases tryStep_ok hstep₂ with ⟨hi, hds, ho, -⟩ | ⟨hi, m, hdec, hom, -⟩
        · rw [hds] at hni
          rw [hi] at hni
          exact absurd hni (by simp)
        · have := tagDataLenStepOk.consumes_all _ _ _ _ _ hfreshwf hdec hni
          simp only [List.length_drop] at this
          omega

/-- A finished tag decoder keeps its invariant and is reset to non-idle. -/
theorem tag_finish_props (s s' : TagDecoder) (t : Tag) (hwf : TagWF s)
    (h : tagDec.finish s = .ok (s', t)) : TagWF s' ∧ tagDec.isIdle s' = false := by
  unfold tagDec at h
  simp only at h
  obtain ⟨⟨h', hd⟩, hf1, h⟩ := bind_ok h
  obtain ⟨⟨d', data⟩, hf2, h⟩ := bind_ok h
  simp only [Except.ok.injEq, Prod.mk.injEq] at h
  obtain ⟨hs, -⟩ := h
  rw [← hs]
  have hw := (peekOk tagHeaderOk).wf_finish _ _ _ hwf.1 hf1
  have hfr := (peekOk tagHeaderOk).fresh_finish _ _ _ hwf.1 hf1
  refine ⟨⟨hw, fun hi => absurd hi (by rw [hfr]; simp)⟩, ?_⟩
  simp only [tagDec]
  rw [hfr]
  simp

/-- Full well-behavedness of the tag decoder. -/
theorem tagOk : DecOk tagDec TagWF where
  wf_decode := fun s buf eos s' n hwf h => (tag_decode_props s buf eos s' n hwf h).1
  wf_finish := fun s s' a hwf h => (tag_finish_props s s' a hwf h).1
  fresh_finish := fun s s' a hwf h => (tag_finish_props s s' a hwf h).2
  consume_le := by
    intro s buf eos s' n h
    unfold tagDec at h
    simp only at h
    split at h
    · obtain ⟨⟨d₁, o₁, st₁⟩, hstep₁, h⟩ := bind_ok h
      have := tryStep_o tagDataLenStepOk hstep₁
      simp only [Except.ok.injEq, Prod.mk.injEq] at h
      omega
    · obtain ⟨⟨h₁, o₁, stop₁⟩, hstep₁, h⟩ := bind_ok h
      have ho₁ := tryStep_o (peekOk tagHeaderOk).toStep hstep₁
      split at h
      · simp only [Except.ok.injEq, Prod.mk.injEq] at h
        omega
      · split at h
        · exact absurd h (by simp)
        · obtain ⟨⟨d₂, o₂, st₂⟩, hstep₂, h⟩ := bind_ok h
          have := tryStep_o tagDataLenStepOk hstep₂
          simp only [Except.ok.injEq, Prod.mk.injEq] at h
          omega
  consumes_all := fun s buf eos s' n hwf h hni => (tag_decode_props s buf eos s' n hwf h).2.2 hni

/-- Full well-behavedness of the length-limited padding skipper. -/
theorem padLenOk : DecOk (lengthDec paddingDec) (LengthWF paddingDec (fun _ => True)) :=
  lengthOk paddingOk paddingEosIdle

/-- Characterization of a successful file-header decode step. -/
theorem header_decode_props (s : HeaderDecoder) (buf : List Nat) (eos : Bool)
    (s' : HeaderDecoder) (n : Nat) (hwf : HeaderWF s)
    (h : headerDec.decode s buf eos = .ok (s', n)) :
    HeaderWF s' ∧ n ≤ buf.length ∧ (headerDec.isIdle s' = false → n = buf.length) := by
  have hc3 := (copyOk 3 (by omega)).toStep
  have hpu32 := (peekOk u32Ok).toStep
  obtain ⟨w1, w2, w3, w4, w5, w6⟩ := hwf
  unfold headerDec at h
  simp only at h
  obtain ⟨⟨sg, o₁, stop₁⟩, hstep₁, h⟩ := bind_ok h
  have hwsg := tryStep_wf hc3 w1 hstep₁
  have ho₁ := tryStep_o hc3 hstep₁
  split at h
  · rename_i hst₁
    simp only at hst₁
    subst hst₁
    simp only [Except.ok.injEq, Prod.mk.injEq] at h
    obtain ⟨hs, hn⟩ := h
    rw [← hs, ← hn]
    obtain ⟨hni₁, ho₁'⟩ := tryStep_true hc3 w1 hstep₁
    refine ⟨⟨hwsg, w2, w3, w4, w5, w6⟩, by omega, ?_⟩
    intro _
    omega
  · rename_i hst₁
    simp only at hst₁
    obtain ⟨⟨v, o₂, stop₂⟩, hstep₂, h⟩ := bind_ok h
    have hwv := tryStep_wf u8Ok.toStep w2 hstep₂
    have ho₂ := tryStep_o u8Ok.toStep hstep₂
    split at h
    · rename_i hst₂
      simp only at hst₂
      subst hst₂
      simp only [Except.ok.injEq, Prod.mk.injEq] at h
      obtain ⟨hs, hn⟩ := h
      rw [← hs, ← hn]
      obtain ⟨hni₂, ho₂'⟩ := tryStep_true u8Ok.toStep w2 hstep₂
      refine ⟨⟨hwsg, hwv, w3, w4, w5, w6⟩, by omega, fun _ => by omega⟩
    · rename_i hst₂
      simp only at hst₂
      obtain ⟨⟨f, o₃, stop₃⟩, hstep₃, h⟩ := bind_ok h
      have hwf3 := tryStep_wf u8Ok.toStep w3 hstep₃
      have ho₃ := tryStep_o u8Ok.toStep hstep₃
      split at h
      · rename_i hst₃
        simp only at hst₃
        subst hst₃
        simp only [Except.ok.injEq, Prod.mk.injEq] at h
        obtain ⟨hs, hn⟩ := h
        rw [← hs, ← hn]
        obtain ⟨hni₃, ho₃'⟩ := tryStep_true u8Ok.toStep w3 hstep₃
        refine ⟨⟨hwsg, hwv, hwf3, w4, w5, w6⟩, by omega, fun _ => by omega⟩
      · rename_i hst₃
        simp only at hst₃
        split at h
        · rename_i hdoi
          obtain ⟨⟨p, o₅, stop₅⟩, hstep₅, h⟩ := bind_ok h
          have hwp := tryStep_wf padLenOk.toStep w5 hstep₅
          have ho₅ := tryStep_o padLenOk.toStep hstep₅
          simp only [Except.ok.injEq, Prod.mk.injEq] at h
          obtain ⟨hs, hn⟩ := h
          rw [← hs, ← hn]
          refine ⟨⟨hwsg, hwv, hwf3, w4, hwp, fun hni => absurd hni (by rw [hdoi]; simp)⟩,
            by omega, ?_⟩
          intro hni
          simp only [headerDec, hdoi] at hni
          have hb₁ : stop₁ = false := by simpa using hst₁
          have hb₂ : stop₂ = false := by simpa using hst₂
          have hb₃ : stop₃ = false := by simpa using hst₃
          have hsig : (copyDec 3).isIdle sg = true := tryStep_false (hb₁ ▸ hstep₁)
          have hver : u8Dec.isIdle v = true := tryStep_false (hb₂ ▸ hstep₂)
          have hfl : u8Dec.isIdle f = true := tryStep_false (hb₃ ▸ hstep₃)
          rw [hsig, hver, hfl] at hni
          simp only [Bool.true_and] at hni
          rcases tryStep_ok hstep₅ with ⟨hi, hds, ho, -⟩ | ⟨hi, m, hdec, hom, -⟩
          · rw [hds] at hni
            rw [hi] at hni
            exact absurd hni (by simp)
          · have := padLenOk.consumes_all _ _ _ _ _ w5 hdec hni
            simp only [List.length_drop] at this
            omega
        · rename_i hdoi
          obtain ⟨⟨df, o₄, stop₄⟩, hstep₄, h⟩ := bind_ok h
          have hwdf := tryStep_wf hpu32 w4 hstep₄
          have ho₄ := tryStep_o hpu32 hstep₄
          split at h
          · rename_i hst₄
            simp only at hst₄
            subst hst₄
            simp only [Except.ok.injEq, Prod.mk.injEq] at h
            obtain ⟨hs, hn⟩ := h
            rw [← hs, ← hn]
            obtain ⟨hni₄, ho₄'⟩ := tryStep_true hpu32 w4 hstep₄
            refine ⟨⟨hwsg, hwv, hwf3, hwdf, w5, fun _ => w6 (by simpa using hdoi)⟩,
              by omega, fun _ => by omega⟩
          · rename_i hst₄
            simp only at hst₄
            have hio₄ : (peekDec u32Dec).isIdle df = true := by
              rcases tryStep_ok hstep₄ with ⟨hi, hs, -, -⟩ | ⟨-, m, hdec, -, hst⟩
              · exact hs ▸ hi
              · cases hi : (peekDec u32Dec).isIdle df with
                | true => rfl
                | false =>
                  rw [hi] at hst
                  simp only [Bool.not_false] at hst
                  exact absurd hst hst₄
            split at h
            · exact absurd h (by simp)
            · rename_i off hoff
              split at h
              · exact absurd h (by simp)
              · rename_i hoff9
                obtain ⟨⟨p, o₅, stop₅⟩, hstep₅, h⟩ := bind_ok h
                have hpadfresh : s.padding = ⟨false, 0, 0⟩ := w6 (by simpa using hdoi)
                have hwfresh : LengthWF paddingDec (fun _ => True)
                    (s.padding.set_expected_bytes (off - 9)) := by
                  rw [hpadfresh]
                  refine ⟨trivial, ?_⟩
                  intro hi
                  simp [LengthState.set_expected_bytes, paddingDec] at hi
                have hwp := tryStep_wf padLenOk.toStep hwfresh hstep₅
                have ho₅ := tryStep_o padLenOk.toStep hstep₅
                simp only [Except.ok.injEq, Prod.mk.injEq] at h
                obtain ⟨hs, hn⟩ := h
                rw [← hs, ← hn]
                refine ⟨⟨hwsg, hwv, hwf3, hwdf, hwp,
                  fun hni => absurd hni (by rw [hio₄]; simp)⟩, by omega, ?_⟩
                intro hni
                simp only [headerDec] at hni
                have hb₁ : stop₁ = false := by simpa using hst₁
                have hb₂ : stop₂ = false := by simpa using hst₂
                have hb₃ : stop₃ = false := by simpa using hst₃
                have hsig : (copyDec 3).isIdle sg = true := tryStep_false (hb₁ ▸ hstep₁)
                have hver : u8Dec.isIdle v = true := tryStep_false (hb₂ ▸ hstep₂)
                have hfl : u8Dec.isIdle f = true := tryStep_false (hb₃ ▸ hstep₃)
                rw [hsig, hver, hfl, hio₄] at hni
                simp only [Bool.true_and] at hni
                rcases tryStep_ok hstep₅ with ⟨hi, hds, ho, -⟩ | ⟨hi, m, hdec, hom, -⟩
                · rw [hds] at hni
                  rw [hi] at hni
                  exact absurd hni (by simp)
                · have := padLenOk.consumes_all _ _ _ _ _ hwfresh hdec hni
                  simp only [List.length_drop] at this
                  omega

/-- A finished file-header decoder keeps its invariant and resets to
non-idle. -/
theorem header_finish_props (s s' : HeaderDecoder) (hd : Header) (hwf : HeaderWF s)
    (h : headerDec.finish s = .ok (s', hd)) : HeaderWF s' ∧ headerDec.isIdle s' = false := by
  obtain ⟨w1, w2, w3, w4, w5, w6⟩ := hwf
  unfold headerDec at h
  simp only at h
  obtain ⟨⟨sg', sig⟩, hf1, h⟩ := bind_ok h
  split at h
  · exact absurd h (by simp)
  · obtain ⟨⟨v', ver⟩, hf2, h⟩ := bind_ok h
    split at h
    · exact absurd h (by simp)
    · obtain ⟨⟨f', fl⟩, hf3, h⟩ := bind_ok h
      simp only [Except.ok.injEq, Prod.mk.injEq] at h
      obtain ⟨hs, -⟩ := h
      rw [← hs]
      have hsg : sg' = [] := by
        unfold copyDec at hf1
        simp only at hf1
        split at hf1
        · simp only [Except.ok.injEq, Prod.mk.injEq] at hf1
          exact hf1.1.symm
        · exact absurd hf1 (by simp)
      have hv : v' = [] := by
        unfold u8Dec mapDec copyDec at hf2
        simp only at hf2
        obtain ⟨⟨v₁, l⟩, hff, hf2⟩ := bind_ok hf2
        obtain ⟨b, hb, hf2⟩ := bind_ok hf2
        simp only [Except.ok.injEq, Prod.mk.injEq] at hf2
        split at hff
        · simp only [Except.ok.injEq, Prod.mk.injEq] at hff
          rw [← hf2.1, ← hff.1]
        · exact absurd hff (by simp)
      have hfl : f' = [] := by
        unfold u8Dec mapDec copyDec at hf3
        simp only at hf3
        obtain ⟨⟨f₁, l⟩, hff, hf3⟩ := bind_ok hf3
        obtain ⟨b, hb, hf3⟩ := bind_ok hf3
        simp only [Except.ok.injEq, Prod.mk.injEq] at hf3
        split at hff
        · simp only [Except.ok.injEq, Prod.mk.injEq] at hff
          rw [← hf3.1, ← hff.1]
        · exact absurd hff (by simp)
      have hdf : PeekWF u32Dec (CopyWF 4)
          (match (peekDec u32Dec).finish s.data_offset with
            | .ok (st, _) => st
            | .error _ => s.data_offset) := by
        split
        · rename_i st v hok
          exact (peekOk u32Ok).wf_finish _ _ _ w4 hok
        · exact w4
      have hpd : (match (lengthDec paddingDec).finish s.padding with
            | .ok (st, _) => st
            | .error _ => s.padding).inner = false := by
        split
        · rename_i st v hok
          unfold lengthDec at hok
          simp only at hok
          split at hok
          · exact absurd hok (by simp)
          · obtain ⟨⟨i₁, a₁⟩, hfp, hok⟩ := bind_ok hok
            simp only [Except.ok.injEq, Prod.mk.injEq] at hok
            rw [← hok.1]
            unfold paddingDec at hfp
            simp only [Except.ok.injEq, Prod.mk.injEq] at hfp
            exact hfp.1.symm
        · rename_i herr
          by_cases hpi : s.padding.inner = true
          · exfalso
            have hrem : s.padding.remaining = 0 := w5.2 (by simpa [paddingDec] using hpi)
            unfold lengthDec at herr
            simp only [hrem] at herr
            simp [paddingDec, Bind.bind, Except.bind] at herr
          · simpa using hpi
      refine ⟨⟨?_, ?_, ?_, hdf, ?_, ?_⟩, ?_⟩
      · simp [hsg, CopyWF]
      · simp [hv, CopyWF]
      · simp [hfl, CopyWF]
      · exact ⟨trivial, fun _ => rfl⟩
      · intro _
        simp only [LengthState.set_expected_bytes]
        rw [hpd]
      · simp only [headerDec, hsg]
        simp [copyDec]

/-- The file-header decoder never consumes more than offered. -/
theorem headerDec_le {s : HeaderDecoder} {buf : List Nat} {eos : Bool}
    {s' : HeaderDecoder} {n : Nat}
    (h : headerDec.decode s buf eos = .ok (s', n)) : n ≤ buf.length := by
  unfold headerDec at h
  simp only at h
  obtain ⟨⟨sg, o₁, stop₁⟩, hstep₁, h⟩ := bind_ok h
  have ho₁ := tryStep_o (copyOk 3 (by omega)).toStep hstep₁
  split at h
  · simp only [Except.ok.injEq, Prod.mk.injEq] at h
    omega
  · obtain ⟨⟨v, o₂, stop₂⟩, hstep₂, h⟩ := bind_ok h
    have ho₂ := tryStep_o u8Ok.toStep hstep₂
    split at h
    · simp only [Except.ok.injEq, Prod.mk.injEq] at h
      omega
    · obtain ⟨⟨f, o₃, stop₃⟩, hstep₃, h⟩ := bind_ok h
      have ho₃ := tryStep_o u8Ok.toStep hstep₃
      split at h
      · simp only [Except.ok.injEq, Prod.mk.injEq] at h
        omega
      · split at h
        · obtain ⟨⟨p, o₅, stop₅⟩, hstep₅, h⟩ := bind_ok h
          have ho₅ := tryStep_o padLenOk.toStep hstep₅
          simp only [Except.ok.injEq, Prod.mk.injEq] at h
          omega
        · obtain ⟨⟨df, o₄, stop₄⟩, hstep₄, h⟩ := bind_ok h
          have ho₄ := tryStep_o (peekOk u32Ok).toStep hstep₄
          split at h
          · simp only [Except.ok.injEq, Prod.mk.injEq] at h
            omega
          · split at h
            · exact absurd h (by simp)
            · split at h
              · exact absurd h (by simp)
              · obtain ⟨⟨p, o₅, stop₅⟩, hstep₅, h⟩ := bind_ok h
                have ho₅ := tryStep_o padLenOk.toStep hstep₅
                simp only [Except.ok.injEq, Prod.mk.injEq] at h
                omega

/-- Full well-behavedness of the file-header decoder. -/
theorem headerOk : DecOk headerDec HeaderWF where
  wf_decode := fun s buf eos s' n hwf h => (header_decode_props s buf eos s' n hwf h).1
  wf_finish := fun s s' a hwf h => (header_finish_props s s' a hwf h).1
  fresh_finish := fun s s' a hwf h => (header_finish_props s s' a hwf h).2
  consume_le := fun s buf eos s' n h => headerDec_le h
  consumes_all := fun s buf eos s' n hwf h hni => (header_decode_props s buf eos s' n hwf h).2.2 hni

/-- Well-behavedness of the peekable (file header, first previous-tag-size)
pair. -/
theorem fileHeaderOk :
    DecOk fileHeaderDec (PeekWF (tupleDec headerDec u32Dec) (TupleWF HeaderWF (CopyWF 4))) :=
  peekOk (tupleOk headerOk u32Ok)

/-- Well-behavedness of the end-of-stream tolerant tag decoder. -/
theorem maybeTagOk : DecOk (maybeEosDec tagDec) (fun s => TagWF s.inner) := maybeEosOk tagOk

/-- Characterization of a successful file decode step. -/
theorem file_decode_props (s : FileDecoder) (buf : List Nat) (eos : Bool)
    (s' : FileDecoder) (n : Nat) (hwf : FileWF s)
    (h : fileDec.decode s buf eos = .ok (s', n)) :
    FileWF s' ∧ n ≤ buf.length ∧ (fileDec.isIdle s' = false → n = buf.length) := by
  obtain ⟨w1, w2, w3⟩ := hwf
  unfold fileDec at h
  simp only at h
  split at h
  · rename_i hhi
    obtain ⟨⟨t, o₂, stop₂⟩, hstep₂, h⟩ := bind_ok h
    have hwt := tryStep_wf maybeTagOk.toStep w2 hstep₂
    have ho₂ := tryStep_o maybeTagOk.toStep hstep₂
    split at h
    · rename_i hst₂
      simp only at hst₂
      subst hst₂
      simp only [Except.ok.injEq, Prod.mk.injEq] at h
      obtain ⟨hs, hn⟩ := h
      rw [← hs, ← hn]
      obtain ⟨hni₂, ho₂'⟩ := tryStep_true maybeTagOk.toStep w2 hstep₂
      refine ⟨⟨w1, hwt, w3⟩, by omega, fun _ => by omega⟩
    · rename_i hst₂
      simp only at hst₂
      obtain ⟨⟨p, o₃, stop₃⟩, hstep₃, h⟩ := bind_ok h
      have hwp := tryStep_wf u32Ok.toStep w3 hstep₃
      have ho₃ := tryStep_o u32Ok.toStep hstep₃
      simp only [Except.ok.injEq, Prod.mk.injEq] at h
      obtain ⟨hs, hn⟩ := h
      rw [← hs, ← hn]
      refine ⟨⟨w1, hwt, hwp⟩, by omega, ?_⟩
      intro hni
      simp only [fileDec] at hni
      have hb₂ : stop₂ = false := by simpa using hst₂
      have hti : (maybeEosDec tagDec).isIdle t = true := tryStep_false (hb₂ ▸ hstep₂)
      rw [hti, Bool.true_and] at hni
      rcases tryStep_ok hstep₃ with ⟨hi, hds, ho, -⟩ | ⟨hi, m, hdec, hom, -⟩
      · rw [hds] at hni
        rw [hi] at hni
        exact absurd hni (by simp)
      · have := u32Ok.consumes_all _ _ _ _ _ w3 hdec hni
        simp only [List.length_drop] at this
        omega
  · rename_i hhi
    obtain ⟨⟨hh, o₁, stop₁⟩, hstep₁, h⟩ := bind_ok h
    have hwh := tryStep_wf fileHeaderOk.toStep w1 hstep₁
    have ho₁ := tryStep_o fileHeaderOk.toStep hstep₁
    split at h
    · rename_i hst₁
      simp only at hst₁
      subst hst₁
      simp only [Except.ok.injEq, Prod.mk.injEq] at h
      obtain ⟨hs, hn⟩ := h
      rw [← hs, ← hn]
      obtain ⟨hni₁, ho₁'⟩ := tryStep_true fileHeaderOk.toStep w1 hstep₁
      refine ⟨⟨hwh, w2, w3⟩, by omega, fun _ => by omega⟩
    · rename_i hst₁
      simp only at hst₁
      split at h
      · exact absurd h (by simp)
      · obtain ⟨⟨t, o₂, stop₂⟩, hstep₂, h⟩ := bind_ok h
        have hwt := tryStep_wf maybeTagOk.toStep w2 hstep₂
        have ho₂ := tryStep_o maybeTagOk.toStep hstep₂
        split at h
        · rename_i hst₂
          simp only at hst₂
          subst hst₂
          simp only [Except.ok.injEq, Prod.mk.injEq] at h
          obtain ⟨hs, hn⟩ := h
          rw [← hs, ← hn]
          obtain ⟨hni₂, ho₂'⟩ := tryStep_true maybeTagOk.toStep w2 hstep₂
          refine ⟨⟨hwh, hwt, w3⟩, by omega, fun _ => by omega⟩
        · rename_i hst₂
          simp only at hst₂
          obtain ⟨⟨p, o₃, stop₃⟩, hstep₃, h⟩ := bind_ok h
          have hwp := tryStep_wf u32Ok.toStep w3 hstep₃
          have ho₃ := tryStep_o u32Ok.toStep hstep₃
          simp only [Except.ok.injEq, Prod.mk.injEq] at h
          obtain ⟨hs, hn⟩ := h
          rw [← hs, ← hn]
          refine ⟨⟨hwh, hwt, hwp⟩, by omega, ?_⟩
          intro hni
          simp only [fileDec] at hni
          have hb₂ : stop₂ = false := by simpa using hst₂
          have hti : (maybeEosDec tagDec).isIdle t = true := tryStep_false (hb₂ ▸ hstep₂)
          rw [hti, Bool.true_and] at hni
          rcases tryStep_ok hstep₃ with ⟨hi, hds, ho, -⟩ | ⟨hi, m, hdec, hom, -⟩
          · rw [hds] at hni
            rw [hi] at hni
            exact absurd hni (by simp)
          · have := u32Ok.consumes_all _ _ _ _ _ w3 hdec hni
            simp only [List.length_drop] at this
            omega

/-- A finished file decoder keeps its invariant and is reset to non-idle. -/
theorem file_finish_props (s s' : FileDecoder) (t : Tag) (hwf : FileWF s)
    (h : fileDec.finish s = .ok (s', t)) : FileWF s' ∧ fileDec.isIdle s' = false := by
  unfold fileDec at h
  simp only at h
  obtain ⟨⟨t', tag⟩, hf1, h⟩ := bind_ok h
  obtain ⟨⟨p', pts⟩, hf2, h⟩ := bind_ok h
  split at h
  · exact absurd h (by simp)
  · simp only [Except.ok.injEq, Prod.mk.injEq] at h
    obtain ⟨hs, -⟩ := h
    rw [← hs]
    have hwt := maybeTagOk.wf_finish _ _ _ hwf.2.1 hf1
    have hfr := maybeTagOk.fresh_finish _ _ _ hwf.2.1 hf1
    refine ⟨⟨hwf.1, hwt, u32Ok.wf_finish _ _ _ hwf.2.2 hf2⟩, ?_⟩
    simp only [fileDec]
    rw [hfr]
    simp

/-- Decode-side well-behavedness of the file decoder. -/
theorem fileStepOk : StepOk fileDec FileWF where
  wf_decode := fun s buf eos s' n hwf h => (file_decode_props s buf eos s' n hwf h).1
  consume_le := by
    intro s buf eos s' n h
    unfold fileDec at h
    simp only at h
    split at h
    · obtain ⟨⟨t, o₂, stop₂⟩, hstep₂, h⟩ := bind_ok h
      have ho₂ := tryStep_o maybeTagOk.toStep hstep₂
      split at h
      · simp only [Except.ok.injEq, Prod.mk.injEq] at h
        omega
      · obtain ⟨⟨p, o₃, stop₃⟩, hstep₃, h⟩ := bind_ok h
        have ho₃ := tryStep_o u32Ok.toStep hstep₃
        simp only [Except.ok.injEq, Prod.mk.injEq] at h
        omega
    · obtain ⟨⟨hh, o₁, stop₁⟩, hstep₁, h⟩ := bind_ok h
      have ho₁ := tryStep_o fileHeaderOk.toStep hstep₁
      split at h
      · simp only [Except.ok.injEq, Prod.mk.injEq] at h
        omega
      · split at h
        · exact absurd h (by simp)
        · obtain ⟨⟨t, o₂, stop₂⟩, hstep₂, h⟩ := bind_ok h
          have ho₂ := tryStep_o maybeTagOk.toStep hstep₂
          split at h
          · simp only [Except.ok.injEq, Prod.mk.injEq] at h
            omega
          · obtain ⟨⟨p, o₃, stop₃⟩, hstep₃, h⟩ := bind_ok h
            have ho₃ := tryStep_o u32Ok.toStep hstep₃
            simp only [Except.ok.injEq, Prod.mk.injEq] at h
            omega
  consumes_all := fun s buf eos s' n hwf h hni => (file_decode_props s buf eos s' n hwf h).2.2 hni

/-- The fresh tag decoder satisfies its invariant. -/
theorem tagWF_init : TagWF TagDecoder.init := by
  refine ⟨⟨by decide, by decide⟩, ?_⟩
  intro hi
  exact absurd hi (by decide)

/-- The fresh file decoder satisfies its invariant. -/
theorem fileWF_init : FileWF FileDecoder.init := by
  refine ⟨⟨⟨⟨by decide, by decide, by decide, ⟨by decide, by decide⟩,
    ⟨trivial, fun _ => rfl⟩, fun _ => rfl⟩, by decide⟩, by decide⟩, tagWF_init, by decide⟩

/-- Every item emitted by the driving loop satisfies any property that
`finish` guarantees on invariant-respecting states. -/
theorem runDec_items {d : Dec σ α} {WF : σ → Prop} {P : α → Prop}
    (hdec : ∀ s buf eos s' n, WF s → d.decode s buf eos = .ok (s', n) → WF s')
    (hfin : ∀ s s' a, WF s → d.finish s = .ok (s', a) → P a ∧ WF s') :
    ∀ fuel s bs eos sf items left, WF s →
      runDec d fuel s bs eos = some (.ok (sf, items, left)) →
      ∀ a ∈ items, P a := by
  intro fuel
  induction fuel with
  | zero => intro s bs eos sf items left _ h; simp [runDec] at h
  | succ k ih =>
    intro s bs eos sf items left hwf h
    unfold runDec at h
    cases hd : d.decode s bs eos with
    | error e => rw [hd] at h; simp at h
    | ok p =>
      rw [hd] at h
      obtain ⟨s₁, n⟩ := p
      simp only at h
      have hwf₁ := hdec _ _ _ _ _ hwf hd
      split at h
      · cases hf : d.finish s₁ with
        | error e => rw [hf] at h; simp at h
        | ok q =>
          rw [hf] at h
          obtain ⟨s₂, a⟩ := q
          simp only at h
          obtain ⟨hPa, hwf₂⟩ := hfin _ _ _ hwf₁ hf
          cases hr : runDec d k s₂ (bs.drop n) eos with
          | none => rw [hr] at h; simp at h
          | some r =>
            rw [hr] at h
            cases r with
            | error e => simp at h
            | ok t =>
              obtain ⟨sf', items', left'⟩ := t
              simp only [Option.some.injEq, Except.ok.injEq, Prod.mk.injEq] at h
              obtain ⟨-, hitems, -⟩ := h
              intro a' ha'
              rw [← hitems] at ha'
              rcases List.mem_cons.mp ha' with rfl | hmem
              · exact hPa
              · exact ih _ _ _ _ _ _ hwf₂ hr a' hmem
      · simp only [Option.some.injEq, Except.ok.injEq, Prod.mk.injEq] at h
        obtain ⟨-, hitems, -⟩ := h
        intro a' ha'
        rw [← hitems] at ha'
        simp at ha'

/-- An incomplete byte buffer cannot be finished. -/
theorem copy_finish_err {n : Nat} {s : List Nat} (h : s.length ≠ n) :
    (copyDec n).finish s = .error .incompleteDecoding := by
  unfold copyDec
  simp [h]

/-- The peeked frame-type/codec pair is present whenever the video payload
decoder finishes successfully from an invariant-respecting state. -/
theorem video_finish_item (s : VideoTagDataDecoder) (hwf : VideoWF s)
    (r : Except DecodeError (PeekState (List Nat) (FrameType × CodecId) × (FrameType × CodecId)))
    (hr : (peekDec frameTypeAndCodecDec).finish s.frame_type_and_codec = r)
    (hok : r.isOk) : ∃ v, s.frame_type_and_codec.item = some v := by
  cases hitem : s.frame_type_and_codec.item with
  | some v => exact ⟨v, rfl⟩
  | none =>
    exfalso
    have hlen : s.frame_type_and_codec.inner.length ≠ 1 := by
      have hni := hwf.1.2
      intro hlen
      simp [frameTypeAndCodecDec, mapDec, u8Dec, copyDec, hlen] at hni
    have hcf := @copy_finish_err 1 _ hlen
    have herr : (peekDec frameTypeAndCodecDec).finish s.frame_type_and_codec =
        .error .incompleteDecoding := by
      simp only [peekDec, hitem]
      simp only [frameTypeAndCodecDec, mapDec, u8Dec]
      rw [hcf]
      rfl
    rw [herr] at hr
    rw [← hr] at hok
    simp [Except.isOk, Except.toBool] at hok

/-- The avc-packet-type and composition-time fields produced by the video
payload decoder are both populated exactly for AVC non-info frames, and never
just one of them. -/
theorem video_finish_avc (s s' : VideoTagDataDecoder) (d : VideoTagData) (hwf : VideoWF s)
    (h : videoTagDataDec.finish s = .ok (s', d)) :
    ((d.avc_packet_type.isSome ∧ d.composition_time.isSome) ↔
      (d.codec_id = CodecId.avc ∧ d.frame_type ≠ FrameType.videoInfoOrCommandFrame)) ∧
    (d.avc_packet_type.isSome ↔ d.composition_time.isSome) := by
  unfold videoTagDataDec at h
  simp only at h
  obtain ⟨⟨h', ftc⟩, h1, h⟩ := bind_ok h
  obtain ⟨v, hitem⟩ := video_finish_item s hwf _ h1 (by rfl)
  have hftc : ftc = v := by
    simp only [peekDec, hitem, Except.ok.injEq, Prod.mk.injEq] at h1
    exact h1.2.symm
  have havcdef : s.is_avc_packet =
      decide (v.1 ≠ FrameType.videoInfoOrCommandFrame ∧ v.2 = CodecId.avc) := by
    unfold VideoTagDataDecoder.is_avc_packet
    rw [hitem]
  by_cases havc : s.is_avc_packet = true
  · rw [if_pos havc] at h
    obtain ⟨⟨a₂, ab⟩, h2, h⟩ := bind_ok h
    obtain ⟨p, h3, h⟩ := bind_ok h
    obtain ⟨y, h4, h⟩ := bind_ok h
    rw [if_pos havc] at h
    obtain ⟨⟨c₂, cv⟩, h5, h⟩ := bind_ok h
    obtain ⟨z, h6, h⟩ := bind_ok h
    obtain ⟨⟨d₂, data⟩, h7, h⟩ := bind_ok h
    simp only [Except.ok.injEq, Prod.mk.injEq] at h h4 h6
    obtain ⟨-, hd⟩ := h
    subst hd
    rw [← h4, ← h6, hftc]
    rw [havcdef] at havc
    simp only [decide_eq_true_eq] at havc
    constructor
    · simp only [Option.isSome_some, true_and]
      constructor
      · intro _
        exact ⟨havc.2, havc.1⟩
      · intro _
        trivial
    · simp
  · rw [if_neg havc] at h
    obtain ⟨y, h4, h⟩ := bind_ok h
    rw [if_neg havc] at h
    obtain ⟨z, h6, h⟩ := bind_ok h
    obtain ⟨⟨d₂, data⟩, h7, h⟩ := bind_ok h
    simp only [Except.ok.injEq, Prod.mk.injEq] at h h4 h6
    obtain ⟨-, hd⟩ := h
    subst hd
    rw [← h4, ← h6, hftc]
    rw [havcdef] at havc
    simp only [decide_eq_true_eq] at havc
    constructor
    · simp only [Option.isSome_none, Bool.false_eq_true, false_and, false_iff]
      intro hcon
      exact havc ⟨hcon.2, hcon.1⟩
    · simp

/-- A byte buffer can only be finished when complete. -/
theorem finish_idle_copy {n : Nat} {s s' : List Nat} {a : List Nat}
    (h : (copyDec n).finish s = .ok (s', a)) : (copyDec n).isIdle s = true := by
  unfold copyDec at *
  simp only at h
  split at h
  · rename_i hn
    simpa using hn
  · exact absurd h (by simp)

/-- Successful finishing forces idleness, lifted through the interpreting
wrapper. -/
theorem finish_idle_map {d : Dec σ α} {f : α → Except DecodeError β}
    (hd : ∀ s s' a, d.finish s = .ok (s', a) → d.isIdle s = true)
    {s : σ} {s' : σ} {b : β}
    (h : (mapDec d f).finish s = .ok (s', b)) : (mapDec d f).isIdle s = true := by
  unfold mapDec at h
  simp only at h
  obtain ⟨⟨s₁, a₁⟩, h1, h⟩ := bind_ok h
  exact hd _ _ _ h1

/-- Successful finishing forces idleness, lifted through sequential pairing. -/
theorem finish_idle_tuple {d1 : Dec σ α} {d2 : Dec τ β}
    (h1 : ∀ s s' a, d1.finish s = .ok (s', a) → d1.isIdle s = true)
    (h2 : ∀ s s' a, d2.finish s = .ok (s', a) → d2.isIdle s = true)
    {s : σ × τ} {s' : σ × τ} {ab : α × β}
    (h : (tupleDec d1 d2).finish s = .ok (s', ab)) : (tupleDec d1 d2).isIdle s = true := by
  unfold tupleDec at *
  simp only at h
  obtain ⟨⟨s₁, a₁⟩, hf1, h⟩ := bind_ok h
  obtain ⟨⟨t₁, b₁⟩, hf2, h⟩ := bind_ok h
  simp only
  rw [h1 _ _ _ hf1, h2 _ _ _ hf2]
  rfl

/-- Successful finishing of the tag-header decoder forces idleness. -/
theorem finish_idle_thd {s s' : TagHeaderBufs} {a : TagHeader}
    (h : tagHeaderDec.finish s = .ok (s', a)) : tagHeaderDec.isIdle s = true := by
  unfold tagHeaderDec at *
  refine finish_idle_map ?_ h
  intro t t' v hv
  refine finish_idle_tuple (fun u u' w hw => finish_idle_map (fun x x' y hy => finish_idle_copy hy) hw)
    ?_ hv
  intro u u' w hw
  refine finish_idle_tuple (fun x x' y hy => finish_idle_map (fun z z' q hq => finish_idle_copy hq) hy)
    ?_ hw
  intro x x' y hy
  refine finish_idle_tuple (fun z z' q hq => finish_idle_map (fun r r' p hp => finish_idle_copy hp) hq)
    ?_ hy
  intro z z' q hq
  exact finish_idle_tuple (fun r r' p hp => finish_idle_map (fun w w' m hm => finish_idle_copy hm) hp)
    (fun r r' p hp => finish_idle_map (fun w w' m hm => finish_idle_copy hm) hp) hq

/-- Finishing a `Peekable` from an invariant-respecting state yields exactly
the cached item. -/
theorem peek_finish_item {d : Dec σ α} {WF : σ → Prop}
    (hfi : ∀ s s' a, d.finish s = .ok (s', a) → d.isIdle s = true)
    {s : PeekState σ α} {s' : PeekState σ α} {a : α}
    (hwf : PeekWF d WF s) (h : (peekDec d).finish s = .ok (s', a)) :
    s.item = some a ∧ s' = ⟨s.inner, none⟩ := by
  cases hitem : s.item with
  | some v =>
    unfold peekDec at h
    simp only at h
    rw [hitem] at h
    simp only [Except.ok.injEq, Prod.mk.injEq] at h
    exact ⟨by rw [h.2], h.1.symm⟩
  | none =>
    exfalso
    unfold peekDec at h
    simp only at h
    rw [hitem] at h
    simp only at h
    obtain ⟨⟨i₁, a₁⟩, hf, h⟩ := bind_ok h
    have := hfi _ _ _ hf
    rw [hwf.2] at this
    exact absurd this (by simp)

/-- Conditional-field laws of a decoded tag (§3, §8): the AAC packet type is
present exactly for AAC audio, and the AVC packet type and composition time
are both present exactly for AVC non-info video frames, never just one. -/
def TagFieldLaws : Tag → Prop
  | .audio a => a.aac_packet_type.isSome ↔ a.sound_format = SoundFormat.aac
  | .video v => ((v.avc_packet_type.isSome ∧ v.composition_time.isSome) ↔
      (v.codec_id = CodecId.avc ∧ v.frame_type ≠ FrameType.videoInfoOrCommandFrame)) ∧
      (v.avc_packet_type.isSome ↔ v.composition_time.isSome)
  | .scriptData _ => True

/-- Every tag finished by the tag decoder from an invariant-respecting state
satisfies the conditional-field laws. -/
theorem tag_finish_laws (s s' : TagDecoder) (t : Tag) (hwf : TagWF s)
    (h : tagDec.finish s = .ok (s', t)) : TagFieldLaws t := by
  unfold tagDec at h
  simp only at h
  obtain ⟨⟨h', hd⟩, hf1, h⟩ := bind_ok h
  obtain ⟨⟨d', data⟩, hf2, h⟩ := bind_ok h
  simp only [Except.ok.injEq, Prod.mk.injEq] at h
  obtain ⟨-, ht⟩ := h
  subst ht
  obtain ⟨hitem, -⟩ := peek_finish_item (fun u u' w hw => finish_idle_thd hw) hwf.1 hf1
  have hidle : (peekDec tagHeaderDec).isIdle s.header = true := by
    simp [peekDec, hitem]
  have hlwf : LengthWF tagDataDec TagDataWF s.data := hwf.2 hidle
  unfold lengthDec at hf2
  simp only at hf2
  split at hf2
  · exact absurd hf2 (by simp)
  · obtain ⟨⟨i₁, a₁⟩, hfd, hf2⟩ := bind_ok hf2
    simp only [Except.ok.injEq, Prod.mk.injEq] at hf2
    have hdata : a₁ = data := hf2.2
    subst hdata
    unfold tagDataDec at hfd
    simp only at hfd
    cases hs : s.data.inner with
    | audio ad =>
      rw [hs] at hfd
      obtain ⟨⟨ad', av⟩, hfa, hfd⟩ := bind_ok hfd
      simp only [Except.ok.injEq, Prod.mk.injEq] at hfd
      rw [← hfd.2]
      have := audio_finish_aac_iff _ _ _ hfa
      simp [TagData.merge, TagFieldLaws, this]
    | video vd =>
      rw [hs] at hfd
      obtain ⟨⟨vd', vv⟩, hfv, hfd⟩ := bind_ok hfd
      simp only [Except.ok.injEq, Prod.mk.injEq] at hfd
      rw [← hfd.2]
      have hvwf : VideoWF vd := by
        have := hlwf.1
        rw [hs] at this
        exact this
      have hlaw := video_finish_avc _ _ _ hvwf hfv
      simp [TagData.merge, TagFieldLaws]
      refine ⟨hlaw.1, ?_⟩
      have h2 := hlaw.2
      cases hb : vv.avc_packet_type.isSome <;>
        cases hc : vv.composition_time.isSome <;> simp_all
    | scriptData sd =>
      rw [hs] at hfd
      obtain ⟨⟨sd', sv⟩, hfs, hfd⟩ := bind_ok hfd
      simp only [Except.ok.injEq, Prod.mk.injEq] at hfd
      rw [← hfd.2]
      simp [TagData.merge, TagFieldLaws]
    | none =>
      rw [hs] at hfd
      exact absurd hfd (by simp)

/-- Every tag finished by the file decoder from an invariant-respecting state
satisfies the conditional-field laws. -/
theorem file_finish_laws (s s' : FileDecoder) (t : Tag) (hwf : FileWF s)
    (h : fileDec.finish s = .ok (s', t)) : TagFieldLaws t := by
  unfold fileDec at h
  simp only at h
  obtain ⟨⟨t', tag⟩, hf1, h⟩ := bind_ok h
  obtain ⟨⟨p', pts⟩, hf2, h⟩ := bind_ok h
  split at h
  · exact absurd h (by simp)
  · simp only [Except.ok.injEq, Prod.mk.injEq] at h
    obtain ⟨-, ht⟩ := h
    subst ht
    unfold maybeEosDec at hf1
    simp only at hf1
    obtain ⟨⟨i', a⟩, hfi, hf1⟩ := bind_ok hf1
    simp only [Except.ok.injEq, Prod.mk.injEq] at hf1
    have ha : a = tag := hf1.2
    subst ha
    exact tag_finish_laws _ _ _ hwf.2.1 hfi

/-- Every tag the file-decoding loop emits satisfies the conditional-field
laws. -/
theorem runFile_laws (fuel : Nat) (s : FileDecoder) (bs : List Nat) (eos : Bool)
    (sf : FileDecoder) (items : List Tag) (left : List Nat) (hwf : FileWF s)
    (h : runDec fileDec fuel s bs eos = some (.ok (sf, items, left))) :
    ∀ t ∈ items, TagFieldLaws t :=
  runDec_items
    (fun s buf eos s' n hw hd => fileStepOk.wf_decode s buf eos s' n hw hd)
    (fun s s' a hw hf =>
      ⟨file_finish_laws s s' a hw hf, (file_finish_props s s' a hw hf).1⟩)
    fuel s bs eos sf items left hwf h

/-- C3: every `VideoTag` produced by a successful decode has
`avc_packet_type` and `composition_time` both `Some` exactly when
`codec_id == Avc` and `frame_type != VideoInfoOrCommandFrame`, both `None`
in every other case, and never exactly one of the two set. -/
theorem C3_video_conditional_fields (fuel : Nat) (bs left : List Nat) (eos : Bool)
    (sf : FileDecoder) (items : List Tag) (v : VideoTag)
    (h : runDec fileDec fuel FileDecoder.init bs eos = some (.ok (sf, items, left)))
    (hv : Tag.video v ∈ items) :
    ((v.avc_packet_type.isSome = true ∧ v.composition_time.isSome = true) ↔
      (v.codec_id = CodecId.avc ∧ v.frame_type ≠ FrameType.videoInfoOrCommandFrame)) ∧
    (¬(v.codec_id = CodecId.avc ∧ v.frame_type ≠ FrameType.videoInfoOrCommandFrame) →
      v.avc_packet_type = none ∧ v.composition_time = none) ∧
    v.avc_packet_type.isSome = v.composition_time.isSome := by
  have hlaw := runFile_laws fuel FileDecoder.init bs eos sf items left fileWF_init h
    (Tag.video v) hv
  simp only [TagFieldLaws] at hlaw
  obtain ⟨h1, h2⟩ := hlaw
  have h2' : v.avc_packet_type.isSome = v.composition_time.isSome := by
    cases hpa : v.avc_packet_type <;> cases hpc : v.composition_time <;> simp_all
  refine ⟨⟨fun hb => h1.mp ⟨hb.1, hb.2⟩,
    fun hc => ⟨(h1.mpr hc).1, (h1.mpr hc).2⟩⟩, ?_, h2'⟩
  intro hnc
  have hnb : ¬(v.avc_packet_type.isSome = true ∧ v.composition_time.isSome = true) :=
    fun hb => hnc (h1.mp ⟨hb.1, hb.2⟩)
  cases hpa : v.avc_packet_type <;> cases hpc : v.composition_time <;> simp_all

/-- Sample video tag decoded from the C3 witness file: an AVC key frame. -/
def c3SampleTag : VideoTag :=
  { timestamp := ⟨0⟩, stream_id := ⟨0⟩, frame_type := FrameType.keyFrame,
    codec_id := CodecId.avc, avc_packet_type := some AvcPacketType.nalUnit,
    composition_time := some ⟨0⟩, data := [170] }

/-- C3 witness: a concrete 34-byte FLV file holding one AVC key-frame video
tag decodes to a tag with both conditional fields set. -/
theorem C3_video_conditional_fields_witness :
    ((c3SampleTag.avc_packet_type.isSome = true ∧
        c3SampleTag.composition_time.isSome = true) ↔
      (c3SampleTag.codec_id = CodecId.avc ∧
        c3SampleTag.frame_type ≠ FrameType.videoInfoOrCommandFrame)) ∧
    (¬(c3SampleTag.codec_id = CodecId.avc ∧
        c3SampleTag.frame_type ≠ FrameType.videoInfoOrCommandFrame) →
      c3SampleTag.avc_packet_type = none ∧ c3SampleTag.composition_time = none) ∧
    c3SampleTag.avc_packet_type.isSome = c3SampleTag.composition_time.isSome :=
  C3_video_conditional_fields 70
    [70, 76, 86, 1, 5, 0, 0, 0, 9, 0, 0, 0, 0,
     9, 0, 0, 6, 0, 0, 0, 0, 0, 0, 0, 23, 1, 0, 0, 0, 170, 0, 0, 0, 17]
    [] true _ [Tag.video c3SampleTag] c3SampleTag (by rfl)
    (List.mem_singleton.mpr rfl)

/-- C4: every `AudioTag` produced by a successful decode has
`aac_packet_type = Some(_)` exactly when its `sound_format` is `Aac`, and
`None` for every other format. -/
theorem C4_audio_aac_packet_type (fuel : Nat) (bs left : List Nat) (eos : Bool)
    (sf : FileDecoder) (items : List Tag) (a : AudioTag)
    (h : runDec fileDec fuel FileDecoder.init bs eos = some (.ok (sf, items, left)))
    (ha : Tag.audio a ∈ items) :
    (a.aac_packet_type.isSome = true ↔ a.sound_format = SoundFormat.aac) ∧
    (a.sound_format ≠ SoundFormat.aac → a.aac_packet_type = none) := by
  have hlaw := runFile_laws fuel FileDecoder.init bs eos sf items left fileWF_init h
    (Tag.audio a) ha
  simp only [TagFieldLaws] at hlaw
  refine ⟨⟨fun hb => hlaw.mp hb, fun hc => hlaw.mpr hc⟩, ?_⟩
  intro hne
  cases hpa : a.aac_packet_type with
  | none => rfl
  | some p => exact absurd (hlaw.mp (by rw [hpa]; rfl)) hne

/-- Sample audio tag decoded from the C4 witness file: an AAC raw frame. -/
def c4SampleTag : AudioTag :=
  { timestamp := ⟨0⟩, stream_id := ⟨0⟩, sound_format := SoundFormat.aac,
    sound_rate := SoundRate.khz44, sound_size := SoundSize.bit16,
    sound_type := SoundType.stereo, aac_packet_type := some AacPacketType.raw,
    data := [10, 11, 12] }

/-- C4 witness: a concrete 33-byte FLV file holding one AAC audio tag decodes
to a tag with the AAC packet type set. -/
theorem C4_audio_aac_packet_type_witness :
    ((c4SampleTag.aac_packet_type.isSome = true ↔
        c4SampleTag.sound_format = SoundFormat.aac) ∧
      (c4SampleTag.sound_format ≠ SoundFormat.aac →
        c4SampleTag.aac_packet_type = none)) :=
  C4_audio_aac_packet_type 70
    [70, 76, 86, 1, 5, 0, 0, 0, 9, 0, 0, 0, 0,
     8, 0, 0, 5, 0, 0, 0, 0, 0, 0, 0, 175, 1, 10, 11, 12, 0, 0, 0, 16]
    [] true _ [Tag.audio c4SampleTag] c4SampleTag (by rfl)
    (List.mem_singleton.mpr rfl)

/-- A decoder consumes the bytes `xs` in one call — whatever follows them in
the buffer and whatever the end-of-stream flag — moving from `s` to `s'`. -/
def DecodesAll (d : Dec σ α) (s : σ) (xs : List Nat) (s' : σ) : Prop :=
  ∀ rest eos, d.decode s (xs ++ rest) eos = .ok (s', xs.length)

/-- A fresh byte buffer consumes exactly its declared number of bytes. -/
theorem copy_decodes_all {n : Nat} {xs : List Nat} (h : xs.length = n) :
    DecodesAll (copyDec n) [] xs xs := by
  intro rest eos
  subst h
  simp only [copyDec, List.nil_append, List.length_nil, Nat.sub_zero,
    List.length_append]
  rw [min_eq_left (by omega), List.take_left]
  simp

/-- Mapping the item leaves the consumption behaviour unchanged. -/
theorem map_decodes_all {d : Dec σ α} {f : α → Except DecodeError β}
    {s : σ} {xs : List Nat} {s' : σ} (h : DecodesAll d s xs s') :
    DecodesAll (mapDec d f) s xs s' := h

/-- A pair decoder whose left half is still hungry is not idle. -/
theorem tuple_notIdle_left {d1 : Dec σ α} {d2 : Dec τ β} {s : σ × τ}
    (h : d1.isIdle s.1 = false) : (tupleDec d1 d2).isIdle s = false := by
  simp [tupleDec, h]

/-- A sequential pair consumes the two parts in order when the left decoder
takes exactly the first part and the right the second. -/
theorem tuple_decodes_all {d1 : Dec σ α} {d2 : Dec τ β}
    {s1 s1' : σ} {xs : List Nat} {s2 s2' : τ} {ys : List Nat}
    (hn1 : d1.isIdle s1 = false) (h1 : DecodesAll d1 s1 xs s1')
    (hi1 : d1.isIdle s1' = true)
    (hn2 : d2.isIdle s2 = false) (h2 : DecodesAll d2 s2 ys s2') :
    DecodesAll (tupleDec d1 d2) (s1, s2) (xs ++ ys) (s1', s2') := by
  intro rest eos
  simp only [tupleDec, hn1, Bool.false_eq_true, if_false, List.append_assoc]
  rw [h1 (ys ++ rest) eos]
  simp only [Bind.bind, Except.bind, hi1, if_true, hn2, Bool.false_eq_true,
    if_false]
  rw [List.drop_left, h2 rest eos]
  simp [List.length_append]

/-- The tag-header decoder consumes its 11 wire bytes in one call from the
fresh state, field by field. -/
theorem tagHeader_decodes_all (b1 d0 d1 d2 t0 t1 t2 ext s0 s1 s2 : Nat) :
    DecodesAll tagHeaderDec tagHeaderInit
      [b1, d0, d1, d2, t0, t1, t2, ext, s0, s1, s2]
      ([b1], [d0, d1, d2], [t0, t1, t2], [ext], [s0, s1, s2]) := by
  have hni1 : u8Dec.isIdle ([] : List Nat) = false := rfl
  have hni3 : u24Dec.isIdle ([] : List Nat) = false := rfl
  have hu8 : ∀ b : Nat, u8Dec.isIdle [b] = true := fun _ => rfl
  have hu24 : ∀ a b c : Nat, u24Dec.isIdle [a, b, c] = true := fun _ _ _ => rfl
  have d8 : ∀ b : Nat, DecodesAll u8Dec [] [b] [b] := fun b =>
    map_decodes_all (copy_decodes_all rfl)
  have d24 : ∀ a b c : Nat, DecodesAll u24Dec [] [a, b, c] [a, b, c] :=
    fun a b c => map_decodes_all (copy_decodes_all rfl)
  have h45 : DecodesAll (tupleDec u8Dec u24Dec) ([], [])
      ([ext] ++ [s0, s1, s2]) ([ext], [s0, s1, s2]) :=
    tuple_decodes_all hni1 (d8 ext) (hu8 ext) hni3 (d24 s0 s1 s2)
  have h345 : DecodesAll (tupleDec u24Dec (tupleDec u8Dec u24Dec)) ([], [], [])
      ([t0, t1, t2] ++ ([ext] ++ [s0, s1, s2]))
      ([t0, t1, t2], [ext], [s0, s1, s2]) :=
    tuple_decodes_all hni3 (d24 t0 t1 t2) (hu24 t0 t1 t2)
      (tuple_notIdle_left hni1) h45
  have h2345 : DecodesAll
      (tupleDec u24Dec (tupleDec u24Dec (tupleDec u8Dec u24Dec))) ([], [], [], [])
      ([d0, d1, d2] ++ ([t0, t1, t2] ++ ([ext] ++ [s0, s1, s2])))
      ([d0, d1, d2], [t0, t1, t2], [ext], [s0, s1, s2]) :=
    tuple_decodes_all hni3 (d24 d0 d1 d2) (hu24 d0 d1 d2)
      (tuple_notIdle_left hni3) h345
  intro rest eos
  have hx := (tuple_decodes_all hni1 (d8 b1) (hu8 b1)
    (tuple_notIdle_left hni3) h2345) rest eos
  show (mapDec (tupleDec u8Dec (tupleDec u24Dec (tupleDec u24Dec
    (tupleDec u8Dec u24Dec)))) TagHeader.assemble).decode
    ([], [], [], [], []) ([b1, d0, d1, d2, t0, t1, t2, ext, s0, s1, s2] ++ rest)
    eos = .ok (([b1], [d0, d1, d2], [t0, t1, t2], [ext], [s0, s1, s2]), 11)
  simp only [mapDec]
  simpa using hx

/-- Finishing a fully charged tag-header state applies the validating
reassembly to the big-endian field values. -/
theorem tagHeader_finish_eval (b1 d0 d1 d2 t0 t1 t2 ext s0 s1 s2 : Nat) :
    tagHeaderDec.finish ([b1], [d0, d1, d2], [t0, t1, t2], [ext], [s0, s1, s2]) =
      (TagHeader.assemble (beVal [b1], beVal [d0, d1, d2], beVal [t0, t1, t2],
        beVal [ext], beVal [s0, s1, s2])).map
        (fun hd => (tagHeaderInit, hd)) := by
  simp only [tagHeaderDec, mapDec, tupleDec, u8Dec, u24Dec, copyDec,
    Bind.bind, Except.bind, List.length_cons, List.length_nil]
  norm_num
  cases TagHeader.assemble (beVal [b1], beVal [d0, d1, d2], beVal [t0, t1, t2],
      beVal [ext], beVal [s0, s1, s2]) <;> rfl

/-- Evaluation of the header reassembly on a known tag-type code and an
in-range data size. -/
theorem assemble_eval (b1 ds low ext sid : Nat) (hb : b1 = 8 ∨ b1 = 9 ∨ b1 = 18)
    (hds : ds ≤ 0xFFFFFF) :
    ∃ tp, TagType.from_u8 b1 = .ok tp ∧
      TagHeader.assemble (b1, ds, low, ext, sid) =
        .ok ⟨tp, ds, ⟨toI32 (low ||| ext <<< 24)⟩, ⟨sid⟩⟩ := by
  have hfrom : ∃ tp, TagType.from_u8 b1 = .ok tp := by
    rcases hb with rfl | rfl | rfl
    exacts [⟨_, rfl⟩, ⟨_, rfl⟩, ⟨_, rfl⟩]
  obtain ⟨tp, htp⟩ := hfrom
  refine ⟨tp, htp, ?_⟩
  unfold TagHeader.assemble
  simp only [htp, Bind.bind, Except.bind]
  rw [if_neg (by omega)]

/-- C5: a successfully decoded tag header carries timestamp
`low | (extended << 24)` read as a signed 32-bit integer: decoding the 11
header bytes from the fresh state consumes exactly 11 bytes for every
combination of the 24-bit low field and the 8-bit extended byte, and the
finished header's timestamp equals the low value plus the extended byte in
bits 24–31, wrapped to the signed range. -/
theorem C5_timestamp_reconstruction
    (b1 d0 d1 d2 t0 t1 t2 ext s0 s1 s2 : Nat) (rest : List Nat) (eos : Bool)
    (hb1 : b1 = 8 ∨ b1 = 9 ∨ b1 = 18)
    (hd0 : d0 < 256) (hd1 : d1 < 256) (hd2 : d2 < 256)
    (ht0 : t0 < 256) (ht1 : t1 < 256) (ht2 : t2 < 256) (hext : ext < 256) :
    ∃ s₂ hd,
      tagHeaderDec.decode tagHeaderInit
        ([b1, d0, d1, d2, t0, t1, t2, ext, s0, s1, s2] ++ rest) eos =
        .ok (([b1], [d0, d1, d2], [t0, t1, t2], [ext], [s0, s1, s2]), 11) ∧
      tagHeaderDec.isIdle ([b1], [d0, d1, d2], [t0, t1, t2], [ext], [s0, s1, s2]) = true ∧
      tagHeaderDec.finish ([b1], [d0, d1, d2], [t0, t1, t2], [ext], [s0, s1, s2]) =
        .ok (s₂, hd) ∧
      hd.timestamp.val = toI32 ((t0 * 65536 + t1 * 256 + t2) ||| ext <<< 24) ∧
      hd.timestamp.val = (t0 * 65536 + t1 * 256 + t2 : Int) + ext * 2 ^ 24 -
        (if 128 ≤ ext then (2 ^ 32 : Int) else 0) := by
  have hdec11 : tagHeaderDec.decode tagHeaderInit
      ([b1, d0, d1, d2, t0, t1, t2, ext, s0, s1, s2] ++ rest) eos =
      .ok (([b1], [d0, d1, d2], [t0, t1, t2], [ext], [s0, s1, s2]), 11) :=
    tagHeader_decodes_all b1 d0 d1 d2 t0 t1 t2 ext s0 s1 s2 rest eos
  have hbv_d : beVal [d0, d1, d2] = d0 * 65536 + d1 * 256 + d2 := by
    simp [beVal]; ring
  have hbv_t : beVal [t0, t1, t2] = t0 * 65536 + t1 * 256 + t2 := by
    simp [beVal]; ring
  have hbv_1 : ∀ b : Nat, beVal [b] = b := by
    intro b; simp [beVal]
  obtain ⟨tp, htp, hass⟩ := assemble_eval (beVal [b1]) (beVal [d0, d1, d2])
    (beVal [t0, t1, t2]) (beVal [ext]) (beVal [s0, s1, s2])
    (by rw [hbv_1]; exact hb1) (by rw [hbv_d]; omega)
  refine ⟨tagHeaderInit,
    ⟨tp, beVal [d0, d1, d2], ⟨toI32 (beVal [t0, t1, t2] ||| beVal [ext] <<< 24)⟩,
      ⟨beVal [s0, s1, s2]⟩⟩, hdec11, rfl, ?_, ?_, ?_⟩
  · rw [tagHeader_finish_eval, hass]
    rfl
  · show toI32 (beVal [t0, t1, t2] ||| beVal [ext] <<< 24) = _
    rw [hbv_t, hbv_1]
  · show toI32 (beVal [t0, t1, t2] ||| beVal [ext] <<< 24) = _
    rw [hbv_t, hbv_1, lor_shift24 _ _ (by omega)]
    unfold toI32
    have h1 : t0 * 65536 + t1 * 256 + t2 + ext * 2 ^ 24 < 2 ^ 32 := by omega
    rw [Nat.mod_eq_of_lt h1]
    by_cases h2 : 128 ≤ ext
    · rw [if_neg (by omega), if_pos h2]
      push_cast
      omega
    · rw [if_pos (by omega), if_neg h2]
      push_cast
      omega

/-- C5 witness: tag-type 9, low timestamp 1, extended byte 200 — a negative
reconstructed timestamp. -/
theorem C5_timestamp_reconstruction_witness :
    ∃ s₂ hd,
      tagHeaderDec.decode tagHeaderInit
        ([9, 0, 0, 0, 0, 0, 1, 200, 0, 0, 0] ++ []) true =
        .ok (([9], [0, 0, 0], [0, 0, 1], [200], [0, 0, 0]), 11) ∧
      tagHeaderDec.isIdle ([9], [0, 0, 0], [0, 0, 1], [200], [0, 0, 0]) = true ∧
      tagHeaderDec.finish ([9], [0, 0, 0], [0, 0, 1], [200], [0, 0, 0]) =
        .ok (s₂, hd) ∧
      hd.timestamp.val = toI32 ((0 * 65536 + 0 * 256 + 1) ||| 200 <<< 24) ∧
      hd.timestamp.val = (0 * 65536 + 0 * 256 + 1 : Int) + 200 * 2 ^ 24 -
        (if 128 ≤ (200 : Nat) then (2 ^ 32 : Int) else 0) :=
  C5_timestamp_reconstruction 9 0 0 0 0 0 1 200 0 0 0 [] true
    (Or.inr (Or.inl rfl)) (by decide) (by decide) (by decide) (by decide)
    (by decide) (by decide) (by decide)

/-- Reduction of a bind whose first computation has already produced a
value. -/
theorem ok_bind {α β : Type} (a : α) (f : α → Except DecodeError β) :
    (Except.ok a >>= f : Except DecodeError β) = f a := rfl

/-- Forward evaluation of one `bytecodec_try_decode!` step that completes its
sub-decoder. -/
theorem tryStep_run_done {d : Dec σ α} {s s' : σ} {buf : List Nat} {o n : Nat}
    {eos : Bool} (hni : d.isIdle s = false)
    (hdec : d.decode s (buf.drop o) eos = .ok (s', n)) (hi : d.isIdle s' = true) :
    tryStep d s buf o eos = .ok (s', o + n, false) := by
  simp [tryStep, hni, hdec, hi, Bind.bind, Except.bind]

/-- A `Peekable` whose inner decoder consumes `xs` and finishes caches the
finished item while consuming the same bytes. -/
theorem peek_decodes_all {d : Dec σ α} {s s' s'' : σ} {xs : List Nat} {a : α}
    (h : DecodesAll d s xs s') (hi : d.isIdle s' = true)
    (hf : d.finish s' = .ok (s'', a)) :
    DecodesAll (peekDec d) ⟨s, none⟩ xs ⟨s'', some a⟩ := by
  intro rest eos
  simp only [peekDec]
  rw [h rest eos]
  simp only [Bind.bind, Except.bind, hi, if_true]
  rw [hf]

/-- A `MaybeEos` wrapper is transparent on a nonempty byte sequence and marks
the item as started. -/
theorem maybeEos_decodes_all {d : Dec σ α} {s s' : σ} {xs : List Nat} {st : Bool}
    (h : DecodesAll d s xs s') (hne : xs ≠ []) :
    DecodesAll (maybeEosDec d) ⟨s, st⟩ xs ⟨s', true⟩ := by
  intro rest eos
  simp only [maybeEosDec]
  rw [if_neg (fun hcon => hne (List.append_eq_nil.mp hcon.2.1).1)]
  rw [h rest eos]
  simp only [Bind.bind, Except.bind]
  have hp : 0 < xs.length := List.length_pos.mpr hne
  simp [hp]

/-- A `Length` region decoder whose region size equals the presented bytes
and whose inner decoder consumes them all under the fabricated end-of-stream
flag consumes exactly the region. -/
theorem length_decodes_all {d : Dec σ α} {s s' : σ} {xs : List Nat} {e : Nat}
    (h : d.decode s xs true = .ok (s', xs.length)) :
    DecodesAll (lengthDec d) ⟨s, e, xs.length⟩ xs ⟨s', e, 0⟩ := by
  intro rest eos
  simp only [lengthDec]
  have hmin : min (xs ++ rest).length xs.length = xs.length := by
    simp [List.length_append]
  rw [hmin, List.take_left]
  rw [show decide (xs.length = xs.length) = true by simp]
  rw [h]
  simp only [Bind.bind, Except.bind, Nat.sub_self]
  simp

/-- The file-header decoder consumes signature, version, flags and data
offset, then exactly the declared padding, in one call from the fresh
state. -/
theorem header_decodes_all (s0 s1 s2 v f o0 o1 o2 o3 : Nat) (ps : List Nat)
    (hoff : 9 ≤ beVal [o0, o1, o2, o3])
    (hps : ps.length = beVal [o0, o1, o2, o3] - 9) :
    DecodesAll headerDec HeaderDecoder.init
      ([s0, s1, s2, v, f, o0, o1, o2, o3] ++ ps)
      ⟨[s0, s1, s2], [v], [f], ⟨[], some (beVal [o0, o1, o2, o3])⟩,
        ⟨true, beVal [o0, o1, o2, o3] - 9, 0⟩⟩ := by
  intro rest eos
  have hda3 : DecodesAll (copyDec 3) [] [s0, s1, s2] [s0, s1, s2] :=
    @copy_decodes_all 3 _ rfl
  have hdav : DecodesAll u8Dec [] [v] [v] :=
    map_decodes_all (@copy_decodes_all 1 _ rfl)
  have hdaf : DecodesAll u8Dec [] [f] [f] :=
    map_decodes_all (@copy_decodes_all 1 _ rfl)
  have hdao : DecodesAll u32Dec [] [o0, o1, o2, o3] [o0, o1, o2, o3] :=
    map_decodes_all (@copy_decodes_all 4 _ rfl)
  have hdap : DecodesAll (peekDec u32Dec) ⟨[], none⟩ [o0, o1, o2, o3]
      ⟨[], some (beVal [o0, o1, o2, o3])⟩ :=
    peek_decodes_all hdao rfl rfl
  have hpad : paddingDec.decode false ps true = .ok (true, ps.length) := rfl
  have hdal : DecodesAll (lengthDec paddingDec)
      ⟨false, beVal [o0, o1, o2, o3] - 9, ps.length⟩ ps
      ⟨true, beVal [o0, o1, o2, o3] - 9, 0⟩ :=
    length_decodes_all hpad
  have hdal2 : DecodesAll (lengthDec paddingDec)
      ⟨false, beVal [o0, o1, o2, o3] - 9, beVal [o0, o1, o2, o3] - 9⟩ ps
      ⟨true, beVal [o0, o1, o2, o3] - 9, 0⟩ := by
    rw [show (⟨false, beVal [o0, o1, o2, o3] - 9, beVal [o0, o1, o2, o3] - 9⟩ :
        LengthState Bool) =
      ⟨false, beVal [o0, o1, o2, o3] - 9, ps.length⟩ from by rw [hps]]
    exact hdal
  have hlen : (([s0, s1, s2, v, f, o0, o1, o2, o3] ++ ps) ++ rest) =
      s0 :: s1 :: s2 :: v :: f :: o0 :: o1 :: o2 :: o3 :: (ps ++ rest) := by
    simp
  have t1 : tryStep (copyDec 3) []
      (s0 :: s1 :: s2 :: v :: f :: o0 :: o1 :: o2 :: o3 :: (ps ++ rest)) 0 eos =
      .ok ([s0, s1, s2], 0 + 3, false) :=
    tryStep_run_done rfl
      (by simpa using hda3 (v :: f :: o0 :: o1 :: o2 :: o3 :: (ps ++ rest)) eos) rfl
  have t2 : tryStep u8Dec []
      (s0 :: s1 :: s2 :: v :: f :: o0 :: o1 :: o2 :: o3 :: (ps ++ rest)) 3 eos =
      .ok ([v], 3 + 1, false) :=
    tryStep_run_done rfl
      (by simpa using hdav (f :: o0 :: o1 :: o2 :: o3 :: (ps ++ rest)) eos) rfl
  have t3 : tryStep u8Dec []
      (s0 :: s1 :: s2 :: v :: f :: o0 :: o1 :: o2 :: o3 :: (ps ++ rest)) 4 eos =
      .ok ([f], 4 + 1, false) :=
    tryStep_run_done rfl
      (by simpa using hdaf (o0 :: o1 :: o2 :: o3 :: (ps ++ rest)) eos) rfl
  have t4 : tryStep (peekDec u32Dec) (⟨[], none⟩ : PeekState (List Nat) Nat)
      (s0 :: s1 :: s2 :: v :: f :: o0 :: o1 :: o2 :: o3 :: (ps ++ rest)) 5 eos =
      .ok (⟨[], some (beVal [o0, o1, o2, o3])⟩, 5 + 4, false) :=
    tryStep_run_done rfl (by simpa using hdap (ps ++ rest) eos) rfl
  have t5 : tryStep (lengthDec paddingDec)
      (⟨false, beVal [o0, o1, o2, o3] - 9, beVal [o0, o1, o2, o3] - 9⟩ :
        LengthState Bool)
      (s0 :: s1 :: s2 :: v :: f :: o0 :: o1 :: o2 :: o3 :: (ps ++ rest)) 9 eos =
      .ok (⟨true, beVal [o0, o1, o2, o3] - 9, 0⟩, 9 + ps.length, false) :=
    tryStep_run_done (by simp [lengthDec, paddingDec])
      (by simpa using hdal2 rest eos) rfl
  rw [hlen]
  unfold headerDec
  simp only [HeaderDecoder.init]
  rw [t1, ok_bind]
  simp only [Bool.false_eq_true, if_false]
  rw [t2, ok_bind]
  simp only [Bool.false_eq_true, if_false]
  rw [t3, ok_bind]
  simp only [Bool.false_eq_true, if_false]
  rw [show (peekDec u32Dec).isIdle (⟨[], none⟩ : PeekState (List Nat) Nat) = false
    from rfl]
  simp only [Bool.false_eq_true, if_false]
  rw [t4, ok_bind]
  simp only [Bool.false_eq_true, if_false]
  rw [if_neg (by omega)]
  simp only [LengthState.set_expected_bytes]
  rw [t5, ok_bind]
  have hl9 : ([s0, s1, s2, v, f, o0, o1, o2, o3] ++ ps).length = 9 + ps.length := by
    simp only [List.length_append, List.length_cons, List.length_nil]
  rw [hl9]

/-- Finishing a completed header state with the valid signature and version
yields the flag-derived header and resets the decoder. -/
theorem headerDec_finish_good (f off e : Nat) :
    headerDec.finish ⟨[70, 76, 86], [1], [f], ⟨[], some off⟩, ⟨true, e, 0⟩⟩ =
      .ok (HeaderDecoder.init,
        ⟨decide (Nat.land (beVal [f]) 4 ≠ 0), decide (Nat.land (beVal [f]) 1 ≠ 0)⟩) :=
  rfl

/-- Finishing a completed header state whose buffered signature differs from
`FLV` fails with the malformed-signature error. -/
theorem headerDec_finish_badsig (s0 s1 s2 v f off e : Nat)
    (h : [s0, s1, s2] ≠ [70, 76, 86]) :
    headerDec.finish ⟨[s0, s1, s2], [v], [f], ⟨[], some off⟩, ⟨true, e, 0⟩⟩ =
      .error .malformedSignature := by
  unfold headerDec
  simp only
  rw [show (copyDec 3).finish [s0, s1, s2] = .ok ([], [s0, s1, s2]) from rfl,
    ok_bind]
  simp only
  rw [if_pos h]

/-- The peekable (header, first previous-tag-size) pair of the file decoder
consumes the 9 header bytes, the padding and the 4 size bytes, caching the
decoded pair. -/
theorem fileHeader_decodes_all (f o0 o1 o2 o3 p0 p1 p2 p3 : Nat) (ps : List Nat)
    (hoff : 9 ≤ beVal [o0, o1, o2, o3])
    (hps : ps.length = beVal [o0, o1, o2, o3] - 9) :
    DecodesAll fileHeaderDec ⟨(HeaderDecoder.init, []), none⟩
      (([70, 76, 86, 1, f, o0, o1, o2, o3] ++ ps) ++ [p0, p1, p2, p3])
      ⟨(HeaderDecoder.init, []),
        some (⟨decide (Nat.land (beVal [f]) 4 ≠ 0),
          decide (Nat.land (beVal [f]) 1 ≠ 0)⟩, beVal [p0, p1, p2, p3])⟩ := by
  have hh := header_decodes_all 70 76 86 1 f o0 o1 o2 o3 ps hoff hps
  have hu32 : DecodesAll u32Dec [] [p0, p1, p2, p3] [p0, p1, p2, p3] :=
    map_decodes_all (@copy_decodes_all 4 _ rfl)
  have ht : DecodesAll (tupleDec headerDec u32Dec) (HeaderDecoder.init, [])
      (([70, 76, 86, 1, f, o0, o1, o2, o3] ++ ps) ++ [p0, p1, p2, p3])
      (⟨[70, 76, 86], [1], [f], ⟨[], some (beVal [o0, o1, o2, o3])⟩,
        ⟨true, beVal [o0, o1, o2, o3] - 9, 0⟩⟩, [p0, p1, p2, p3]) :=
    tuple_decodes_all rfl hh rfl rfl hu32
  have hfin : (tupleDec headerDec u32Dec).finish
      (⟨[70, 76, 86], [1], [f], ⟨[], some (beVal [o0, o1, o2, o3])⟩,
        ⟨true, beVal [o0, o1, o2, o3] - 9, 0⟩⟩, [p0, p1, p2, p3]) =
      .ok ((HeaderDecoder.init, []),
        (⟨decide (Nat.land (beVal [f]) 4 ≠ 0), decide (Nat.land (beVal [f]) 1 ≠ 0)⟩,
          beVal [p0, p1, p2, p3])) := by
    unfold tupleDec
    simp only
    rw [headerDec_finish_good, ok_bind]
    simp only
    rw [show u32Dec.finish [p0, p1, p2, p3] = .ok ([], beVal [p0, p1, p2, p3])
      from rfl, ok_bind]
  exact peek_decodes_all ht rfl hfin

/-- The tag decoder consumes an 11-byte header that reassembles successfully
followed by a payload of exactly the declared size that its payload decoder
accepts in full. -/
theorem tag_decodes_all {hdr11 payload : List Nat} {Sh Sh' : TagHeaderBufs}
    {hd : TagHeader} {dd : TagDataDecoder}
    (hh : DecodesAll tagHeaderDec tagHeaderInit hdr11 Sh)
    (hhi : tagHeaderDec.isIdle Sh = true)
    (hhf : tagHeaderDec.finish Sh = .ok (Sh', hd))
    (hsz : hd.data_size = payload.length)
    (hdata : tagDataDec.decode (TagDataDecoder.forType hd.tag_type) payload true =
      .ok (dd, payload.length))
    (hdi : tagDataDec.isIdle dd = true) :
    DecodesAll tagDec TagDecoder.init (hdr11 ++ payload)
      ⟨⟨Sh', some hd⟩, ⟨dd, hd.data_size, 0⟩⟩ := by
  intro rest eos
  have hfni : tagDataDec.isIdle (TagDataDecoder.forType hd.tag_type) = false := by
    cases hd.tag_type <;> rfl
  have hpk : DecodesAll (peekDec tagHeaderDec) ⟨tagHeaderInit, none⟩ hdr11
      ⟨Sh', some hd⟩ := peek_decodes_all hh hhi hhf
  have t1 : tryStep (peekDec tagHeaderDec) ⟨tagHeaderInit, none⟩
      ((hdr11 ++ payload) ++ rest) 0 eos =
      .ok (⟨Sh', some hd⟩, 0 + hdr11.length, false) :=
    tryStep_run_done rfl
      (by simpa [List.append_assoc] using hpk (payload ++ rest) eos) rfl
  have hld : DecodesAll (lengthDec tagDataDec)
      ⟨TagDataDecoder.forType hd.tag_type, hd.data_size, payload.length⟩ payload
      ⟨dd, hd.data_size, 0⟩ := length_decodes_all hdata
  have hld2 : DecodesAll (lengthDec tagDataDec)
      ⟨TagDataDecoder.forType hd.tag_type, hd.data_size, hd.data_size⟩ payload
      ⟨dd, hd.data_size, 0⟩ := by
    rw [show (⟨TagDataDecoder.forType hd.tag_type, hd.data_size, hd.data_size⟩ :
        LengthState TagDataDecoder) =
      ⟨TagDataDecoder.forType hd.tag_type, hd.data_size, payload.length⟩ from by
        rw [hsz]]
    exact hld
  have hdrop : ((hdr11 ++ payload) ++ rest).drop hdr11.length = payload ++ rest := by
    rw [List.append_assoc, List.drop_left]
  have t2 : tryStep (lengthDec tagDataDec)
      (⟨TagDataDecoder.forType hd.tag_type, hd.data_size, hd.data_size⟩ :
        LengthState TagDataDecoder)
      ((hdr11 ++ payload) ++ rest) hdr11.length eos =
      .ok (⟨dd, hd.data_size, 0⟩, hdr11.length + payload.length, false) :=
    tryStep_run_done (by simp [lengthDec, hfni])
      (by rw [hdrop]; exact hld2 rest eos) (by simp [lengthDec, hdi])
  unfold tagDec
  simp only [TagDecoder.init]
  rw [show (peekDec tagHeaderDec).isIdle ⟨tagHeaderInit, none⟩ = false from rfl]
  simp only [Bool.false_eq_true, if_false]
  rw [t1, ok_bind]
  simp only [Bool.false_eq_true, if_false, Nat.zero_add]
  rw [t2, ok_bind]
  rw [List.length_append]

/-- The file decoder consumes a file header whose cached first
previous-tag-size is zero, then a complete tag, then the 4-byte redundant
size field, in one call from the fresh state. -/
theorem file_decodes_tag {fh tagbytes : List Nat} (q0 q1 q2 q3 : Nat)
    {hin : HeaderDecoder × List Nat} {hdr : Header} {TS : TagDecoder}
    (hfh : DecodesAll fileHeaderDec ⟨(HeaderDecoder.init, []), none⟩ fh
      ⟨hin, some (hdr, 0)⟩)
    (htag : DecodesAll tagDec TagDecoder.init tagbytes TS)
    (hti : tagDec.isIdle TS = true) (htne : tagbytes ≠ []) :
    DecodesAll fileDec FileDecoder.init (fh ++ (tagbytes ++ [q0, q1, q2, q3]))
      ⟨⟨hin, some (hdr, 0)⟩, ⟨TS, true⟩, [q0, q1, q2, q3]⟩ := by
  intro rest eos
  have hmt : DecodesAll (maybeEosDec tagDec) ⟨TagDecoder.init, false⟩ tagbytes
      ⟨TS, true⟩ := maybeEos_decodes_all htag htne
  have hu32 : DecodesAll u32Dec [] [q0, q1, q2, q3] [q0, q1, q2, q3] :=
    map_decodes_all (@copy_decodes_all 4 _ rfl)
  have t1 : tryStep fileHeaderDec FileDecoder.init.header
      ((fh ++ (tagbytes ++ [q0, q1, q2, q3])) ++ rest) 0 eos =
      .ok (⟨hin, some (hdr, 0)⟩, 0 + fh.length, false) :=
    tryStep_run_done rfl
      (by simpa [List.append_assoc] using
        hfh (tagbytes ++ ([q0, q1, q2, q3] ++ rest)) eos) rfl
  have hdrop1 : ((fh ++ (tagbytes ++ [q0, q1, q2, q3])) ++ rest).drop fh.length =
      tagbytes ++ ([q0, q1, q2, q3] ++ rest) := by
    rw [List.append_assoc, List.drop_left, List.append_assoc]
  have t2 : tryStep (maybeEosDec tagDec) FileDecoder.init.tag
      ((fh ++ (tagbytes ++ [q0, q1, q2, q3])) ++ rest) fh.length eos =
      .ok (⟨TS, true⟩, fh.length + tagbytes.length, false) :=
    tryStep_run_done rfl
      (by rw [hdrop1]; exact hmt ([q0, q1, q2, q3] ++ rest) eos)
      (by simpa [maybeEosDec] using hti)
  have hdrop2 : ((fh ++ (tagbytes ++ [q0, q1, q2, q3])) ++ rest).drop
      (fh.length + tagbytes.length) = [q0, q1, q2, q3] ++ rest := by
    rw [show fh.length + tagbytes.length = (fh ++ tagbytes).length from
      (List.length_append fh tagbytes).symm]
    rw [show (fh ++ (tagbytes ++ [q0, q1, q2, q3])) ++ rest =
      (fh ++ tagbytes) ++ ([q0, q1, q2, q3] ++ rest) from by simp]
    exact List.drop_left _ _
  have t3 : tryStep u32Dec FileDecoder.init.prev_tag_size
      ((fh ++ (tagbytes ++ [q0, q1, q2, q3])) ++ rest)
      (fh.length + tagbytes.length) eos =
      .ok ([q0, q1, q2, q3], fh.length + tagbytes.length + 4, false) :=
    tryStep_run_done rfl (by rw [hdrop2]; simpa using hu32 rest eos) rfl
  unfold fileDec
  simp only [FileDecoder.init]
  rw [show fileHeaderDec.isIdle (⟨(HeaderDecoder.init, []), none⟩ :
    PeekState (HeaderDecoder × List Nat) (Header × Nat)) = false from rfl]
  simp only [Bool.false_eq_true, if_false]
  rw [show FileDecoder.init.header = (⟨(HeaderDecoder.init, []), none⟩ :
    PeekState (HeaderDecoder × List Nat) (Header × Nat)) from rfl] at t1
  rw [t1, ok_bind]
  simp only [Bool.false_eq_true, if_false, Nat.zero_add, Option.map_some']
  rw [if_neg (by simp)]
  rw [show FileDecoder.init.tag = (⟨TagDecoder.init, false⟩ :
    MaybeEosState TagDecoder) from rfl] at t2
  rw [t2, ok_bind]
  simp only [Bool.false_eq_true, if_false]
  rw [show FileDecoder.init.prev_tag_size = ([] : List Nat) from rfl] at t3
  rw [t3, ok_bind]
  have hlen : (fh ++ (tagbytes ++ [q0, q1, q2, q3])).length =
      fh.length + tagbytes.length + 4 := by
    simp only [List.length_append, List.length_cons, List.length_nil]
    omega
  rw [hlen]

/-- C7: the file decoder validates both redundant size fields.  With a valid
file header declaring data offset 9, a nonzero first previous-tag-size field
makes `decode` itself fail with an invalid-input error; after a subsequent
audio tag of `tag_size()` 16, a trailing size field different from 16 makes
`finish_decoding` fail with an invalid-input error carrying the tag's kind,
while the matching field `[0, 0, 0, 16]` decodes the tag successfully. -/
theorem C7_redundant_size_validation (p0 p1 p2 p3 q0 q1 q2 q3 : Nat)
    (rest : List Nat) (eos : Bool) :
    (beVal [p0, p1, p2, p3] ≠ 0 →
      fileDec.decode FileDecoder.init
        ([70, 76, 86, 1, 5, 0, 0, 0, 9, p0, p1, p2, p3] ++ rest) eos =
        .error (.invalidInput none)) ∧
    (beVal [q0, q1, q2, q3] ≠ 16 →
      runDec fileDec 2 FileDecoder.init
        [70, 76, 86, 1, 5, 0, 0, 0, 9, 0, 0, 0, 0,
         8, 0, 0, 5, 0, 0, 0, 0, 0, 0, 0, 175, 1, 10, 11, 12, q0, q1, q2, q3]
        true = some (.error (.invalidInput (some TagKind.audio)))) ∧
    (∃ sf, runDec fileDec 2 FileDecoder.init
        [70, 76, 86, 1, 5, 0, 0, 0, 9, 0, 0, 0, 0,
         8, 0, 0, 5, 0, 0, 0, 0, 0, 0, 0, 175, 1, 10, 11, 12, 0, 0, 0, 16]
        true = some (.ok (sf,
          [Tag.audio ⟨⟨0⟩, ⟨0⟩, SoundFormat.aac, SoundRate.khz44,
            SoundSize.bit16, SoundType.stereo, some AacPacketType.raw,
            [10, 11, 12]⟩], []))) := by
  have hh := tagHeader_decodes_all 8 0 0 5 0 0 0 0 0 0 0
  have htag : DecodesAll tagDec TagDecoder.init
      ([8, 0, 0, 5, 0, 0, 0, 0, 0, 0, 0] ++ [175, 1, 10, 11, 12])
      ⟨⟨tagHeaderInit, some ⟨TagType.audio, 5, ⟨0⟩, ⟨0⟩⟩⟩,
        ⟨TagDataDecoder.audio ⟨⟨[], some 175⟩, [1], ⟨[10, 11, 12], true⟩⟩, 5, 0⟩⟩ :=
    tag_decodes_all hh rfl rfl rfl rfl rfl
  refine ⟨?_, ?_, ?_⟩
  · intro hne
    have hfh := fileHeader_decodes_all 5 0 0 0 9 p0 p1 p2 p3 [] (by decide) rfl
    have t1 : tryStep fileHeaderDec FileDecoder.init.header
        ([70, 76, 86, 1, 5, 0, 0, 0, 9, p0, p1, p2, p3] ++ rest) 0 eos =
        .ok (⟨(HeaderDecoder.init, []),
          some (⟨true, true⟩, beVal [p0, p1, p2, p3])⟩, 0 + 13, false) :=
      tryStep_run_done rfl (by simpa using hfh rest eos) rfl
    unfold fileDec
    simp only
    rw [show fileHeaderDec.isIdle FileDecoder.init.header = false from rfl]
    simp only [Bool.false_eq_true, if_false]
    rw [t1, ok_bind]
    simp only [Bool.false_eq_true, if_false, Option.map_some']
    rw [if_pos (show ¬(some (beVal [p0, p1, p2, p3]) = some 0) from by
      simpa using hne)]
  · intro hq
    have hfh := fileHeader_decodes_all 5 0 0 0 9 0 0 0 0 [] (by decide) rfl
    have hfh0 : DecodesAll fileHeaderDec ⟨(HeaderDecoder.init, []), none⟩
        [70, 76, 86, 1, 5, 0, 0, 0, 9, 0, 0, 0, 0]
        ⟨(HeaderDecoder.init, []), some (⟨true, true⟩, 0)⟩ := by
      intro r e
      simpa using hfh r e
    have hfile := file_decodes_tag q0 q1 q2 q3 hfh0 htag rfl (by simp)
    have hdecb : fileDec.decode FileDecoder.init
        [70, 76, 86, 1, 5, 0, 0, 0, 9, 0, 0, 0, 0,
         8, 0, 0, 5, 0, 0, 0, 0, 0, 0, 0, 175, 1, 10, 11, 12, q0, q1, q2, q3]
        true = .ok (⟨⟨(HeaderDecoder.init, []), some (⟨true, true⟩, 0)⟩,
          ⟨⟨⟨tagHeaderInit, some ⟨TagType.audio, 5, ⟨0⟩, ⟨0⟩⟩⟩,
            ⟨TagDataDecoder.audio ⟨⟨[], some 175⟩, [1], ⟨[10, 11, 12], true⟩⟩,
              5, 0⟩⟩, true⟩,
          [q0, q1, q2, q3]⟩, 33) := by
      have h0 := hfile [] true
      rw [List.append_nil] at h0
      exact h0
    have hfin : fileDec.finish
        (⟨⟨(HeaderDecoder.init, []), some (⟨true, true⟩, 0)⟩,
          ⟨⟨⟨tagHeaderInit, some ⟨TagType.audio, 5, ⟨0⟩, ⟨0⟩⟩⟩,
            ⟨TagDataDecoder.audio ⟨⟨[], some 175⟩, [1], ⟨[10, 11, 12], true⟩⟩,
              5, 0⟩⟩, true⟩,
          [q0, q1, q2, q3]⟩ : FileDecoder) =
        .error (.invalidInput (some TagKind.audio)) := by
      unfold fileDec
      simp only
      rw [show (maybeEosDec tagDec).finish
          (⟨⟨⟨tagHeaderInit, some ⟨TagType.audio, 5, ⟨0⟩, ⟨0⟩⟩⟩,
            ⟨TagDataDecoder.audio ⟨⟨[], some 175⟩, [1], ⟨[10, 11, 12], true⟩⟩,
              5, 0⟩⟩, true⟩ : MaybeEosState TagDecoder) =
          .ok (⟨⟨⟨tagHeaderInit, none⟩, ⟨TagDataDecoder.none, 5, 5⟩⟩, false⟩,
            Tag.audio ⟨⟨0⟩, ⟨0⟩, SoundFormat.aac, SoundRate.khz44,
              SoundSize.bit16, SoundType.stereo, some AacPacketType.raw,
              [10, 11, 12]⟩) from rfl, ok_bind]
      simp only
      rw [show u32Dec.finish [q0, q1, q2, q3] = .ok ([], beVal [q0, q1, q2, q3])
        from rfl, ok_bind]
      simp only
      rw [if_pos (show (Tag.audio ⟨⟨0⟩, ⟨0⟩, SoundFormat.aac, SoundRate.khz44,
          SoundSize.bit16, SoundType.stereo, some AacPacketType.raw,
          [10, 11, 12]⟩).tag_size ≠ beVal [q0, q1, q2, q3] from
        fun h => hq (by simpa using h.symm))]
      rfl
    unfold runDec
    rw [hdecb]
    simp only
    rw [show fileDec.isIdle
        (⟨⟨(HeaderDecoder.init, []), some (⟨true, true⟩, 0)⟩,
          ⟨⟨⟨tagHeaderInit, some ⟨TagType.audio, 5, ⟨0⟩, ⟨0⟩⟩⟩,
            ⟨TagDataDecoder.audio ⟨⟨[], some 175⟩, [1], ⟨[10, 11, 12], true⟩⟩,
              5, 0⟩⟩, true⟩,
          [q0, q1, q2, q3]⟩ : FileDecoder) = true from rfl]
    rw [if_pos rfl]
    rw [hfin]
  · exact ⟨⟨⟨(HeaderDecoder.init, []), some (⟨true, true⟩, 0)⟩,
      ⟨⟨⟨tagHeaderInit, none⟩, ⟨TagDataDecoder.none, 5, 5⟩⟩, false⟩, []⟩, rfl⟩

/-- C7 witness: first previous-tag-size 1 is rejected during decode, and a
trailing size field of 15 after the 16-byte audio tag is rejected at
finish-decoding with the audio kind. -/
theorem C7_redundant_size_validation_witness :
    (beVal [0, 0, 0, 1] ≠ 0 →
      fileDec.decode FileDecoder.init
        ([70, 76, 86, 1, 5, 0, 0, 0, 9, 0, 0, 0, 1] ++ []) false =
        .error (.invalidInput none)) ∧
    (beVal [0, 0, 0, 15] ≠ 16 →
      runDec fileDec 2 FileDecoder.init
        [70, 76, 86, 1, 5, 0, 0, 0, 9, 0, 0, 0, 0,
         8, 0, 0, 5, 0, 0, 0, 0, 0, 0, 0, 175, 1, 10, 11, 12, 0, 0, 0, 15]
        true = some (.error (.invalidInput (some TagKind.audio)))) ∧
    (∃ sf, runDec fileDec 2 FileDecoder.init
        [70, 76, 86, 1, 5, 0, 0, 0, 9, 0, 0, 0, 0,
         8, 0, 0, 5, 0, 0, 0, 0, 0, 0, 0, 175, 1, 10, 11, 12, 0, 0, 0, 16]
        true = some (.ok (sf,
          [Tag.audio ⟨⟨0⟩, ⟨0⟩, SoundFormat.aac, SoundRate.khz44,
            SoundSize.bit16, SoundType.stereo, some AacPacketType.raw,
            [10, 11, 12]⟩], []))) :=
  C7_redundant_size_validation 0 0 0 1 0 0 0 15 [] false

/-- Forward evaluation of one `bytecodec_try_decode!` step that leaves its
sub-decoder hungry, forcing the early return. -/
theorem tryStep_run_hungry {d : Dec σ α} {s s' : σ} {buf : List Nat} {o n : Nat}
    {eos : Bool} (hni : d.isIdle s = false)
    (hdec : d.decode s (buf.drop o) eos = .ok (s', n)) (hi : d.isIdle s' = false) :
    tryStep d s buf o eos = .ok (s', o + n, true) := by
  simp [tryStep, hni, hdec, hi, Bind.bind, Except.bind]

/-- A pair decoder whose left half consumes `xs` completely and whose right
half then consumes part of the remainder. -/
theorem tuple_decode_partial {d1 : Dec σ α} {d2 : Dec τ β}
    {s1 s1' : σ} {xs ys : List Nat} {s2 s2' : τ} {m : Nat} {eos : Bool}
    (hn1 : d1.isIdle s1 = false) (h1 : DecodesAll d1 s1 xs s1')
    (hi1 : d1.isIdle s1' = true)
    (hn2 : d2.isIdle s2 = false) (h2 : d2.decode s2 ys eos = .ok (s2', m)) :
    (tupleDec d1 d2).decode (s1, s2) (xs ++ ys) eos =
      .ok ((s1', s2'), xs.length + m) := by
  simp only [tupleDec, hn1, Bool.false_eq_true, if_false]
  rw [h1 ys eos]
  simp only [Bind.bind, Except.bind, hi1, if_true, hn2, Bool.false_eq_true,
    if_false]
  rw [List.drop_left, h2]

/-- A `Peekable` whose inner decoder stays hungry consumes the same bytes and
caches nothing. -/
theorem peek_decode_hungry {d : Dec σ α} {s s' : σ} {buf : List Nat} {n : Nat}
    {eos : Bool} (h : d.decode s buf eos = .ok (s', n)) (hi : d.isIdle s' = false) :
    (peekDec d).decode ⟨s, none⟩ buf eos = .ok (⟨s', none⟩, n) := by
  simp only [peekDec]
  rw [h]
  simp only [Bind.bind, Except.bind, hi, Bool.false_eq_true, if_false]

/-- C10: a wrong signature does not stop byte consumption — the header
decoder's `decode` still succeeds on the 9 fixed bytes plus the declared
padding and goes idle; the malformed-signature error is raised only by
`finish_decoding`. -/
theorem C10_bad_signature_deferred (s0 s1 s2 v f o0 o1 o2 o3 : Nat)
    (ps rest : List Nat) (eos : Bool)
    (hsig : [s0, s1, s2] ≠ [70, 76, 86])
    (hoff : 9 ≤ beVal [o0, o1, o2, o3])
    (hps : ps.length = beVal [o0, o1, o2, o3] - 9) :
    headerDec.decode HeaderDecoder.init
      (([s0, s1, s2, v, f, o0, o1, o2, o3] ++ ps) ++ rest) eos =
      .ok (⟨[s0, s1, s2], [v], [f], ⟨[], some (beVal [o0, o1, o2, o3])⟩,
        ⟨true, beVal [o0, o1, o2, o3] - 9, 0⟩⟩, 9 + ps.length) ∧
    headerDec.isIdle ⟨[s0, s1, s2], [v], [f], ⟨[], some (beVal [o0, o1, o2, o3])⟩,
        ⟨true, beVal [o0, o1, o2, o3] - 9, 0⟩⟩ = true ∧
    headerDec.finish ⟨[s0, s1, s2], [v], [f], ⟨[], some (beVal [o0, o1, o2, o3])⟩,
        ⟨true, beVal [o0, o1, o2, o3] - 9, 0⟩⟩ = .error .malformedSignature := by
  refine ⟨?_, rfl, headerDec_finish_badsig s0 s1 s2 v f _ _ hsig⟩
  have h := header_decodes_all s0 s1 s2 v f o0 o1 o2 o3 ps hoff hps rest eos
  rw [show ([s0, s1, s2, v, f, o0, o1, o2, o3] ++ ps).length = 9 + ps.length
    from by simp only [List.length_append, List.length_cons, List.length_nil]] at h
  exact h

/-- C10 witness: signature `XLV`, data offset 10 with one padding byte —
decode consumes all 10 bytes, finish fails. -/
theorem C10_bad_signature_deferred_witness :
    headerDec.decode HeaderDecoder.init
      (([88, 76, 86, 1, 5, 0, 0, 0, 10, 7] ++ [7]) ++ [3, 4]) false =
      .ok (⟨[88, 76, 86], [1], [5], ⟨[], some (beVal [0, 0, 0, 10])⟩,
        ⟨true, beVal [0, 0, 0, 10] - 9, 0⟩⟩, 9 + [7].length) ∧
    headerDec.isIdle ⟨[88, 76, 86], [1], [5], ⟨[], some (beVal [0, 0, 0, 10])⟩,
        ⟨true, beVal [0, 0, 0, 10] - 9, 0⟩⟩ = true ∧
    headerDec.finish ⟨[88, 76, 86], [1], [5], ⟨[], some (beVal [0, 0, 0, 10])⟩,
        ⟨true, beVal [0, 0, 0, 10] - 9, 0⟩⟩ = .error .malformedSignature :=
  C10_bad_signature_deferred 88 76 86 1 5 0 0 0 10 [7] [3, 4] false
    (by decide) (by decide) (by decide)

/-- C9 (amended): `FileDecoder::header()` returns `None` after the 9 header
bytes plus declared padding have been consumed — the accessor peeks the
`(Header, first previous-tag-size)` pair, which completes only after the
following 4 size bytes — and returns `Some` as soon as those 4 bytes arrive,
before any tag byte is consumed. -/
theorem C9_header_accessor (f o0 o1 o2 o3 : Nat) (ps : List Nat)
    (hoff : 9 ≤ beVal [o0, o1, o2, o3])
    (hps : ps.length = beVal [o0, o1, o2, o3] - 9) :
    (∃ s1, fileDec.decode FileDecoder.init
        ([70, 76, 86, 1, f, o0, o1, o2, o3] ++ ps) false =
        .ok (s1, ([70, 76, 86, 1, f, o0, o1, o2, o3] ++ ps).length) ∧
      FileDecoder.headerValue s1 = none) ∧
    (∃ s2, fileDec.decode FileDecoder.init
        (([70, 76, 86, 1, f, o0, o1, o2, o3] ++ ps) ++ [0, 0, 0, 0]) false =
        .ok (s2, (([70, 76, 86, 1, f, o0, o1, o2, o3] ++ ps) ++ [0, 0, 0, 0]).length) ∧
      FileDecoder.headerValue s2 =
        some ⟨decide (Nat.land (beVal [f]) 4 ≠ 0),
          decide (Nat.land (beVal [f]) 1 ≠ 0)⟩) := by
  have hh := header_decodes_all 70 76 86 1 f o0 o1 o2 o3 ps hoff hps
  constructor
  · have hu32 : u32Dec.decode [] [] false = .ok ([], 0) := rfl
    have htp : (tupleDec headerDec u32Dec).decode (HeaderDecoder.init, [])
        (([70, 76, 86, 1, f, o0, o1, o2, o3] ++ ps) ++ []) false =
        .ok ((⟨[70, 76, 86], [1], [f], ⟨[], some (beVal [o0, o1, o2, o3])⟩,
          ⟨true, beVal [o0, o1, o2, o3] - 9, 0⟩⟩, []),
          ([70, 76, 86, 1, f, o0, o1, o2, o3] ++ ps).length + 0) :=
      tuple_decode_partial rfl hh rfl rfl hu32
    rw [List.append_nil] at htp
    have hpk : fileHeaderDec.decode ⟨(HeaderDecoder.init, []), none⟩
        ([70, 76, 86, 1, f, o0, o1, o2, o3] ++ ps) false =
        .ok (⟨(⟨[70, 76, 86], [1], [f], ⟨[], some (beVal [o0, o1, o2, o3])⟩,
          ⟨true, beVal [o0, o1, o2, o3] - 9, 0⟩⟩, []), none⟩,
          ([70, 76, 86, 1, f, o0, o1, o2, o3] ++ ps).length + 0) :=
      peek_decode_hungry htp (by simp [tupleDec]; intro h'; rfl)
    have t1 : tryStep fileHeaderDec FileDecoder.init.header
        ([70, 76, 86, 1, f, o0, o1, o2, o3] ++ ps) 0 false =
        .ok (⟨(⟨[70, 76, 86], [1], [f], ⟨[], some (beVal [o0, o1, o2, o3])⟩,
          ⟨true, beVal [o0, o1, o2, o3] - 9, 0⟩⟩, []), none⟩,
          0 + (([70, 76, 86, 1, f, o0, o1, o2, o3] ++ ps).length + 0), true) :=
      tryStep_run_hungry rfl (by simpa using hpk) rfl
    refine ⟨⟨⟨(⟨[70, 76, 86], [1], [f], ⟨[], some (beVal [o0, o1, o2, o3])⟩,
        ⟨true, beVal [o0, o1, o2, o3] - 9, 0⟩⟩, []), none⟩,
      FileDecoder.init.tag, FileDecoder.init.prev_tag_size⟩, ?_, rfl⟩
    unfold fileDec
    simp only
    rw [show fileHeaderDec.isIdle FileDecoder.init.header = false from rfl]
    simp only [Bool.false_eq_true, if_false]
    rw [t1, ok_bind]
    simp only [Nat.zero_add, Nat.add_zero]
    rw [if_pos (by trivial)]
  · have hfh := fileHeader_decodes_all f o0 o1 o2 o3 0 0 0 0 ps hoff hps
    have t1 : tryStep fileHeaderDec FileDecoder.init.header
        (([70, 76, 86, 1, f, o0, o1, o2, o3] ++ ps) ++ [0, 0, 0, 0]) 0 false =
        .ok (⟨(HeaderDecoder.init, []),
          some (⟨decide (Nat.land (beVal [f]) 4 ≠ 0),
            decide (Nat.land (beVal [f]) 1 ≠ 0)⟩, beVal [0, 0, 0, 0])⟩,
          0 + (([70, 76, 86, 1, f, o0, o1, o2, o3] ++ ps) ++ [0, 0, 0, 0]).length,
          false) :=
      tryStep_run_done rfl (by
        have h0 := hfh [] false
        rw [List.append_nil] at h0
        simpa using h0) rfl
    have hmt : (maybeEosDec tagDec).decode ⟨TagDecoder.init, false⟩ [] false =
        .ok (⟨TagDecoder.init, false⟩, 0) := rfl
    have t2 : tryStep (maybeEosDec tagDec) FileDecoder.init.tag
        (([70, 76, 86, 1, f, o0, o1, o2, o3] ++ ps) ++ [0, 0, 0, 0])
        (([70, 76, 86, 1, f, o0, o1, o2, o3] ++ ps) ++ [0, 0, 0, 0]).length
        false =
        .ok (⟨TagDecoder.init, false⟩,
          (([70, 76, 86, 1, f, o0, o1, o2, o3] ++ ps) ++ [0, 0, 0, 0]).length + 0,
          true) :=
      tryStep_run_hungry rfl (by rw [List.drop_length]; exact hmt) rfl
    refine ⟨⟨⟨(HeaderDecoder.init, []),
        some (⟨decide (Nat.land (beVal [f]) 4 ≠ 0),
          decide (Nat.land (beVal [f]) 1 ≠ 0)⟩, beVal [0, 0, 0, 0])⟩,
      ⟨TagDecoder.init, false⟩, FileDecoder.init.prev_tag_size⟩, ?_, rfl⟩
    unfold fileDec
    simp only
    rw [show fileHeaderDec.isIdle FileDecoder.init.header = false from rfl]
    simp only [Bool.false_eq_true, if_false]
    rw [t1, ok_bind]
    simp only [Bool.false_eq_true, if_false, Nat.zero_add, Option.map_some']
    rw [if_neg (by simp [beVal])]
    rw [t2, ok_bind]
    simp only [Nat.add_zero]
    rw [if_pos (by trivial)]

/-- C9 counterexample to the claim as stated: after the decoder has consumed
exactly the 9 file-header bytes (data offset 9, no padding), the accessor
still yields nothing. -/
theorem C9_after_header_bytes_none :
    ∃ s1, fileDec.decode FileDecoder.init [70, 76, 86, 1, 5, 0, 0, 0, 9] false =
        .ok (s1, 9) ∧
      FileDecoder.headerValue s1 = none := by
  obtain ⟨⟨s1, hdec, hnone⟩, -⟩ :=
    C9_header_accessor 5 0 0 0 9 [] (by decide) (by decide)
  exact ⟨s1, by simpa using hdec, hnone⟩

/-- C9 witness: a file header with data offset 10 and one padding byte. -/
theorem C9_header_accessor_witness :
    (∃ s1, fileDec.decode FileDecoder.init
        ([70, 76, 86, 1, 5, 0, 0, 0, 10] ++ [7]) false =
        .ok (s1, ([70, 76, 86, 1, 5, 0, 0, 0, 10] ++ [7]).length) ∧
      FileDecoder.headerValue s1 = none) ∧
    (∃ s2, fileDec.decode FileDecoder.init
        (([70, 76, 86, 1, 5, 0, 0, 0, 10] ++ [7]) ++ [0, 0, 0, 0]) false =
        .ok (s2, (([70, 76, 86, 1, 5, 0, 0, 0, 10] ++ [7]) ++ [0, 0, 0, 0]).length) ∧
      FileDecoder.headerValue s2 =
        some ⟨decide (Nat.land (beVal [5]) 4 ≠ 0),
          decide (Nat.land (beVal [5]) 1 ≠ 0)⟩) :=
  C9_header_accessor 5 0 0 0 10 [7] (by decide) (by decide)

/-- C8: decoding the tag header `08 00 00 05 00 00 00 00 00 00 00` followed
by the audio payload `AF 01 0A 0B 0C` consumes the sound-descriptor byte, one
extra AAC-packet-type byte and 3 data bytes — 16 bytes in all — and finishes
as an AAC audio tag; with a declared data size of 4 instead of 5, the driving
loop fails with an unexpected-end-of-stream error on the leftover byte. -/
theorem C8_concrete_audio_tag :
    (tagDec.decode TagDecoder.init
        [8, 0, 0, 5, 0, 0, 0, 0, 0, 0, 0, 175, 1, 10, 11, 12] true =
      .ok (⟨⟨tagHeaderInit, some ⟨TagType.audio, 5, ⟨0⟩, ⟨0⟩⟩⟩,
        ⟨TagDataDecoder.audio ⟨⟨[], some 175⟩, [1], ⟨[10, 11, 12], true⟩⟩,
          5, 0⟩⟩, 16)) ∧
    tagDec.isIdle (⟨⟨tagHeaderInit, some ⟨TagType.audio, 5, ⟨0⟩, ⟨0⟩⟩⟩,
        ⟨TagDataDecoder.audio ⟨⟨[], some 175⟩, [1], ⟨[10, 11, 12], true⟩⟩,
          5, 0⟩⟩ : TagDecoder) = true ∧
    tagDec.finish (⟨⟨tagHeaderInit, some ⟨TagType.audio, 5, ⟨0⟩, ⟨0⟩⟩⟩,
        ⟨TagDataDecoder.audio ⟨⟨[], some 175⟩, [1], ⟨[10, 11, 12], true⟩⟩,
          5, 0⟩⟩ : TagDecoder) =
      .ok (⟨⟨tagHeaderInit, none⟩, ⟨TagDataDecoder.none, 5, 5⟩⟩,
        Tag.audio ⟨⟨0⟩, ⟨0⟩, SoundFormat.aac, SoundRate.khz44, SoundSize.bit16,
          SoundType.stereo, some AacPacketType.raw, [10, 11, 12]⟩) ∧
    runDec tagDec 3 TagDecoder.init
        [8, 0, 0, 4, 0, 0, 0, 0, 0, 0, 0, 175, 1, 10, 11, 12] true =
      some (.error .unexpectedEos) :=
  ⟨rfl, rfl, rfl, rfl⟩

/-- Big-endian 3-byte serialisation inverts to the value modulo `2^24`. -/
theorem beVal_u24beBytes (n : Nat) : beVal (u24beBytes n) = n % 2 ^ 24 := by
  unfold u24beBytes
  simp [beVal]
  omega

/-- A single byte list reads back as the byte. -/
theorem beVal_single (b : Nat) : beVal [b] = b := by
  simp [beVal]

/-- The sound-descriptor byte laid out by the encoder parses back into its
four fields, and its high nibble is the format code. -/
theorem sound_descriptor_roundtrip (fmt : SoundFormat) (rate : SoundRate)
    (size : SoundSize) (ty : SoundType) :
    SoundFormat.from_u8
        ((fmt.to_u8 * 16 + rate.to_u8 * 4 + size.to_u8 * 2 + ty.to_u8) / 16) =
      .ok fmt ∧
    SoundRate.from_u8
        ((fmt.to_u8 * 16 + rate.to_u8 * 4 + size.to_u8 * 2 + ty.to_u8) / 4 % 4) =
      .ok rate ∧
    SoundSize.from_bool
        (Nat.land (fmt.to_u8 * 16 + rate.to_u8 * 4 + size.to_u8 * 2 + ty.to_u8) 2 ≠ 0) =
      size ∧
    SoundType.from_bool
        (Nat.land (fmt.to_u8 * 16 + rate.to_u8 * 4 + size.to_u8 * 2 + ty.to_u8) 1 ≠ 0) =
      ty ∧
    (fmt.to_u8 * 16 + rate.to_u8 * 4 + size.to_u8 * 2 + ty.to_u8) / 16 = fmt.to_u8 := by
  cases fmt <;> cases rate <;> cases size <;> cases ty <;>
    exact ⟨rfl, rfl, rfl, rfl, rfl⟩

/-- The frame-type/codec byte laid out by the encoder parses back into the
pair. -/
theorem frame_codec_roundtrip (ft : FrameType) (c : CodecId) :
    FrameType.from_u8 ((ft.to_u8 * 16 + c.to_u8) / 16) = .ok ft ∧
    CodecId.from_u8 ((ft.to_u8 * 16 + c.to_u8) % 16) = .ok c := by
  cases ft <;> cases c <;> exact ⟨rfl, rfl⟩

/-- The AAC packet-type code written by the encoder parses back. -/
theorem aac_packet_roundtrip (p : AacPacketType) :
    AacPacketType.from_u8 p.to_u8 = .ok p := by
  cases p <;> rfl

/-- The AVC packet-type code written by the encoder parses back. -/
theorem avc_packet_roundtrip (p : AvcPacketType) :
    AvcPacketType.from_u8 p.to_u8 = .ok p := by
  cases p <;> rfl

/-- Sign extension of the stored 24-bit composition time recovers every
in-range value. -/
theorem comp_time_roundtrip (x : Int) (h1 : -(2 ^ 23) ≤ x) (h2 : x < 2 ^ 23) :
    CompositionTimeOffset.from_u24 (toU32 x % 2 ^ 24) = ⟨x⟩ := by
  unfold CompositionTimeOffset.from_u24 i32shr8 toI32 toU32
  rw [Int.fdiv_eq_ediv _ (by norm_num)]
  congr 1
  split <;> push_cast <;> omega

/-- Splitting the bit pattern of an in-range signed 32-bit timestamp into its
low 24 bits and its high byte and recombining them yields the value back. -/
theorem timestamp_roundtrip (x : Int) (h1 : -(2 ^ 31) ≤ x) (h2 : x < 2 ^ 31) :
    toI32 (toU32 x % 2 ^ 24 ||| (toU32 x / 2 ^ 24) <<< 24) = x := by
  rw [lor_shift24 _ _ (by omega)]
  rw [show toU32 x % 2 ^ 24 + toU32 x / 2 ^ 24 * 2 ^ 24 = toU32 x from by omega]
  exact toI32_toU32 x h1 h2

/-- One-byte decoder finish evaluation. -/
theorem u8Dec_finish (b : Nat) : u8Dec.finish [b] = .ok ([], b) := by
  simp [u8Dec, mapDec, copyDec, Bind.bind, Except.bind, beVal]

/-- Three-byte decoder finish evaluation. -/
theorem u24Dec_finish (a b c : Nat) :
    u24Dec.finish [a, b, c] = .ok ([], beVal [a, b, c]) := by
  simp [u24Dec, mapDec, copyDec, Bind.bind, Except.bind]

/-- The audio payload decoder consumes the descriptor byte, the AAC
packet-type byte and the data when the peeked format nibble is AAC. -/
theorem audio_decodes_aac (b p : Nat) (ds : List Nat) (hb : b / 16 = 10) :
    audioTagDataDec.decode AudioTagDataDecoder.init (b :: p :: ds) true =
      .ok (⟨⟨[], some b⟩, [p], ⟨ds, true⟩⟩, (b :: p :: ds).length) := by
  have hpk : DecodesAll (peekDec u8Dec) ⟨[], none⟩ [b] ⟨[], some b⟩ :=
    peek_decodes_all (map_decodes_all (@copy_decodes_all 1 _ rfl)) rfl
      (u8Dec_finish b)
  have t1 : tryStep (peekDec u8Dec) (⟨[], none⟩ : PeekState (List Nat) Nat)
      (b :: p :: ds) 0 true = .ok (⟨[], some b⟩, 0 + 1, false) :=
    tryStep_run_done rfl (by simpa using hpk (p :: ds) true) rfl
  have t2 : tryStep u8Dec [] (b :: p :: ds) 1 true = .ok ([p], 1 + 1, false) :=
    tryStep_run_done rfl
      (by simpa using (map_decodes_all (@copy_decodes_all 1 _ rfl) :
        DecodesAll u8Dec [] [p] [p]) ds true) rfl
  have t3 : tryStep remainingDec (⟨[], false⟩ : RemainingState)
      (b :: p :: ds) 2 true = .ok (⟨ds, true⟩, 2 + ds.length, false) :=
    tryStep_run_done rfl (by simp [remainingDec]) rfl
  unfold audioTagDataDec
  simp only [AudioTagDataDecoder.init]
  rw [t1, ok_bind]
  simp only [Bool.false_eq_true, if_false]
  rw [show (⟨⟨[], some b⟩, [], ⟨[], false⟩⟩ :
      AudioTagDataDecoder).is_aac_packet = true from by
    simp [AudioTagDataDecoder.is_aac_packet, hb]]
  simp only [if_true]
  rw [t2, ok_bind]
  simp only [Bool.false_eq_true, if_false]
  rw [t3, ok_bind]
  simp only [List.length_cons]
  rw [show ds.length + 1 + 1 = 2 + ds.length from by omega]

/-- The audio payload decoder consumes the descriptor byte and the data when
the peeked format nibble is not AAC. -/
theorem audio_decodes_plain (b : Nat) (ds : List Nat) (hb : b / 16 ≠ 10) :
    audioTagDataDec.decode AudioTagDataDecoder.init (b :: ds) true =
      .ok (⟨⟨[], some b⟩, [], ⟨ds, true⟩⟩, (b :: ds).length) := by
  have hpk : DecodesAll (peekDec u8Dec) ⟨[], none⟩ [b] ⟨[], some b⟩ :=
    peek_decodes_all (map_decodes_all (@copy_decodes_all 1 _ rfl)) rfl
      (u8Dec_finish b)
  have t1 : tryStep (peekDec u8Dec) (⟨[], none⟩ : PeekState (List Nat) Nat)
      (b :: ds) 0 true = .ok (⟨[], some b⟩, 0 + 1, false) :=
    tryStep_run_done rfl (by simpa using hpk ds true) rfl
  have t3 : tryStep remainingDec (⟨[], false⟩ : RemainingState)
      (b :: ds) 1 true = .ok (⟨ds, true⟩, 1 + ds.length, false) :=
    tryStep_run_done rfl (by simp [remainingDec]) rfl
  unfold audioTagDataDec
  simp only [AudioTagDataDecoder.init]
  rw [t1, ok_bind]
  simp only [Bool.false_eq_true, if_false]
  rw [show (⟨⟨[], some b⟩, [], ⟨[], false⟩⟩ :
      AudioTagDataDecoder).is_aac_packet = false from by
    simp [AudioTagDataDecoder.is_aac_packet, hb]]
  simp only [Bool.false_eq_true, if_false]
  rw [t3, ok_bind]
  simp only [List.length_cons]
  rw [show ds.length + 1 = 1 + ds.length from by omega]

/-- The video payload decoder consumes the frame/codec byte, the AVC
packet-type byte, the 3-byte composition time and the data for AVC non-info
frames. -/
theorem video_decodes_avc (b p c0 c1 c2 : Nat) (ds : List Nat)
    (ft : FrameType) (cid : CodecId)
    (hf : frameTypeAndCodecDec.finish [b] = .ok ([], (ft, cid)))
    (havc : (ft ≠ FrameType.videoInfoOrCommandFrame ∧ cid = CodecId.avc)) :
    videoTagDataDec.decode VideoTagDataDecoder.init
        (b :: p :: c0 :: c1 :: c2 :: ds) true =
      .ok (⟨⟨[], some (ft, cid)⟩, [p], [c0, c1, c2], ⟨ds, true⟩⟩,
        (b :: p :: c0 :: c1 :: c2 :: ds).length) := by
  have hpk : DecodesAll (peekDec frameTypeAndCodecDec) ⟨[], none⟩ [b]
      ⟨[], some (ft, cid)⟩ :=
    peek_decodes_all (map_decodes_all (@copy_decodes_all 1 _ rfl)) rfl hf
  have t1 : tryStep (peekDec frameTypeAndCodecDec)
      (⟨[], none⟩ : PeekState (List Nat) (FrameType × CodecId))
      (b :: p :: c0 :: c1 :: c2 :: ds) 0 true =
      .ok (⟨[], some (ft, cid)⟩, 0 + 1, false) :=
    tryStep_run_done rfl (by simpa using hpk (p :: c0 :: c1 :: c2 :: ds) true) rfl
  have t2 : tryStep u8Dec [] (b :: p :: c0 :: c1 :: c2 :: ds) 1 true =
      .ok ([p], 1 + 1, false) :=
    tryStep_run_done rfl
      (by simpa using (map_decodes_all (@copy_decodes_all 1 _ rfl) :
        DecodesAll u8Dec [] [p] [p]) (c0 :: c1 :: c2 :: ds) true) rfl
  have t3 : tryStep u24Dec [] (b :: p :: c0 :: c1 :: c2 :: ds) 2 true =
      .ok ([c0, c1, c2], 2 + 3, false) :=
    tryStep_run_done rfl
      (by simpa using (map_decodes_all (@copy_decodes_all 3 _ rfl) :
        DecodesAll u24Dec [] [c0, c1, c2] [c0, c1, c2]) ds true) rfl
  have t4 : tryStep remainingDec (⟨[], false⟩ : RemainingState)
      (b :: p :: c0 :: c1 :: c2 :: ds) 5 true =
      .ok (⟨ds, true⟩, 5 + ds.length, false) :=
    tryStep_run_done rfl (by simp [remainingDec]) rfl
  unfold videoTagDataDec
  simp only [VideoTagDataDecoder.init]
  rw [t1, ok_bind]
  simp only [Bool.false_eq_true, if_false]
  rw [show (⟨⟨[], some (ft, cid)⟩, [], [], ⟨[], false⟩⟩ :
      VideoTagDataDecoder).is_avc_packet = true from by
    simp [VideoTagDataDecoder.is_avc_packet, havc.1, havc.2]]
  simp only [if_true]
  rw [t2, ok_bind]
  simp only [Bool.false_eq_true, if_false]
  rw [t3, ok_bind]
  simp only [Bool.false_eq_true, if_false]
  rw [t4, ok_bind]
  simp only [List.length_cons]
  rw [show ds.length + 1 + 1 + 1 + 1 + 1 = 5 + ds.length from by omega]

/-- The video payload decoder consumes the frame/codec byte and the data for
non-AVC or info/command frames. -/
theorem video_decodes_plain (b : Nat) (ds : List Nat)
    (ft : FrameType) (cid : CodecId)
    (hf : frameTypeAndCodecDec.finish [b] = .ok ([], (ft, cid)))
    (havc : ¬(ft ≠ FrameType.videoInfoOrCommandFrame ∧ cid = CodecId.avc)) :
    videoTagDataDec.decode VideoTagDataDecoder.init (b :: ds) true =
      .ok (⟨⟨[], some (ft, cid)⟩, [], [], ⟨ds, true⟩⟩, (b :: ds).length) := by
  have hpk : DecodesAll (peekDec frameTypeAndCodecDec) ⟨[], none⟩ [b]
      ⟨[], some (ft, cid)⟩ :=
    peek_decodes_all (map_decodes_all (@copy_decodes_all 1 _ rfl)) rfl hf
  have t1 : tryStep (peekDec frameTypeAndCodecDec)
      (⟨[], none⟩ : PeekState (List Nat) (FrameType × CodecId))
      (b :: ds) 0 true = .ok (⟨[], some (ft, cid)⟩, 0 + 1, false) :=
    tryStep_run_done rfl (by simpa using hpk ds true) rfl
  have t4 : tryStep remainingDec (⟨[], false⟩ : RemainingState)
      (b :: ds) 1 true = .ok (⟨ds, true⟩, 1 + ds.length, false) :=
    tryStep_run_done rfl (by simp [remainingDec]) rfl
  unfold videoTagDataDec
  simp only [VideoTagDataDecoder.init]
  rw [t1, ok_bind]
  simp only [Bool.false_eq_true, if_false]
  rw [show (⟨⟨[], some (ft, cid)⟩, [], [], ⟨[], false⟩⟩ :
      VideoTagDataDecoder).is_avc_packet = false from by
    simp only [VideoTagDataDecoder.is_avc_packet]
    simpa using havc]
  simp only [Bool.false_eq_true, if_false]
  rw [t4, ok_bind]
  simp only [List.length_cons]
  rw [show ds.length + 1 = 1 + ds.length from by omega]

/-- The script-data payload decoder takes every region byte verbatim. -/
theorem script_decodes (ds : List Nat) :
    scriptDataTagDataDec.decode ⟨[], false⟩ ds true = .ok (⟨ds, true⟩, ds.length) := by
  simp [scriptDataTagDataDec, mapDec, remainingDec]

/-- Finishing the audio payload in the AAC case splits the descriptor byte
and decodes the packet-type byte. -/
theorem audio_finish_aac (b p : Nat) (ds : List Nat) {rate : SoundRate}
    {pt : AacPacketType}
    (hfmt : SoundFormat.from_u8 (b / 16) = .ok SoundFormat.aac)
    (hrate : SoundRate.from_u8 (b / 4 % 4) = .ok rate)
    (hpt : AacPacketType.from_u8 p = .ok pt) :
    audioTagDataDec.finish ⟨⟨[], some b⟩, [p], ⟨ds, true⟩⟩ =
      .ok (⟨⟨[], none⟩, [], ⟨[], false⟩⟩,
        ⟨SoundFormat.aac, rate, SoundSize.from_bool (Nat.land b 2 ≠ 0),
          SoundType.from_bool (Nat.land b 1 ≠ 0), some pt, ds⟩) := by
  unfold audioTagDataDec
  simp only
  rw [show (peekDec u8Dec).finish (⟨[], some b⟩ : PeekState (List Nat) Nat) =
    .ok (⟨[], none⟩, b) from rfl, ok_bind]
  simp only
  rw [hfmt, ok_bind]
  rw [hrate, ok_bind]
  simp only
  rw [if_pos trivial]
  rw [u8Dec_finish p, ok_bind]
  simp only
  rw [hpt, ok_bind, ok_bind]
  rw [show remainingDec.finish ⟨ds, true⟩ = .ok (⟨[], false⟩, ds) from rfl,
    ok_bind]

/-- Finishing the audio payload in the non-AAC case leaves the packet type
empty. -/
theorem audio_finish_plain (b : Nat) (ds : List Nat) {fmt : SoundFormat}
    {rate : SoundRate}
    (hfmt : SoundFormat.from_u8 (b / 16) = .ok fmt)
    (hrate : SoundRate.from_u8 (b / 4 % 4) = .ok rate)
    (hne : fmt ≠ SoundFormat.aac) :
    audioTagDataDec.finish ⟨⟨[], some b⟩, [], ⟨ds, true⟩⟩ =
      .ok (⟨⟨[], none⟩, [], ⟨[], false⟩⟩,
        ⟨fmt, rate, SoundSize.from_bool (Nat.land b 2 ≠ 0),
          SoundType.from_bool (Nat.land b 1 ≠ 0), none, ds⟩) := by
  unfold audioTagDataDec
  simp only
  rw [show (peekDec u8Dec).finish (⟨[], some b⟩ : PeekState (List Nat) Nat) =
    .ok (⟨[], none⟩, b) from rfl, ok_bind]
  simp only
  rw [hfmt, ok_bind]
  rw [hrate, ok_bind]
  rw [if_neg hne, ok_bind]
  rw [show remainingDec.finish ⟨ds, true⟩ = .ok (⟨[], false⟩, ds) from rfl,
    ok_bind]

/-- Finishing the video payload in the AVC case decodes the packet-type byte
and sign-extends the composition time. -/
theorem video_finish_avc_eval (p c0 c1 c2 : Nat) (ds : List Nat)
    (ft : FrameType) (cid : CodecId) {pt : AvcPacketType}
    (havc : (ft ≠ FrameType.videoInfoOrCommandFrame ∧ cid = CodecId.avc))
    (hpt : AvcPacketType.from_u8 p = .ok pt) :
    videoTagDataDec.finish ⟨⟨[], some (ft, cid)⟩, [p], [c0, c1, c2], ⟨ds, true⟩⟩ =
      .ok (⟨⟨[], none⟩, [], [], ⟨[], false⟩⟩,
        ⟨ft, cid, some pt,
          some (CompositionTimeOffset.from_u24 (beVal [c0, c1, c2])), ds⟩) := by
  unfold videoTagDataDec
  simp only
  rw [show (⟨⟨[], some (ft, cid)⟩, [p], [c0, c1, c2], ⟨ds, true⟩⟩ :
      VideoTagDataDecoder).is_avc_packet = true from by
    simp [VideoTagDataDecoder.is_avc_packet, havc.1, havc.2]]
  rw [show (peekDec frameTypeAndCodecDec).finish
      (⟨[], some (ft, cid)⟩ : PeekState (List Nat) (FrameType × CodecId)) =
    .ok (⟨[], none⟩, (ft, cid)) from rfl, ok_bind]
  simp only [if_true]
  rw [u8Dec_finish p, ok_bind]
  simp only
  rw [hpt, ok_bind, ok_bind]
  rw [u24Dec_finish c0 c1 c2, ok_bind, ok_bind]
  rw [show remainingDec.finish ⟨ds, true⟩ = .ok (⟨[], false⟩, ds) from rfl,
    ok_bind]

/-- Finishing the video payload in the non-AVC case leaves both conditional
fields empty. -/
theorem video_finish_plain (ds : List Nat) (ft : FrameType) (cid : CodecId)
    (havc : ¬(ft ≠ FrameType.videoInfoOrCommandFrame ∧ cid = CodecId.avc)) :
    videoTagDataDec.finish ⟨⟨[], some (ft, cid)⟩, [], [], ⟨ds, true⟩⟩ =
      .ok (⟨⟨[], none⟩, [], [], ⟨[], false⟩⟩, ⟨ft, cid, none, none, ds⟩) := by
  unfold videoTagDataDec
  simp only
  rw [show (⟨⟨[], some (ft, cid)⟩, [], [], ⟨ds, true⟩⟩ :
      VideoTagDataDecoder).is_avc_packet = false from by
    simp only [VideoTagDataDecoder.is_avc_packet]
    simpa using havc]
  rw [show (peekDec frameTypeAndCodecDec).finish
      (⟨[], some (ft, cid)⟩ : PeekState (List Nat) (FrameType × CodecId)) =
    .ok (⟨[], none⟩, (ft, cid)) from rfl, ok_bind]
  simp only [Bool.false_eq_true, if_false]
  rw [ok_bind, ok_bind]
  rw [show remainingDec.finish ⟨ds, true⟩ = .ok (⟨[], false⟩, ds) from rfl,
    ok_bind]

/-- Finishing the script-data payload returns the bytes verbatim. -/
theorem script_finish (ds : List Nat) :
    scriptDataTagDataDec.finish ⟨ds, true⟩ = .ok (⟨[], false⟩, ⟨ds⟩) := rfl

/-- Payload dispatch: audio decode. -/
theorem tagData_decode_audio {d d' : AudioTagDataDecoder} {buf : List Nat}
    {eos : Bool} {n : Nat} (h : audioTagDataDec.decode d buf eos = .ok (d', n)) :
    tagDataDec.decode (.audio d) buf eos = .ok (.audio d', n) := by
  simp only [tagDataDec]
  rw [h, ok_bind]

/-- Payload dispatch: video decode. -/
theorem tagData_decode_video {d d' : VideoTagDataDecoder} {buf : List Nat}
    {eos : Bool} {n : Nat} (h : videoTagDataDec.decode d buf eos = .ok (d', n)) :
    tagDataDec.decode (.video d) buf eos = .ok (.video d', n) := by
  simp only [tagDataDec]
  rw [h, ok_bind]

/-- Payload dispatch: script-data decode. -/
theorem tagData_decode_script {d d' : RemainingState} {buf : List Nat}
    {eos : Bool} {n : Nat} (h : scriptDataTagDataDec.decode d buf eos = .ok (d', n)) :
    tagDataDec.decode (.scriptData d) buf eos = .ok (.scriptData d', n) := by
  simp only [tagDataDec]
  rw [h, ok_bind]

/-- Payload dispatch: audio finish. -/
theorem tagData_finish_audio {d d' : AudioTagDataDecoder} {a : AudioTagData}
    (h : audioTagDataDec.finish d = .ok (d', a)) :
    tagDataDec.finish (.audio d) = .ok (.none, .audio a) := by
  simp only [tagDataDec]
  rw [h, ok_bind]

/-- Payload dispatch: video finish. -/
theorem tagData_finish_video {d d' : VideoTagDataDecoder} {a : VideoTagData}
    (h : videoTagDataDec.finish d = .ok (d', a)) :
    tagDataDec.finish (.video d) = .ok (.none, .video a) := by
  simp only [tagDataDec]
  rw [h, ok_bind]

/-- Payload dispatch: script-data finish. -/
theorem tagData_finish_script {d d' : RemainingState} {a : ScriptDataTagData}
    (h : scriptDataTagDataDec.finish d = .ok (d', a)) :
    tagDataDec.finish (.scriptData d) = .ok (.none, .scriptData a) := by
  simp only [tagDataDec]
  rw [h, ok_bind]

/-- Finishing a tag decoder whose header item is cached and whose payload
region is exhausted merges header and payload fields. -/
theorem tag_finish_eval {Sh' : TagHeaderBufs} {hd : TagHeader}
    {dd d' : TagDataDecoder} {e : Nat} {pd : TagData}
    (hdf : tagDataDec.finish dd = .ok (d', pd)) :
    tagDec.finish ⟨⟨Sh', some hd⟩, ⟨dd, e, 0⟩⟩ =
      .ok (⟨⟨Sh', none⟩, ⟨d', e, e⟩⟩, pd.merge hd) := by
  unfold tagDec
  simp only
  rw [show (peekDec tagHeaderDec).finish
      (⟨Sh', some hd⟩ : PeekState TagHeaderBufs TagHeader) =
    .ok (⟨Sh', none⟩, hd) from rfl, ok_bind]
  simp only
  rw [show (lengthDec tagDataDec).finish
      (⟨dd, e, 0⟩ : LengthState TagDataDecoder) = .ok (⟨d', e, e⟩, pd) from by
    simp only [lengthDec]
    rw [if_neg (by omega)]
    rw [hdf, ok_bind], ok_bind]
/-- The tag-type code written by the encoder parses back. -/
theorem tagtype_roundtrip (tt : TagType) : TagType.from_u8 tt.to_u8 = .ok tt := by
  cases tt <;> rfl

/-- The frame-type/codec byte decoder finishes into the parsed pair. -/
theorem ftc_finish (b : Nat) {ft : FrameType} {cid : CodecId}
    (h1 : FrameType.from_u8 (b / 16) = .ok ft)
    (h2 : CodecId.from_u8 (b % 16) = .ok cid) :
    frameTypeAndCodecDec.finish [b] = .ok ([], (ft, cid)) := by
  show (mapDec u8Dec _).finish [b] = _
  simp only [mapDec]
  rw [u8Dec_finish b, ok_bind]
  simp only
  rw [h1, ok_bind, h2, ok_bind, ok_bind]

/-- The 11 header bytes written by the encoder decode and finish back into
the header fields, for every in-range timestamp, stream id and data size. -/
theorem header_roundtrip (tt : TagType) (ds : Nat) (ts : Timestamp)
    (sid : StreamId)
    (hts1 : -(2 ^ 31) ≤ ts.val) (hts2 : ts.val < 2 ^ 31)
    (hsid : sid.val ≤ 0xFFFFFF) (hds : ds ≤ 0xFFFFFF) :
    DecodesAll tagHeaderDec tagHeaderInit
      (tt.to_u8 :: (u24beBytes ds ++ u24beBytes (toU32 ts.val % 2 ^ 24) ++
        [toU32 ts.val / 2 ^ 24] ++ u24beBytes sid.val))
      ([tt.to_u8], u24beBytes ds, u24beBytes (toU32 ts.val % 2 ^ 24),
        [toU32 ts.val / 2 ^ 24], u24beBytes sid.val) ∧
    tagHeaderDec.isIdle
      ([tt.to_u8], u24beBytes ds, u24beBytes (toU32 ts.val % 2 ^ 24),
        [toU32 ts.val / 2 ^ 24], u24beBytes sid.val) = true ∧
    tagHeaderDec.finish
      ([tt.to_u8], u24beBytes ds, u24beBytes (toU32 ts.val % 2 ^ 24),
        [toU32 ts.val / 2 ^ 24], u24beBytes sid.val) =
      .ok (tagHeaderInit, ⟨tt, ds, ts, sid⟩) := by
  refine ⟨?_, rfl, ?_⟩
  · exact tagHeader_decodes_all tt.to_u8 (ds / 2 ^ 16 % 256) (ds / 2 ^ 8 % 256)
      (ds % 256) (toU32 ts.val % 2 ^ 24 / 2 ^ 16 % 256)
      (toU32 ts.val % 2 ^ 24 / 2 ^ 8 % 256) (toU32 ts.val % 2 ^ 24 % 256)
      (toU32 ts.val / 2 ^ 24) (sid.val / 2 ^ 16 % 256) (sid.val / 2 ^ 8 % 256)
      (sid.val % 256)
  · have hfe := tagHeader_finish_eval tt.to_u8 (ds / 2 ^ 16 % 256)
      (ds / 2 ^ 8 % 256) (ds % 256) (toU32 ts.val % 2 ^ 24 / 2 ^ 16 % 256)
      (toU32 ts.val % 2 ^ 24 / 2 ^ 8 % 256) (toU32 ts.val % 2 ^ 24 % 256)
      (toU32 ts.val / 2 ^ 24) (sid.val / 2 ^ 16 % 256) (sid.val / 2 ^ 8 % 256)
      (sid.val % 256)
    unfold u24beBytes
    rw [hfe]
    rw [show beVal [tt.to_u8] = tt.to_u8 from beVal_single _]
    rw [show beVal [ds / 2 ^ 16 % 256, ds / 2 ^ 8 % 256, ds % 256] = ds from by
      have h := beVal_u24beBytes ds
      unfold u24beBytes at h
      rw [h]
      omega]
    rw [show beVal [toU32 ts.val % 2 ^ 24 / 2 ^ 16 % 256,
        toU32 ts.val % 2 ^ 24 / 2 ^ 8 % 256, toU32 ts.val % 2 ^ 24 % 256] =
        toU32 ts.val % 2 ^ 24 from by
      have h := beVal_u24beBytes (toU32 ts.val % 2 ^ 24)
      unfold u24beBytes at h
      rw [h]
      omega]
    rw [show beVal [toU32 ts.val / 2 ^ 24] = toU32 ts.val / 2 ^ 24 from
      beVal_single _]
    rw [show beVal [sid.val / 2 ^ 16 % 256, sid.val / 2 ^ 8 % 256, sid.val % 256] =
        sid.val from by
      have h := beVal_u24beBytes sid.val
      unfold u24beBytes at h
      rw [h]
      omega]
    unfold TagHeader.assemble
    rw [tagtype_roundtrip tt, ok_bind]
    simp only
    rw [if_neg (by omega)]
    rw [timestamp_roundtrip ts.val hts1 hts2]
    rfl

/-- Valid construction of a `Tag` value, as enforced by the crate's
constructors and field types: the timestamp is an `i32`
(`Timestamp(i32)`), the stream id passes `StreamId::new` (at most
`0xFF_FFFF`), the conditional payload fields obey the struct invariants of
§3 (AAC packet type exactly for AAC audio; AVC packet type and composition
time together exactly for AVC non-info frames), every composition time
passes `TimeOffset::new` (signed 24-bit range), and the payload size fits
the 24-bit data-size field. -/
def ValidTag : Tag → Prop
  | .audio a =>
      -(2 ^ 31) ≤ a.timestamp.val ∧ a.timestamp.val < 2 ^ 31 ∧
      a.stream_id.val ≤ 0xFFFFFF ∧
      (a.aac_packet_type.isSome = true ↔ a.sound_format = SoundFormat.aac) ∧
      a.data.length + 2 ≤ 0xFFFFFF
  | .video v =>
      -(2 ^ 31) ≤ v.timestamp.val ∧ v.timestamp.val < 2 ^ 31 ∧
      v.stream_id.val ≤ 0xFFFFFF ∧
      ((v.avc_packet_type.isSome = true ∧ v.composition_time.isSome = true) ↔
        (v.codec_id = CodecId.avc ∧ v.frame_type ≠ FrameType.videoInfoOrCommandFrame)) ∧
      v.avc_packet_type.isSome = v.composition_time.isSome ∧
      (∀ c, v.composition_time = some c → -(2 ^ 23) ≤ c.val ∧ c.val < 2 ^ 23) ∧
      v.data.length + 5 ≤ 0xFFFFFF
  | .scriptData s =>
      -(2 ^ 31) ≤ s.timestamp.val ∧ s.timestamp.val < 2 ^ 31 ∧
      s.stream_id.val ≤ 0xFFFFFF ∧
      s.data.length ≤ 0xFFFFFF

/-- C1: every validly constructed tag encodes to exactly `tag_size()` bytes,
and decoding those bytes with the tag decoder consumes them all and finishes
into a tag equal to the original, field for field. -/
theorem C1_encode_decode_roundtrip (t : Tag) (hv : ValidTag t) :
    t.tag_size = (Tag.encode t).length ∧
    ∃ s', tagDec.decode TagDecoder.init (Tag.encode t) true =
        .ok (s', (Tag.encode t).length) ∧
      tagDec.isIdle s' = true ∧
      ∃ s'', tagDec.finish s' = .ok (s'', t) := by
  cases t with
  | audio a =>
    obtain ⟨hts1, hts2, hsid, hlaw, hdlen⟩ := hv
    obtain ⟨hfmt, hrate, hsize, hty, hdiv⟩ :=
      sound_descriptor_roundtrip a.sound_format a.sound_rate a.sound_size
        a.sound_type
    have hds : (Tag.audio a).data_byte_size ≤ 0xFFFFFF := by
      simp only [Tag.data_byte_size]
      split <;> omega
    obtain ⟨hda, hidle, hfin⟩ := header_roundtrip .audio
      (Tag.audio a).data_byte_size a.timestamp a.stream_id hts1 hts2 hsid hds
    have henc : Tag.encode (Tag.audio a) =
        (TagType.audio.to_u8 :: (u24beBytes (Tag.audio a).data_byte_size ++
          u24beBytes (toU32 a.timestamp.val % 2 ^ 24) ++
          [toU32 a.timestamp.val / 2 ^ 24] ++
          u24beBytes a.stream_id.val)) ++ Tag.encodePayload (Tag.audio a) := rfl
    cases hpt : a.aac_packet_type with
    | some pt =>
      have haac : a.sound_format = SoundFormat.aac := hlaw.mp (by rw [hpt]; rfl)
      have hb10 : (a.sound_format.to_u8 * 16 + a.sound_rate.to_u8 * 4 +
          a.sound_size.to_u8 * 2 + a.sound_type.to_u8) / 16 = 10 := by
        rw [hdiv, haac]
        rfl
      have hpay : Tag.encodePayload (Tag.audio a) =
          (a.sound_format.to_u8 * 16 + a.sound_rate.to_u8 * 4 +
            a.sound_size.to_u8 * 2 + a.sound_type.to_u8) :: pt.to_u8 :: a.data := by
        simp only [Tag.encodePayload, hpt, Option.map_some', Option.getD_some]
        rfl
      have hsz : (Tag.audio a).data_byte_size =
          ((a.sound_format.to_u8 * 16 + a.sound_rate.to_u8 * 4 +
            a.sound_size.to_u8 * 2 + a.sound_type.to_u8) ::
            pt.to_u8 :: a.data).length := by
        simp [Tag.data_byte_size, hpt]
        omega
      have hpd := audio_decodes_aac _ pt.to_u8 a.data hb10
      have htd := tagData_decode_audio hpd
      have hDA := tag_decodes_all hda hidle hfin hsz htd rfl
      refine ⟨?_, ?_⟩
      · rw [henc, hpay]
        simp [Tag.tag_size, Tag.data_byte_size, hpt, u24beBytes]
        omega
      · have hd0 := hDA [] true
        rw [List.append_nil] at hd0
        rw [← hpay, ← henc] at hd0
        have hfmt' : SoundFormat.from_u8
            ((a.sound_format.to_u8 * 16 + a.sound_rate.to_u8 * 4 +
              a.sound_size.to_u8 * 2 + a.sound_type.to_u8) / 16) =
            .ok SoundFormat.aac := haac ▸ hfmt
        have hfa := audio_finish_aac _ pt.to_u8 a.data hfmt' hrate
          (aac_packet_roundtrip pt)
        rw [hsize, hty, ← haac] at hfa
        have htf := tagData_finish_audio hfa
        have hfin2 := @tag_finish_eval tagHeaderInit
          ⟨.audio, (Tag.audio a).data_byte_size, a.timestamp, a.stream_id⟩
          (.audio ⟨⟨[], some (a.sound_format.to_u8 * 16 + a.sound_rate.to_u8 * 4 +
            a.sound_size.to_u8 * 2 + a.sound_type.to_u8)⟩, [pt.to_u8],
            ⟨a.data, true⟩⟩) .none
          ((Tag.audio a).data_byte_size)
          (.audio ⟨a.sound_format, a.sound_rate, a.sound_size, a.sound_type,
            some pt, a.data⟩) htf
        rw [show (TagData.audio ⟨a.sound_format, a.sound_rate, a.sound_size,
            a.sound_type, some pt, a.data⟩).merge
            ⟨.audio, (Tag.audio a).data_byte_size, a.timestamp, a.stream_id⟩ =
          Tag.audio ⟨a.timestamp, a.stream_id, a.sound_format, a.sound_rate,
            a.sound_size, a.sound_type, some pt, a.data⟩ from rfl] at hfin2
        rw [← hpt] at hfin2
        exact ⟨_, hd0, rfl, _, hfin2⟩
    | none =>
      have hnaac : a.sound_format ≠ SoundFormat.aac := fun h =>
        by simpa [hpt] using hlaw.mpr h
      have hb10 : (a.sound_format.to_u8 * 16 + a.sound_rate.to_u8 * 4 +
          a.sound_size.to_u8 * 2 + a.sound_type.to_u8) / 16 ≠ 10 := by
        rw [hdiv]
        intro h
        exact hnaac (by cases hfm : a.sound_format <;> simp_all [SoundFormat.to_u8])
      have hpay : Tag.encodePayload (Tag.audio a) =
          (a.sound_format.to_u8 * 16 + a.sound_rate.to_u8 * 4 +
            a.sound_size.to_u8 * 2 + a.sound_type.to_u8) :: a.data := by
        simp only [Tag.encodePayload, hpt, Option.map_none', Option.getD_none]
        rfl
      have hsz : (Tag.audio a).data_byte_size =
          ((a.sound_format.to_u8 * 16 + a.sound_rate.to_u8 * 4 +
            a.sound_size.to_u8 * 2 + a.sound_type.to_u8) :: a.data).length := by
        simp [Tag.data_byte_size, hpt]
        omega
      have hpd := audio_decodes_plain _ a.data hb10
      have htd := tagData_decode_audio hpd
      have hDA := tag_decodes_all hda hidle hfin hsz htd rfl
      refine ⟨?_, ?_⟩
      · rw [henc, hpay]
        simp [Tag.tag_size, Tag.data_byte_size, hpt, u24beBytes]
        omega
      · have hd0 := hDA [] true
        rw [List.append_nil] at hd0
        rw [← hpay, ← henc] at hd0
        have hfa := audio_finish_plain _ a.data hfmt hrate hnaac
        rw [hsize, hty] at hfa
        have htf := tagData_finish_audio hfa
        have hfin2 := @tag_finish_eval tagHeaderInit
          ⟨.audio, (Tag.audio a).data_byte_size, a.timestamp, a.stream_id⟩
          (.audio ⟨⟨[], some (a.sound_format.to_u8 * 16 + a.sound_rate.to_u8 * 4 +
            a.sound_size.to_u8 * 2 + a.sound_type.to_u8)⟩, [],
            ⟨a.data, true⟩⟩) .none
          ((Tag.audio a).data_byte_size)
          (.audio ⟨a.sound_format, a.sound_rate, a.sound_size, a.sound_type,
            none, a.data⟩) htf
        rw [show (TagData.audio ⟨a.sound_format, a.sound_rate, a.sound_size,
            a.sound_type, none, a.data⟩).merge
            ⟨.audio, (Tag.audio a).data_byte_size, a.timestamp, a.stream_id⟩ =
          Tag.audio ⟨a.timestamp, a.stream_id, a.sound_format, a.sound_rate,
            a.sound_size, a.sound_type, none, a.data⟩ from rfl] at hfin2
        rw [← hpt] at hfin2
        exact ⟨_, hd0, rfl, _, hfin2⟩
  | video v =>
    obtain ⟨hts1, hts2, hsid, hlaw, heq, hrange, hdlen⟩ := hv
    obtain ⟨hft, hcid⟩ := frame_codec_roundtrip v.frame_type v.codec_id
    have hds : (Tag.video v).data_byte_size ≤ 0xFFFFFF := by
      simp only [Tag.data_byte_size]
      split <;> omega
    obtain ⟨hda, hidle, hfin⟩ := header_roundtrip .video
      (Tag.video v).data_byte_size v.timestamp v.stream_id hts1 hts2 hsid hds
    have henc : Tag.encode (Tag.video v) =
        (TagType.video.to_u8 :: (u24beBytes (Tag.video v).data_byte_size ++
          u24beBytes (toU32 v.timestamp.val % 2 ^ 24) ++
          [toU32 v.timestamp.val / 2 ^ 24] ++
          u24beBytes v.stream_id.val)) ++ Tag.encodePayload (Tag.video v) := rfl
    have hfc : frameTypeAndCodecDec.finish
        [v.frame_type.to_u8 * 16 + v.codec_id.to_u8] =
        .ok ([], (v.frame_type, v.codec_id)) := ftc_finish _ hft hcid
    cases hpa : v.avc_packet_type with
    | some pt =>
      have hcs : v.composition_time.isSome = true := by
        rw [← heq, hpa]
        rfl
      have hct : ∃ c, v.composition_time = some c := by
        cases hx : v.composition_time with
        | some c => exact ⟨c, rfl⟩
        | none => rw [hx] at hcs; simp at hcs
      obtain ⟨ct, hct⟩ := hct
      have havc : v.codec_id = CodecId.avc ∧
          v.frame_type ≠ FrameType.videoInfoOrCommandFrame :=
        hlaw.mp ⟨by rw [hpa]; rfl, hcs⟩
      have havc' : v.frame_type ≠ FrameType.videoInfoOrCommandFrame ∧
          v.codec_id = CodecId.avc := ⟨havc.2, havc.1⟩
      obtain ⟨hr1, hr2⟩ := hrange ct hct
      have hpay : Tag.encodePayload (Tag.video v) =
          (v.frame_type.to_u8 * 16 + v.codec_id.to_u8) :: pt.to_u8 ::
            toU32 ct.val % 2 ^ 24 / 2 ^ 16 % 256 ::
            toU32 ct.val % 2 ^ 24 / 2 ^ 8 % 256 ::
            toU32 ct.val % 2 ^ 24 % 256 :: v.data := by
        simp only [Tag.encodePayload, hpa, hct]
        rfl
      have hsz : (Tag.video v).data_byte_size =
          ((v.frame_type.to_u8 * 16 + v.codec_id.to_u8) :: pt.to_u8 ::
            toU32 ct.val % 2 ^ 24 / 2 ^ 16 % 256 ::
            toU32 ct.val % 2 ^ 24 / 2 ^ 8 % 256 ::
            toU32 ct.val % 2 ^ 24 % 256 :: v.data).length := by
        simp [Tag.data_byte_size, hpa]
        omega
      have hpd := video_decodes_avc (v.frame_type.to_u8 * 16 + v.codec_id.to_u8)
        pt.to_u8 (toU32 ct.val % 2 ^ 24 / 2 ^ 16 % 256)
        (toU32 ct.val % 2 ^ 24 / 2 ^ 8 % 256) (toU32 ct.val % 2 ^ 24 % 256)
        v.data v.frame_type v.codec_id hfc havc'
      have htd := tagData_decode_video hpd
      have hDA := tag_decodes_all hda hidle hfin hsz htd rfl
      refine ⟨?_, ?_⟩
      · rw [henc, hpay]
        simp [Tag.tag_size, Tag.data_byte_size, hpa, u24beBytes]
        omega
      · have hd0 := hDA [] true
        rw [List.append_nil] at hd0
        rw [← hpay, ← henc] at hd0
        have hfv := video_finish_avc_eval pt.to_u8
          (toU32 ct.val % 2 ^ 24 / 2 ^ 16 % 256)
          (toU32 ct.val % 2 ^ 24 / 2 ^ 8 % 256)
          (toU32 ct.val % 2 ^ 24 % 256) v.data v.frame_type v.codec_id havc'
          (avc_packet_roundtrip pt)
        rw [show beVal [toU32 ct.val % 2 ^ 24 / 2 ^ 16 % 256,
            toU32 ct.val % 2 ^ 24 / 2 ^ 8 % 256, toU32 ct.val % 2 ^ 24 % 256] =
            toU32 ct.val % 2 ^ 24 from by
          have h := beVal_u24beBytes (toU32 ct.val % 2 ^ 24)
          unfold u24beBytes at h
          rw [h]
          omega] at hfv
        rw [comp_time_roundtrip ct.val hr1 hr2] at hfv
        rw [show (⟨ct.val⟩ : CompositionTimeOffset) = ct from rfl] at hfv
        have htf := tagData_finish_video hfv
        have hfin2 := @tag_finish_eval tagHeaderInit
          ⟨.video, (Tag.video v).data_byte_size, v.timestamp, v.stream_id⟩
          (.video ⟨⟨[], some (v.frame_type, v.codec_id)⟩, [pt.to_u8],
            [toU32 ct.val % 2 ^ 24 / 2 ^ 16 % 256,
             toU32 ct.val % 2 ^ 24 / 2 ^ 8 % 256,
             toU32 ct.val % 2 ^ 24 % 256], ⟨v.data, true⟩⟩) .none
          ((Tag.video v).data_byte_size)
          (.video ⟨v.frame_type, v.codec_id, some pt, some ct, v.data⟩) htf
        rw [show (TagData.video ⟨v.frame_type, v.codec_id, some pt, some ct,
            v.data⟩).merge
            ⟨.video, (Tag.video v).data_byte_size, v.timestamp, v.stream_id⟩ =
          Tag.video ⟨v.timestamp, v.stream_id, v.frame_type, v.codec_id,
            some pt, some ct, v.data⟩ from rfl] at hfin2
        rw [← hpa, ← hct] at hfin2
        exact ⟨_, hd0, rfl, _, hfin2⟩
    | none =>
      have hcs : v.composition_time.isSome = false := by
        rw [← heq, hpa]
        rfl
      have hct : v.composition_time = none := by
        cases hx : v.composition_time with
        | some c => rw [hx] at hcs; simp at hcs
        | none => rfl
      have havcn : ¬(v.frame_type ≠ FrameType.videoInfoOrCommandFrame ∧
          v.codec_id = CodecId.avc) := by
        intro h
        have := (hlaw.mpr ⟨h.2, h.1⟩).1
        rw [hpa] at this
        simp at this
      have hpay : Tag.encodePayload (Tag.video v) =
          (v.frame_type.to_u8 * 16 + v.codec_id.to_u8) :: v.data := by
        simp only [Tag.encodePayload, hpa, hct]
        rfl
      have hsz : (Tag.video v).data_byte_size =
          ((v.frame_type.to_u8 * 16 + v.codec_id.to_u8) :: v.data).length := by
        simp [Tag.data_byte_size, hpa]
        omega
      have hpd := video_decodes_plain (v.frame_type.to_u8 * 16 + v.codec_id.to_u8)
        v.data v.frame_type v.codec_id hfc havcn
      have htd := tagData_decode_video hpd
      have hDA := tag_decodes_all hda hidle hfin hsz htd rfl
      refine ⟨?_, ?_⟩
      · rw [henc, hpay]
        simp [Tag.tag_size, Tag.data_byte_size, hpa, u24beBytes]
        omega
      · have hd0 := hDA [] true
        rw [List.append_nil] at hd0
        rw [← hpay, ← henc] at hd0
        have hfv := video_finish_plain v.data v.frame_type v.codec_id havcn
        have htf := tagData_finish_video hfv
        have hfin2 := @tag_finish_eval tagHeaderInit
          ⟨.video, (Tag.video v).data_byte_size, v.timestamp, v.stream_id⟩
          (.video ⟨⟨[], some (v.frame_type, v.codec_id)⟩, [], [],
            ⟨v.data, true⟩⟩) .none
          ((Tag.video v).data_byte_size)
          (.video ⟨v.frame_type, v.codec_id, none, none, v.data⟩) htf
        rw [show (TagData.video ⟨v.frame_type, v.codec_id, none, none,
            v.data⟩).merge
            ⟨.video, (Tag.video v).data_byte_size, v.timestamp, v.stream_id⟩ =
          Tag.video ⟨v.timestamp, v.stream_id, v.frame_type, v.codec_id,
            none, none, v.data⟩ from rfl] at hfin2
        rw [← hpa, ← hct] at hfin2
        exact ⟨_, hd0, rfl, _, hfin2⟩
  | scriptData s =>
    obtain ⟨hts1, hts2, hsid, hdlen⟩ := hv
    obtain ⟨hda, hidle, hfin⟩ := header_roundtrip .scriptData
      (Tag.scriptData s).data_byte_size s.timestamp s.stream_id hts1 hts2 hsid
      hdlen
    have henc : Tag.encode (Tag.scriptData s) =
        (TagType.scriptData.to_u8 ::
          (u24beBytes (Tag.scriptData s).data_byte_size ++
          u24beBytes (toU32 s.timestamp.val % 2 ^ 24) ++
          [toU32 s.timestamp.val / 2 ^ 24] ++
          u24beBytes s.stream_id.val)) ++ Tag.encodePayload (Tag.scriptData s) :=
      rfl
    have hpay : Tag.encodePayload (Tag.scriptData s) = s.data := rfl
    have hpd := tagData_decode_script (script_decodes s.data)
    have hDA := tag_decodes_all hda hidle hfin rfl hpd rfl
    refine ⟨?_, ?_⟩
    · rw [henc, hpay]
      simp [Tag.tag_size, Tag.data_byte_size, u24beBytes]
      omega
    · have hd0 := hDA [] true
      rw [List.append_nil] at hd0
      rw [← hpay, ← henc] at hd0
      have htf := tagData_finish_script (script_finish s.data)
      have hfin2 := @tag_finish_eval tagHeaderInit
        ⟨.scriptData, (Tag.scriptData s).data_byte_size, s.timestamp,
          s.stream_id⟩
        (.scriptData ⟨s.data, true⟩) .none
        ((Tag.scriptData s).data_byte_size) (.scriptData ⟨s.data⟩) htf
      rw [show (TagData.scriptData ⟨s.data⟩).merge
          ⟨.scriptData, (Tag.scriptData s).data_byte_size, s.timestamp,
            s.stream_id⟩ =
        Tag.scriptData ⟨s.timestamp, s.stream_id, s.data⟩ from rfl] at hfin2
      exact ⟨_, hd0, rfl, _, hfin2⟩

/-- Concrete sample tag for exercising the roundtrip theorem: an AAC audio
tag with timestamp 0, stream id 0 and three data bytes. -/
def c1SampleTag : Tag :=
  .audio ⟨⟨0⟩, ⟨0⟩, .aac, .khz44, .bit16, .stereo, some .raw, [10, 11, 12]⟩

theorem C1_encode_decode_roundtrip_witness :
    ValidTag c1SampleTag ∧
    (c1SampleTag.tag_size = (Tag.encode c1SampleTag).length ∧
    ∃ s', tagDec.decode TagDecoder.init (Tag.encode c1SampleTag) true =
        .ok (s', (Tag.encode c1SampleTag).length) ∧
      tagDec.isIdle s' = true ∧
      ∃ s'', tagDec.finish s' = .ok (s'', c1SampleTag)) :=
  ⟨⟨by norm_num, by norm_num, by norm_num, by simp, by norm_num⟩,
   C1_encode_decode_roundtrip c1SampleTag
     ⟨by norm_num, by norm_num, by norm_num, by simp, by norm_num⟩⟩

/-- Chunk-delivery compatibility of a decoder at well-formed states: an
empty mid-stream buffer is a no-op, an idle decoder consumes nothing, and a
successful decode of a concatenated buffer factors through the boundary —
either the consumption stops within the first part (`trunc`) or the first
part is consumed in full and the rest continues from the intermediate state
(`split`). -/
structure ChunkProps (d : Dec σ α) (W : σ → Prop) : Prop where
  empty : ∀ s, W s → d.decode s [] false = .ok (s, 0)
  idleNC : ∀ s buf eos, W s → d.isIdle s = true → d.decode s buf eos = .ok (s, 0)
  trunc : ∀ s a b eos s' n, W s → b ≠ [] → d.decode s (a ++ b) eos = .ok (s', n) →
    n ≤ a.length → d.decode s a false = .ok (s', n)
  split : ∀ s a b eos s' n, W s → b ≠ [] → d.decode s (a ++ b) eos = .ok (s', n) →
    a.length ≤ n → ∃ sm, d.decode s a false = .ok (sm, a.length) ∧
      d.decode sm b eos = .ok (s', n - a.length)

/-- Chunk compatibility of the fixed-size byte-buffer decoder. -/
theorem copyChunk (n : Nat) : ChunkProps (copyDec n) (fun _ => True) where
  empty := by
    intro s _
    unfold copyDec
    simp
  idleNC := by
    intro s buf eos _ hi
    simp only [copyDec, decide_eq_true_eq] at hi
    unfold copyDec
    simp [hi]
  trunc := by
    intro s a b eos s' m _ hb h hm
    obtain ⟨hs, hmv, hc⟩ := copy_decode_ok h
    have hbl : 0 < b.length := List.length_pos.mpr hb
    simp only [List.length_append] at hmv
    have hx : min (n - s.length) (a ++ b).length = m := by
      simp only [List.length_append]
      omega
    rw [hx] at hs
    have hs' : s' = s ++ a.take m := by
      rw [hs, List.take_append_of_le_length (by omega)]
    unfold copyDec
    simp only
    rw [show min (n - s.length) a.length = m from by omega]
    rw [← hs']
    by_cases hfull : s'.length = n
    · rw [if_pos hfull]
    · rw [if_neg hfull]
      simp
  split := by
    intro s a b eos s' m _ hb h hm
    obtain ⟨hs, hmv, hc⟩ := copy_decode_ok h
    simp only [List.length_append] at hmv
    have hx : min (n - s.length) (a ++ b).length = m := by
      simp only [List.length_append]
      omega
    rw [hx] at hs
    have hna : a.length ≤ n - s.length := by omega
    have htk : (a ++ b).take m = a ++ b.take (m - a.length) := by
      rw [List.take_append_eq_append_take, List.take_of_length_le (by omega)]
    have hstate : (s ++ a) ++ b.take (m - a.length) = s' := by
      rw [hs, htk, ← List.append_assoc]
    refine ⟨s ++ a, ?_, ?_⟩
    · unfold copyDec
      simp only
      rw [show min (n - s.length) a.length = a.length from by omega, List.take_length]
      by_cases hfull : (s ++ a).length = n
      · rw [if_pos hfull]
      · rw [if_neg hfull]
        simp
    · unfold copyDec
      simp only
      rw [show min (n - (s ++ a).length) b.length = m - a.length from by
        simp only [List.length_append]
        omega]
      rw [hstate]
      by_cases hfull : s'.length = n
      · rw [if_pos hfull]
      · rw [if_neg hfull]
        simp [hc hfull]

/-- Chunk compatibility lifts through item reinterpretation. -/
theorem mapChunk {d : Dec σ α} {W : σ → Prop} (hd : ChunkProps d W)
    (f : α → Except DecodeError β) : ChunkProps (mapDec d f) W where
  empty := hd.empty
  idleNC := hd.idleNC
  trunc := hd.trunc
  split := hd.split

/-- Chunk compatibility of the remaining-bytes accumulator. -/
theorem remainingChunk : ChunkProps remainingDec (fun _ => True) where
  empty := by
    intro s _
    unfold remainingDec
    simp only
    split
    · rfl
    · rename_i hr
      simp only [Bool.not_eq_true] at hr
      simp only [List.append_nil, List.length_nil]
      rw [← hr]
  idleNC := by
    intro s buf eos _ hi
    simp only [remainingDec] at hi
    unfold remainingDec
    simp [hi]
  trunc := by
    intro s a b eos s' m _ hb h hm
    have hbl : 0 < b.length := List.length_pos.mpr hb
    unfold remainingDec at h ⊢
    simp only at h ⊢
    split at h
    · rename_i hr
      rw [if_pos hr]
      exact h
    · rename_i hr
      simp only [Except.ok.injEq, Prod.mk.injEq, List.length_append] at h
      omega
  split := by
    intro s a b eos s' m _ hb h hm
    unfold remainingDec at h ⊢
    simp only at h ⊢
    split at h
    · rename_i hr
      simp only [Except.ok.injEq, Prod.mk.injEq] at h
      have ha : a.length = 0 := by omega
      have ha' : a = [] := List.length_eq_zero.mp ha
      refine ⟨s, ?_, ?_⟩
      · rw [if_pos hr, ha']
        simp
      · rw [if_pos hr, ← h.1, ← h.2, ha]
    · rename_i hr
      simp only [Except.ok.injEq, Prod.mk.injEq, List.length_append] at h
      refine ⟨⟨s.bytes ++ a, false⟩, ?_, ?_⟩
      · rw [if_neg hr]
      · rw [if_neg (by simp)]
        simp only [Except.ok.injEq, Prod.mk.injEq]
        constructor
        · rw [← h.1]
          simp
        · omega

/-- Chunk compatibility of the padding skipper. -/
theorem paddingChunk : ChunkProps paddingDec (fun _ => True) where
  empty := by
    intro s _
    unfold paddingDec
    simp only
    split
    · rfl
    · rename_i hr
      simp only [Bool.not_eq_true] at hr
      simp [hr]
  idleNC := by
    intro s buf eos _ hi
    simp only [paddingDec] at hi
    unfold paddingDec
    simp [hi]
  trunc := by
    intro s a b eos s' m _ hb h hm
    have hbl : 0 < b.length := List.length_pos.mpr hb
    unfold paddingDec at h ⊢
    simp only at h ⊢
    split at h
    · rename_i hr
      rw [if_pos hr]
      exact h
    · rename_i hr
      simp only [Except.ok.injEq, Prod.mk.injEq, List.length_append] at h
      omega
  split := by
    intro s a b eos s' m _ hb h hm
    unfold paddingDec at h ⊢
    simp only at h ⊢
    split at h
    · rename_i hr
      simp only [Except.ok.injEq, Prod.mk.injEq] at h
      have ha : a.length = 0 := by omega
      refine ⟨s, ?_, ?_⟩
      · rw [if_pos hr, ha]
      · rw [if_pos hr, ← h.1, ← h.2, ha]
    · rename_i hr
      simp only [Except.ok.injEq, Prod.mk.injEq, List.length_append] at h
      refine ⟨false, ?_, ?_⟩
      · rw [if_neg hr]
      · rw [if_neg (by simp)]
        simp only [Except.ok.injEq, Prod.mk.injEq]
        exact ⟨h.1, by omega⟩

/-- Chunk compatibility of the byte, 24-bit and 32-bit integer decoders. -/
theorem u8Chunk : ChunkProps u8Dec (fun _ => True) := mapChunk (copyChunk 1) _

theorem u24Chunk : ChunkProps u24Dec (fun _ => True) := mapChunk (copyChunk 3) _

theorem u32Chunk : ChunkProps u32Dec (fun _ => True) := mapChunk (copyChunk 4) _

theorem ftcChunk : ChunkProps frameTypeAndCodecDec (fun _ => True) := mapChunk u8Chunk _

/-- Reduction of a bind over a successful step. -/
theorem tuple_decode_eval {d1 : Dec σ α} {d2 : Dec τ β} {x : σ} {y : τ}
    {buf : List Nat} {eos : Bool} :
    (tupleDec d1 d2).decode (x, y) buf eos =
      (if d1.isIdle x then
        if d2.isIdle y then .ok ((x, y), 0)
        else do
          let (t', m) ← d2.decode y buf eos
          .ok ((x, t'), m)
      else do
        let (s', n) ← d1.decode x buf eos
        if d1.isIdle s' then
          if d2.isIdle y then .ok ((s', y), n)
          else do
            let (t', m) ← d2.decode y (buf.drop n) eos
            .ok ((s', t'), n + m)
        else .ok ((s', y), n)) := rfl

/-- Chunk compatibility of the sequential pair. -/
theorem tupleChunk {d1 : Dec σ α} {d2 : Dec τ β} {W1 : σ → Prop} {W2 : τ → Prop}
    (o1 : StepOk d1 W1) (o2 : StepOk d2 W2)
    (c1 : ChunkProps d1 W1) (c2 : ChunkProps d2 W2) :
    ChunkProps (tupleDec d1 d2) (TupleWF W1 W2) where
  empty := by
    intro ⟨x, y⟩ hwf
    rw [tuple_decode_eval]
    by_cases hi1 : d1.isIdle x = true
    · rw [if_pos hi1]
      by_cases hi2 : d2.isIdle y = true
      · rw [if_pos hi2]
      · rw [if_neg (by simp [hi2]), c2.empty y hwf.2]; simp only [ok_bind]
    · rw [if_neg (by simp [hi1]), c1.empty x hwf.1]; simp only [ok_bind]
      rw [if_neg (by simp [hi1])]
  idleNC := by
    intro ⟨x, y⟩ buf eos hwf hi
    simp only [tupleDec, Bool.and_eq_true] at hi
    rw [tuple_decode_eval, if_pos hi.1, if_pos hi.2]
  trunc := by
    intro ⟨x, y⟩ a b eos s' n hwf hb h hn
    rw [tuple_decode_eval] at h
    rw [tuple_decode_eval]
    by_cases hi1 : d1.isIdle x = true
    · rw [if_pos hi1] at h ⊢
      by_cases hi2 : d2.isIdle y = true
      · rw [if_pos hi2] at h ⊢
        exact h
      · rw [if_neg (by simp [hi2])] at h ⊢
        obtain ⟨⟨t', m⟩, hd2, h⟩ := bind_ok h
        dsimp only at h
        simp only [Except.ok.injEq, Prod.mk.injEq] at h
        rw [c2.trunc y a b eos t' m hwf.2 hb hd2 (by omega)]; simp only [ok_bind]
        rw [h.1, h.2]
    · rw [if_neg (by simp [hi1])] at h ⊢
      obtain ⟨⟨s₁, n₁⟩, hd1, h⟩ := bind_ok h
      dsimp only at h
      by_cases hio1 : d1.isIdle s₁ = true
      · rw [if_pos hio1] at h
        by_cases hi2 : d2.isIdle y = true
        · rw [if_pos hi2] at h
          simp only [Except.ok.injEq, Prod.mk.injEq] at h
          rw [c1.trunc x a b eos s₁ n₁ hwf.1 hb hd1 (by omega)]; simp only [ok_bind]
          rw [if_pos hio1, if_pos hi2, h.1, h.2]
        · rw [if_neg (by simp [hi2])] at h
          obtain ⟨⟨t', m⟩, hd2, h⟩ := bind_ok h
          dsimp only at h
          simp only [Except.ok.injEq, Prod.mk.injEq] at h
          have hn₁ : n₁ ≤ a.length := by omega
          rw [List.drop_append_of_le_length hn₁] at hd2
          have hm : m ≤ (a.drop n₁).length := by
            simp only [List.length_drop]
            omega
          rw [c1.trunc x a b eos s₁ n₁ hwf.1 hb hd1 hn₁]; simp only [ok_bind]
          rw [if_pos hio1, if_neg (by simp [hi2])]
          rw [c2.trunc y (a.drop n₁) b eos t' m hwf.2 hb hd2 hm]; simp only [ok_bind]
          rw [h.1, h.2]
      · rw [if_neg (by simp [hio1])] at h
        simp only [Except.ok.injEq, Prod.mk.injEq] at h
        rw [c1.trunc x a b eos s₁ n₁ hwf.1 hb hd1 (by omega)]; simp only [ok_bind]
        rw [if_neg (by simp [hio1]), h.1, h.2]
  split := by
    intro ⟨x, y⟩ a b eos s' n hwf hb h hn
    rw [tuple_decode_eval] at h
    by_cases hi1 : d1.isIdle x = true
    · rw [if_pos hi1] at h
      by_cases hi2 : d2.isIdle y = true
      · rw [if_pos hi2] at h
        simp only [Except.ok.injEq, Prod.mk.injEq] at h
        have ha : a = [] := List.length_eq_zero.mp (by omega)
        subst ha
        refine ⟨(x, y), ?_, ?_⟩
        · rw [tuple_decode_eval, if_pos hi1, if_pos hi2]
          simp
        · rw [tuple_decode_eval, if_pos hi1, if_pos hi2, ← h.1]
          simp [← h.2]
      · rw [if_neg (by simp [hi2])] at h
        obtain ⟨⟨t', m⟩, hd2, h⟩ := bind_ok h
        dsimp only at h
        simp only [Except.ok.injEq, Prod.mk.injEq] at h
        obtain ⟨tm, htm1, htm2⟩ :=
          c2.split y a b eos t' m hwf.2 hb hd2 (by omega)
        have hwtm : W2 tm := o2.wf_decode _ _ _ _ _ hwf.2 htm1
        refine ⟨(x, tm), ?_, ?_⟩
        · rw [tuple_decode_eval, if_pos hi1, if_neg (by simp [hi2]), htm1]; simp only [ok_bind]
        · rw [tuple_decode_eval, if_pos hi1]
          by_cases hitm : d2.isIdle tm = true
          · rw [if_pos hitm]
            rw [c2.idleNC tm b eos hwtm hitm] at htm2
            simp only [Except.ok.injEq, Prod.mk.injEq] at htm2
            rw [← h.1, ← htm2.1, show n - a.length = 0 from by omega]
          · rw [if_neg (by simp [hitm]), htm2]; simp only [ok_bind]
            rw [← h.1, ← h.2]
    · rw [if_neg (by simp [hi1])] at h
      obtain ⟨⟨s₁, n₁⟩, hd1, h⟩ := bind_ok h
      dsimp only at h
      have hle1 := o1.consume_le _ _ _ _ _ hd1
      simp only [List.length_append] at hle1
      by_cases hio1 : d1.isIdle s₁ = true
      · rw [if_pos hio1] at h
        by_cases hi2 : d2.isIdle y = true
        · rw [if_pos hi2] at h
          simp only [Except.ok.injEq, Prod.mk.injEq] at h
          obtain ⟨m1, hm1, hm2⟩ :=
            c1.split x a b eos s₁ n₁ hwf.1 hb hd1 (by omega)
          have hwm1 : W1 m1 := o1.wf_decode _ _ _ _ _ hwf.1 hm1
          refine ⟨(m1, y), ?_, ?_⟩
          · rw [tuple_decode_eval, if_neg (by simp [hi1]), hm1]; simp only [ok_bind]
            by_cases him1 : d1.isIdle m1 = true
            · rw [if_pos him1, if_pos hi2]
            · rw [if_neg (by simp [him1])]
          · by_cases him1 : d1.isIdle m1 = true
            · rw [c1.idleNC m1 b eos hwm1 him1] at hm2
              simp only [Except.ok.injEq, Prod.mk.injEq] at hm2
              rw [tuple_decode_eval, if_pos him1, if_pos hi2]
              rw [← h.1, ← hm2.1, show n - a.length = 0 from by omega]
            · rw [tuple_decode_eval, if_neg (by simp [him1]), hm2]; simp only [ok_bind]
              rw [if_pos hio1, if_pos hi2, ← h.1, ← h.2]
        · rw [if_neg (by simp [hi2])] at h
          obtain ⟨⟨t', m₂⟩, hd2, h⟩ := bind_ok h
          dsimp only at h
          simp only [Except.ok.injEq, Prod.mk.injEq] at h
          by_cases hn₁ : a.length ≤ n₁
          · obtain ⟨m1, hm1, hm2⟩ := c1.split x a b eos s₁ n₁ hwf.1 hb hd1 hn₁
            have hwm1 : W1 m1 := o1.wf_decode _ _ _ _ _ hwf.1 hm1
            by_cases him1 : d1.isIdle m1 = true
            · rw [c1.idleNC m1 b eos hwm1 him1] at hm2
              simp only [Except.ok.injEq, Prod.mk.injEq] at hm2
              have hn₁a : n₁ = a.length := by omega
              have hdr : (a ++ b).drop n₁ = b := by
                rw [hn₁a, List.drop_append_of_le_length (le_refl _)]
                simp
              rw [hdr] at hd2
              refine ⟨(m1, y), ?_, ?_⟩
              · rw [tuple_decode_eval, if_neg (by simp [hi1]), hm1]; simp only [ok_bind]
                rw [if_pos him1, if_neg (by simp [hi2]), List.drop_length,
                  c2.empty y hwf.2]; simp only [ok_bind]
                rw [show a.length + 0 = a.length from by omega]
              · rw [tuple_decode_eval, if_pos him1, if_neg (by simp [hi2])]
                rw [hd2]; simp only [ok_bind]
                rw [← h.1, hm2.1, show n - a.length = m₂ from by omega]
            · refine ⟨(m1, y), ?_, ?_⟩
              · rw [tuple_decode_eval, if_neg (by simp [hi1]), hm1]; simp only [ok_bind]
                rw [if_neg (by simp [him1])]
              · rw [tuple_decode_eval, if_neg (by simp [him1]), hm2]; simp only [ok_bind]
                rw [if_pos hio1, if_neg (by simp [hi2])]
                have hdr : (a ++ b).drop n₁ = b.drop (n₁ - a.length) := by
                  rw [List.drop_append_eq_append_drop, List.drop_eq_nil_of_le (by omega),
                    List.nil_append]
                rw [hdr] at hd2
                rw [hd2]; simp only [ok_bind]
                rw [← h.1, show n - a.length = n₁ - a.length + m₂ from by omega]
          · push_neg at hn₁
            have hd1' := c1.trunc x a b eos s₁ n₁ hwf.1 hb hd1 (by omega)
            have hdr : (a ++ b).drop n₁ = a.drop n₁ ++ b :=
              List.drop_append_of_le_length (by omega)
            rw [hdr] at hd2
            have hlen : (a.drop n₁).length ≤ m₂ := by
              simp only [List.length_drop]
              omega
            obtain ⟨tm, htm1, htm2⟩ :=
              c2.split y (a.drop n₁) b eos t' m₂ hwf.2 hb hd2 hlen
            have hwtm : W2 tm := o2.wf_decode _ _ _ _ _ hwf.2 htm1
            refine ⟨(s₁, tm), ?_, ?_⟩
            · rw [tuple_decode_eval, if_neg (by simp [hi1]), hd1']; simp only [ok_bind]
              rw [if_pos hio1, if_neg (by simp [hi2]), htm1]; simp only [ok_bind]
              rw [show n₁ + (a.drop n₁).length = a.length from by
                simp only [List.length_drop]
                omega]
            · rw [tuple_decode_eval, if_pos hio1]
              by_cases hitm : d2.isIdle tm = true
              · rw [if_pos hitm]
                rw [c2.idleNC tm b eos hwtm hitm] at htm2
                simp only [Except.ok.injEq, Prod.mk.injEq] at htm2
                simp only [List.length_drop] at htm2
                rw [← h.1, ← htm2.1, show n - a.length = 0 from by omega]
              · rw [if_neg (by simp [hitm]), htm2]; simp only [ok_bind]
                rw [← h.1, show n - a.length = m₂ - (a.drop n₁).length from by
                  simp only [List.length_drop]
                  omega]
      · rw [if_neg (by simp [hio1])] at h
        simp only [Except.ok.injEq, Prod.mk.injEq] at h
        obtain ⟨m1, hm1, hm2⟩ :=
          c1.split x a b eos s₁ n₁ hwf.1 hb hd1 (by omega)
        have hwm1 : W1 m1 := o1.wf_decode _ _ _ _ _ hwf.1 hm1
        have him1 : d1.isIdle m1 = false := by
          by_contra hc
          simp only [Bool.not_eq_false] at hc
          rw [c1.idleNC m1 b eos hwm1 hc] at hm2
          simp only [Except.ok.injEq, Prod.mk.injEq] at hm2
          rw [← hm2.1] at hio1
          rw [hc] at hio1
          exact absurd hio1 (by simp)
        refine ⟨(m1, y), ?_, ?_⟩
        · rw [tuple_decode_eval, if_neg (by simp [hi1]), hm1]; simp only [ok_bind]
          rw [if_neg (by simp [him1])]
        · rw [tuple_decode_eval, if_neg (by simp [him1]), hm2]; simp only [ok_bind]
          rw [if_neg (by simp [hio1]), ← h.1, ← h.2]
/-- Branch evaluation of the `Peekable` decode. -/
theorem peek_decode_eval {d : Dec σ α} {s : PeekState σ α} {buf : List Nat} {eos : Bool} :
    (peekDec d).decode s buf eos =
      (match s.item with
      | some _ => .ok (s, 0)
      | none => do
        let (i', n) ← d.decode s.inner buf eos
        if d.isIdle i' then do
          let (i'', a) ← d.finish i'
          .ok (⟨i'', some a⟩, n)
        else .ok (⟨i', none⟩, n)) := rfl

/-- Chunk compatibility of the `Peekable` combinator. -/
theorem peekChunk {d : Dec σ α} {WF : σ → Prop} (o : StepOk d WF) (c : ChunkProps d WF) :
    ChunkProps (peekDec d) (PeekWF d WF) where
  empty := by
    intro s hwf
    rw [peek_decode_eval]
    cases hitem : s.item with
    | some v => rw [show s = ⟨s.inner, some v⟩ from by rw [← hitem]]
    | none =>
      simp only
      rw [c.empty s.inner hwf.1]; simp only [ok_bind]
      rw [if_neg (by simp [hwf.2])]
      rw [show (⟨s.inner, none⟩ : PeekState σ α) = s from by rw [← hitem]]
  idleNC := by
    intro s buf eos hwf hi
    simp only [peekDec, Option.isSome_iff_exists] at hi
    obtain ⟨v, hv⟩ := hi
    rw [peek_decode_eval, hv]
  trunc := by
    intro s a b eos s' n hwf hb h hn
    rw [peek_decode_eval] at h
    rw [peek_decode_eval]
    cases hitem : s.item with
    | some v =>
      rw [hitem] at h
      simp only [Except.ok.injEq, Prod.mk.injEq] at h
      rw [← h.1, ← h.2]
    | none =>
      rw [hitem] at h
      simp only at h ⊢
      obtain ⟨⟨i', n₁⟩, hd1, h⟩ := bind_ok h
      dsimp only at h
      rw [c.trunc s.inner a b eos i' n₁ hwf.1 hb hd1
        (by
          by_cases hii : d.isIdle i' = true
          · rw [if_pos hii] at h
            obtain ⟨⟨i'', v⟩, hf, h⟩ := bind_ok h
            dsimp only at h
            simp only [Except.ok.injEq, Prod.mk.injEq] at h
            omega
          · rw [if_neg (by simp [hii])] at h
            simp only [Except.ok.injEq, Prod.mk.injEq] at h
            omega)]
      simp only [ok_bind]
      exact h
  split := by
    intro s a b eos s' n hwf hb h hn
    rw [peek_decode_eval] at h
    cases hitem : s.item with
    | some v =>
      rw [hitem] at h
      simp only [Except.ok.injEq, Prod.mk.injEq] at h
      have ha : a = [] := List.length_eq_zero.mp (by omega)
      subst ha
      refine ⟨s, ?_, ?_⟩
      · rw [peek_decode_eval, hitem]
        simp
      · rw [peek_decode_eval, hitem]
        simp only [List.length_nil, Nat.sub_zero]
        rw [h.1, ← h.2]
    | none =>
      rw [hitem] at h
      simp only at h
      obtain ⟨⟨i', n₁⟩, hd1, h⟩ := bind_ok h
      dsimp only at h
      obtain ⟨im, him1, him2⟩ := c.split s.inner a b eos i' n₁ hwf.1 hb hd1
        (by
          by_cases hii : d.isIdle i' = true
          · rw [if_pos hii] at h
            obtain ⟨⟨i'', v⟩, hf, h⟩ := bind_ok h
            dsimp only at h
            simp only [Except.ok.injEq, Prod.mk.injEq] at h
            omega
          · rw [if_neg (by simp [hii])] at h
            simp only [Except.ok.injEq, Prod.mk.injEq] at h
            omega)
      have hwim : WF im := o.wf_decode _ _ _ _ _ hwf.1 him1
      by_cases himi : d.isIdle im = true
      · rw [c.idleNC im b eos hwim himi] at him2
        simp only [Except.ok.injEq, Prod.mk.injEq] at him2
        rw [← him2.1] at h
        rw [if_pos himi] at h
        obtain ⟨⟨i'', v⟩, hf, h⟩ := bind_ok h
        dsimp only at h
        simp only [Except.ok.injEq, Prod.mk.injEq] at h
        refine ⟨⟨i'', some v⟩, ?_, ?_⟩
        · rw [peek_decode_eval, hitem]
          simp only
          rw [him1]; simp only [ok_bind]
          rw [if_pos himi, hf]; simp only [ok_bind]
        · rw [peek_decode_eval]
          dsimp only
          rw [h.1, ← h.2, ← him2.2]
      · refine ⟨⟨im, none⟩, ?_, ?_⟩
        · rw [peek_decode_eval, hitem]
          simp only
          rw [him1]; simp only [ok_bind]
          rw [if_neg (by simp [himi])]
        · rw [peek_decode_eval]
          dsimp only
          rw [him2]; simp only [ok_bind]
          by_cases hii : d.isIdle i' = true
          · rw [if_pos hii] at h ⊢
            obtain ⟨⟨i'', v⟩, hf, h⟩ := bind_ok h
            dsimp only at h
            rw [hf]; simp only [ok_bind]
            simp only [Except.ok.injEq, Prod.mk.injEq] at h
            rw [h.1, ← h.2]
          · rw [if_neg (by simp [hii])] at h ⊢
            simp only [Except.ok.injEq, Prod.mk.injEq] at h
            rw [h.1, ← h.2]
/-- Strengthened invariant of a `Length` combinator state: between calls the
inner decoder is idle exactly when the region is exhausted. -/
@[reducible]
def LenWF2 (d : Dec σ α) (WF : σ → Prop) (s : LengthState σ) : Prop :=
  WF s.inner ∧ (d.isIdle s.inner = true ↔ s.remaining = 0)

/-- Direct evaluation of the `Length` decode. -/
theorem length_decode_eval {d : Dec σ α} {s : LengthState σ} {buf : List Nat} {eos : Bool} :
    (lengthDec d).decode s buf eos =
      (do
        let (i', n) ← d.decode s.inner (buf.take (min buf.length s.remaining))
            (decide (min buf.length s.remaining = s.remaining))
        if d.isIdle i' && (s.remaining - n) != 0 then .error (.invalidInput none)
        else .ok (⟨i', s.expected, s.remaining - n⟩, n)) := rfl

/-- An idle `Length` state is left untouched by decode. -/
theorem length_idleNC {d : Dec σ α} {WF : σ → Prop} (c : ChunkProps d WF)
    (s : LengthState σ) (buf : List Nat) (eos : Bool) (hwf : LenWF2 d WF s)
    (hi : (lengthDec d).isIdle s = true) : (lengthDec d).decode s buf eos = .ok (s, 0) := by
  simp only [lengthDec, Bool.and_eq_true, decide_eq_true_eq] at hi
  rw [length_decode_eval]
  rw [show min buf.length s.remaining = s.remaining from by simp [hi.1]]
  simp only [hi.1, List.take_zero, decide_True]
  rw [c.idleNC s.inner [] true hwf.1 hi.2]
  simp only [ok_bind]
  rw [if_neg (by simp)]
  rw [show (⟨s.inner, s.expected, 0 - 0⟩ : LengthState σ) = s from by
    rw [show (0 : Nat) - 0 = s.remaining from by omega]]

/-- Chunk compatibility of the `Length` combinator. -/
theorem lengthChunk {d : Dec σ α} {WF : σ → Prop} (o : StepOk d WF) (e : EosIdle d WF)
    (c : ChunkProps d WF) : ChunkProps (lengthDec d) (LenWF2 d WF) where
  empty := by
    intro s hwf
    rw [length_decode_eval]
    by_cases hrem : s.remaining = 0
    · rw [show min ([] : List Nat).length s.remaining = s.remaining from by
        simp [hrem]]
      simp only [List.take_nil, decide_True]
      rw [c.idleNC s.inner [] true hwf.1 (hwf.2.mpr hrem)]
      simp only [ok_bind]
      rw [if_neg (by simp [hrem])]
      rw [show (⟨s.inner, s.expected, s.remaining - 0⟩ : LengthState σ) = s from by
        rw [Nat.sub_zero]]
    · rw [show min ([] : List Nat).length s.remaining = 0 from by simp]
      simp only [List.take_nil]
      rw [show decide ((0 : Nat) = s.remaining) = false from by
        simp only [decide_eq_false_iff_not]
        omega]
      rw [c.empty s.inner hwf.1]
      simp only [ok_bind]
      have hni : d.isIdle s.inner = false := by
        rcases hx : d.isIdle s.inner with _ | _
        · rfl
        · exact absurd (hwf.2.mp hx) hrem
      rw [if_neg (by simp [hni])]
      rw [show (⟨s.inner, s.expected, s.remaining - 0⟩ : LengthState σ) = s from by
        rw [Nat.sub_zero]]
  idleNC := fun s buf eos hwf hi => length_idleNC c s buf eos hwf hi
  trunc := by
    intro s a b eos s' n hwf hb h hn
    obtain ⟨i', hdec, hs, hchk⟩ := length_decode_ok h
    have hbl : 0 < b.length := List.length_pos.mpr hb
    have hle := o.consume_le _ _ _ _ _ hdec
    simp only [List.length_take, List.length_append] at hle
    rw [length_decode_eval]
    by_cases har : s.remaining ≤ a.length
    · have hmin : min (a ++ b).length s.remaining = s.remaining := by
        simp only [List.length_append]
        omega
      have hmin' : min a.length s.remaining = s.remaining := by omega
      rw [hmin] at hdec
      rw [hmin']
      rw [show a.take s.remaining = (a ++ b).take s.remaining from
        (List.take_append_of_le_length har).symm]
      rw [hdec]
      simp only [ok_bind]
      split
      · rename_i hgrd
        simp only [Bool.and_eq_true, bne_iff_ne] at hgrd
        exact absurd ⟨hgrd.1, hgrd.2⟩ hchk
      · rw [hs]
    · push_neg at har
      have hmin' : min a.length s.remaining = a.length := by omega
      rw [hmin', List.take_length]
      rw [show decide (a.length = s.remaining) = false from by
        simp only [decide_eq_false_iff_not]
        omega]
      by_cases hab : (a ++ b).length ≤ s.remaining
      · have hmin : min (a ++ b).length s.remaining = (a ++ b).length := by omega
        rw [hmin, List.take_length] at hdec
        have hd2 := c.trunc s.inner a b _ i' n hwf.1 hb hdec hn
        rw [hd2]
        simp only [ok_bind]
        split
        · rename_i hgrd
          simp only [Bool.and_eq_true, bne_iff_ne] at hgrd
          exact absurd ⟨hgrd.1, hgrd.2⟩ hchk
        · rw [hs]
      · push_neg at hab
        have hmin : min (a ++ b).length s.remaining = s.remaining := by
          simp only [List.length_append] at hab ⊢
          omega
        rw [hmin] at hdec
        have htk : (a ++ b).take s.remaining = a ++ b.take (s.remaining - a.length) := by
          rw [List.take_append_eq_append_take, List.take_of_length_le (by omega)]
        rw [htk] at hdec
        have hbne : b.take (s.remaining - a.length) ≠ [] := by
          intro hx
          have hlx : (b.take (s.remaining - a.length)).length = 0 := by
            rw [hx]
            rfl
          simp only [List.length_take] at hlx
          omega
        have hd2 := c.trunc s.inner a (b.take (s.remaining - a.length)) _ i' n hwf.1 hbne hdec hn
        rw [hd2]
        simp only [ok_bind]
        split
        · rename_i hgrd
          simp only [Bool.and_eq_true, bne_iff_ne] at hgrd
          exact absurd ⟨hgrd.1, hgrd.2⟩ hchk
        · rw [hs]
  split := by
    intro s a b eos s' n hwf hb h hn
    obtain ⟨i', hdec, hs, hchk⟩ := length_decode_ok h
    have hbl : 0 < b.length := List.length_pos.mpr hb
    have hle := o.consume_le _ _ _ _ _ hdec
    simp only [List.length_take, List.length_append] at hle
    by_cases har : s.remaining ≤ a.length
    · have hn' : n = a.length ∧ a.length = s.remaining := by
        constructor
        · omega
        · omega
      have hmin : min (a ++ b).length s.remaining = s.remaining := by
        simp only [List.length_append]
        omega
      rw [hmin] at hdec
      have hidle : d.isIdle i' = true := e _ _ _ _ hwf.1 (by simpa using hdec)
      have hcall : (lengthDec d).decode s a false = .ok (s', a.length) := by
        rw [length_decode_eval]
        rw [show min a.length s.remaining = s.remaining from by omega]
        rw [show a.take s.remaining = (a ++ b).take s.remaining from
          (List.take_append_of_le_length har).symm]
        rw [hdec]
        simp only [ok_bind]
        rw [if_neg (by
          simp only [Bool.and_eq_true, bne_iff_ne, not_and]
          intro h1 h2
          exact hchk ⟨h1, h2⟩)]
        rw [hs, show n = a.length from by omega]
      refine ⟨s', hcall, ?_⟩
      have hwf' : LenWF2 d WF s' := by
        rw [hs]
        refine ⟨o.wf_decode _ _ _ _ _ hwf.1 hdec, ?_, fun _ => hidle⟩
        intro _
        show s.remaining - n = 0
        omega
      have hsid : (lengthDec d).isIdle s' = true := by
        rw [hs]
        simp only [lengthDec, Bool.and_eq_true, decide_eq_true_eq]
        refine ⟨?_, hidle⟩
        show s.remaining - n = 0
        omega
      rw [length_idleNC c s' b eos hwf' hsid]
      rw [show n - a.length = 0 from by omega]
    · push_neg at har
      have hlim : a.length < min (a ++ b).length s.remaining := by
        simp only [List.length_append]
        omega
      have htk : (a ++ b).take (min (a ++ b).length s.remaining) =
          a ++ b.take (min (a ++ b).length s.remaining - a.length) := by
        rw [List.take_append_eq_append_take, List.take_of_length_le (by omega)]
      rw [htk] at hdec
      have hbne : b.take (min (a ++ b).length s.remaining - a.length) ≠ [] := by
        intro hx
        have hlx : (b.take (min (a ++ b).length s.remaining - a.length)).length = 0 := by
          rw [hx]
          rfl
        simp only [List.length_take, List.length_append] at hlx
        omega
      obtain ⟨im, him1, him2⟩ :=
        c.split s.inner a (b.take (min (a ++ b).length s.remaining - a.length)) _ i' n
          hwf.1 hbne hdec hn
      have hwim : WF im := o.wf_decode _ _ _ _ _ hwf.1 him1
      have hnim : d.isIdle im = false := by
        rcases hx : d.isIdle im with _ | _
        · rfl
        · exfalso
          rw [c.idleNC im _ _ hwim hx] at him2
          simp only [Except.ok.injEq, Prod.mk.injEq] at him2
          have hni : n = a.length := by omega
          have hii : d.isIdle i' = true := by rw [← him2.1]; exact hx
          exact hchk ⟨hii, by omega⟩
      refine ⟨⟨im, s.expected, s.remaining - a.length⟩, ?_, ?_⟩
      · rw [length_decode_eval]
        rw [show min a.length s.remaining = a.length from by omega]
        rw [List.take_length]
        rw [show decide (a.length = s.remaining) = false from by
          simp only [decide_eq_false_iff_not]
          omega]
        rw [him1]
        simp only [ok_bind]
        rw [if_neg (by simp [hnim])]
      · rw [length_decode_eval]
        simp only
        rw [show min b.length (s.remaining - a.length) =
          min (a ++ b).length s.remaining - a.length from by
          simp only [List.length_append]
          omega]
        rw [show decide (min (a ++ b).length s.remaining - a.length =
            s.remaining - a.length) =
          decide (min (a ++ b).length s.remaining = s.remaining) from by
          rcases Nat.lt_or_ge (a ++ b).length s.remaining with hlt | hge
          · have h1 : min (a ++ b).length s.remaining = (a ++ b).length := by omega
            rw [h1]
            have h2 : decide ((a ++ b).length = s.remaining) = false := by
              simp only [decide_eq_false_iff_not]
              omega
            rw [h2]
            simp only [decide_eq_false_iff_not, List.length_append]
            simp only [List.length_append] at hlt
            omega
          · have h1 : min (a ++ b).length s.remaining = s.remaining := by omega
            rw [h1]
            simp]
        rw [him2]
        simp only [ok_bind]
        rw [if_neg (by
          simp only [Bool.and_eq_true, bne_iff_ne, not_and]
          intro h1 h2
          exact hchk ⟨h1, by omega⟩)]
        rw [hs]
        rw [show s.remaining - a.length - (n - a.length) = s.remaining - n from by omega]
/-- Direct evaluation of the `MaybeEos` decode. -/
theorem maybeEos_decode_eval {d : Dec σ α} {s : MaybeEosState σ} {buf : List Nat} {eos : Bool} :
    (maybeEosDec d).decode s buf eos =
      (if s.started = false ∧ buf = [] ∧ eos then .ok (s, 0)
      else do
        let (i', n) ← d.decode s.inner buf eos
        .ok (⟨i', s.started || decide (0 < n)⟩, n)) := rfl

/-- Chunk compatibility of the `MaybeEos` combinator. -/
theorem maybeEosChunk {d : Dec σ α} {WF : σ → Prop} (c : ChunkProps d WF) :
    ChunkProps (maybeEosDec d) (fun s => WF s.inner) where
  empty := by
    intro s hwf
    rw [maybeEos_decode_eval]
    rw [if_neg (by simp)]
    rw [c.empty s.inner hwf]
    simp only [ok_bind, Nat.lt_irrefl, decide_False, Bool.or_false]
  idleNC := by
    intro s buf eos hwf hi
    simp only [maybeEosDec] at hi
    rw [maybeEos_decode_eval]
    by_cases hcond : s.started = false ∧ buf = [] ∧ eos = true
    · rw [if_pos hcond]
    · rw [if_neg hcond, c.idleNC s.inner buf eos hwf hi]
      simp only [ok_bind, Nat.lt_irrefl, decide_False, Bool.or_false]
  trunc := by
    intro s a b eos s' n hwf hb h hn
    rw [maybeEos_decode_eval] at h
    rw [if_neg (by simp [hb])] at h
    obtain ⟨⟨i', n₁⟩, hd1, h⟩ := bind_ok h
    dsimp only at h
    simp only [Except.ok.injEq, Prod.mk.injEq] at h
    rw [maybeEos_decode_eval]
    rw [if_neg (by simp)]
    rw [c.trunc s.inner a b eos i' n₁ hwf hb hd1 (by omega)]
    simp only [ok_bind]
    rw [h.1, h.2]
  split := by
    intro s a b eos s' n hwf hb h hn
    rw [maybeEos_decode_eval] at h
    rw [if_neg (by simp [hb])] at h
    obtain ⟨⟨i', n₁⟩, hd1, h⟩ := bind_ok h
    dsimp only at h
    simp only [Except.ok.injEq, Prod.mk.injEq] at h
    obtain ⟨im, him1, him2⟩ := c.split s.inner a b eos i' n₁ hwf hb hd1 (by omega)
    refine ⟨⟨im, s.started || decide (0 < a.length)⟩, ?_, ?_⟩
    · rw [maybeEos_decode_eval]
      rw [if_neg (by simp)]
      rw [him1]
      simp only [ok_bind]
    · rw [maybeEos_decode_eval]
      rw [if_neg (by simp [hb])]
      simp only
      rw [him2]
      simp only [ok_bind]
      rw [← h.1, ← h.2]
      have hflag : ((s.started || decide (0 < a.length)) || decide (0 < n₁ - a.length)) =
          (s.started || decide (0 < n₁)) := by
        rcases Nat.eq_zero_or_pos a.length with h0 | h0
        · rw [h0]
          cases s.started <;> simp
        · rw [decide_eq_true h0, decide_eq_true (show 0 < n₁ from by omega)]
          simp
      rw [hflag]
/-- A positional stage of a composite `bytecodec_try_decode!` chain: `run`
consumes from the front of its buffer and `done` reports that every step of
the stage is idle. -/
structure PartDec (S : Type) where
  run : S → List Nat → Bool → Except DecodeError (S × Nat)
  done : S → Bool

/-- Final stage of a chain: one sub-decoder accessed through a lens. -/
def lastPart (d : Dec σ α) (get : S → σ) (set : S → σ → S) : PartDec S where
  run s buf eos :=
    if d.isIdle (get s) then .ok (s, 0)
    else do
      let (x, n) ← d.decode (get s) buf eos
      .ok (set s x, n)
  done s := d.isIdle (get s)

/-- Interior stage of a chain: a sub-decoder accessed through a lens; when
it completes, `inst` validates and installs the dependent state of the rest
of the chain, which continues on the unconsumed bytes. -/
def stepPart (d : Dec σ α) (get : S → σ) (set : S → σ → S)
    (inst : S → Except DecodeError S) (next : PartDec S) : PartDec S where
  run s buf eos :=
    if d.isIdle (get s) then next.run s buf eos
    else do
      let (x, n) ← d.decode (get s) buf eos
      if d.isIdle x then do
        let s₂ ← inst (set s x)
        let (t, m) ← next.run s₂ (buf.drop n) eos
        .ok (t, n + m)
      else .ok (set s x, n)
  done s := d.isIdle (get s) && next.done s

/-- Conditional dispatch between two chain tails. -/
def condPart (c : S → Bool) (p q : PartDec S) : PartDec S where
  run s buf eos := if c s then p.run s buf eos else q.run s buf eos
  done s := if c s then p.done s else q.done s

section PartLemmas

variable {S σ α : Type} {d : Dec σ α} {Wd : σ → Prop}
variable {get : S → σ} {set : S → σ → S} {inst : S → Except DecodeError S}
variable {next : PartDec S}

/-- The final stage ignores an empty mid-stream buffer. -/
theorem lastPart_empty (W : S → Prop) (s : S) (hw : W s)
    (c : ChunkProps d Wd) (hget : ∀ s, W s → Wd (get s))
    (hsg : ∀ s, set s (get s) = s) :
    (lastPart d get set).run s [] false = .ok (s, 0) := by
  unfold lastPart
  simp only
  by_cases hi : d.isIdle (get s) = true
  · rw [if_pos hi]
  · rw [if_neg hi, c.empty (get s) (hget s hw)]
    simp only [ok_bind]
    rw [hsg]

/-- The final stage consumes nothing once done. -/
theorem lastPart_idleNC (s : S) (buf : List Nat) (eos : Bool)
    (hi : (lastPart d get set).done s = true) :
    (lastPart d get set).run s buf eos = .ok (s, 0) := by
  unfold lastPart at hi ⊢
  simp only at hi ⊢
  rw [if_pos hi]

/-- Truncation of the final stage at a chunk boundary. -/
theorem lastPart_trunc (W : S → Prop)
    (s : S) (a b : List Nat) (eos : Bool) (s' : S) (n : Nat) (hw : W s) (hb : b ≠ [])
    (h : (lastPart d get set).run s (a ++ b) eos = .ok (s', n)) (hn : n ≤ a.length)
    (c : ChunkProps d Wd) (hget : ∀ s, W s → Wd (get s)) :
    (lastPart d get set).run s a false = .ok (s', n) := by
  unfold lastPart at h ⊢
  simp only at h ⊢
  by_cases hi : d.isIdle (get s) = true
  · rw [if_pos hi] at h ⊢
    exact h
  · rw [if_neg hi] at h ⊢
    obtain ⟨⟨x, n₁⟩, hd1, h⟩ := bind_ok h
    dsimp only at h
    simp only [Except.ok.injEq, Prod.mk.injEq] at h
    rw [c.trunc (get s) a b eos x n₁ (hget s hw) hb hd1 (by omega)]
    simp only [ok_bind]
    rw [h.1, h.2]

/-- Splitting of the final stage at a chunk boundary. -/
theorem lastPart_split (W : S → Prop)
    (s : S) (a b : List Nat) (eos : Bool) (s' : S) (n : Nat) (hw : W s) (hb : b ≠ [])
    (h : (lastPart d get set).run s (a ++ b) eos = .ok (s', n)) (hn : a.length ≤ n)
    (c : ChunkProps d Wd) (o : StepOk d Wd) (hget : ∀ s, W s → Wd (get s))
    (hgs : ∀ s y, get (set s y) = y) (hss : ∀ s y z, set (set s y) z = set s z) :
    ∃ sm, (lastPart d get set).run s a false = .ok (sm, a.length) ∧
      (lastPart d get set).run sm b eos = .ok (s', n - a.length) := by
  unfold lastPart at h ⊢
  simp only at h ⊢
  by_cases hi : d.isIdle (get s) = true
  · rw [if_pos hi] at h
    simp only [Except.ok.injEq, Prod.mk.injEq] at h
    have ha : a = [] := List.length_eq_zero.mp (by omega)
    subst ha
    refine ⟨s, ?_, ?_⟩
    · rw [if_pos hi]
      simp
    · rw [if_pos hi, h.1, ← h.2]
      simp
  · rw [if_neg hi] at h
    obtain ⟨⟨x, n₁⟩, hd1, h⟩ := bind_ok h
    dsimp only at h
    simp only [Except.ok.injEq, Prod.mk.injEq] at h
    obtain ⟨xm, hxm1, hxm2⟩ := c.split (get s) a b eos x n₁ (hget s hw) hb hd1 (by omega)
    have hwxm : Wd xm := o.wf_decode _ _ _ _ _ (hget s hw) hxm1
    by_cases hixm : d.isIdle xm = true
    · rw [c.idleNC xm b eos hwxm hixm] at hxm2
      simp only [Except.ok.injEq, Prod.mk.injEq] at hxm2
      refine ⟨set s xm, ?_, ?_⟩
      · rw [if_neg hi, hxm1]
        simp only [ok_bind]
      · rw [hgs, if_pos hixm, ← h.1, hxm2.1, ← h.2, ← hxm2.2]
    · refine ⟨set s xm, ?_, ?_⟩
      · rw [if_neg hi, hxm1]
        simp only [ok_bind]
      · rw [hgs, if_neg (by simp [hixm]), hxm2]
        simp only [ok_bind]
        rw [hss, h.1, ← h.2]

/-- An interior stage ignores an empty mid-stream buffer. -/
theorem stepPart_empty (W : S → Prop) (s : S) (hw : W s)
    (c : ChunkProps d Wd) (hget : ∀ s, W s → Wd (get s)) (hsg : ∀ s, set s (get s) = s)
    (hne : ∀ s, W s → d.isIdle (get s) = true → next.run s [] false = .ok (s, 0)) :
    (stepPart d get set inst next).run s [] false = .ok (s, 0) := by
  unfold stepPart
  simp only
  by_cases hi : d.isIdle (get s) = true
  · rw [if_pos hi]
    exact hne s hw hi
  · rw [if_neg hi, c.empty (get s) (hget s hw)]
    simp only [ok_bind]
    rw [if_neg hi, hsg]

/-- An interior stage consumes nothing once its whole tail is done. -/
theorem stepPart_idleNC (W : S → Prop)
    (s : S) (buf : List Nat) (eos : Bool) (hw : W s)
    (hi : (stepPart d get set inst next).done s = true)
    (hni : ∀ s buf eos, W s → d.isIdle (get s) = true → next.done s = true →
      next.run s buf eos = .ok (s, 0)) :
    (stepPart d get set inst next).run s buf eos = .ok (s, 0) := by
  unfold stepPart at hi ⊢
  simp only [Bool.and_eq_true] at hi
  simp only
  rw [if_pos hi.1]
  exact hni s buf eos hw hi.1 hi.2

/-- Truncation of an interior stage at a chunk boundary. -/
theorem stepPart_trunc (W Wn : S → Prop)
    (s : S) (a b : List Nat) (eos : Bool) (s' : S) (n : Nat) (hw : W s) (hb : b ≠ [])
    (h : (stepPart d get set inst next).run s (a ++ b) eos = .ok (s', n)) (hn : n ≤ a.length)
    (c : ChunkProps d Wd) (hget : ∀ s, W s → Wd (get s))
    (hWn1 : ∀ s, W s → d.isIdle (get s) = true → Wn s)
    (hWn2 : ∀ s buf eos x n s₂, W s → d.isIdle (get s) = false →
      d.decode (get s) buf eos = .ok (x, n) → d.isIdle x = true →
      inst (set s x) = .ok s₂ → Wn s₂)
    (hnt : ∀ s a b eos s' n, Wn s → b ≠ [] → next.run s (a ++ b) eos = .ok (s', n) →
      n ≤ a.length → next.run s a false = .ok (s', n)) :
    (stepPart d get set inst next).run s a false = .ok (s', n) := by
  unfold stepPart at h ⊢
  simp only at h ⊢
  by_cases hi : d.isIdle (get s) = true
  · rw [if_pos hi] at h ⊢
    exact hnt s a b eos s' n (hWn1 s hw hi) hb h hn
  · rw [if_neg hi] at h ⊢
    obtain ⟨⟨x, n₁⟩, hd1, h⟩ := bind_ok h
    dsimp only at h
    by_cases hix : d.isIdle x = true
    · rw [if_pos hix] at h
      obtain ⟨s₂, hinst, h⟩ := bind_ok h
      obtain ⟨⟨t, m⟩, hnx, h⟩ := bind_ok h
      dsimp only at h
      simp only [Except.ok.injEq, Prod.mk.injEq] at h
      have hn₁ : n₁ ≤ a.length := by omega
      have hx' := c.trunc (get s) a b eos x n₁ (hget s hw) hb hd1 hn₁
      rw [List.drop_append_of_le_length hn₁] at hnx
      have hnx' := hnt s₂ (a.drop n₁) b eos t m
        (hWn2 s (a ++ b) eos x n₁ s₂ hw (by simpa using hi) hd1 hix hinst) hb hnx
        (by simp only [List.length_drop]; omega)
      rw [hx']
      simp only [ok_bind]
      rw [if_pos hix, hinst]
      simp only [ok_bind]
      rw [hnx']
      simp only [ok_bind]
      rw [h.1, h.2]
    · rw [if_neg (by simp [hix])] at h
      simp only [Except.ok.injEq, Prod.mk.injEq] at h
      rw [c.trunc (get s) a b eos x n₁ (hget s hw) hb hd1 (by omega)]
      simp only [ok_bind]
      rw [if_neg (by simp [hix]), h.1, h.2]

/-- Splitting of an interior stage at a chunk boundary. -/
theorem stepPart_split (W Wn : S → Prop)
    (s : S) (a b : List Nat) (eos : Bool) (s' : S) (n : Nat) (hw : W s) (hb : b ≠ [])
    (h : (stepPart d get set inst next).run s (a ++ b) eos = .ok (s', n)) (hn : a.length ≤ n)
    (c : ChunkProps d Wd) (o : StepOk d Wd) (hget : ∀ s, W s → Wd (get s))
    (hgs : ∀ s y, get (set s y) = y) (hss : ∀ s y z, set (set s y) z = set s z)
    (hinstget : ∀ u s₂, inst u = .ok s₂ → get s₂ = get u)
    (hframe : ∀ t buf eos t' m, next.run t buf eos = .ok (t', m) → get t' = get t)
    (hWn1 : ∀ s, W s → d.isIdle (get s) = true → Wn s)
    (hWn2 : ∀ s buf eos x n s₂, W s → d.isIdle (get s) = false →
      d.decode (get s) buf eos = .ok (x, n) → d.isIdle x = true →
      inst (set s x) = .ok s₂ → Wn s₂)
    (hns : ∀ s a b eos s' n, Wn s → b ≠ [] → next.run s (a ++ b) eos = .ok (s', n) →
      a.length ≤ n → ∃ sm, next.run s a false = .ok (sm, a.length) ∧
        next.run sm b eos = .ok (s', n - a.length)) :
    ∃ sm, (stepPart d get set inst next).run s a false = .ok (sm, a.length) ∧
      (stepPart d get set inst next).run sm b eos = .ok (s', n - a.length) := by
  unfold stepPart at h ⊢
  simp only at h ⊢
  by_cases hi : d.isIdle (get s) = true
  · rw [if_pos hi] at h
    obtain ⟨sm, hsm1, hsm2⟩ := hns s a b eos s' n (hWn1 s hw hi) hb h hn
    refine ⟨sm, ?_, ?_⟩
    · rw [if_pos hi]
      exact hsm1
    · rw [hframe _ _ _ _ _ hsm1, if_pos hi]
      exact hsm2
  · rw [if_neg hi] at h
    obtain ⟨⟨x, n₁⟩, hd1, h⟩ := bind_ok h
    dsimp only at h
    by_cases hix : d.isIdle x = true
    · rw [if_pos hix] at h
      obtain ⟨s₂, hinst, h⟩ := bind_ok h
      obtain ⟨⟨t, m⟩, hnx, h⟩ := bind_ok h
      dsimp only at h
      simp only [Except.ok.injEq, Prod.mk.injEq] at h
      by_cases hn₁ : n₁ ≤ a.length
      · have hx' := c.trunc (get s) a b eos x n₁ (hget s hw) hb hd1 hn₁
        rw [List.drop_append_of_le_length hn₁] at hnx
        obtain ⟨tm, htm1, htm2⟩ := hns s₂ (a.drop n₁) b eos t m
          (hWn2 s (a ++ b) eos x n₁ s₂ hw (by simpa using hi) hd1 hix hinst) hb hnx
          (by simp only [List.length_drop]; omega)
        refine ⟨tm, ?_, ?_⟩
        · rw [if_neg hi, hx']
          simp only [ok_bind]
          rw [if_pos hix, hinst]
          simp only [ok_bind]
          rw [htm1]
          simp only [ok_bind]
          rw [show n₁ + (a.drop n₁).length = a.length from by
            simp only [List.length_drop]
            omega]
        · have hgtm : get tm = x := by
            rw [hframe _ _ _ _ _ htm1, hinstget _ _ hinst, hgs]
          rw [hgtm, if_pos hix]
          rw [htm2]
          rw [h.1, ← h.2]
          rw [show n₁ + m - a.length = m - (a.drop n₁).length from by
            simp only [List.length_drop]
            omega]
      · push_neg at hn₁
        obtain ⟨xm, hxm1, hxm2⟩ :=
          c.split (get s) a b eos x n₁ (hget s hw) hb hd1 (by omega)
        have hwxm : Wd xm := o.wf_decode _ _ _ _ _ (hget s hw) hxm1
        have hixm : d.isIdle xm = false := by
          rcases hz : d.isIdle xm with _ | _
          · rfl
          · exfalso
            rw [c.idleNC xm b eos hwxm hz] at hxm2
            simp only [Except.ok.injEq, Prod.mk.injEq] at hxm2
            omega
        refine ⟨set s xm, ?_, ?_⟩
        · rw [if_neg hi, hxm1]
          simp only [ok_bind]
          rw [if_neg (by simp [hixm])]
        · rw [hgs, if_neg (by simp [hixm]), hxm2]
          simp only [ok_bind]
          rw [if_pos hix, hss, hinst]
          simp only [ok_bind]
          rw [show (a ++ b).drop n₁ = b.drop (n₁ - a.length) from by
            rw [List.drop_append_eq_append_drop, List.drop_eq_nil_of_le (by omega),
              List.nil_append]] at hnx
          rw [hnx]
          simp only [ok_bind]
          rw [h.1, ← h.2]
          rw [show n₁ - a.length + m = n₁ + m - a.length from by omega]
    · rw [if_neg (by simp [hix])] at h
      simp only [Except.ok.injEq, Prod.mk.injEq] at h
      obtain ⟨xm, hxm1, hxm2⟩ :=
        c.split (get s) a b eos x n₁ (hget s hw) hb hd1 (by omega)
      have hwxm : Wd xm := o.wf_decode _ _ _ _ _ (hget s hw) hxm1
      have hixm : d.isIdle xm = false := by
        rcases hz : d.isIdle xm with _ | _
        · rfl
        · exfalso
          rw [c.idleNC xm b eos hwxm hz] at hxm2
          simp only [Except.ok.injEq, Prod.mk.injEq] at hxm2
          rw [← hxm2.1] at hix
          rw [hz] at hix
          exact absurd hix (by simp)
      refine ⟨set s xm, ?_, ?_⟩
      · rw [if_neg hi, hxm1]
        simp only [ok_bind]
        rw [if_neg (by simp [hixm])]
      · rw [hgs, if_neg (by simp [hixm]), hxm2]
        simp only [ok_bind]
        rw [if_neg (by simp [hix]), hss, h.1, ← h.2]

/-- Conditional tails ignore an empty mid-stream buffer. -/
theorem condPart_empty (W : S → Prop) {cnd : S → Bool} {p q : PartDec S}
    (s : S) (hw : W s)
    (hp : ∀ s, W s → cnd s = true → p.run s [] false = .ok (s, 0))
    (hq : ∀ s, W s → cnd s = false → q.run s [] false = .ok (s, 0)) :
    (condPart cnd p q).run s [] false = .ok (s, 0) := by
  unfold condPart
  simp only
  rcases hc : cnd s with _ | _
  · rw [if_neg (by simp [hc])]
    exact hq s hw hc
  · rw [if_pos rfl]
    exact hp s hw hc

/-- Conditional tails consume nothing once done. -/
theorem condPart_idleNC (W : S → Prop) {cnd : S → Bool} {p q : PartDec S}
    (s : S) (buf : List Nat) (eos : Bool) (hw : W s)
    (hi : (condPart cnd p q).done s = true)
    (hp : ∀ s buf eos, W s → cnd s = true → p.done s = true → p.run s buf eos = .ok (s, 0))
    (hq : ∀ s buf eos, W s → cnd s = false → q.done s = true → q.run s buf eos = .ok (s, 0)) :
    (condPart cnd p q).run s buf eos = .ok (s, 0) := by
  unfold condPart at hi ⊢
  simp only at hi ⊢
  rcases hc : cnd s with _ | _
  · rw [hc] at hi
    simp only [Bool.false_eq_true, if_false] at hi
    rw [if_neg (by simp [hc])]
    exact hq s buf eos hw hc hi
  · rw [hc] at hi
    rw [if_pos rfl] at hi
    rw [if_pos rfl]
    exact hp s buf eos hw hc hi

/-- Truncation of conditional tails at a chunk boundary. -/
theorem condPart_trunc (W : S → Prop) {cnd : S → Bool} {p q : PartDec S}
    (s : S) (a b : List Nat) (eos : Bool) (s' : S) (n : Nat) (hw : W s) (hb : b ≠ [])
    (h : (condPart cnd p q).run s (a ++ b) eos = .ok (s', n)) (hn : n ≤ a.length)
    (hp : ∀ s a b eos s' n, W s → cnd s = true → b ≠ [] → p.run s (a ++ b) eos = .ok (s', n) →
      n ≤ a.length → p.run s a false = .ok (s', n))
    (hq : ∀ s a b eos s' n, W s → cnd s = false → b ≠ [] → q.run s (a ++ b) eos = .ok (s', n) →
      n ≤ a.length → q.run s a false = .ok (s', n)) :
    (condPart cnd p q).run s a false = .ok (s', n) := by
  unfold condPart at h ⊢
  simp only at h ⊢
  rcases hc : cnd s with _ | _
  · rw [hc] at h
    simp only [Bool.false_eq_true, if_false] at h
    rw [if_neg (by simp [hc])]
    exact hq s a b eos s' n hw hc hb h hn
  · rw [hc] at h
    rw [if_pos rfl] at h
    rw [if_pos rfl]
    exact hp s a b eos s' n hw hc hb h hn

/-- Splitting of conditional tails at a chunk boundary. -/
theorem condPart_split (W : S → Prop) {cnd : S → Bool} {p q : PartDec S}
    (s : S) (a b : List Nat) (eos : Bool) (s' : S) (n : Nat) (hw : W s) (hb : b ≠ [])
    (h : (condPart cnd p q).run s (a ++ b) eos = .ok (s', n)) (hn : a.length ≤ n)
    (hpf : ∀ s buf eos t m, p.run s buf eos = .ok (t, m) → cnd t = cnd s)
    (hqf : ∀ s buf eos t m, q.run s buf eos = .ok (t, m) → cnd t = cnd s)
    (hp : ∀ s a b eos s' n, W s → cnd s = true → b ≠ [] → p.run s (a ++ b) eos = .ok (s', n) →
      a.length ≤ n → ∃ sm, p.run s a false = .ok (sm, a.length) ∧
        p.run sm b eos = .ok (s', n - a.length))
    (hq : ∀ s a b eos s' n, W s → cnd s = false → b ≠ [] → q.run s (a ++ b) eos = .ok (s', n) →
      a.length ≤ n → ∃ sm, q.run s a false = .ok (sm, a.length) ∧
        q.run sm b eos = .ok (s', n - a.length)) :
    ∃ sm, (condPart cnd p q).run s a false = .ok (sm, a.length) ∧
      (condPart cnd p q).run sm b eos = .ok (s', n - a.length) := by
  unfold condPart at h ⊢
  simp only at h ⊢
  rcases hc : cnd s with _ | _
  · rw [hc] at h
    simp only [Bool.false_eq_true, if_false] at h
    obtain ⟨sm, h1, h2⟩ := hq s a b eos s' n hw hc hb h hn
    refine ⟨sm, ?_, ?_⟩
    · rw [if_neg (by simp [hc])]
      exact h1
    · rw [if_neg (by rw [hqf _ _ _ _ _ h1, hc]; simp)]
      exact h2
  · rw [hc] at h
    rw [if_pos rfl] at h
    obtain ⟨sm, h1, h2⟩ := hp s a b eos s' n hw hc hb h hn
    refine ⟨sm, ?_, ?_⟩
    · rw [if_pos rfl]
      exact h1
    · rw [if_pos (by rw [hpf _ _ _ _ _ h1, hc])]
      exact h2

end PartLemmas
/-- Reduction of a bind over a failed step. -/
theorem error_bind {β γ : Type} {e : DecodeError} {k : β → Except DecodeError γ} :
    ((Except.error e : Except DecodeError β) >>= k) = .error e := rfl

/-- Mapping over a successful result. -/
theorem except_map_ok {β γ : Type} {f : β → γ} {x : β} :
    (Except.ok x : Except DecodeError β).map f = .ok (f x) := rfl

/-- Mapping over a failure. -/
theorem except_map_error {β γ : Type} {f : β → γ} {e : DecodeError} :
    (Except.error e : Except DecodeError β).map f = .error e := rfl

/-- Normal form of one `bytecodec_try_decode!` step. -/
theorem tryStep_bind_eq {d : Dec σ α} {s : σ} {buf : List Nat} {o : Nat} {eos : Bool}
    {γ : Type} {k : σ × Nat × Bool → Except DecodeError γ} :
    (tryStep d s buf o eos >>= k) =
      (if d.isIdle s then k (s, o, false)
       else match d.decode s (buf.drop o) eos with
         | .error e => .error e
         | .ok (s', n) => k (s', o + n, !d.isIdle s')) := by
  unfold tryStep
  by_cases hi : d.isIdle s = true
  · rw [if_pos hi, if_pos hi]
    simp only [ok_bind]
  · rw [if_neg hi, if_neg hi]
    rcases hx : d.decode s (buf.drop o) eos with e | ⟨s', n⟩
    · simp only [bind, Except.bind]
    · simp only [bind, Except.bind]

section PartFrames

variable {S γ : Type} {σ α : Type} {d : Dec σ α}
variable {get : S → σ} {set : S → σ → S} {inst : S → Except DecodeError S}
variable {next : PartDec S}

/-- A projection untouched by a final stage's writes survives its run. -/
theorem lastPart_frame
    (s : S) (buf : List Nat) (eos : Bool) (t : S) (m : Nat)
    (h : (lastPart d get set).run s buf eos = .ok (t, m))
    (π : S → γ) (hπ : ∀ s y, π (set s y) = π s) : π t = π s := by
  unfold lastPart at h
  simp only at h
  split at h
  · simp only [Except.ok.injEq, Prod.mk.injEq] at h
    rw [← h.1]
  · obtain ⟨⟨x, n⟩, hd1, h⟩ := bind_ok h
    dsimp only at h
    simp only [Except.ok.injEq, Prod.mk.injEq] at h
    rw [← h.1, hπ]

/-- A projection untouched by an interior stage's writes survives its run. -/
theorem stepPart_frame
    (s : S) (buf : List Nat) (eos : Bool) (t : S) (m : Nat)
    (h : (stepPart d get set inst next).run s buf eos = .ok (t, m))
    (π : S → γ) (hπ : ∀ s y, π (set s y) = π s)
    (hπi : ∀ u s₂, inst u = .ok s₂ → π s₂ = π u)
    (hπn : ∀ s buf eos t m, next.run s buf eos = .ok (t, m) → π t = π s) : π t = π s := by
  unfold stepPart at h
  simp only at h
  split at h
  · exact hπn _ _ _ _ _ h
  · obtain ⟨⟨x, n⟩, hd1, h⟩ := bind_ok h
    dsimp only at h
    split at h
    · obtain ⟨s₂, hinst, h⟩ := bind_ok h
      obtain ⟨⟨t₂, m₂⟩, hnx, h⟩ := bind_ok h
      dsimp only at h
      simp only [Except.ok.injEq, Prod.mk.injEq] at h
      rw [← h.1, hπn _ _ _ _ _ hnx, hπi _ _ hinst, hπ]
    · simp only [Except.ok.injEq, Prod.mk.injEq] at h
      rw [← h.1, hπ]

/-- A projection untouched by either conditional tail survives the dispatch. -/
theorem condPart_frame {cnd : S → Bool} {p q : PartDec S}
    (s : S) (buf : List Nat) (eos : Bool) (t : S) (m : Nat)
    (h : (condPart cnd p q).run s buf eos = .ok (t, m))
    (π : S → γ) (hp : ∀ s buf eos t m, p.run s buf eos = .ok (t, m) → π t = π s)
    (hq : ∀ s buf eos t m, q.run s buf eos = .ok (t, m) → π t = π s) : π t = π s := by
  unfold condPart at h
  simp only at h
  split at h
  · exact hp _ _ _ _ _ h
  · exact hq _ _ _ _ _ h

end PartFrames

/-- The trailing remaining-bytes stage of the audio payload. -/
abbrev audioDataPart : PartDec AudioTagDataDecoder :=
  lastPart remainingDec (fun s => s.data) (fun s x => ⟨s.header, s.aac_packet_type, x⟩)

/-- The packet-type stage of the audio payload followed by the data stage. -/
abbrev audioAacPart : PartDec AudioTagDataDecoder :=
  stepPart u8Dec (fun s => s.aac_packet_type) (fun s x => ⟨s.header, x, s.data⟩)
    .ok audioDataPart

/-- The stages of the audio payload behind the sound-descriptor byte. -/
abbrev audioTail : PartDec AudioTagDataDecoder :=
  condPart (fun s => s.is_aac_packet) audioAacPart audioDataPart

/-- The audio-payload decoder as a chain of stages. -/
abbrev audioChain : PartDec AudioTagDataDecoder :=
  stepPart (peekDec u8Dec) (fun s => s.header) (fun s x => ⟨x, s.aac_packet_type, s.data⟩)
    .ok audioTail

/-- Offset form of the audio data stage. -/
theorem audioDataPart_eq (hd : PeekState (List Nat) Nat) (aa : List Nat)
    (dta : RemainingState) (buf : List Nat) (o : Nat) (eos : Bool) :
    (do
      let (d, o₃, _) ← tryStep remainingDec dta buf o eos
      (.ok ((⟨hd, aa, d⟩ : AudioTagDataDecoder), o₃) :
        Except DecodeError (AudioTagDataDecoder × Nat))) =
      (audioDataPart.run ⟨hd, aa, dta⟩ (buf.drop o) eos).map (fun t => (t.1, o + t.2)) := by
  rw [tryStep_bind_eq]
  unfold audioDataPart lastPart
  dsimp only
  by_cases hi : remainingDec.isIdle dta = true
  · rw [if_pos hi, if_pos hi, except_map_ok]
    dsimp only
    rw [Nat.add_zero]
  · rw [if_neg hi, if_neg hi]
    rcases hx : remainingDec.decode dta (buf.drop o) eos with e | ⟨x, n⟩
    · rw [error_bind, except_map_error]
    · simp only [ok_bind, except_map_ok]

/-- Offset form of the audio packet-type and data stages. -/
theorem audioAacPart_eq (hd : PeekState (List Nat) Nat) (aa : List Nat)
    (dta : RemainingState) (buf : List Nat) (o : Nat) (eos : Bool) :
    (do
      let (a, o₂, stop₂) ← tryStep u8Dec aa buf o eos
      if stop₂ then (.ok ((⟨hd, a, dta⟩ : AudioTagDataDecoder), o₂) :
        Except DecodeError (AudioTagDataDecoder × Nat))
      else do
        let (d, o₃, _) ← tryStep remainingDec dta buf o₂ eos
        .ok (⟨hd, a, d⟩, o₃)) =
      (audioAacPart.run ⟨hd, aa, dta⟩ (buf.drop o) eos).map (fun t => (t.1, o + t.2)) := by
  rw [tryStep_bind_eq]
  unfold audioAacPart stepPart
  dsimp only
  by_cases hi : u8Dec.isIdle aa = true
  · rw [if_pos hi, if_pos hi]
    exact audioDataPart_eq hd aa dta buf o eos
  · rw [if_neg hi, if_neg hi]
    rcases hx : u8Dec.decode aa (buf.drop o) eos with e | ⟨x, n⟩
    · rw [error_bind, except_map_error]
    · simp only [ok_bind]
      by_cases hix : u8Dec.isIdle x = true
      · rw [if_neg (by simp [hix]), if_pos hix]
        rw [show tryStep remainingDec dta buf (o + n) eos >>=
            (fun p => (.ok ((⟨hd, x, p.1⟩ : AudioTagDataDecoder), p.2.1) :
              Except DecodeError (AudioTagDataDecoder × Nat))) =
          (do
            let (d, o₃, _) ← tryStep remainingDec dta buf (o + n) eos
            (.ok ((⟨hd, x, d⟩ : AudioTagDataDecoder), o₃) :
              Except DecodeError (AudioTagDataDecoder × Nat))) from rfl]
        rw [audioDataPart_eq hd x dta buf (o + n) eos]
        rw [show buf.drop (o + n) = (buf.drop o).drop n from by
          rw [List.drop_drop, Nat.add_comm]]
        rcases hx2 : audioDataPart.run ⟨hd, x, dta⟩ ((buf.drop o).drop n) eos
          with e | ⟨t, m⟩
        · simp only [error_bind, except_map_error]
        · simp only [ok_bind, except_map_ok]
          rw [Nat.add_assoc]
      · rw [if_pos (by simp [hix]), if_neg (by simp [hix]), except_map_ok]

/-- The audio-payload decode is the chain of its stages. -/
theorem audio_decode_eq (s : AudioTagDataDecoder) (buf : List Nat) (eos : Bool) :
    audioTagDataDec.decode s buf eos = audioChain.run s buf eos := by
  obtain ⟨hd, aa, dta⟩ := s
  show (do
      let (h, o₁, stop₁) ← tryStep (peekDec u8Dec) hd buf 0 eos
      let s₁ : AudioTagDataDecoder := ⟨h, aa, dta⟩
      if stop₁ then .ok (s₁, o₁)
      else if s₁.is_aac_packet then do
        let (a, o₂, stop₂) ← tryStep u8Dec s₁.aac_packet_type buf o₁ eos
        let s₂ : AudioTagDataDecoder := ⟨h, a, dta⟩
        if stop₂ then .ok (s₂, o₂)
        else do
          let (d, o₃, _) ← tryStep remainingDec s₂.data buf o₂ eos
          .ok (⟨h, a, d⟩, o₃)
      else do
        let (d, o₃, _) ← tryStep remainingDec s₁.data buf o₁ eos
        .ok (⟨h, s₁.aac_packet_type, d⟩, o₃)) = audioChain.run ⟨hd, aa, dta⟩ buf eos
  rw [tryStep_bind_eq]
  unfold audioChain stepPart
  dsimp only
  have htail : ∀ (h : PeekState (List Nat) Nat) (o : Nat),
      (if (⟨h, aa, dta⟩ : AudioTagDataDecoder).is_aac_packet then do
        let (a, o₂, stop₂) ← tryStep u8Dec aa buf o eos
        if stop₂ then (.ok ((⟨h, a, dta⟩ : AudioTagDataDecoder), o₂) :
          Except DecodeError (AudioTagDataDecoder × Nat))
        else do
          let (d, o₃, _) ← tryStep remainingDec dta buf o₂ eos
          .ok (⟨h, a, d⟩, o₃)
      else do
        let (d, o₃, _) ← tryStep remainingDec dta buf o eos
        (.ok ((⟨h, aa, d⟩ : AudioTagDataDecoder), o₃) :
          Except DecodeError (AudioTagDataDecoder × Nat))) =
      (audioTail.run ⟨h, aa, dta⟩ (buf.drop o) eos).map (fun t => (t.1, o + t.2)) := by
    intro h o
    unfold audioTail condPart
    dsimp only
    by_cases hc : (⟨h, aa, dta⟩ : AudioTagDataDecoder).is_aac_packet = true
    · rw [if_pos hc, if_pos hc]
      exact audioAacPart_eq h aa dta buf o eos
    · rw [if_neg hc, if_neg hc]
      exact audioDataPart_eq h aa dta buf o eos
  by_cases hi : (peekDec u8Dec).isIdle hd = true
  · rw [if_pos hi, if_pos hi]
    simp only [Bool.false_eq_true, if_false]
    have := htail hd 0
    rw [List.drop_zero] at this
    rw [this]
    rcases hx : audioTail.run ⟨hd, aa, dta⟩ buf eos with e | ⟨t, m⟩
    · rw [except_map_error]
    · rw [except_map_ok]
      dsimp only
      rw [Nat.zero_add]
  · rw [if_neg hi, if_neg hi]
    simp only [List.drop_zero]
    rcases hx : (peekDec u8Dec).decode hd buf eos with e | ⟨x, n⟩
    · exact error_bind.symm
    · simp only [ok_bind]
      by_cases hix : (peekDec u8Dec).isIdle x = true
      · rw [if_neg (by simp [hix]), if_pos hix]
        simp only [ok_bind, Nat.zero_add]
        rw [htail x n]
        rcases hx2 : audioTail.run ⟨x, aa, dta⟩ (buf.drop n) eos with e | ⟨t, m⟩
        · rw [except_map_error]
          exact error_bind.symm
        · rw [except_map_ok]
          simp only [ok_bind]
      · rw [if_pos (by simp [hix]), if_neg (by simp [hix]), Nat.zero_add]
/-- Chunk compatibility is antitone in the state invariant. -/
theorem chunk_mono {d : Dec σ α} {W W' : σ → Prop} (c : ChunkProps d W)
    (h : ∀ s, W' s → W s) : ChunkProps d W' where
  empty := fun s hw => c.empty s (h s hw)
  idleNC := fun s buf eos hw => c.idleNC s buf eos (h s hw)
  trunc := fun s a b eos s' n hw => c.trunc s a b eos s' n (h s hw)
  split := fun s a b eos s' n hw => c.split s a b eos s' n (h s hw)

/-- Chunk compatibility of the byte decoder at its buffer invariant. -/
theorem u8Chunk' : ChunkProps u8Dec (CopyWF 1) := chunk_mono u8Chunk (fun _ _ => trivial)

/-- Chunk compatibility of the peeked sound-descriptor byte. -/
theorem peekU8Chunk : ChunkProps (peekDec u8Dec) (PeekWF u8Dec (CopyWF 1)) :=
  peekChunk u8Ok.toStep u8Chunk'

/-- The audio data stage leaves the earlier fields alone. -/
theorem audioDataPart_frame (s : AudioTagDataDecoder) (buf : List Nat) (eos : Bool)
    (t : AudioTagDataDecoder) (m : Nat) (h : audioDataPart.run s buf eos = .ok (t, m)) :
    t.header = s.header ∧ t.aac_packet_type = s.aac_packet_type :=
  ⟨lastPart_frame s buf eos t m h (fun s => s.header) (fun _ _ => rfl),
   lastPart_frame s buf eos t m h (fun s => s.aac_packet_type) (fun _ _ => rfl)⟩

/-- The audio packet-type stage leaves the descriptor alone. -/
theorem audioAacPart_frame (s : AudioTagDataDecoder) (buf : List Nat) (eos : Bool)
    (t : AudioTagDataDecoder) (m : Nat) (h : audioAacPart.run s buf eos = .ok (t, m)) :
    t.header = s.header :=
  stepPart_frame s buf eos t m h (fun s => s.header) (fun _ _ => rfl)
    (fun u s₂ hi => by
      simp only [Except.ok.injEq] at hi
      rw [← hi])
    (fun s buf eos t m h => (audioDataPart_frame s buf eos t m h).1)

/-- The audio tail leaves the descriptor alone. -/
theorem audioTail_frame (s : AudioTagDataDecoder) (buf : List Nat) (eos : Bool)
    (t : AudioTagDataDecoder) (m : Nat) (h : audioTail.run s buf eos = .ok (t, m)) :
    t.header = s.header :=
  condPart_frame s buf eos t m h (fun s => s.header) audioAacPart_frame
    (fun s buf eos t m h => (audioDataPart_frame s buf eos t m h).1)

/-- The AAC discriminant is stable under the audio tail. -/
theorem audioTail_stab (p : PartDec AudioTagDataDecoder)
    (hp : ∀ s buf eos t m, p.run s buf eos = .ok (t, m) → t.header = s.header)
    (s : AudioTagDataDecoder) (buf : List Nat) (eos : Bool)
    (t : AudioTagDataDecoder) (m : Nat) (h : p.run s buf eos = .ok (t, m)) :
    t.is_aac_packet = s.is_aac_packet := by
  unfold AudioTagDataDecoder.is_aac_packet
  rw [hp s buf eos t m h]

/-- Granular chunk facts for the audio data stage. -/
theorem audioDataPart_empty (s : AudioTagDataDecoder) :
    audioDataPart.run s [] false = .ok (s, 0) := by
  refine lastPart_empty (fun _ => True) s trivial remainingChunk (fun _ _ => trivial) ?_
  intro u
  rfl

theorem audioDataPart_idleNC (s : AudioTagDataDecoder) (buf : List Nat) (eos : Bool)
    (hi : audioDataPart.done s = true) : audioDataPart.run s buf eos = .ok (s, 0) :=
  lastPart_idleNC s buf eos hi

theorem audioDataPart_trunc (s : AudioTagDataDecoder) (a b : List Nat) (eos : Bool)
    (s' : AudioTagDataDecoder) (n : Nat) (hb : b ≠ [])
    (h : audioDataPart.run s (a ++ b) eos = .ok (s', n)) (hn : n ≤ a.length) :
    audioDataPart.run s a false = .ok (s', n) :=
  lastPart_trunc (fun _ => True) s a b eos s' n trivial hb h hn
    remainingChunk (fun _ _ => trivial)

theorem audioDataPart_split (s : AudioTagDataDecoder) (a b : List Nat) (eos : Bool)
    (s' : AudioTagDataDecoder) (n : Nat) (hb : b ≠ [])
    (h : audioDataPart.run s (a ++ b) eos = .ok (s', n)) (hn : a.length ≤ n) :
    ∃ sm, audioDataPart.run s a false = .ok (sm, a.length) ∧
      audioDataPart.run sm b eos = .ok (s', n - a.length) :=
  lastPart_split (fun _ => True) s a b eos s' n trivial hb h hn
    remainingChunk remainingOk.toStep (fun _ _ => trivial)
    (fun _ _ => rfl) (fun _ _ _ => rfl)

/-- Granular chunk facts for the audio packet-type stage. -/
theorem audioAacPart_empty (s : AudioTagDataDecoder) (hw : CopyWF 1 s.aac_packet_type) :
    audioAacPart.run s [] false = .ok (s, 0) := by
  refine stepPart_empty (fun s => CopyWF 1 s.aac_packet_type) s hw u8Chunk'
    (fun s hw => hw) ?_ ?_
  · intro u
    rfl
  · exact fun u _ _ => audioDataPart_empty u

theorem audioAacPart_idleNC (s : AudioTagDataDecoder) (buf : List Nat) (eos : Bool)
    (hi : audioAacPart.done s = true) : audioAacPart.run s buf eos = .ok (s, 0) :=
  stepPart_idleNC (fun _ => True) s buf eos trivial hi
    (fun s buf eos _ _ hd => audioDataPart_idleNC s buf eos hd)

theorem audioAacPart_trunc (s : AudioTagDataDecoder) (a b : List Nat) (eos : Bool)
    (s' : AudioTagDataDecoder) (n : Nat) (hw : CopyWF 1 s.aac_packet_type) (hb : b ≠ [])
    (h : audioAacPart.run s (a ++ b) eos = .ok (s', n)) (hn : n ≤ a.length) :
    audioAacPart.run s a false = .ok (s', n) :=
  stepPart_trunc (fun s => CopyWF 1 s.aac_packet_type) (fun _ => True)
    s a b eos s' n hw hb h hn u8Chunk' (fun s hw => hw)
    (fun _ _ _ => trivial) (fun _ _ _ _ _ _ _ _ _ _ _ => trivial)
    (fun s a b eos s' n _ => audioDataPart_trunc s a b eos s' n)

theorem audioAacPart_split (s : AudioTagDataDecoder) (a b : List Nat) (eos : Bool)
    (s' : AudioTagDataDecoder) (n : Nat) (hw : CopyWF 1 s.aac_packet_type) (hb : b ≠ [])
    (h : audioAacPart.run s (a ++ b) eos = .ok (s', n)) (hn : a.length ≤ n) :
    ∃ sm, audioAacPart.run s a false = .ok (sm, a.length) ∧
      audioAacPart.run sm b eos = .ok (s', n - a.length) :=
  stepPart_split (fun s => CopyWF 1 s.aac_packet_type) (fun _ => True)
    s a b eos s' n hw hb h hn u8Chunk' u8Ok.toStep (fun s hw => hw)
    (fun _ _ => rfl) (fun _ _ _ => rfl)
    (fun u s₂ hi => by
      simp only [Except.ok.injEq] at hi
      rw [← hi])
    (fun t buf eos t' m h => by
      rw [(audioDataPart_frame t buf eos t' m h).2])
    (fun _ _ _ => trivial) (fun _ _ _ _ _ _ _ _ _ _ _ => trivial)
    (fun s a b eos s' n _ => audioDataPart_split s a b eos s' n)

/-- Granular chunk facts for the audio tail. -/
theorem audioTail_empty (s : AudioTagDataDecoder) (hw : CopyWF 1 s.aac_packet_type) :
    audioTail.run s [] false = .ok (s, 0) := by
  refine condPart_empty (fun s => CopyWF 1 s.aac_packet_type) s hw ?_ ?_
  · exact fun u hw _ => audioAacPart_empty u hw
  · exact fun u _ _ => audioDataPart_empty u

theorem audioTail_idleNC (s : AudioTagDataDecoder) (buf : List Nat) (eos : Bool)
    (hi : audioTail.done s = true) : audioTail.run s buf eos = .ok (s, 0) :=
  condPart_idleNC (fun _ => True) s buf eos trivial hi
    (fun s buf eos _ _ => audioAacPart_idleNC s buf eos)
    (fun s buf eos _ _ => audioDataPart_idleNC s buf eos)

theorem audioTail_trunc (s : AudioTagDataDecoder) (a b : List Nat) (eos : Bool)
    (s' : AudioTagDataDecoder) (n : Nat) (hw : CopyWF 1 s.aac_packet_type) (hb : b ≠ [])
    (h : audioTail.run s (a ++ b) eos = .ok (s', n)) (hn : n ≤ a.length) :
    audioTail.run s a false = .ok (s', n) :=
  condPart_trunc (fun s => CopyWF 1 s.aac_packet_type)
    s a b eos s' n hw hb h hn
    (fun s a b eos s' n hw _ => audioAacPart_trunc s a b eos s' n hw)
    (fun s a b eos s' n _ _ => audioDataPart_trunc s a b eos s' n)

theorem audioTail_split (s : AudioTagDataDecoder) (a b : List Nat) (eos : Bool)
    (s' : AudioTagDataDecoder) (n : Nat) (hw : CopyWF 1 s.aac_packet_type) (hb : b ≠ [])
    (h : audioTail.run s (a ++ b) eos = .ok (s', n)) (hn : a.length ≤ n) :
    ∃ sm, audioTail.run s a false = .ok (sm, a.length) ∧
      audioTail.run sm b eos = .ok (s', n - a.length) :=
  condPart_split (fun s => CopyWF 1 s.aac_packet_type)
    s a b eos s' n hw hb h hn
    (audioTail_stab audioAacPart audioAacPart_frame)
    (audioTail_stab audioDataPart (fun s buf eos t m h =>
      (audioDataPart_frame s buf eos t m h).1))
    (fun s a b eos s' n hw _ => audioAacPart_split s a b eos s' n hw)
    (fun s a b eos s' n _ _ => audioDataPart_split s a b eos s' n)

/-- Strengthened invariant of the audio payload decoder: once the data
accumulator has reached the end of the region, the earlier stages are
complete. -/
@[reducible]
def AudioWF2 (s : AudioTagDataDecoder) : Prop :=
  AudioWF s ∧ (s.data.reached = true → (peekDec u8Dec).isIdle s.header = true ∧
    (s.is_aac_packet = true → u8Dec.isIdle s.aac_packet_type = true))

/-- At the strengthened invariant, an idle audio decoder has a fully done
stage chain. -/
theorem audioChain_done (s : AudioTagDataDecoder) (hw : AudioWF2 s)
    (hi : audioTagDataDec.isIdle s = true) : audioChain.done s = true := by
  simp only [audioTagDataDec] at hi
  obtain ⟨hh, haac⟩ := hw.2 hi
  unfold audioChain audioTail audioAacPart audioDataPart stepPart condPart lastPart
  simp only
  rw [hh]
  simp only [Bool.true_and]
  by_cases hc : s.is_aac_packet = true
  · rw [if_pos hc, haac hc]
    simp only [Bool.true_and]
    simp only [remainingDec]
    exact hi
  · rw [if_neg hc]
    simp only [remainingDec]
    exact hi

/-- Chunk compatibility of the audio payload decoder. -/
theorem audioChunk : ChunkProps audioTagDataDec AudioWF2 where
  empty := by
    intro s hw
    rw [audio_decode_eq]
    refine stepPart_empty AudioWF2 s hw peekU8Chunk (fun s hw => hw.1.1) ?_ ?_
    · intro u
      rfl
    · exact fun u hw _ => audioTail_empty u hw.1.2
  idleNC := by
    intro s buf eos hw hi
    rw [audio_decode_eq]
    exact stepPart_idleNC (fun _ => True) s buf eos trivial (audioChain_done s hw hi)
      (fun s buf eos _ _ hd => audioTail_idleNC s buf eos hd)
  trunc := by
    intro s a b eos s' n hw hb h hn
    rw [audio_decode_eq] at h ⊢
    exact stepPart_trunc AudioWF2 (fun s => CopyWF 1 s.aac_packet_type)
      s a b eos s' n hw hb h hn peekU8Chunk (fun s hw => hw.1.1)
      (fun s hw _ => hw.1.2)
      (fun s buf eos x n s₂ hw _ _ _ hi => by
        simp only [Except.ok.injEq] at hi
        rw [← hi]
        exact hw.1.2)
      (fun s a b eos s' n hw => audioTail_trunc s a b eos s' n hw)
  split := by
    intro s a b eos s' n hw hb h hn
    rw [audio_decode_eq] at h
    obtain ⟨sm, h1, h2⟩ := stepPart_split AudioWF2 (fun s => CopyWF 1 s.aac_packet_type)
      s a b eos s' n hw hb h hn peekU8Chunk (peekOk u8Ok).toStep (fun s hw => hw.1.1)
      (fun _ _ => rfl) (fun _ _ _ => rfl)
      (fun u s₂ hi => by
        simp only [Except.ok.injEq] at hi
        rw [← hi])
      audioTail_frame
      (fun s hw _ => hw.1.2)
      (fun s buf eos x n s₂ hw _ _ _ hi => by
        simp only [Except.ok.injEq] at hi
        rw [← hi]
        exact hw.1.2)
      (fun s a b eos s' n hw => audioTail_split s a b eos s' n hw)
    exact ⟨sm, by rw [audio_decode_eq]; exact h1, by rw [audio_decode_eq]; exact h2⟩
/-- Chunk compatibility of the 24-bit decoder at its buffer invariant. -/
theorem u24Chunk' : ChunkProps u24Dec (CopyWF 3) := chunk_mono u24Chunk (fun _ _ => trivial)

/-- Chunk compatibility of the frame-type/codec byte at its buffer invariant. -/
theorem ftcChunk' : ChunkProps frameTypeAndCodecDec (CopyWF 1) :=
  chunk_mono ftcChunk (fun _ _ => trivial)

/-- Chunk compatibility of the peeked frame-type/codec byte. -/
theorem peekFtcChunk :
    ChunkProps (peekDec frameTypeAndCodecDec) (PeekWF frameTypeAndCodecDec (CopyWF 1)) :=
  peekChunk ftcOk.toStep ftcChunk'

/-- The trailing remaining-bytes stage of the video payload. -/
abbrev videoDataPart : PartDec VideoTagDataDecoder :=
  lastPart remainingDec (fun s => s.data)
    (fun s x => ⟨s.frame_type_and_codec, s.avc_packet_type, s.composition_time, x⟩)

/-- The composition-time stage of the video payload and what follows it. -/
abbrev videoCtPart : PartDec VideoTagDataDecoder :=
  stepPart u24Dec (fun s => s.composition_time)
    (fun s x => ⟨s.frame_type_and_codec, s.avc_packet_type, x, s.data⟩)
    .ok videoDataPart

/-- The packet-type stage of the video payload and what follows it. -/
abbrev videoAvcPart : PartDec VideoTagDataDecoder :=
  stepPart u8Dec (fun s => s.avc_packet_type)
    (fun s x => ⟨s.frame_type_and_codec, x, s.composition_time, s.data⟩)
    .ok videoCtPart

/-- The stages of the video payload behind the frame-type/codec byte. -/
abbrev videoTail : PartDec VideoTagDataDecoder :=
  condPart (fun s => s.is_avc_packet) videoAvcPart videoDataPart

/-- The video-payload decoder as a chain of stages. -/
abbrev videoChain : PartDec VideoTagDataDecoder :=
  stepPart (peekDec frameTypeAndCodecDec) (fun s => s.frame_type_and_codec)
    (fun s x => ⟨x, s.avc_packet_type, s.composition_time, s.data⟩)
    .ok videoTail

/-- Offset form of the video data stage. -/
theorem videoDataPart_eq (fc : PeekState (List Nat) (FrameType × CodecId))
    (av ct : List Nat) (dta : RemainingState) (buf : List Nat) (o : Nat) (eos : Bool) :
    (do
      let (d, o₄, _) ← tryStep remainingDec dta buf o eos
      (.ok ((⟨fc, av, ct, d⟩ : VideoTagDataDecoder), o₄) :
        Except DecodeError (VideoTagDataDecoder × Nat))) =
      (videoDataPart.run ⟨fc, av, ct, dta⟩ (buf.drop o) eos).map (fun t => (t.1, o + t.2)) := by
  rw [tryStep_bind_eq]
  unfold videoDataPart lastPart
  dsimp only
  by_cases hi : remainingDec.isIdle dta = true
  · rw [if_pos hi, if_pos hi, except_map_ok]
    dsimp only
    rw [Nat.add_zero]
  · rw [if_neg hi, if_neg hi]
    rcases hx : remainingDec.decode dta (buf.drop o) eos with e | ⟨x, n⟩
    · rw [error_bind, except_map_error]
    · simp only [ok_bind, except_map_ok]

/-- Offset form of the video composition-time and data stages. -/
theorem videoCtPart_eq (fc : PeekState (List Nat) (FrameType × CodecId))
    (av ct : List Nat) (dta : RemainingState) (buf : List Nat) (o : Nat) (eos : Bool) :
    (do
      let (c, o₃, stop₃) ← tryStep u24Dec ct buf o eos
      if stop₃ then (.ok ((⟨fc, av, c, dta⟩ : VideoTagDataDecoder), o₃) :
        Except DecodeError (VideoTagDataDecoder × Nat))
      else do
        let (d, o₄, _) ← tryStep remainingDec dta buf o₃ eos
        .ok (⟨fc, av, c, d⟩, o₄)) =
      (videoCtPart.run ⟨fc, av, ct, dta⟩ (buf.drop o) eos).map (fun t => (t.1, o + t.2)) := by
  rw [tryStep_bind_eq]
  unfold videoCtPart stepPart
  dsimp only
  by_cases hi : u24Dec.isIdle ct = true
  · rw [if_pos hi, if_pos hi]
    exact videoDataPart_eq fc av ct dta buf o eos
  · rw [if_neg hi, if_neg hi]
    rcases hx : u24Dec.decode ct (buf.drop o) eos with e | ⟨x, n⟩
    · rw [error_bind, except_map_error]
    · simp only [ok_bind]
      by_cases hix : u24Dec.isIdle x = true
      · rw [if_neg (by simp [hix]), if_pos hix]
        rw [show tryStep remainingDec dta buf (o + n) eos >>=
            (fun p => (.ok ((⟨fc, av, x, p.1⟩ : VideoTagDataDecoder), p.2.1) :
              Except DecodeError (VideoTagDataDecoder × Nat))) =
          (do
            let (d, o₄, _) ← tryStep remainingDec dta buf (o + n) eos
            (.ok ((⟨fc, av, x, d⟩ : VideoTagDataDecoder), o₄) :
              Except DecodeError (VideoTagDataDecoder × Nat))) from rfl]
        rw [videoDataPart_eq fc av x dta buf (o + n) eos]
        rw [show buf.drop (o + n) = (buf.drop o).drop n from by
          rw [List.drop_drop, Nat.add_comm]]
        rcases hx2 : videoDataPart.run ⟨fc, av, x, dta⟩ ((buf.drop o).drop n) eos
          with e | ⟨t, m⟩
        · simp only [error_bind, except_map_error]
        · simp only [ok_bind, except_map_ok]
          rw [Nat.add_assoc]
      · rw [if_pos (by simp [hix]), if_neg (by simp [hix]), except_map_ok]

/-- Offset form of the video packet-type, composition-time and data stages. -/
theorem videoAvcPart_eq (fc : PeekState (List Nat) (FrameType × CodecId))
    (av ct : List Nat) (dta : RemainingState) (buf : List Nat) (o : Nat) (eos : Bool) :
    (do
      let (a, o₂, stop₂) ← tryStep u8Dec av buf o eos
      if stop₂ then (.ok ((⟨fc, a, ct, dta⟩ : VideoTagDataDecoder), o₂) :
        Except DecodeError (VideoTagDataDecoder × Nat))
      else do
        let (c, o₃, stop₃) ← tryStep u24Dec ct buf o₂ eos
        if stop₃ then (.ok ((⟨fc, a, c, dta⟩ : VideoTagDataDecoder), o₃) :
          Except DecodeError (VideoTagDataDecoder × Nat))
        else do
          let (d, o₄, _) ← tryStep remainingDec dta buf o₃ eos
          .ok (⟨fc, a, c, d⟩, o₄)) =
      (videoAvcPart.run ⟨fc, av, ct, dta⟩ (buf.drop o) eos).map (fun t => (t.1, o + t.2)) := by
  rw [tryStep_bind_eq]
  unfold videoAvcPart stepPart
  dsimp only
  by_cases hi : u8Dec.isIdle av = true
  · rw [if_pos hi, if_pos hi]
    exact videoCtPart_eq fc av ct dta buf o eos
  · rw [if_neg hi, if_neg hi]
    rcases hx : u8Dec.decode av (buf.drop o) eos with e | ⟨x, n⟩
    · rw [error_bind, except_map_error]
    · simp only [ok_bind]
      by_cases hix : u8Dec.isIdle x = true
      · rw [if_neg (by simp [hix]), if_pos hix]
        rw [show (tryStep u24Dec ct buf (o + n) eos >>= fun p =>
            if p.2.2 then (.ok ((⟨fc, x, p.1, dta⟩ : VideoTagDataDecoder), p.2.1) :
              Except DecodeError (VideoTagDataDecoder × Nat))
            else do
              let (d, o₄, _) ← tryStep remainingDec dta buf p.2.1 eos
              .ok (⟨fc, x, p.1, d⟩, o₄)) =
          (do
            let (c, o₃, stop₃) ← tryStep u24Dec ct buf (o + n) eos
            if stop₃ then (.ok ((⟨fc, x, c, dta⟩ : VideoTagDataDecoder), o₃) :
              Except DecodeError (VideoTagDataDecoder × Nat))
            else do
              let (d, o₄, _) ← tryStep remainingDec dta buf o₃ eos
              .ok (⟨fc, x, c, d⟩, o₄)) from rfl]
        rw [videoCtPart_eq fc x ct dta buf (o + n) eos]
        rw [show buf.drop (o + n) = (buf.drop o).drop n from by
          rw [List.drop_drop, Nat.add_comm]]
        rcases hx2 : videoCtPart.run ⟨fc, x, ct, dta⟩ ((buf.drop o).drop n) eos
          with e | ⟨t, m⟩
        · simp only [error_bind, except_map_error]
        · simp only [ok_bind, except_map_ok]
          rw [Nat.add_assoc]
      · rw [if_pos (by simp [hix]), if_neg (by simp [hix]), except_map_ok]

/-- The video-payload decode is the chain of its stages. -/
theorem video_decode_eq (s : VideoTagDataDecoder) (buf : List Nat) (eos : Bool) :
    videoTagDataDec.decode s buf eos = videoChain.run s buf eos := by
  obtain ⟨fc, av, ct, dta⟩ := s
  show (do
      let (h, o₁, stop₁) ← tryStep (peekDec frameTypeAndCodecDec) fc buf 0 eos
      let s₁ : VideoTagDataDecoder := ⟨h, av, ct, dta⟩
      if stop₁ then .ok (s₁, o₁)
      else if s₁.is_avc_packet then do
        let (a, o₂, stop₂) ← tryStep u8Dec s₁.avc_packet_type buf o₁ eos
        let s₂ : VideoTagDataDecoder := ⟨h, a, ct, dta⟩
        if stop₂ then .ok (s₂, o₂)
        else do
          let (c, o₃, stop₃) ← tryStep u24Dec s₂.composition_time buf o₂ eos
          let s₃ : VideoTagDataDecoder := ⟨h, a, c, dta⟩
          if stop₃ then .ok (s₃, o₃)
          else do
            let (d, o₄, _) ← tryStep remainingDec s₃.data buf o₃ eos
            .ok (⟨h, a, c, d⟩, o₄)
      else do
        let (d, o₄, _) ← tryStep remainingDec s₁.data buf o₁ eos
        .ok (⟨h, s₁.avc_packet_type, s₁.composition_time, d⟩, o₄)) =
      videoChain.run ⟨fc, av, ct, dta⟩ buf eos
  rw [tryStep_bind_eq]
  unfold videoChain stepPart
  dsimp only
  have htail : ∀ (h : PeekState (List Nat) (FrameType × CodecId)) (o : Nat),
      (if (⟨h, av, ct, dta⟩ : VideoTagDataDecoder).is_avc_packet then do
        let (a, o₂, stop₂) ← tryStep u8Dec av buf o eos
        if stop₂ then (.ok ((⟨h, a, ct, dta⟩ : VideoTagDataDecoder), o₂) :
          Except DecodeError (VideoTagDataDecoder × Nat))
        else do
          let (c, o₃, stop₃) ← tryStep u24Dec ct buf o₂ eos
          if stop₃ then (.ok ((⟨h, a, c, dta⟩ : VideoTagDataDecoder), o₃) :
            Except DecodeError (VideoTagDataDecoder × Nat))
          else do
            let (d, o₄, _) ← tryStep remainingDec dta buf o₃ eos
            .ok (⟨h, a, c, d⟩, o₄)
      else do
        let (d, o₄, _) ← tryStep remainingDec dta buf o eos
        (.ok ((⟨h, av, ct, d⟩ : VideoTagDataDecoder), o₄) :
          Except DecodeError (VideoTagDataDecoder × Nat))) =
      (videoTail.run ⟨h, av, ct, dta⟩ (buf.drop o) eos).map (fun t => (t.1, o + t.2)) := by
    intro h o
    unfold videoTail condPart
    dsimp only
    by_cases hc : (⟨h, av, ct, dta⟩ : VideoTagDataDecoder).is_avc_packet = true
    · rw [if_pos hc, if_pos hc]
      exact videoAvcPart_eq h av ct dta buf o eos
    · rw [if_neg hc, if_neg hc]
      exact videoDataPart_eq h av ct dta buf o eos
  by_cases hi : (peekDec frameTypeAndCodecDec).isIdle fc = true
  · rw [if_pos hi, if_pos hi]
    simp only [Bool.false_eq_true, if_false]
    have := htail fc 0
    rw [List.drop_zero] at this
    rw [this]
    rcases hx : videoTail.run ⟨fc, av, ct, dta⟩ buf eos with e | ⟨t, m⟩
    · rw [except_map_error]
    · rw [except_map_ok]
      dsimp only
      rw [Nat.zero_add]
  · rw [if_neg hi, if_neg hi]
    simp only [List.drop_zero]
    rcases hx : (peekDec frameTypeAndCodecDec).decode fc buf eos with e | ⟨x, n⟩
    · exact error_bind.symm
    · simp only [ok_bind]
      by_cases hix : (peekDec frameTypeAndCodecDec).isIdle x = true
      · rw [if_neg (by simp [hix]), if_pos hix]
        simp only [ok_bind, Nat.zero_add]
        rw [htail x n]
        rcases hx2 : videoTail.run ⟨x, av, ct, dta⟩ (buf.drop n) eos with e | ⟨t, m⟩
        · rw [except_map_error]
          exact error_bind.symm
        · rw [except_map_ok]
          simp only [ok_bind]
      · rw [if_pos (by simp [hix]), if_neg (by simp [hix]), Nat.zero_add]

/-- The video data stage leaves the earlier fields alone. -/
theorem videoDataPart_frame (s : VideoTagDataDecoder) (buf : List Nat) (eos : Bool)
    (t : VideoTagDataDecoder) (m : Nat) (h : videoDataPart.run s buf eos = .ok (t, m)) :
    t.frame_type_and_codec = s.frame_type_and_codec ∧
      t.avc_packet_type = s.avc_packet_type ∧ t.composition_time = s.composition_time :=
  ⟨lastPart_frame s buf eos t m h (fun s => s.frame_type_and_codec) (fun _ _ => rfl),
   lastPart_frame s buf eos t m h (fun s => s.avc_packet_type) (fun _ _ => rfl),
   lastPart_frame s buf eos t m h (fun s => s.composition_time) (fun _ _ => rfl)⟩

/-- The composition-time stage leaves the earlier fields alone. -/
theorem videoCtPart_frame (s : VideoTagDataDecoder) (buf : List Nat) (eos : Bool)
    (t : VideoTagDataDecoder) (m : Nat) (h : videoCtPart.run s buf eos = .ok (t, m)) :
    t.frame_type_and_codec = s.frame_type_and_codec ∧ t.avc_packet_type = s.avc_packet_type :=
  ⟨stepPart_frame s buf eos t m h (fun s => s.frame_type_and_codec) (fun _ _ => rfl)
    (fun u s₂ hi => by
      simp only [Except.ok.injEq] at hi
      rw [← hi])
    (fun s buf eos t m h => (videoDataPart_frame s buf eos t m h).1),
   stepPart_frame s buf eos t m h (fun s => s.avc_packet_type) (fun _ _ => rfl)
    (fun u s₂ hi => by
      simp only [Except.ok.injEq] at hi
      rw [← hi])
    (fun s buf eos t m h => (videoDataPart_frame s buf eos t m h).2.1)⟩

/-- The packet-type stage leaves the descriptor alone. -/
theorem videoAvcPart_frame (s : VideoTagDataDecoder) (buf : List Nat) (eos : Bool)
    (t : VideoTagDataDecoder) (m : Nat) (h : videoAvcPart.run s buf eos = .ok (t, m)) :
    t.frame_type_and_codec = s.frame_type_and_codec :=
  stepPart_frame s buf eos t m h (fun s => s.frame_type_and_codec) (fun _ _ => rfl)
    (fun u s₂ hi => by
      simp only [Except.ok.injEq] at hi
      rw [← hi])
    (fun s buf eos t m h => (videoCtPart_frame s buf eos t m h).1)

/-- The video tail leaves the descriptor alone. -/
theorem videoTail_frame (s : VideoTagDataDecoder) (buf : List Nat) (eos : Bool)
    (t : VideoTagDataDecoder) (m : Nat) (h : videoTail.run s buf eos = .ok (t, m)) :
    t.frame_type_and_codec = s.frame_type_and_codec :=
  condPart_frame s buf eos t m h (fun s => s.frame_type_and_codec) videoAvcPart_frame
    (fun s buf eos t m h => (videoDataPart_frame s buf eos t m h).1)

/-- The AVC discriminant is stable under the video tail. -/
theorem videoTail_stab (p : PartDec VideoTagDataDecoder)
    (hp : ∀ s buf eos t m, p.run s buf eos = .ok (t, m) →
      t.frame_type_and_codec = s.frame_type_and_codec)
    (s : VideoTagDataDecoder) (buf : List Nat) (eos : Bool)
    (t : VideoTagDataDecoder) (m : Nat) (h : p.run s buf eos = .ok (t, m)) :
    t.is_avc_packet = s.is_avc_packet := by
  unfold VideoTagDataDecoder.is_avc_packet
  rw [hp s buf eos t m h]

/-- Granular chunk facts for the video data stage. -/
theorem videoDataPart_empty (s : VideoTagDataDecoder) :
    videoDataPart.run s [] false = .ok (s, 0) := by
  refine lastPart_empty (fun _ => True) s trivial remainingChunk (fun _ _ => trivial) ?_
  intro u
  rfl

theorem videoDataPart_idleNC (s : VideoTagDataDecoder) (buf : List Nat) (eos : Bool)
    (hi : videoDataPart.done s = true) : videoDataPart.run s buf eos = .ok (s, 0) :=
  lastPart_idleNC s buf eos hi

theorem videoDataPart_trunc (s : VideoTagDataDecoder) (a b : List Nat) (eos : Bool)
    (s' : VideoTagDataDecoder) (n : Nat) (hb : b ≠ [])
    (h : videoDataPart.run s (a ++ b) eos = .ok (s', n)) (hn : n ≤ a.length) :
    videoDataPart.run s a false = .ok (s', n) :=
  lastPart_trunc (fun _ => True) s a b eos s' n trivial hb h hn
    remainingChunk (fun _ _ => trivial)

theorem videoDataPart_split (s : VideoTagDataDecoder) (a b : List Nat) (eos : Bool)
    (s' : VideoTagDataDecoder) (n : Nat) (hb : b ≠ [])
    (h : videoDataPart.run s (a ++ b) eos = .ok (s', n)) (hn : a.length ≤ n) :
    ∃ sm, videoDataPart.run s a false = .ok (sm, a.length) ∧
      videoDataPart.run sm b eos = .ok (s', n - a.length) :=
  lastPart_split (fun _ => True) s a b eos s' n trivial hb h hn
    remainingChunk remainingOk.toStep (fun _ _ => trivial)
    (fun _ _ => rfl) (fun _ _ _ => rfl)

/-- Granular chunk facts for the video composition-time stage. -/
theorem videoCtPart_empty (s : VideoTagDataDecoder) (hw : CopyWF 3 s.composition_time) :
    videoCtPart.run s [] false = .ok (s, 0) := by
  refine stepPart_empty (fun s => CopyWF 3 s.composition_time) s hw u24Chunk'
    (fun s hw => hw) ?_ ?_
  · intro u
    rfl
  · exact fun u _ _ => videoDataPart_empty u

theorem videoCtPart_idleNC (s : VideoTagDataDecoder) (buf : List Nat) (eos : Bool)
    (hi : videoCtPart.done s = true) : videoCtPart.run s buf eos = .ok (s, 0) :=
  stepPart_idleNC (fun _ => True) s buf eos trivial hi
    (fun s buf eos _ _ hd => videoDataPart_idleNC s buf eos hd)

theorem videoCtPart_trunc (s : VideoTagDataDecoder) (a b : List Nat) (eos : Bool)
    (s' : VideoTagDataDecoder) (n : Nat) (hw : CopyWF 3 s.composition_time) (hb : b ≠ [])
    (h : videoCtPart.run s (a ++ b) eos = .ok (s', n)) (hn : n ≤ a.length) :
    videoCtPart.run s a false = .ok (s', n) :=
  stepPart_trunc (fun s => CopyWF 3 s.composition_time) (fun _ => True)
    s a b eos s' n hw hb h hn u24Chunk' (fun s hw => hw)
    (fun _ _ _ => trivial) (fun _ _ _ _ _ _ _ _ _ _ _ => trivial)
    (fun s a b eos s' n _ => videoDataPart_trunc s a b eos s' n)

theorem videoCtPart_split (s : VideoTagDataDecoder) (a b : List Nat) (eos : Bool)
    (s' : VideoTagDataDecoder) (n : Nat) (hw : CopyWF 3 s.composition_time) (hb : b ≠ [])
    (h : videoCtPart.run s (a ++ b) eos = .ok (s', n)) (hn : a.length ≤ n) :
    ∃ sm, videoCtPart.run s a false = .ok (sm, a.length) ∧
      videoCtPart.run sm b eos = .ok (s', n - a.length) :=
  stepPart_split (fun s => CopyWF 3 s.composition_time) (fun _ => True)
    s a b eos s' n hw hb h hn u24Chunk' u24Ok.toStep (fun s hw => hw)
    (fun _ _ => rfl) (fun _ _ _ => rfl)
    (fun u s₂ hi => by
      simp only [Except.ok.injEq] at hi
      rw [← hi])
    (fun t buf eos t' m h => by
      rw [(videoDataPart_frame t buf eos t' m h).2.2])
    (fun _ _ _ => trivial) (fun _ _ _ _ _ _ _ _ _ _ _ => trivial)
    (fun s a b eos s' n _ => videoDataPart_split s a b eos s' n)

/-- Granular chunk facts for the video packet-type stage. -/
theorem videoAvcPart_empty (s : VideoTagDataDecoder)
    (hw : CopyWF 1 s.avc_packet_type ∧ CopyWF 3 s.composition_time) :
    videoAvcPart.run s [] false = .ok (s, 0) := by
  refine stepPart_empty (fun s => CopyWF 1 s.avc_packet_type ∧ CopyWF 3 s.composition_time)
    s hw u8Chunk' (fun s hw => hw.1) ?_ ?_
  · intro u
    rfl
  · exact fun u hw _ => videoCtPart_empty u hw.2

theorem videoAvcPart_idleNC (s : VideoTagDataDecoder) (buf : List Nat) (eos : Bool)
    (hi : videoAvcPart.done s = true) : videoAvcPart.run s buf eos = .ok (s, 0) :=
  stepPart_idleNC (fun _ => True) s buf eos trivial hi
    (fun s buf eos _ _ hd => videoCtPart_idleNC s buf eos hd)

theorem videoAvcPart_trunc (s : VideoTagDataDecoder) (a b : List Nat) (eos : Bool)
    (s' : VideoTagDataDecoder) (n : Nat)
    (hw : CopyWF 1 s.avc_packet_type ∧ CopyWF 3 s.composition_time) (hb : b ≠ [])
    (h : videoAvcPart.run s (a ++ b) eos = .ok (s', n)) (hn : n ≤ a.length) :
    videoAvcPart.run s a false = .ok (s', n) :=
  stepPart_trunc (fun s => CopyWF 1 s.avc_packet_type ∧ CopyWF 3 s.composition_time)
    (fun s => CopyWF 3 s.composition_time)
    s a b eos s' n hw hb h hn u8Chunk' (fun s hw => hw.1)
    (fun s hw _ => hw.2)
    (fun s buf eos x n s₂ hw _ _ _ hi => by
      simp only [Except.ok.injEq] at hi
      rw [← hi]
      exact hw.2)
    (fun s a b eos s' n hw => videoCtPart_trunc s a b eos s' n hw)

theorem videoAvcPart_split (s : VideoTagDataDecoder) (a b : List Nat) (eos : Bool)
    (s' : VideoTagDataDecoder) (n : Nat)
    (hw : CopyWF 1 s.avc_packet_type ∧ CopyWF 3 s.composition_time) (hb : b ≠ [])
    (h : videoAvcPart.run s (a ++ b) eos = .ok (s', n)) (hn : a.length ≤ n) :
    ∃ sm, videoAvcPart.run s a false = .ok (sm, a.length) ∧
      videoAvcPart.run sm b eos = .ok (s', n - a.length) :=
  stepPart_split (fun s => CopyWF 1 s.avc_packet_type ∧ CopyWF 3 s.composition_time)
    (fun s => CopyWF 3 s.composition_time)
    s a b eos s' n hw hb h hn u8Chunk' u8Ok.toStep (fun s hw => hw.1)
    (fun _ _ => rfl) (fun _ _ _ => rfl)
    (fun u s₂ hi => by
      simp only [Except.ok.injEq] at hi
      rw [← hi])
    (fun t buf eos t' m h => by
      rw [(videoCtPart_frame t buf eos t' m h).2])
    (fun s hw _ => hw.2)
    (fun s buf eos x n s₂ hw _ _ _ hi => by
      simp only [Except.ok.injEq] at hi
      rw [← hi]
      exact hw.2)
    (fun s a b eos s' n hw => videoCtPart_split s a b eos s' n hw)

/-- Granular chunk facts for the video tail. -/
theorem videoTail_empty (s : VideoTagDataDecoder)
    (hw : CopyWF 1 s.avc_packet_type ∧ CopyWF 3 s.composition_time) :
    videoTail.run s [] false = .ok (s, 0) := by
  refine condPart_empty (fun s => CopyWF 1 s.avc_packet_type ∧ CopyWF 3 s.composition_time)
    s hw ?_ ?_
  · exact fun u hw _ => videoAvcPart_empty u hw
  · exact fun u _ _ => videoDataPart_empty u

theorem videoTail_idleNC (s : VideoTagDataDecoder) (buf : List Nat) (eos : Bool)
    (hi : videoTail.done s = true) : videoTail.run s buf eos = .ok (s, 0) :=
  condPart_idleNC (fun _ => True) s buf eos trivial hi
    (fun s buf eos _ _ => videoAvcPart_idleNC s buf eos)
    (fun s buf eos _ _ => videoDataPart_idleNC s buf eos)

theorem videoTail_trunc (s : VideoTagDataDecoder) (a b : List Nat) (eos : Bool)
    (s' : VideoTagDataDecoder) (n : Nat)
    (hw : CopyWF 1 s.avc_packet_type ∧ CopyWF 3 s.composition_time) (hb : b ≠ [])
    (h : videoTail.run s (a ++ b) eos = .ok (s', n)) (hn : n ≤ a.length) :
    videoTail.run s a false = .ok (s', n) :=
  condPart_trunc (fun s => CopyWF 1 s.avc_packet_type ∧ CopyWF 3 s.composition_time)
    s a b eos s' n hw hb h hn
    (fun s a b eos s' n hw _ => videoAvcPart_trunc s a b eos s' n hw)
    (fun s a b eos s' n _ _ => videoDataPart_trunc s a b eos s' n)

theorem videoTail_split (s : VideoTagDataDecoder) (a b : List Nat) (eos : Bool)
    (s' : VideoTagDataDecoder) (n : Nat)
    (hw : CopyWF 1 s.avc_packet_type ∧ CopyWF 3 s.composition_time) (hb : b ≠ [])
    (h : videoTail.run s (a ++ b) eos = .ok (s', n)) (hn : a.length ≤ n) :
    ∃ sm, videoTail.run s a false = .ok (sm, a.length) ∧
      videoTail.run sm b eos = .ok (s', n - a.length) :=
  condPart_split (fun s => CopyWF 1 s.avc_packet_type ∧ CopyWF 3 s.composition_time)
    s a b eos s' n hw hb h hn
    (videoTail_stab videoAvcPart videoAvcPart_frame)
    (videoTail_stab videoDataPart (fun s buf eos t m h =>
      (videoDataPart_frame s buf eos t m h).1))
    (fun s a b eos s' n hw _ => videoAvcPart_split s a b eos s' n hw)
    (fun s a b eos s' n _ _ => videoDataPart_split s a b eos s' n)

/-- Strengthened invariant of the video payload decoder: once the data
accumulator has reached the end of the region, the earlier stages are
complete. -/
@[reducible]
def VideoWF2 (s : VideoTagDataDecoder) : Prop :=
  VideoWF s ∧ (s.data.reached = true →
    (peekDec frameTypeAndCodecDec).isIdle s.frame_type_and_codec = true ∧
    (s.is_avc_packet = true → u8Dec.isIdle s.avc_packet_type = true ∧
      u24Dec.isIdle s.composition_time = true))

/-- At the strengthened invariant, an idle video decoder has a fully done
stage chain. -/
theorem videoChain_done (s : VideoTagDataDecoder) (hw : VideoWF2 s)
    (hi : videoTagDataDec.isIdle s = true) : videoChain.done s = true := by
  simp only [videoTagDataDec] at hi
  obtain ⟨hh, havc⟩ := hw.2 hi
  unfold videoChain videoTail videoAvcPart videoCtPart videoDataPart stepPart condPart lastPart
  simp only
  rw [hh]
  simp only [Bool.true_and]
  by_cases hc : s.is_avc_packet = true
  · rw [if_pos hc, (havc hc).1, (havc hc).2]
    simp only [Bool.true_and]
    simp only [remainingDec]
    exact hi
  · rw [if_neg hc]
    simp only [remainingDec]
    exact hi

/-- Chunk compatibility of the video payload decoder. -/
theorem videoChunk : ChunkProps videoTagDataDec VideoWF2 where
  empty := by
    intro s hw
    rw [video_decode_eq]
    refine stepPart_empty VideoWF2 s hw peekFtcChunk (fun s hw => hw.1.1) ?_ ?_
    · intro u
      rfl
    · exact fun u hw _ => videoTail_empty u hw.1.2
  idleNC := by
    intro s buf eos hw hi
    rw [video_decode_eq]
    exact stepPart_idleNC (fun _ => True) s buf eos trivial (videoChain_done s hw hi)
      (fun s buf eos _ _ hd => videoTail_idleNC s buf eos hd)
  trunc := by
    intro s a b eos s' n hw hb h hn
    rw [video_decode_eq] at h ⊢
    exact stepPart_trunc VideoWF2
      (fun s => CopyWF 1 s.avc_packet_type ∧ CopyWF 3 s.composition_time)
      s a b eos s' n hw hb h hn peekFtcChunk (fun s hw => hw.1.1)
      (fun s hw _ => hw.1.2)
      (fun s buf eos x n s₂ hw _ _ _ hi => by
        simp only [Except.ok.injEq] at hi
        rw [← hi]
        exact hw.1.2)
      (fun s a b eos s' n hw => videoTail_trunc s a b eos s' n hw)
  split := by
    intro s a b eos s' n hw hb h hn
    rw [video_decode_eq] at h
    obtain ⟨sm, h1, h2⟩ := stepPart_split VideoWF2
      (fun s => CopyWF 1 s.avc_packet_type ∧ CopyWF 3 s.composition_time)
      s a b eos s' n hw hb h hn peekFtcChunk (peekOk ftcOk).toStep (fun s hw => hw.1.1)
      (fun _ _ => rfl) (fun _ _ _ => rfl)
      (fun u s₂ hi => by
        simp only [Except.ok.injEq] at hi
        rw [← hi])
      videoTail_frame
      (fun s hw _ => hw.1.2)
      (fun s buf eos x n s₂ hw _ _ _ hi => by
        simp only [Except.ok.injEq] at hi
        rw [← hi]
        exact hw.1.2)
      (fun s a b eos s' n hw => videoTail_split s a b eos s' n hw)
    exact ⟨sm, by rw [video_decode_eq]; exact h1, by rw [video_decode_eq]; exact h2⟩
/-- Chunk compatibility of the script payload decoder. -/
theorem scriptChunk : ChunkProps scriptDataTagDataDec (fun _ => True) :=
  mapChunk remainingChunk _

/-- The packet-type stage keeps its completion once the data region is
reached. -/
theorem audioAacPart_wf2 (hd : PeekState (List Nat) Nat) (aa : List Nat)
    (dta : RemainingState) (buf : List Nat) (eos : Bool)
    (t : AudioTagDataDecoder) (m : Nat)
    (h : audioAacPart.run ⟨hd, aa, dta⟩ buf eos = .ok (t, m))
    (h2 : dta.reached = true → u8Dec.isIdle aa = true) :
    t.data.reached = true → u8Dec.isIdle t.aac_packet_type = true := by
  unfold audioAacPart stepPart at h
  dsimp only at h
  by_cases hi : u8Dec.isIdle aa = true
  · rw [if_pos hi] at h
    intro _
    rw [(audioDataPart_frame _ _ _ _ _ h).2]
    exact hi
  · rw [if_neg hi] at h
    obtain ⟨⟨x, n₁⟩, hd1, h⟩ := bind_ok h
    dsimp only at h
    by_cases hix : u8Dec.isIdle x = true
    · rw [if_pos hix] at h
      obtain ⟨s₂, hinst, h⟩ := bind_ok h
      obtain ⟨⟨t', m'⟩, hnx, h⟩ := bind_ok h
      dsimp only at h
      simp only [Except.ok.injEq, Prod.mk.injEq] at h
      have hs₂ : (⟨hd, x, dta⟩ : AudioTagDataDecoder) = s₂ := by simpa using hinst
      intro _
      rw [← h.1, (audioDataPart_frame _ _ _ _ _ hnx).2, ← hs₂]
      exact hix
    · rw [if_neg (by simp [hix])] at h
      simp only [Except.ok.injEq, Prod.mk.injEq] at h
      intro hr
      rw [← h.1] at hr
      exact absurd (h2 hr) hi

/-- The audio tail keeps the packet-type completion once the data region is
reached. -/
theorem audioTail_wf2 (hd : PeekState (List Nat) Nat) (aa : List Nat)
    (dta : RemainingState) (buf : List Nat) (eos : Bool)
    (t : AudioTagDataDecoder) (m : Nat)
    (h : audioTail.run ⟨hd, aa, dta⟩ buf eos = .ok (t, m))
    (h2 : dta.reached = true → (⟨hd, aa, dta⟩ : AudioTagDataDecoder).is_aac_packet = true →
      u8Dec.isIdle aa = true) :
    t.data.reached = true → t.is_aac_packet = true →
      u8Dec.isIdle t.aac_packet_type = true := by
  unfold audioTail condPart at h
  dsimp only at h
  by_cases hc : (⟨hd, aa, dta⟩ : AudioTagDataDecoder).is_aac_packet = true
  · rw [if_pos hc] at h
    intro hr _
    exact audioAacPart_wf2 hd aa dta buf eos t m h (fun hrr => h2 hrr hc) hr
  · rw [if_neg hc] at h
    intro _ hat
    rw [audioTail_stab audioDataPart
      (fun s buf eos t m h => (audioDataPart_frame s buf eos t m h).1) _ _ _ _ _ h] at hat
    exact absurd hat hc

/-- A successful audio decode preserves the strengthened invariant. -/
theorem audio_wf2_decode (s : AudioTagDataDecoder) (buf : List Nat) (eos : Bool)
    (s' : AudioTagDataDecoder) (n : Nat) (hw : AudioWF2 s)
    (h : audioTagDataDec.decode s buf eos = .ok (s', n)) : AudioWF2 s' := by
  refine ⟨(audio_decode_props s buf eos s' n hw.1 h).1, ?_⟩
  rw [audio_decode_eq] at h
  obtain ⟨hd, aa, dta⟩ := s
  unfold audioChain stepPart at h
  dsimp only at h
  by_cases hi : (peekDec u8Dec).isIdle hd = true
  · rw [if_pos hi] at h
    intro hr
    refine ⟨?_, ?_⟩
    · rw [audioTail_frame _ _ _ _ _ h]
      exact hi
    · exact fun hat =>
        audioTail_wf2 hd aa dta buf eos s' n h (fun hrr hacc => (hw.2 hrr).2 hacc) hr hat
  · rw [if_neg hi] at h
    obtain ⟨⟨x, n₁⟩, hd1, h⟩ := bind_ok h
    dsimp only at h
    by_cases hix : (peekDec u8Dec).isIdle x = true
    · rw [if_pos hix] at h
      obtain ⟨s₂, hinst, h⟩ := bind_ok h
      obtain ⟨⟨t, m⟩, hnx, h⟩ := bind_ok h
      dsimp only at h
      simp only [Except.ok.injEq, Prod.mk.injEq] at h
      have hs₂ : (⟨x, aa, dta⟩ : AudioTagDataDecoder) = s₂ := by simpa using hinst
      rw [← hs₂] at hnx
      rw [← h.1]
      intro hr
      refine ⟨?_, ?_⟩
      · rw [audioTail_frame _ _ _ _ _ hnx]
        exact hix
      · exact fun hat =>
          audioTail_wf2 x aa dta _ eos t m hnx
            (fun hrr _ => absurd (hw.2 hrr).1 hi) hr hat
    · rw [if_neg (by simp [hix])] at h
      simp only [Except.ok.injEq, Prod.mk.injEq] at h
      intro hr
      rw [← h.1] at hr
      exact absurd (hw.2 hr).1 hi

/-- The composition-time stage keeps its completion once the data region is
reached. -/
theorem videoCtPart_wf2 (fc : PeekState (List Nat) (FrameType × CodecId))
    (av ct : List Nat) (dta : RemainingState) (buf : List Nat) (eos : Bool)
    (t : VideoTagDataDecoder) (m : Nat)
    (h : videoCtPart.run ⟨fc, av, ct, dta⟩ buf eos = .ok (t, m))
    (h2 : dta.reached = true → u24Dec.isIdle ct = true) :
    t.data.reached = true → u24Dec.isIdle t.composition_time = true := by
  unfold videoCtPart stepPart at h
  dsimp only at h
  by_cases hi : u24Dec.isIdle ct = true
  · rw [if_pos hi] at h
    intro _
    rw [(videoDataPart_frame _ _ _ _ _ h).2.2]
    exact hi
  · rw [if_neg hi] at h
    obtain ⟨⟨x, n₁⟩, hd1, h⟩ := bind_ok h
    dsimp only at h
    by_cases hix : u24Dec.isIdle x = true
    · rw [if_pos hix] at h
      obtain ⟨s₂, hinst, h⟩ := bind_ok h
      obtain ⟨⟨t', m'⟩, hnx, h⟩ := bind_ok h
      dsimp only at h
      simp only [Except.ok.injEq, Prod.mk.injEq] at h
      have hs₂ : (⟨fc, av, x, dta⟩ : VideoTagDataDecoder) = s₂ := by simpa using hinst
      intro _
      rw [← h.1, (videoDataPart_frame _ _ _ _ _ hnx).2.2, ← hs₂]
      exact hix
    · rw [if_neg (by simp [hix])] at h
      simp only [Except.ok.injEq, Prod.mk.injEq] at h
      intro hr
      rw [← h.1] at hr
      exact absurd (h2 hr) hi

/-- The packet-type stage keeps the later completions once the data region is
reached. -/
theorem videoAvcPart_wf2 (fc : PeekState (List Nat) (FrameType × CodecId))
    (av ct : List Nat) (dta : RemainingState) (buf : List Nat) (eos : Bool)
    (t : VideoTagDataDecoder) (m : Nat)
    (h : videoAvcPart.run ⟨fc, av, ct, dta⟩ buf eos = .ok (t, m))
    (h2 : dta.reached = true → u8Dec.isIdle av = true ∧ u24Dec.isIdle ct = true) :
    t.data.reached = true →
      u8Dec.isIdle t.avc_packet_type = true ∧ u24Dec.isIdle t.composition_time = true := by
  unfold videoAvcPart stepPart at h
  dsimp only at h
  by_cases hi : u8Dec.isIdle av = true
  · rw [if_pos hi] at h
    intro hr
    refine ⟨?_, ?_⟩
    · rw [(videoCtPart_frame _ _ _ _ _ h).2]
      exact hi
    · exact videoCtPart_wf2 fc av ct dta buf eos t m h (fun hrr => (h2 hrr).2) hr
  · rw [if_neg hi] at h
    obtain ⟨⟨x, n₁⟩, hd1, h⟩ := bind_ok h
    dsimp only at h
    by_cases hix : u8Dec.isIdle x = true
    · rw [if_pos hix] at h
      obtain ⟨s₂, hinst, h⟩ := bind_ok h
      obtain ⟨⟨t', m'⟩, hnx, h⟩ := bind_ok h
      dsimp only at h
      simp only [Except.ok.injEq, Prod.mk.injEq] at h
      have hs₂ : (⟨fc, x, ct, dta⟩ : VideoTagDataDecoder) = s₂ := by simpa using hinst
      rw [← hs₂] at hnx
      rw [← h.1]
      intro hr
      refine ⟨?_, ?_⟩
      · rw [(videoCtPart_frame _ _ _ _ _ hnx).2]
        exact hix
      · exact videoCtPart_wf2 fc x ct dta _ eos t' m' hnx
          (fun hrr => absurd (h2 hrr).1 hi) hr
    · rw [if_neg (by simp [hix])] at h
      simp only [Except.ok.injEq, Prod.mk.injEq] at h
      intro hr
      rw [← h.1] at hr
      exact absurd (h2 hr).1 hi

/-- The video tail keeps the later completions once the data region is
reached. -/
theorem videoTail_wf2 (fc : PeekState (List Nat) (FrameType × CodecId))
    (av ct : List Nat) (dta : RemainingState) (buf : List Nat) (eos : Bool)
    (t : VideoTagDataDecoder) (m : Nat)
    (h : videoTail.run ⟨fc, av, ct, dta⟩ buf eos = .ok (t, m))
    (h2 : dta.reached = true →
      (⟨fc, av, ct, dta⟩ : VideoTagDataDecoder).is_avc_packet = true →
      u8Dec.isIdle av = true ∧ u24Dec.isIdle ct = true) :
    t.data.reached = true → t.is_avc_packet = true →
      u8Dec.isIdle t.avc_packet_type = true ∧ u24Dec.isIdle t.composition_time = true := by
  unfold videoTail condPart at h
  dsimp only at h
  by_cases hc : (⟨fc, av, ct, dta⟩ : VideoTagDataDecoder).is_avc_packet = true
  · rw [if_pos hc] at h
    intro hr _
    exact videoAvcPart_wf2 fc av ct dta buf eos t m h (fun hrr => h2 hrr hc) hr
  · rw [if_neg hc] at h
    intro _ hat
    rw [videoTail_stab videoDataPart
      (fun s buf eos t m h => (videoDataPart_frame s buf eos t m h).1) _ _ _ _ _ h] at hat
    exact absurd hat hc

/-- A successful video decode preserves the strengthened invariant. -/
theorem video_wf2_decode (s : VideoTagDataDecoder) (buf : List Nat) (eos : Bool)
    (s' : VideoTagDataDecoder) (n : Nat) (hw : VideoWF2 s)
    (h : videoTagDataDec.decode s buf eos = .ok (s', n)) : VideoWF2 s' := by
  refine ⟨(video_decode_props s buf eos s' n hw.1 h).1, ?_⟩
  rw [video_decode_eq] at h
  obtain ⟨fc, av, ct, dta⟩ := s
  unfold videoChain stepPart at h
  dsimp only at h
  by_cases hi : (peekDec frameTypeAndCodecDec).isIdle fc = true
  · rw [if_pos hi] at h
    intro hr
    refine ⟨?_, ?_⟩
    · rw [videoTail_frame _ _ _ _ _ h]
      exact hi
    · exact fun hat =>
        videoTail_wf2 fc av ct dta buf eos s' n h (fun hrr hacc => (hw.2 hrr).2 hacc) hr hat
  · rw [if_neg hi] at h
    obtain ⟨⟨x, n₁⟩, hd1, h⟩ := bind_ok h
    dsimp only at h
    by_cases hix : (peekDec frameTypeAndCodecDec).isIdle x = true
    · rw [if_pos hix] at h
      obtain ⟨s₂, hinst, h⟩ := bind_ok h
      obtain ⟨⟨t, m⟩, hnx, h⟩ := bind_ok h
      dsimp only at h
      simp only [Except.ok.injEq, Prod.mk.injEq] at h
      have hs₂ : (⟨x, av, ct, dta⟩ : VideoTagDataDecoder) = s₂ := by simpa using hinst
      rw [← hs₂] at hnx
      rw [← h.1]
      intro hr
      refine ⟨?_, ?_⟩
      · rw [videoTail_frame _ _ _ _ _ hnx]
        exact hix
      · exact fun hat =>
          videoTail_wf2 x av ct dta _ eos t m hnx
            (fun hrr _ => absurd (hw.2 hrr).1 hi) hr hat
    · rw [if_neg (by simp [hix])] at h
      simp only [Except.ok.injEq, Prod.mk.injEq] at h
      intro hr
      rw [← h.1] at hr
      exact absurd (hw.2 hr).1 hi

/-- Strengthened invariant of the payload dispatch: each live payload state
carries its strengthened invariant, and the consumed sentinel is unreachable
between successful decode calls. -/
@[reducible]
def TagDataWF2 : TagDataDecoder → Prop
  | .audio s => AudioWF2 s
  | .video s => VideoWF2 s
  | .scriptData _ => True
  | .none => False

/-- The strengthened dispatch invariant refines the plain one. -/
theorem tagDataWF2_toWF : ∀ s, TagDataWF2 s → TagDataWF s := by
  intro s
  cases s with
  | audio d => exact fun h => h.1
  | video d => exact fun h => h.1
  | scriptData d => exact fun _ => trivial
  | none => exact fun h => h.elim

/-- Decode-side well-behavedness of the payload dispatch at the strengthened
invariant. -/
theorem tagDataStepOk2 : StepOk tagDataDec TagDataWF2 where
  wf_decode := by
    intro s buf eos s' n hwf h
    unfold tagDataDec at h
    simp only at h
    cases s with
    | audio d =>
      obtain ⟨⟨d', m⟩, hd1, h⟩ := bind_ok h
      simp only [Except.ok.injEq, Prod.mk.injEq] at h
      rw [← h.1]
      exact audio_wf2_decode d buf eos d' m hwf hd1
    | video d =>
      obtain ⟨⟨d', m⟩, hd1, h⟩ := bind_ok h
      simp only [Except.ok.injEq, Prod.mk.injEq] at h
      rw [← h.1]
      exact video_wf2_decode d buf eos d' m hwf hd1
    | scriptData d =>
      obtain ⟨⟨d', m⟩, hd1, h⟩ := bind_ok h
      simp only [Except.ok.injEq, Prod.mk.injEq] at h
      rw [← h.1]
      exact trivial
    | none => exact hwf.elim
  consume_le := tagDataStepOk.consume_le
  consumes_all := fun s buf eos s' n hwf h =>
    tagDataStepOk.consumes_all s buf eos s' n (tagDataWF2_toWF s hwf) h

/-- End-of-stream completion of the payload dispatch at the strengthened
invariant. -/
theorem tagDataEosIdle2 : EosIdle tagDataDec TagDataWF2 :=
  fun s buf s' n hwf h => tagDataEosIdle s buf s' n (tagDataWF2_toWF s hwf) h

/-- Chunk compatibility of the payload dispatch. -/
theorem tagDataChunk : ChunkProps tagDataDec TagDataWF2 where
  empty := by
    intro s hwf
    unfold tagDataDec
    cases s with
    | audio d =>
      simp only
      rw [audioChunk.empty d hwf]
      simp only [ok_bind]
    | video d =>
      simp only
      rw [videoChunk.empty d hwf]
      simp only [ok_bind]
    | scriptData d =>
      simp only
      rw [scriptChunk.empty d trivial]
      simp only [ok_bind]
    | none => exact hwf.elim
  idleNC := by
    intro s buf eos hwf hi
    unfold tagDataDec at hi ⊢
    cases s with
    | audio d =>
      simp only at hi ⊢
      rw [audioChunk.idleNC d buf eos hwf hi]
      simp only [ok_bind]
    | video d =>
      simp only at hi ⊢
      rw [videoChunk.idleNC d buf eos hwf hi]
      simp only [ok_bind]
    | scriptData d =>
      simp only at hi ⊢
      rw [scriptChunk.idleNC d buf eos trivial hi]
      simp only [ok_bind]
    | none => exact hwf.elim
  trunc := by
    intro s a b eos s' n hwf hb h hn
    unfold tagDataDec at h ⊢
    cases s with
    | audio d =>
      simp only at h ⊢
      obtain ⟨⟨d₁, m⟩, hd1, h⟩ := bind_ok h
      simp only [Except.ok.injEq, Prod.mk.injEq] at h
      rw [audioChunk.trunc d a b eos d₁ m hwf hb hd1 (by omega)]
      simp only [ok_bind]
      rw [h.1, h.2]
    | video d =>
      simp only at h ⊢
      obtain ⟨⟨d₁, m⟩, hd1, h⟩ := bind_ok h
      simp only [Except.ok.injEq, Prod.mk.injEq] at h
      rw [videoChunk.trunc d a b eos d₁ m hwf hb hd1 (by omega)]
      simp only [ok_bind]
      rw [h.1, h.2]
    | scriptData d =>
      simp only at h ⊢
      obtain ⟨⟨d₁, m⟩, hd1, h⟩ := bind_ok h
      simp only [Except.ok.injEq, Prod.mk.injEq] at h
      rw [scriptChunk.trunc d a b eos d₁ m trivial hb hd1 (by omega)]
      simp only [ok_bind]
      rw [h.1, h.2]
    | none => exact hwf.elim
  split := by
    intro s a b eos s' n hwf hb h hn
    unfold tagDataDec at h ⊢
    cases s with
    | audio d =>
      simp only at h ⊢
      obtain ⟨⟨d₁, m⟩, hd1, h⟩ := bind_ok h
      simp only [Except.ok.injEq, Prod.mk.injEq] at h
      obtain ⟨dm, h1, h2⟩ := audioChunk.split d a b eos d₁ m hwf hb hd1 (by omega)
      refine ⟨.audio dm, ?_, ?_⟩
      · rw [h1]
        simp only [ok_bind]
      · dsimp only
        rw [h2]
        simp only [ok_bind]
        rw [h.1, h.2]
    | video d =>
      simp only at h ⊢
      obtain ⟨⟨d₁, m⟩, hd1, h⟩ := bind_ok h
      simp only [Except.ok.injEq, Prod.mk.injEq] at h
      obtain ⟨dm, h1, h2⟩ := videoChunk.split d a b eos d₁ m hwf hb hd1 (by omega)
      refine ⟨.video dm, ?_, ?_⟩
      · rw [h1]
        simp only [ok_bind]
      · dsimp only
        rw [h2]
        simp only [ok_bind]
        rw [h.1, h.2]
    | scriptData d =>
      simp only at h ⊢
      obtain ⟨⟨d₁, m⟩, hd1, h⟩ := bind_ok h
      simp only [Except.ok.injEq, Prod.mk.injEq] at h
      obtain ⟨dm, h1, h2⟩ := scriptChunk.split d a b eos d₁ m trivial hb hd1 (by omega)
      refine ⟨.scriptData dm, ?_, ?_⟩
      · rw [h1]
        simp only [ok_bind]
      · dsimp only
        rw [h2]
        simp only [ok_bind]
        rw [h.1, h.2]
    | none => exact hwf.elim

/-- Decode-side well-behavedness of the `Length` combinator at the tight
invariant. -/
theorem lenStepOk2 {d : Dec σ α} {WF : σ → Prop} (hd : StepOk d WF) (he : EosIdle d WF) :
    StepOk (lengthDec d) (LenWF2 d WF) where
  wf_decode := by
    intro s buf eos s' n hwf h
    obtain ⟨i', hdec, hs, hchk⟩ := length_decode_ok h
    subst hs
    refine ⟨hd.wf_decode _ _ _ _ _ hwf.1 hdec, ?_⟩
    show d.isIdle i' = true ↔ s.remaining - n = 0
    constructor
    · intro hi
      by_contra hr
      exact hchk ⟨hi, hr⟩
    · intro hr
      have hle := hd.consume_le _ _ _ _ _ hdec
      simp only [List.length_take] at hle
      by_cases hbf : buf.length < s.remaining
      · exact absurd hr (by omega)
      · have hmin : min buf.length s.remaining = s.remaining := by omega
        rw [hmin] at hdec
        exact he _ _ _ _ hwf.1 (by simpa using hdec)
  consume_le := (lengthStepOk hd he).consume_le
  consumes_all := fun s buf eos s' n hwf h hni =>
    (lengthStepOk hd he).consumes_all s buf eos s' n ⟨hwf.1, fun hi => hwf.2.mp hi⟩ h hni

/-- Chunk compatibility of the length-limited payload decoder. -/
theorem tagDataLenChunk : ChunkProps (lengthDec tagDataDec) (LenWF2 tagDataDec TagDataWF2) :=
  lengthChunk tagDataStepOk2 tagDataEosIdle2 tagDataChunk

/-- Decode-side well-behavedness of the length-limited payload decoder at the
tight invariant. -/
theorem tagDataLenStepOk2 : StepOk (lengthDec tagDataDec) (LenWF2 tagDataDec TagDataWF2) :=
  lenStepOk2 tagDataStepOk2 tagDataEosIdle2
/-- Chunk compatibility of the tag-header decoder. -/
theorem tagHeaderChunk : ChunkProps tagHeaderDec TagHeaderBufsWF :=
  mapChunk (tupleChunk u8Ok.toStep (tupleOk u24Ok (tupleOk u24Ok (tupleOk u8Ok u24Ok))).toStep
    u8Chunk' (tupleChunk u24Ok.toStep (tupleOk u24Ok (tupleOk u8Ok u24Ok)).toStep
      u24Chunk' (tupleChunk u24Ok.toStep (tupleOk u8Ok u24Ok).toStep
        u24Chunk' (tupleChunk u8Ok.toStep u24Ok.toStep u8Chunk' u24Chunk')))) _

/-- Chunk compatibility of the peeked tag header. -/
theorem peekTagHeaderChunk :
    ChunkProps (peekDec tagHeaderDec) (PeekWF tagHeaderDec TagHeaderBufsWF) :=
  peekChunk tagHeaderOk.toStep tagHeaderChunk

/-- The length-limited payload stage of the tag decoder. -/
abbrev tagLastPart : PartDec TagDecoder :=
  lastPart (lengthDec tagDataDec) (fun s => s.data) (fun s x => ⟨s.header, x⟩)

/-- Validation and installation of the payload decoder once the header has
been peeked (`TagDecoder::decode`). -/
def tagInst (s : TagDecoder) : Except DecodeError TagDecoder :=
  match s.header.item with
  | none => .error .inconsistentState
  | some hd => .ok ⟨s.header, ⟨TagDataDecoder.forType hd.tag_type, hd.data_size, hd.data_size⟩⟩

/-- The tag decoder as a chain of stages. -/
abbrev tagChain : PartDec TagDecoder :=
  stepPart (peekDec tagHeaderDec) (fun s => s.header) (fun s x => ⟨x, s.data⟩)
    tagInst tagLastPart

/-- Offset form of the length-limited payload stage. -/
theorem tagLastPart_eq (hdr : PeekState TagHeaderBufs TagHeader)
    (dta : LengthState TagDataDecoder) (buf : List Nat) (o : Nat) (eos : Bool) :
    (do
      let (d, o₂, _) ← tryStep (lengthDec tagDataDec) dta buf o eos
      (.ok ((⟨hdr, d⟩ : TagDecoder), o₂) :
        Except DecodeError (TagDecoder × Nat))) =
      (tagLastPart.run ⟨hdr, dta⟩ (buf.drop o) eos).map (fun t => (t.1, o + t.2)) := by
  rw [tryStep_bind_eq]
  unfold tagLastPart lastPart
  dsimp only
  by_cases hi : (lengthDec tagDataDec).isIdle dta = true
  · rw [if_pos hi, if_pos hi, except_map_ok]
    dsimp only
    rw [Nat.add_zero]
  · rw [if_neg hi, if_neg hi]
    rcases hx : (lengthDec tagDataDec).decode dta (buf.drop o) eos with e | ⟨x, n⟩
    · rw [error_bind, except_map_error]
    · simp only [ok_bind, except_map_ok]

/-- The tag decode is the chain of its stages. -/
theorem tag_decode_eq (s : TagDecoder) (buf : List Nat) (eos : Bool) :
    tagDec.decode s buf eos = tagChain.run s buf eos := by
  obtain ⟨hdr, dta⟩ := s
  unfold tagDec tagChain stepPart
  dsimp only
  by_cases hi : (peekDec tagHeaderDec).isIdle hdr = true
  · rw [if_pos hi, if_pos hi]
    have := tagLastPart_eq hdr dta buf 0 eos
    rw [List.drop_zero] at this
    rw [this]
    rcases hx : tagLastPart.run ⟨hdr, dta⟩ buf eos with e | ⟨t, m⟩
    · rw [except_map_error]
    · rw [except_map_ok]
      dsimp only
      rw [Nat.zero_add]
  · rw [if_neg hi, if_neg hi]
    rw [tryStep_bind_eq]
    rw [if_neg hi]
    simp only [List.drop_zero]
    rcases hx : (peekDec tagHeaderDec).decode hdr buf eos with e | ⟨x, n⟩
    · exact error_bind.symm
    · simp only [ok_bind]
      by_cases hix : (peekDec tagHeaderDec).isIdle x = true
      · rw [if_neg (by simp [hix]), if_pos hix]
        unfold tagInst
        dsimp only
        rcases hit : x.item with _ | hd2
        · rfl
        · dsimp only
          simp only [Nat.zero_add]
          rw [show (tryStep (lengthDec tagDataDec)
              (⟨TagDataDecoder.forType hd2.tag_type, hd2.data_size, hd2.data_size⟩ :
                LengthState TagDataDecoder) buf n eos >>=
              (fun p => (.ok ((⟨x, p.1⟩ : TagDecoder), p.2.1) :
                Except DecodeError (TagDecoder × Nat)))) =
            (do
              let (d, o₂, _) ← tryStep (lengthDec tagDataDec)
                (⟨TagDataDecoder.forType hd2.tag_type, hd2.data_size, hd2.data_size⟩ :
                  LengthState TagDataDecoder) buf n eos
              (.ok ((⟨x, d⟩ : TagDecoder), o₂) :
                Except DecodeError (TagDecoder × Nat))) from rfl]
          rw [tagLastPart_eq x ⟨TagDataDecoder.forType hd2.tag_type, hd2.data_size,
            hd2.data_size⟩ buf n eos]
          simp only [ok_bind]
          rcases hx2 : tagLastPart.run ⟨x, ⟨TagDataDecoder.forType hd2.tag_type,
              hd2.data_size, hd2.data_size⟩⟩ (buf.drop n) eos with e | ⟨t, m⟩
          · rw [except_map_error]
            exact error_bind.symm
          · rw [except_map_ok]
            simp only [ok_bind]
      · rw [if_pos (by simp [hix]), if_neg (by simp [hix]), Nat.zero_add]

/-- No freshly dispatched payload decoder starts idle. -/
theorem tagData_notIdle_forType :
    ∀ tt, tagDataDec.isIdle (TagDataDecoder.forType tt) = false := by
  intro tt
  cases tt <;> rfl

/-- Every freshly dispatched payload decoder satisfies the strengthened
invariant. -/
theorem tagDataWF2_forType : ∀ tt, TagDataWF2 (TagDataDecoder.forType tt) := by
  intro tt
  cases tt with
  | audio => exact ⟨⟨⟨by decide, by decide⟩, by decide⟩, fun hr => absurd hr (by decide)⟩
  | video => exact ⟨⟨⟨by decide, by decide⟩, by decide, by decide⟩,
      fun hr => absurd hr (by decide)⟩
  | scriptData => exact trivial

/-- The `Length` decode over an exhausted region ignores its buffer and
end-of-stream flag. -/
theorem length_zero_decode {σ α : Type} {d : Dec σ α} (i : σ) (exp : Nat)
    (buf : List Nat) (eos : Bool) :
    (lengthDec d).decode ⟨i, exp, 0⟩ buf eos =
      (do
        let (i', n) ← d.decode i [] true
        (.ok ((⟨i', exp, 0⟩ : LengthState σ), n) :
          Except DecodeError (LengthState σ × Nat))) := by
  rw [length_decode_eval]
  dsimp only
  simp only [Nat.min_zero, List.take_zero, decide_True, Nat.zero_sub, bne_self_eq_false,
    Bool.and_false, Bool.false_eq_true, if_false]

/-- State invariant of the payload stage of the tag chain: either the tight
length invariant, or a freshly installed zero-length region. -/
@[reducible]
def TagLenWF (t : LengthState TagDataDecoder) : Prop :=
  LenWF2 tagDataDec TagDataWF2 t ∨
    (t.remaining = 0 ∧ ∃ tt, t.inner = TagDataDecoder.forType tt)

/-- The payload stage ignores an empty mid-stream buffer. -/
theorem tagLastPart_empty (s : TagDecoder) (hw : LenWF2 tagDataDec TagDataWF2 s.data) :
    tagLastPart.run s [] false = .ok (s, 0) := by
  refine lastPart_empty (fun s => LenWF2 tagDataDec TagDataWF2 s.data) s hw
    tagDataLenChunk (fun s hw => hw) ?_
  intro u
  rfl

/-- The payload stage leaves the peeked header alone. -/
theorem tagLastPart_frame (s : TagDecoder) (buf : List Nat) (eos : Bool)
    (t : TagDecoder) (m : Nat) (h : tagLastPart.run s buf eos = .ok (t, m)) :
    t.header = s.header :=
  lastPart_frame s buf eos t m h (fun s => s.header) (fun _ _ => rfl)

/-- Truncation of the payload stage at a chunk boundary. -/
theorem tagLastPart_trunc (s : TagDecoder) (a b : List Nat) (eos : Bool)
    (s' : TagDecoder) (n : Nat) (hw : TagLenWF s.data) (hb : b ≠ [])
    (h : tagLastPart.run s (a ++ b) eos = .ok (s', n)) (hn : n ≤ a.length) :
    tagLastPart.run s a false = .ok (s', n) := by
  rcases hw with hw | ⟨hrem, tt, hinner⟩
  · exact lastPart_trunc (fun s => LenWF2 tagDataDec TagDataWF2 s.data)
      s a b eos s' n hw hb h hn tagDataLenChunk (fun s hw => hw)
  · obtain ⟨hdr, dta⟩ := s
    obtain ⟨i, exp, rem⟩ := dta
    have hrem' : rem = 0 := hrem
    have hin' : i = TagDataDecoder.forType tt := hinner
    subst hrem' hin'
    have hni : ¬((lengthDec tagDataDec).isIdle
        ⟨TagDataDecoder.forType tt, exp, 0⟩ = true) := by
      simp [lengthDec, tagData_notIdle_forType]
    unfold tagLastPart lastPart at h ⊢
    dsimp only at h ⊢
    rw [if_neg hni] at h ⊢
    rw [length_zero_decode] at h ⊢
    exact h

/-- Splitting of the payload stage at a chunk boundary. -/
theorem tagLastPart_split (s : TagDecoder) (a b : List Nat) (eos : Bool)
    (s' : TagDecoder) (n : Nat) (hw : TagLenWF s.data) (hb : b ≠ [])
    (h : tagLastPart.run s (a ++ b) eos = .ok (s', n)) (hn : a.length ≤ n) :
    ∃ sm, tagLastPart.run s a false = .ok (sm, a.length) ∧
      tagLastPart.run sm b eos = .ok (s', n - a.length) := by
  rcases hw with hw | ⟨hrem, tt, hinner⟩
  · exact lastPart_split (fun s => LenWF2 tagDataDec TagDataWF2 s.data)
      s a b eos s' n hw hb h hn tagDataLenChunk tagDataLenStepOk2
      (fun s hw => hw) (fun _ _ => rfl) (fun _ _ _ => rfl)
  · obtain ⟨hdr, dta⟩ := s
    obtain ⟨i, exp, rem⟩ := dta
    have hrem' : rem = 0 := hrem
    have hin' : i = TagDataDecoder.forType tt := hinner
    subst hrem' hin'
    have hni : ¬((lengthDec tagDataDec).isIdle
        ⟨TagDataDecoder.forType tt, exp, 0⟩ = true) := by
      simp [lengthDec, tagData_notIdle_forType]
    unfold tagLastPart lastPart at h ⊢
    dsimp only at h ⊢
    rw [if_neg hni] at h
    obtain ⟨⟨x, n₁⟩, hd1, h3⟩ := bind_ok h
    dsimp only at h3
    simp only [Except.ok.injEq, Prod.mk.injEq] at h3
    rw [length_zero_decode] at hd1
    obtain ⟨⟨i', n₂⟩, hd0, hd1⟩ := bind_ok hd1
    dsimp only at hd1
    simp only [Except.ok.injEq, Prod.mk.injEq] at hd1
    have hn₂ : n₂ = 0 := by
      have := tagDataStepOk2.consume_le _ _ _ _ _ hd0
      simpa using this
    obtain ⟨h31, h32⟩ := h3
    obtain ⟨hd11, hd12⟩ := hd1
    have ha : a = [] := List.length_eq_zero.mp (by omega)
    subst ha
    have hidle : tagDataDec.isIdle i' = true :=
      tagDataEosIdle2 _ _ _ _ (tagDataWF2_forType tt) hd0
    have hxs : (⟨hdr, ⟨i', exp, 0⟩⟩ : TagDecoder) = s' := by
      rw [← h31, ← hd11]
    refine ⟨s', ?_, ?_⟩
    · rw [if_neg hni, length_zero_decode, hd0]
      simp only [ok_bind]
      rw [hxs, show n₂ = ([] : List Nat).length from by simp [hn₂]]
    · rw [← hxs]
      rw [if_pos (by simp [lengthDec, hidle])]
      simp only [List.length_nil, Nat.sub_zero]
      rw [show (0 : Nat) = n from by omega]

/-- Strengthened invariant of the tag decoder state: once the header is
peekable the payload region satisfies the tight length invariant. -/
@[reducible]
def TagWF2 (s : TagDecoder) : Prop :=
  PeekWF tagHeaderDec TagHeaderBufsWF s.header ∧
    ((peekDec tagHeaderDec).isIdle s.header = true →
      LenWF2 tagDataDec TagDataWF2 s.data)

/-- Chunk compatibility of the tag decoder. -/
theorem tagChunk : ChunkProps tagDec TagWF2 where
  empty := by
    intro s hw
    rw [tag_decode_eq]
    refine stepPart_empty TagWF2 s hw peekTagHeaderChunk (fun s hw => hw.1) ?_ ?_
    · intro u
      rfl
    · exact fun u hw hi => tagLastPart_empty u (hw.2 hi)
  idleNC := by
    intro s buf eos hw hi
    rw [tag_decode_eq]
    exact stepPart_idleNC (fun _ => True) s buf eos trivial hi
      (fun s buf eos _ _ hd => lastPart_idleNC s buf eos hd)
  trunc := by
    intro s a b eos s' n hw hb h hn
    rw [tag_decode_eq] at h ⊢
    refine stepPart_trunc TagWF2 (fun s => TagLenWF s.data)
      s a b eos s' n hw hb h hn peekTagHeaderChunk (fun s hw => hw.1)
      (fun s hw hi => .inl (hw.2 hi)) ?_
      (fun s a b eos s' n hw => tagLastPart_trunc s a b eos s' n hw)
    intro s buf eos x n s₂ hw hni hdec hix hinst
    unfold tagInst at hinst
    dsimp only at hinst
    rcases hit : x.item with _ | hd2
    · rw [hit] at hinst
      exact absurd hinst (by simp)
    · rw [hit] at hinst
      simp only [Except.ok.injEq] at hinst
      rw [← hinst]
      by_cases hds : hd2.data_size = 0

      · exact .inr ⟨hds, hd2.tag_type, rfl⟩
      · refine .inl ⟨tagDataWF2_forType _, ?_⟩
        constructor
        · intro hidle
          rw [tagData_notIdle_forType] at hidle
          exact absurd hidle (by simp)
        · intro h0
          exact absurd h0 hds
  split := by
    intro s a b eos s' n hw hb h hn
    rw [tag_decode_eq] at h
    obtain ⟨sm, h1, h2⟩ := stepPart_split TagWF2 (fun s => TagLenWF s.data)
      s a b eos s' n hw hb h hn peekTagHeaderChunk (peekOk tagHeaderOk).toStep
      (fun s hw => hw.1) (fun _ _ => rfl) (fun _ _ _ => rfl)
      (fun u s₂ hinst => by
        unfold tagInst at hinst
        rcases hit : u.header.item with _ | hd2
        · rw [hit] at hinst
          exact absurd hinst (by simp)
        · rw [hit] at hinst
          simp only [Except.ok.injEq] at hinst
          rw [← hinst])
      tagLastPart_frame
      (fun s hw hi => .inl (hw.2 hi))
      (fun s buf eos x n s₂ hw hni hdec hix hinst => by
        unfold tagInst at hinst
        dsimp only at hinst
        rcases hit : x.item with _ | hd2
        · rw [hit] at hinst
          exact absurd hinst (by simp)
        · rw [hit] at hinst
          simp only [Except.ok.injEq] at hinst
          rw [← hinst]
          by_cases hds : hd2.data_size = 0
          · exact .inr ⟨hds, hd2.tag_type, rfl⟩
          · refine .inl ⟨tagDataWF2_forType _, ?_⟩
            constructor
            · intro hidle
              rw [tagData_notIdle_forType] at hidle
              exact absurd hidle (by simp)
            · intro h0
              exact absurd h0 hds)
      (fun s a b eos s' n hw => tagLastPart_split s a b eos s' n hw)
    exact ⟨sm, by rw [tag_decode_eq]; exact h1, by rw [tag_decode_eq]; exact h2⟩
/-- Chunk compatibility of the 3-byte buffer at its invariant. -/
theorem copyChunk3 : ChunkProps (copyDec 3) (CopyWF 3) :=
  chunk_mono (copyChunk 3) (fun _ _ => trivial)

/-- Chunk compatibility of the 32-bit decoder at its buffer invariant. -/
theorem u32Chunk' : ChunkProps u32Dec (CopyWF 4) := chunk_mono u32Chunk (fun _ _ => trivial)

/-- Chunk compatibility of the peeked data offset. -/
theorem peekU32Chunk : ChunkProps (peekDec u32Dec) (PeekWF u32Dec (CopyWF 4)) :=
  peekChunk u32Ok.toStep u32Chunk'

/-- Chunk compatibility of the length-limited padding skipper. -/
theorem padLenChunk :
    ChunkProps (lengthDec paddingDec) (LenWF2 paddingDec (fun _ => True)) :=
  lengthChunk paddingOk.toStep paddingEosIdle paddingChunk

/-- Decode-side well-behavedness of the padding skipper at the tight
invariant. -/
theorem padLenStepOk2 : StepOk (lengthDec paddingDec) (LenWF2 paddingDec (fun _ => True)) :=
  lenStepOk2 paddingOk.toStep paddingEosIdle

/-- The padding stage of the file-header decoder. -/
abbrev hdrPadPart : PartDec HeaderDecoder :=
  lastPart (lengthDec paddingDec) (fun s => s.padding)
    (fun s x => ⟨s.signature, s.version, s.flags, s.data_offset, x⟩)

/-- Validation of the peeked data offset and sizing of the padding skipper
(`HeaderDecoder::decode`). -/
def hdrInst (s : HeaderDecoder) : Except DecodeError HeaderDecoder :=
  match s.data_offset.item with
  | none => .error .inconsistentState
  | some off =>
    if off < 9 then .error (.invalidInput none)
    else .ok ⟨s.signature, s.version, s.flags, s.data_offset,
      s.padding.set_expected_bytes (off - 9)⟩

/-- The data-offset stage of the file-header decoder and what follows it. -/
abbrev hdrOffPart : PartDec HeaderDecoder :=
  stepPart (peekDec u32Dec) (fun s => s.data_offset)
    (fun s x => ⟨s.signature, s.version, s.flags, x, s.padding⟩)
    hdrInst hdrPadPart

/-- The flags stage of the file-header decoder and what follows it. -/
abbrev hdrFlagsPart : PartDec HeaderDecoder :=
  stepPart u8Dec (fun s => s.flags)
    (fun s x => ⟨s.signature, s.version, x, s.data_offset, s.padding⟩)
    .ok hdrOffPart

/-- The version stage of the file-header decoder and what follows it. -/
abbrev hdrVersionPart : PartDec HeaderDecoder :=
  stepPart u8Dec (fun s => s.version)
    (fun s x => ⟨s.signature, x, s.flags, s.data_offset, s.padding⟩)
    .ok hdrFlagsPart

/-- The file-header decoder as a chain of stages. -/
abbrev headerChain : PartDec HeaderDecoder :=
  stepPart (copyDec 3) (fun s => s.signature)
    (fun s x => ⟨x, s.version, s.flags, s.data_offset, s.padding⟩)
    .ok hdrVersionPart

/-- Offset form of the padding stage. -/
theorem hdrPadPart_eq (sg v f : List Nat) (df : PeekState (List Nat) Nat)
    (pd : LengthState Bool) (buf : List Nat) (o : Nat) (eos : Bool) :
    (do
      let (p, o₅, _) ← tryStep (lengthDec paddingDec) pd buf o eos
      (.ok ((⟨sg, v, f, df, p⟩ : HeaderDecoder), o₅) :
        Except DecodeError (HeaderDecoder × Nat))) =
      (hdrPadPart.run ⟨sg, v, f, df, pd⟩ (buf.drop o) eos).map (fun t => (t.1, o + t.2)) := by
  rw [tryStep_bind_eq]
  unfold hdrPadPart lastPart
  dsimp only
  by_cases hi : (lengthDec paddingDec).isIdle pd = true
  · rw [if_pos hi, if_pos hi, except_map_ok]
    dsimp only
    rw [Nat.add_zero]
  · rw [if_neg hi, if_neg hi]
    rcases hx : (lengthDec paddingDec).decode pd (buf.drop o) eos with e | ⟨x, n⟩
    · rw [error_bind, except_map_error]
    · simp only [ok_bind, except_map_ok]

/-- Offset form of the data-offset and padding stages. -/
theorem hdrOffPart_eq (sg v f : List Nat) (df : PeekState (List Nat) Nat)
    (pd : LengthState Bool) (buf : List Nat) (o : Nat) (eos : Bool) :
    (if (peekDec u32Dec).isIdle df then
      (do
        let (p, o₅, _) ← tryStep (lengthDec paddingDec) pd buf o eos
        (.ok ((⟨sg, v, f, df, p⟩ : HeaderDecoder), o₅) :
          Except DecodeError (HeaderDecoder × Nat)))
    else do
      let (df', o₄, stop₄) ← tryStep (peekDec u32Dec) df buf o eos
      if stop₄ then (.ok ((⟨sg, v, f, df', pd⟩ : HeaderDecoder), o₄) :
        Except DecodeError (HeaderDecoder × Nat))
      else
        match df'.item with
        | none => .error .inconsistentState
        | some off =>
          if off < 9 then .error (.invalidInput none)
          else do
            let (p, o₅, _) ← tryStep (lengthDec paddingDec)
              (pd.set_expected_bytes (off - 9)) buf o₄ eos
            .ok (⟨sg, v, f, df', p⟩, o₅)) =
      (hdrOffPart.run ⟨sg, v, f, df, pd⟩ (buf.drop o) eos).map (fun t => (t.1, o + t.2)) := by
  unfold hdrOffPart stepPart
  dsimp only
  by_cases hi : (peekDec u32Dec).isIdle df = true
  · rw [if_pos hi, if_pos hi]
    exact hdrPadPart_eq sg v f df pd buf o eos
  · rw [if_neg hi, if_neg hi]
    rw [tryStep_bind_eq, if_neg hi]
    rcases hx : (peekDec u32Dec).decode df (buf.drop o) eos with e | ⟨x, n⟩
    · rw [error_bind, except_map_error]
    · simp only [ok_bind]
      by_cases hix : (peekDec u32Dec).isIdle x = true
      · rw [if_neg (by simp [hix]), if_pos hix]
        unfold hdrInst
        dsimp only
        rcases hit : x.item with _ | off
        · rfl
        · dsimp only
          by_cases hoff : off < 9
          · rw [if_pos hoff, if_pos hoff]
            rfl
          · rw [if_neg hoff, if_neg hoff]
            simp only [ok_bind]
            rw [show (tryStep (lengthDec paddingDec)
                (pd.set_expected_bytes (off - 9)) buf (o + n) eos >>=
                (fun p => (.ok ((⟨sg, v, f, x, p.1⟩ : HeaderDecoder), p.2.1) :
                  Except DecodeError (HeaderDecoder × Nat)))) =
              (do
                let (p, o₅, _) ← tryStep (lengthDec paddingDec)
                  (pd.set_expected_bytes (off - 9)) buf (o + n) eos
                (.ok ((⟨sg, v, f, x, p⟩ : HeaderDecoder), o₅) :
                  Except DecodeError (HeaderDecoder × Nat))) from rfl]
            rw [hdrPadPart_eq sg v f x (pd.set_expected_bytes (off - 9)) buf (o + n) eos]
            rw [show buf.drop (o + n) = (buf.drop o).drop n from by
              rw [List.drop_drop, Nat.add_comm]]
            rcases hx2 : hdrPadPart.run ⟨sg, v, f, x, pd.set_expected_bytes (off - 9)⟩
                ((buf.drop o).drop n) eos with e | ⟨t, m⟩
            · simp only [error_bind, except_map_error]
            · simp only [ok_bind, except_map_ok]
              rw [Nat.add_assoc]
      · rw [if_pos (by simp [hix]), if_neg (by simp [hix]), except_map_ok]

/-- Offset form of the flags, data-offset and padding stages. -/
theorem hdrFlagsPart_eq (sg v f : List Nat) (df : PeekState (List Nat) Nat)
    (pd : LengthState Bool) (buf : List Nat) (o : Nat) (eos : Bool) :
    (do
      let (f', o₃, stop₃) ← tryStep u8Dec f buf o eos
      if stop₃ then (.ok ((⟨sg, v, f', df, pd⟩ : HeaderDecoder), o₃) :
        Except DecodeError (HeaderDecoder × Nat))
      else if (peekDec u32Dec).isIdle df then do
        let (p, o₅, _) ← tryStep (lengthDec paddingDec) pd buf o₃ eos
        .ok (⟨sg, v, f', df, p⟩, o₅)
      else do
        let (df', o₄, stop₄) ← tryStep (peekDec u32Dec) df buf o₃ eos
        if stop₄ then (.ok ((⟨sg, v, f', df', pd⟩ : HeaderDecoder), o₄) :
          Except DecodeError (HeaderDecoder × Nat))
        else
          match df'.item with
          | none => .error .inconsistentState
          | some off =>
            if off < 9 then .error (.invalidInput none)
            else do
              let (p, o₅, _) ← tryStep (lengthDec paddingDec)
                (pd.set_expected_bytes (off - 9)) buf o₄ eos
              .ok (⟨sg, v, f', df', p⟩, o₅)) =
      (hdrFlagsPart.run ⟨sg, v, f, df, pd⟩ (buf.drop o) eos).map (fun t => (t.1, o + t.2)) := by
  rw [tryStep_bind_eq]
  unfold hdrFlagsPart stepPart
  dsimp only
  by_cases hi : u8Dec.isIdle f = true
  · rw [if_pos hi, if_pos hi]
    exact hdrOffPart_eq sg v f df pd buf o eos
  · rw [if_neg hi, if_neg hi]
    rcases hx : u8Dec.decode f (buf.drop o) eos with e | ⟨x, n⟩
    · rw [error_bind, except_map_error]
    · simp only [ok_bind]
      by_cases hix : u8Dec.isIdle x = true
      · rw [if_neg (by simp [hix]), if_pos hix]
        rw [show ((if (peekDec u32Dec).isIdle df then do
              let (p, o₅, _) ← tryStep (lengthDec paddingDec) pd buf (o + n) eos
              (.ok ((⟨sg, v, x, df, p⟩ : HeaderDecoder), o₅) :
                Except DecodeError (HeaderDecoder × Nat))
            else do
              let (df', o₄, stop₄) ← tryStep (peekDec u32Dec) df buf (o + n) eos
              if stop₄ then (.ok ((⟨sg, v, x, df', pd⟩ : HeaderDecoder), o₄) :
                Except DecodeError (HeaderDecoder × Nat))
              else
                match df'.item with
                | none => .error .inconsistentState
                | some off =>
                  if off < 9 then .error (.invalidInput none)
                  else do
                    let (p, o₅, _) ← tryStep (lengthDec paddingDec)
                      (pd.set_expected_bytes (off - 9)) buf o₄ eos
                    .ok (⟨sg, v, x, df', p⟩, o₅)) :
              Except DecodeError (HeaderDecoder × Nat)) =
          (if (peekDec u32Dec).isIdle df then
            (do
              let (p, o₅, _) ← tryStep (lengthDec paddingDec) pd buf (o + n) eos
              (.ok ((⟨sg, v, x, df, p⟩ : HeaderDecoder), o₅) :
                Except DecodeError (HeaderDecoder × Nat)))
          else do
            let (df', o₄, stop₄) ← tryStep (peekDec u32Dec) df buf (o + n) eos
            if stop₄ then (.ok ((⟨sg, v, x, df', pd⟩ : HeaderDecoder), o₄) :
              Except DecodeError (HeaderDecoder × Nat))
            else
              match df'.item with
              | none => .error .inconsistentState
              | some off =>
                if off < 9 then .error (.invalidInput none)
                else do
                  let (p, o₅, _) ← tryStep (lengthDec paddingDec)
                    (pd.set_expected_bytes (off - 9)) buf o₄ eos
                  .ok (⟨sg, v, x, df', p⟩, o₅)) from rfl]
        rw [hdrOffPart_eq sg v x df pd buf (o + n) eos]
        rw [show buf.drop (o + n) = (buf.drop o).drop n from by
          rw [List.drop_drop, Nat.add_comm]]
        rcases hx2 : hdrOffPart.run ⟨sg, v, x, df, pd⟩ ((buf.drop o).drop n) eos
            with e | ⟨t, m⟩
        · simp only [error_bind, except_map_error]
        · simp only [ok_bind, except_map_ok]
          rw [Nat.add_assoc]
      · rw [if_pos (by simp [hix]), if_neg (by simp [hix]), except_map_ok]

/-- Offset form of the version and later stages. -/
theorem hdrVersionPart_eq (sg v f : List Nat) (df : PeekState (List Nat) Nat)
    (pd : LengthState Bool) (buf : List Nat) (o : Nat) (eos : Bool) :
    (do
      let (v', o₂, stop₂) ← tryStep u8Dec v buf o eos
      if stop₂ then (.ok ((⟨sg, v', f, df, pd⟩ : HeaderDecoder), o₂) :
        Except DecodeError (HeaderDecoder × Nat))
      else do
        let (f', o₃, stop₃) ← tryStep u8Dec f buf o₂ eos
        if stop₃ then (.ok ((⟨sg, v', f', df, pd⟩ : HeaderDecoder), o₃) :
          Except DecodeError (HeaderDecoder × Nat))
        else if (peekDec u32Dec).isIdle df then do
          let (p, o₅, _) ← tryStep (lengthDec paddingDec) pd buf o₃ eos
          .ok (⟨sg, v', f', df, p⟩, o₅)
        else do
          let (df', o₄, stop₄) ← tryStep (peekDec u32Dec) df buf o₃ eos
          if stop₄ then (.ok ((⟨sg, v', f', df', pd⟩ : HeaderDecoder), o₄) :
            Except DecodeError (HeaderDecoder × Nat))
          else
            match df'.item with
            | none => .error .inconsistentState
            | some off =>
              if off < 9 then .error (.invalidInput none)
              else do
                let (p, o₅, _) ← tryStep (lengthDec paddingDec)
                  (pd.set_expected_bytes (off - 9)) buf o₄ eos
                .ok (⟨sg, v', f', df', p⟩, o₅)) =
      (hdrVersionPart.run ⟨sg, v, f, df, pd⟩ (buf.drop o) eos).map
        (fun t => (t.1, o + t.2)) := by
  rw [tryStep_bind_eq]
  unfold hdrVersionPart stepPart
  dsimp only
  by_cases hi : u8Dec.isIdle v = true
  · rw [if_pos hi, if_pos hi]
    exact hdrFlagsPart_eq sg v f df pd buf o eos
  · rw [if_neg hi, if_neg hi]
    rcases hx : u8Dec.decode v (buf.drop o) eos with e | ⟨x, n⟩
    · rw [error_bind, except_map_error]
    · simp only [ok_bind]
      by_cases hix : u8Dec.isIdle x = true
      · rw [if_neg (by simp [hix]), if_pos hix]
        rw [hdrFlagsPart_eq sg x f df pd buf (o + n) eos]
        rw [show buf.drop (o + n) = (buf.drop o).drop n from by
          rw [List.drop_drop, Nat.add_comm]]
        rcases hx2 : hdrFlagsPart.run ⟨sg, x, f, df, pd⟩ ((buf.drop o).drop n) eos
            with e | ⟨t, m⟩
        · simp only [error_bind, except_map_error]
        · simp only [ok_bind, except_map_ok]
          rw [Nat.add_assoc]
      · rw [if_pos (by simp [hix]), if_neg (by simp [hix]), except_map_ok]

/-- The file-header decode is the chain of its stages. -/
theorem header_decode_eq (s : HeaderDecoder) (buf : List Nat) (eos : Bool) :
    headerDec.decode s buf eos = headerChain.run s buf eos := by
  obtain ⟨sg, v, f, df, pd⟩ := s
  show (do
      let (sg', o₁, stop₁) ← tryStep (copyDec 3) sg buf 0 eos
      if stop₁ then (.ok ((⟨sg', v, f, df, pd⟩ : HeaderDecoder), o₁) :
        Except DecodeError (HeaderDecoder × Nat))
      else do
        let (v', o₂, stop₂) ← tryStep u8Dec v buf o₁ eos
        if stop₂ then .ok (⟨sg', v', f, df, pd⟩, o₂)
        else do
          let (f', o₃, stop₃) ← tryStep u8Dec f buf o₂ eos
          if stop₃ then .ok (⟨sg', v', f', df, pd⟩, o₃)
          else if (peekDec u32Dec).isIdle df then do
            let (p, o₅, _) ← tryStep (lengthDec paddingDec) pd buf o₃ eos
            .ok (⟨sg', v', f', df, p⟩, o₅)
          else do
            let (df', o₄, stop₄) ← tryStep (peekDec u32Dec) df buf o₃ eos
            if stop₄ then .ok (⟨sg', v', f', df', pd⟩, o₄)
            else
              match df'.item with
              | none => .error .inconsistentState
              | some off =>
                if off < 9 then .error (.invalidInput none)
                else do
                  let (p, o₅, _) ← tryStep (lengthDec paddingDec)
                    (pd.set_expected_bytes (off - 9)) buf o₄ eos
                  .ok (⟨sg', v', f', df', p⟩, o₅)) =
      headerChain.run ⟨sg, v, f, df, pd⟩ buf eos
  rw [tryStep_bind_eq]
  unfold headerChain stepPart
  dsimp only
  by_cases hi : (copyDec 3).isIdle sg = true
  · rw [if_pos hi, if_pos hi]
    simp only [Bool.false_eq_true, if_false]
    have := hdrVersionPart_eq sg v f df pd buf 0 eos
    rw [List.drop_zero] at this
    rw [this]
    rcases hx : hdrVersionPart.run ⟨sg, v, f, df, pd⟩ buf eos with e | ⟨t, m⟩
    · rw [except_map_error]
    · rw [except_map_ok]
      dsimp only
      rw [Nat.zero_add]
  · rw [if_neg hi, if_neg hi]
    simp only [List.drop_zero]
    rcases hx : (copyDec 3).decode sg buf eos with e | ⟨x, n⟩
    · exact error_bind.symm
    · simp only [ok_bind]
      by_cases hix : (copyDec 3).isIdle x = true
      · rw [if_neg (by simp [hix]), if_pos hix]
        simp only [ok_bind, Nat.zero_add]
        rw [hdrVersionPart_eq x v f df pd buf n eos]
        rcases hx2 : hdrVersionPart.run ⟨x, v, f, df, pd⟩ (buf.drop n) eos
            with e | ⟨t, m⟩
        · rw [except_map_error]
          exact error_bind.symm
        · rw [except_map_ok]
          simp only [ok_bind]
      · rw [if_pos (by simp [hix]), if_neg (by simp [hix]), Nat.zero_add]
/-- The padding skipper parked on `false` is not idle. -/
theorem padding_notIdle : paddingDec.isIdle false = false := rfl

/-- The data-offset validation leaves the earlier fields and the peeked
offset alone. -/
theorem hdrInst_frame (u s₂ : HeaderDecoder) (hinst : hdrInst u = .ok s₂) :
    s₂.signature = u.signature ∧ s₂.version = u.version ∧ s₂.flags = u.flags ∧
      s₂.data_offset = u.data_offset := by
  unfold hdrInst at hinst
  rcases hit : u.data_offset.item with _ | off
  · rw [hit] at hinst
    exact absurd hinst (by simp)
  · rw [hit] at hinst
    dsimp only at hinst
    by_cases hoff : off < 9
    · rw [if_pos hoff] at hinst
      exact absurd hinst (by simp)
    · rw [if_neg hoff] at hinst
      simp only [Except.ok.injEq] at hinst
      rw [← hinst]
      exact ⟨rfl, rfl, rfl, rfl⟩

/-- The padding stage leaves the earlier fields alone. -/
theorem hdrPadPart_frame (s : HeaderDecoder) (buf : List Nat) (eos : Bool)
    (t : HeaderDecoder) (m : Nat) (h : hdrPadPart.run s buf eos = .ok (t, m)) :
    t.signature = s.signature ∧ t.version = s.version ∧ t.flags = s.flags ∧
      t.data_offset = s.data_offset :=
  ⟨lastPart_frame s buf eos t m h (fun s => s.signature) (fun _ _ => rfl),
   lastPart_frame s buf eos t m h (fun s => s.version) (fun _ _ => rfl),
   lastPart_frame s buf eos t m h (fun s => s.flags) (fun _ _ => rfl),
   lastPart_frame s buf eos t m h (fun s => s.data_offset) (fun _ _ => rfl)⟩

/-- The data-offset stage leaves the earlier fields alone. -/
theorem hdrOffPart_frame (s : HeaderDecoder) (buf : List Nat) (eos : Bool)
    (t : HeaderDecoder) (m : Nat) (h : hdrOffPart.run s buf eos = .ok (t, m)) :
    t.signature = s.signature ∧ t.version = s.version ∧ t.flags = s.flags :=
  ⟨stepPart_frame s buf eos t m h (fun s => s.signature) (fun _ _ => rfl)
    (fun u s₂ hi => (hdrInst_frame u s₂ hi).1)
    (fun s buf eos t m h => (hdrPadPart_frame s buf eos t m h).1),
   stepPart_frame s buf eos t m h (fun s => s.version) (fun _ _ => rfl)
    (fun u s₂ hi => (hdrInst_frame u s₂ hi).2.1)
    (fun s buf eos t m h => (hdrPadPart_frame s buf eos t m h).2.1),
   stepPart_frame s buf eos t m h (fun s => s.flags) (fun _ _ => rfl)
    (fun u s₂ hi => (hdrInst_frame u s₂ hi).2.2.1)
    (fun s buf eos t m h => (hdrPadPart_frame s buf eos t m h).2.2.1)⟩

/-- The flags stage leaves the earlier fields alone. -/
theorem hdrFlagsPart_frame (s : HeaderDecoder) (buf : List Nat) (eos : Bool)
    (t : HeaderDecoder) (m : Nat) (h : hdrFlagsPart.run s buf eos = .ok (t, m)) :
    t.signature = s.signature ∧ t.version = s.version :=
  ⟨stepPart_frame s buf eos t m h (fun s => s.signature) (fun _ _ => rfl)
    (fun u s₂ hi => by
      simp only [Except.ok.injEq] at hi
      rw [← hi])
    (fun s buf eos t m h => (hdrOffPart_frame s buf eos t m h).1),
   stepPart_frame s buf eos t m h (fun s => s.version) (fun _ _ => rfl)
    (fun u s₂ hi => by
      simp only [Except.ok.injEq] at hi
      rw [← hi])
    (fun s buf eos t m h => (hdrOffPart_frame s buf eos t m h).2.1)⟩

/-- The version stage leaves the signature alone. -/
theorem hdrVersionPart_frame (s : HeaderDecoder) (buf : List Nat) (eos : Bool)
    (t : HeaderDecoder) (m : Nat) (h : hdrVersionPart.run s buf eos = .ok (t, m)) :
    t.signature = s.signature :=
  stepPart_frame s buf eos t m h (fun s => s.signature) (fun _ _ => rfl)
    (fun u s₂ hi => by
      simp only [Except.ok.injEq] at hi
      rw [← hi])
    (fun s buf eos t m h => (hdrFlagsPart_frame s buf eos t m h).1)

/-- State invariant of the padding stage: either the tight length invariant,
or a freshly sized skipper. -/
@[reducible]
def PadLenWF (t : LengthState Bool) : Prop :=
  LenWF2 paddingDec (fun _ => True) t ∨ (t.remaining = 0 ∧ t.inner = false)

/-- Invariant of the tail of the header chain from the data-offset stage on. -/
@[reducible]
def HW4 (s : HeaderDecoder) : Prop :=
  PeekWF u32Dec (CopyWF 4) s.data_offset ∧
    ((peekDec u32Dec).isIdle s.data_offset = true →
      LenWF2 paddingDec (fun _ => True) s.padding) ∧
    ((peekDec u32Dec).isIdle s.data_offset = false → s.padding = ⟨false, 0, 0⟩)

/-- Invariant of the tail of the header chain from the flags stage on. -/
@[reducible]
def HW3 (s : HeaderDecoder) : Prop := CopyWF 1 s.flags ∧ HW4 s

/-- Invariant of the tail of the header chain from the version stage on. -/
@[reducible]
def HW2 (s : HeaderDecoder) : Prop := CopyWF 1 s.version ∧ HW3 s

/-- Strengthened invariant of the file-header decoder: once the data offset
is peekable the padding skipper satisfies the tight length invariant. -/
@[reducible]
def HeaderWF2 (s : HeaderDecoder) : Prop :=
  HeaderWF s ∧
    ((peekDec u32Dec).isIdle s.data_offset = true →
      LenWF2 paddingDec (fun _ => True) s.padding)

/-- The strengthened header invariant yields the tail invariants. -/
theorem headerWF2_toHW2 (s : HeaderDecoder) (hw : HeaderWF2 s) : HW2 s :=
  ⟨hw.1.2.1, hw.1.2.2.1, hw.1.2.2.2.1, hw.2, hw.1.2.2.2.2.2⟩

/-- Granular chunk facts for the padding stage. -/
theorem hdrPadPart_empty (s : HeaderDecoder)
    (hw : LenWF2 paddingDec (fun _ => True) s.padding) :
    hdrPadPart.run s [] false = .ok (s, 0) := by
  refine lastPart_empty (fun s => LenWF2 paddingDec (fun _ => True) s.padding) s hw
    padLenChunk (fun s hw => hw) ?_
  intro u
  rfl

theorem hdrPadPart_idleNC (s : HeaderDecoder) (buf : List Nat) (eos : Bool)
    (hi : hdrPadPart.done s = true) : hdrPadPart.run s buf eos = .ok (s, 0) :=
  lastPart_idleNC s buf eos hi

theorem hdrPadPart_trunc (s : HeaderDecoder) (a b : List Nat) (eos : Bool)
    (s' : HeaderDecoder) (n : Nat) (hw : PadLenWF s.padding) (hb : b ≠ [])
    (h : hdrPadPart.run s (a ++ b) eos = .ok (s', n)) (hn : n ≤ a.length) :
    hdrPadPart.run s a false = .ok (s', n) := by
  rcases hw with hw | ⟨hrem, hinner⟩
  · exact lastPart_trunc (fun s => LenWF2 paddingDec (fun _ => True) s.padding)
      s a b eos s' n hw hb h hn padLenChunk (fun s hw => hw)
  · obtain ⟨sg, v, f, df, pd⟩ := s
    obtain ⟨pi, pe, pr⟩ := pd
    have hrem' : pr = 0 := hrem
    have hin' : pi = false := hinner
    subst hrem' hin'
    have hni : ¬((lengthDec paddingDec).isIdle
        (⟨false, pe, 0⟩ : LengthState Bool) = true) := by
      simp [lengthDec, paddingDec]
    unfold hdrPadPart lastPart at h ⊢
    dsimp only at h ⊢
    rw [if_neg hni] at h ⊢
    rw [length_zero_decode] at h ⊢
    exact h

theorem hdrPadPart_split (s : HeaderDecoder) (a b : List Nat) (eos : Bool)
    (s' : HeaderDecoder) (n : Nat) (hw : PadLenWF s.padding) (hb : b ≠ [])
    (h : hdrPadPart.run s (a ++ b) eos = .ok (s', n)) (hn : a.length ≤ n) :
    ∃ sm, hdrPadPart.run s a false = .ok (sm, a.length) ∧
      hdrPadPart.run sm b eos = .ok (s', n - a.length) := by
  rcases hw with hw | ⟨hrem, hinner⟩
  · exact lastPart_split (fun s => LenWF2 paddingDec (fun _ => True) s.padding)
      s a b eos s' n hw hb h hn padLenChunk padLenStepOk2
      (fun s hw => hw) (fun _ _ => rfl) (fun _ _ _ => rfl)
  · obtain ⟨sg, v, f, df, pd⟩ := s
    obtain ⟨pi, pe, pr⟩ := pd
    have hrem' : pr = 0 := hrem
    have hin' : pi = false := hinner
    subst hrem' hin'
    have hni : ¬((lengthDec paddingDec).isIdle
        (⟨false, pe, 0⟩ : LengthState Bool) = true) := by
      simp [lengthDec, paddingDec]
    unfold hdrPadPart lastPart at h ⊢
    dsimp only at h ⊢
    rw [if_neg hni] at h
    obtain ⟨⟨x, n₁⟩, hd1, h3⟩ := bind_ok h
    dsimp only at h3
    simp only [Except.ok.injEq, Prod.mk.injEq] at h3
    rw [length_zero_decode] at hd1
    obtain ⟨⟨i', n₂⟩, hd0, hd1⟩ := bind_ok hd1
    dsimp only at hd1
    simp only [Except.ok.injEq, Prod.mk.injEq] at hd1
    have hn₂ : n₂ = 0 := by
      have := paddingOk.toStep.consume_le _ _ _ _ _ hd0
      simpa using this
    obtain ⟨h31, h32⟩ := h3
    obtain ⟨hd11, hd12⟩ := hd1
    have ha : a = [] := List.length_eq_zero.mp (by omega)
    subst ha
    have hidle : paddingDec.isIdle i' = true :=
      paddingEosIdle _ _ _ _ trivial hd0
    have hxs : (⟨sg, v, f, df, ⟨i', pe, 0⟩⟩ : HeaderDecoder) = s' := by
      rw [← h31, ← hd11]
    refine ⟨s', ?_, ?_⟩
    · rw [if_neg hni, length_zero_decode, hd0]
      simp only [ok_bind]
      rw [hxs, show n₂ = ([] : List Nat).length from by simp [hn₂]]
    · rw [← hxs]
      rw [if_pos (by simp [lengthDec, hidle])]
      simp only [List.length_nil, Nat.sub_zero]
      rw [show (0 : Nat) = n from by omega]

/-- Granular chunk facts for the data-offset stage. -/
theorem hdrOffPart_empty (s : HeaderDecoder) (hw : HW4 s) :
    hdrOffPart.run s [] false = .ok (s, 0) := by
  refine stepPart_empty HW4 s hw peekU32Chunk (fun s hw => hw.1) ?_ ?_
  · intro u
    rfl
  · exact fun u hw hi => hdrPadPart_empty u (hw.2.1 hi)

theorem hdrOffPart_idleNC (s : HeaderDecoder) (buf : List Nat) (eos : Bool)
    (hi : hdrOffPart.done s = true) : hdrOffPart.run s buf eos = .ok (s, 0) :=
  stepPart_idleNC (fun _ => True) s buf eos trivial hi
    (fun s buf eos _ _ hd => hdrPadPart_idleNC s buf eos hd)

theorem hdrOffPart_trunc (s : HeaderDecoder) (a b : List Nat) (eos : Bool)
    (s' : HeaderDecoder) (n : Nat) (hw : HW4 s) (hb : b ≠ [])
    (h : hdrOffPart.run s (a ++ b) eos = .ok (s', n)) (hn : n ≤ a.length) :
    hdrOffPart.run s a false = .ok (s', n) :=
  stepPart_trunc HW4 (fun s => PadLenWF s.padding)
    s a b eos s' n hw hb h hn peekU32Chunk (fun s hw => hw.1)
    (fun s hw hi => .inl (hw.2.1 hi))
    (fun s buf eos x n s₂ hw hni hdec hix hinst => by
      unfold hdrInst at hinst
      dsimp only at hinst
      rcases hit : x.item with _ | off
      · rw [hit] at hinst
        exact absurd hinst (by simp)
      · rw [hit] at hinst
        dsimp only at hinst
        by_cases hoff : off < 9
        · rw [if_pos hoff] at hinst
          exact absurd hinst (by simp)
        · rw [if_neg hoff] at hinst
          simp only [Except.ok.injEq] at hinst
          rw [← hinst]
          have hfresh := hw.2.2 (by simpa using hni)
          show PadLenWF (s.padding.set_expected_bytes (off - 9))
          rw [hfresh]
          simp only [LengthState.set_expected_bytes]
          by_cases h9 : off - 9 = 0
          · exact .inr ⟨h9, rfl⟩
          · refine .inl ⟨trivial, ?_⟩
            constructor
            · intro hip
              exact absurd hip (by simp [paddingDec])
            · intro h0
              exact absurd h0 h9)
    (fun s a b eos s' n hw => hdrPadPart_trunc s a b eos s' n hw)

theorem hdrOffPart_split (s : HeaderDecoder) (a b : List Nat) (eos : Bool)
    (s' : HeaderDecoder) (n : Nat) (hw : HW4 s) (hb : b ≠ [])
    (h : hdrOffPart.run s (a ++ b) eos = .ok (s', n)) (hn : a.length ≤ n) :
    ∃ sm, hdrOffPart.run s a false = .ok (sm, a.length) ∧
      hdrOffPart.run sm b eos = .ok (s', n - a.length) :=
  stepPart_split HW4 (fun s => PadLenWF s.padding)
    s a b eos s' n hw hb h hn peekU32Chunk (peekOk u32Ok).toStep (fun s hw => hw.1)
    (fun _ _ => rfl) (fun _ _ _ => rfl)
    (fun u s₂ hi => (hdrInst_frame u s₂ hi).2.2.2)
    (fun t buf eos t' m h => (hdrPadPart_frame t buf eos t' m h).2.2.2)
    (fun s hw hi => .inl (hw.2.1 hi))
    (fun s buf eos x n s₂ hw hni hdec hix hinst => by
      unfold hdrInst at hinst
      dsimp only at hinst
      rcases hit : x.item with _ | off
      · rw [hit] at hinst
        exact absurd hinst (by simp)
      · rw [hit] at hinst
        dsimp only at hinst
        by_cases hoff : off < 9
        · rw [if_pos hoff] at hinst
          exact absurd hinst (by simp)
        · rw [if_neg hoff] at hinst
          simp only [Except.ok.injEq] at hinst
          rw [← hinst]
          have hfresh := hw.2.2 (by simpa using hni)
          show PadLenWF (s.padding.set_expected_bytes (off - 9))
          rw [hfresh]
          simp only [LengthState.set_expected_bytes]
          by_cases h9 : off - 9 = 0
          · exact .inr ⟨h9, rfl⟩
          · refine .inl ⟨trivial, ?_⟩
            constructor
            · intro hip
              exact absurd hip (by simp [paddingDec])
            · intro h0
              exact absurd h0 h9)
    (fun s a b eos s' n hw => hdrPadPart_split s a b eos s' n hw)

/-- Granular chunk facts for the flags stage. -/
theorem hdrFlagsPart_empty (s : HeaderDecoder) (hw : HW3 s) :
    hdrFlagsPart.run s [] false = .ok (s, 0) := by
  refine stepPart_empty HW3 s hw u8Chunk' (fun s hw => hw.1) ?_ ?_
  · intro u
    rfl
  · exact fun u hw _ => hdrOffPart_empty u hw.2

theorem hdrFlagsPart_idleNC (s : HeaderDecoder) (buf : List Nat) (eos : Bool)
    (hi : hdrFlagsPart.done s = true) : hdrFlagsPart.run s buf eos = .ok (s, 0) :=
  stepPart_idleNC (fun _ => True) s buf eos trivial hi
    (fun s buf eos _ _ hd => hdrOffPart_idleNC s buf eos hd)

theorem hdrFlagsPart_trunc (s : HeaderDecoder) (a b : List Nat) (eos : Bool)
    (s' : HeaderDecoder) (n : Nat) (hw : HW3 s) (hb : b ≠ [])
    (h : hdrFlagsPart.run s (a ++ b) eos = .ok (s', n)) (hn : n ≤ a.length) :
    hdrFlagsPart.run s a false = .ok (s', n) :=
  stepPart_trunc HW3 HW4
    s a b eos s' n hw hb h hn u8Chunk' (fun s hw => hw.1)
    (fun s hw _ => hw.2)
    (fun s buf eos x n s₂ hw _ _ _ hi => by
      simp only [Except.ok.injEq] at hi
      rw [← hi]
      exact hw.2)
    (fun s a b eos s' n hw => hdrOffPart_trunc s a b eos s' n hw)

theorem hdrFlagsPart_split (s : HeaderDecoder) (a b : List Nat) (eos : Bool)
    (s' : HeaderDecoder) (n : Nat) (hw : HW3 s) (hb : b ≠ [])
    (h : hdrFlagsPart.run s (a ++ b) eos = .ok (s', n)) (hn : a.length ≤ n) :
    ∃ sm, hdrFlagsPart.run s a false = .ok (sm, a.length) ∧
      hdrFlagsPart.run sm b eos = .ok (s', n - a.length) :=
  stepPart_split HW3 HW4
    s a b eos s' n hw hb h hn u8Chunk' u8Ok.toStep (fun s hw => hw.1)
    (fun _ _ => rfl) (fun _ _ _ => rfl)
    (fun u s₂ hi => by
      simp only [Except.ok.injEq] at hi
      rw [← hi])
    (fun t buf eos t' m h => (hdrOffPart_frame t buf eos t' m h).2.2)
    (fun s hw _ => hw.2)
    (fun s buf eos x n s₂ hw _ _ _ hi => by
      simp only [Except.ok.injEq] at hi
      rw [← hi]
      exact hw.2)
    (fun s a b eos s' n hw => hdrOffPart_split s a b eos s' n hw)

/-- Granular chunk facts for the version stage. -/
theorem hdrVersionPart_empty (s : HeaderDecoder) (hw : HW2 s) :
    hdrVersionPart.run s [] false = .ok (s, 0) := by
  refine stepPart_empty HW2 s hw u8Chunk' (fun s hw => hw.1) ?_ ?_
  · intro u
    rfl
  · exact fun u hw _ => hdrFlagsPart_empty u hw.2

theorem hdrVersionPart_idleNC (s : HeaderDecoder) (buf : List Nat) (eos : Bool)
    (hi : hdrVersionPart.done s = true) : hdrVersionPart.run s buf eos = .ok (s, 0) :=
  stepPart_idleNC (fun _ => True) s buf eos trivial hi
    (fun s buf eos _ _ hd => hdrFlagsPart_idleNC s buf eos hd)

theorem hdrVersionPart_trunc (s : HeaderDecoder) (a b : List Nat) (eos : Bool)
    (s' : HeaderDecoder) (n : Nat) (hw : HW2 s) (hb : b ≠ [])
    (h : hdrVersionPart.run s (a ++ b) eos = .ok (s', n)) (hn : n ≤ a.length) :
    hdrVersionPart.run s a false = .ok (s', n) :=
  stepPart_trunc HW2 HW3
    s a b eos s' n hw hb h hn u8Chunk' (fun s hw => hw.1)
    (fun s hw _ => hw.2)
    (fun s buf eos x n s₂ hw _ _ _ hi => by
      simp only [Except.ok.injEq] at hi
      rw [← hi]
      exact hw.2)
    (fun s a b eos s' n hw => hdrFlagsPart_trunc s a b eos s' n hw)

theorem hdrVersionPart_split (s : HeaderDecoder) (a b : List Nat) (eos : Bool)
    (s' : HeaderDecoder) (n : Nat) (hw : HW2 s) (hb : b ≠ [])
    (h : hdrVersionPart.run s (a ++ b) eos = .ok (s', n)) (hn : a.length ≤ n) :
    ∃ sm, hdrVersionPart.run s a false = .ok (sm, a.length) ∧
      hdrVersionPart.run sm b eos = .ok (s', n - a.length) :=
  stepPart_split HW2 HW3
    s a b eos s' n hw hb h hn u8Chunk' u8Ok.toStep (fun s hw => hw.1)
    (fun _ _ => rfl) (fun _ _ _ => rfl)
    (fun u s₂ hi => by
      simp only [Except.ok.injEq] at hi
      rw [← hi])
    (fun t buf eos t' m h => (hdrFlagsPart_frame t buf eos t' m h).2)
    (fun s hw _ => hw.2)
    (fun s buf eos x n s₂ hw _ _ _ hi => by
      simp only [Except.ok.injEq] at hi
      rw [← hi]
      exact hw.2)
    (fun s a b eos s' n hw => hdrFlagsPart_split s a b eos s' n hw)
/-- The padding stage delivers the tight length invariant. -/
theorem hdrPadPart_lenwf2 (s : HeaderDecoder) (buf : List Nat) (eos : Bool)
    (t : HeaderDecoder) (m : Nat) (h : hdrPadPart.run s buf eos = .ok (t, m))
    (hw : PadLenWF s.padding) :
    LenWF2 paddingDec (fun _ => True) t.padding := by
  unfold hdrPadPart lastPart at h
  dsimp only at h
  by_cases hi : (lengthDec paddingDec).isIdle s.padding = true
  · rw [if_pos hi] at h
    simp only [Except.ok.injEq, Prod.mk.injEq] at h
    rw [← h.1]
    simp only [lengthDec, Bool.and_eq_true, decide_eq_true_eq] at hi
    exact ⟨trivial, by
      constructor
      · intro _
        exact hi.1
      · intro _
        exact hi.2⟩
  · rw [if_neg hi] at h
    obtain ⟨⟨x, n₁⟩, hd1, h⟩ := bind_ok h
    dsimp only at h
    simp only [Except.ok.injEq, Prod.mk.injEq] at h
    rw [← h.1]
    rcases hw with hw | ⟨hrem, hinner⟩
    · exact padLenStepOk2.wf_decode _ _ _ _ _ hw hd1
    · obtain ⟨sg, v, f, df, pd⟩ := s
      obtain ⟨pi, pe, pr⟩ := pd
      have hrem' : pr = 0 := hrem
      have hin' : pi = false := hinner
      subst hrem' hin'
      rw [length_zero_decode] at hd1
      obtain ⟨⟨i', n₂⟩, hd0, hd1⟩ := bind_ok hd1
      dsimp only at hd1
      simp only [Except.ok.injEq, Prod.mk.injEq] at hd1
      have hidle : paddingDec.isIdle i' = true :=
        paddingEosIdle _ _ _ _ trivial hd0
      rw [← hd1.1]
      exact ⟨trivial, by
        constructor
        · intro _
          rfl
        · intro _
          exact hidle⟩

/-- The data-offset stage delivers the padding invariant once the offset is
peekable. -/
theorem hdrOffPart_wf2 (s : HeaderDecoder) (buf : List Nat) (eos : Bool)
    (t : HeaderDecoder) (m : Nat) (h : hdrOffPart.run s buf eos = .ok (t, m))
    (hw : HW4 s) :
    (peekDec u32Dec).isIdle t.data_offset = true →
      LenWF2 paddingDec (fun _ => True) t.padding := by
  unfold hdrOffPart stepPart at h
  dsimp only at h
  by_cases hi : (peekDec u32Dec).isIdle s.data_offset = true
  · rw [if_pos hi] at h
    intro _
    exact hdrPadPart_lenwf2 s buf eos t m h (.inl (hw.2.1 hi))
  · rw [if_neg hi] at h
    obtain ⟨⟨x, n₁⟩, hd1, h⟩ := bind_ok h
    dsimp only at h
    by_cases hix : (peekDec u32Dec).isIdle x = true
    · rw [if_pos hix] at h
      obtain ⟨s₂, hinst, h⟩ := bind_ok h
      obtain ⟨⟨t', m'⟩, hnx, h⟩ := bind_ok h
      dsimp only at h
      simp only [Except.ok.injEq, Prod.mk.injEq] at h
      rw [← h.1]
      intro _
      refine hdrPadPart_lenwf2 s₂ _ eos t' m' hnx ?_
      unfold hdrInst at hinst
      dsimp only at hinst
      rcases hit : x.item with _ | off
      · rw [hit] at hinst
        exact absurd hinst (by simp)
      · rw [hit] at hinst
        dsimp only at hinst
        by_cases hoff : off < 9
        · rw [if_pos hoff] at hinst
          exact absurd hinst (by simp)
        · rw [if_neg hoff] at hinst
          simp only [Except.ok.injEq] at hinst
          rw [← hinst]
          have hfresh := hw.2.2 (by simpa using hi)
          show PadLenWF (s.padding.set_expected_bytes (off - 9))
          rw [hfresh]
          simp only [LengthState.set_expected_bytes]
          by_cases h9 : off - 9 = 0
          · exact .inr ⟨h9, rfl⟩
          · refine .inl ⟨trivial, ?_⟩
            constructor
            · intro hip
              exact absurd hip (by simp [paddingDec])
            · intro h0
              exact absurd h0 h9
    · rw [if_neg (by simp [hix])] at h
      simp only [Except.ok.injEq, Prod.mk.injEq] at h
      intro hidf
      rw [← h.1] at hidf
      exact absurd hidf (by simpa using hix)

/-- The flags stage delivers the padding invariant once the offset is
peekable. -/
theorem hdrFlagsPart_wf2 (s : HeaderDecoder) (buf : List Nat) (eos : Bool)
    (t : HeaderDecoder) (m : Nat) (h : hdrFlagsPart.run s buf eos = .ok (t, m))
    (hw : HW3 s) :
    (peekDec u32Dec).isIdle t.data_offset = true →
      LenWF2 paddingDec (fun _ => True) t.padding := by
  unfold hdrFlagsPart stepPart at h
  dsimp only at h
  by_cases hi : u8Dec.isIdle s.flags = true
  · rw [if_pos hi] at h
    exact hdrOffPart_wf2 s buf eos t m h hw.2
  · rw [if_neg hi] at h
    obtain ⟨⟨x, n₁⟩, hd1, h⟩ := bind_ok h
    dsimp only at h
    by_cases hix : u8Dec.isIdle x = true
    · rw [if_pos hix] at h
      obtain ⟨s₂, hinst, h⟩ := bind_ok h
      obtain ⟨⟨t', m'⟩, hnx, h⟩ := bind_ok h
      dsimp only at h
      simp only [Except.ok.injEq, Prod.mk.injEq] at h
      rw [← h.1]
      simp only [Except.ok.injEq] at hinst
      rw [← hinst] at hnx
      exact hdrOffPart_wf2 _ _ eos t' m' hnx hw.2
    · rw [if_neg (by simp [hix])] at h
      simp only [Except.ok.injEq, Prod.mk.injEq] at h
      rw [← h.1]
      intro hidf
      exact hw.2.2.1 hidf

/-- The version stage delivers the padding invariant once the offset is
peekable. -/
theorem hdrVersionPart_wf2 (s : HeaderDecoder) (buf : List Nat) (eos : Bool)
    (t : HeaderDecoder) (m : Nat) (h : hdrVersionPart.run s buf eos = .ok (t, m))
    (hw : HW2 s) :
    (peekDec u32Dec).isIdle t.data_offset = true →
      LenWF2 paddingDec (fun _ => True) t.padding := by
  unfold hdrVersionPart stepPart at h
  dsimp only at h
  by_cases hi : u8Dec.isIdle s.version = true
  · rw [if_pos hi] at h
    exact hdrFlagsPart_wf2 s buf eos t m h hw.2
  · rw [if_neg hi] at h
    obtain ⟨⟨x, n₁⟩, hd1, h⟩ := bind_ok h
    dsimp only at h
    by_cases hix : u8Dec.isIdle x = true
    · rw [if_pos hix] at h
      obtain ⟨s₂, hinst, h⟩ := bind_ok h
      obtain ⟨⟨t', m'⟩, hnx, h⟩ := bind_ok h
      dsimp only at h
      simp only [Except.ok.injEq, Prod.mk.injEq] at h
      rw [← h.1]
      simp only [Except.ok.injEq] at hinst
      rw [← hinst] at hnx
      exact hdrFlagsPart_wf2 _ _ eos t' m' hnx hw.2
    · rw [if_neg (by simp [hix])] at h
      simp only [Except.ok.injEq, Prod.mk.injEq] at h
      rw [← h.1]
      intro hidf
      exact hw.2.2.2.1 hidf

/-- A successful header decode preserves the strengthened invariant. -/
theorem header_wf2_decode (s : HeaderDecoder) (buf : List Nat) (eos : Bool)
    (s' : HeaderDecoder) (n : Nat) (hw : HeaderWF2 s)
    (h : headerDec.decode s buf eos = .ok (s', n)) : HeaderWF2 s' := by
  refine ⟨headerOk.wf_decode _ _ _ _ _ hw.1 h, ?_⟩
  rw [header_decode_eq] at h
  unfold headerChain stepPart at h
  dsimp only at h
  by_cases hi : (copyDec 3).isIdle s.signature = true
  · rw [if_pos hi] at h
    exact hdrVersionPart_wf2 s buf eos s' n h (headerWF2_toHW2 s hw)
  · rw [if_neg hi] at h
    obtain ⟨⟨x, n₁⟩, hd1, h⟩ := bind_ok h
    dsimp only at h
    by_cases hix : (copyDec 3).isIdle x = true
    · rw [if_pos hix] at h
      obtain ⟨s₂, hinst, h⟩ := bind_ok h
      obtain ⟨⟨t', m'⟩, hnx, h⟩ := bind_ok h
      dsimp only at h
      simp only [Except.ok.injEq, Prod.mk.injEq] at h
      rw [← h.1]
      simp only [Except.ok.injEq] at hinst
      rw [← hinst] at hnx
      exact hdrVersionPart_wf2 _ _ eos t' m' hnx (headerWF2_toHW2 s hw)
    · rw [if_neg (by simp [hix])] at h
      simp only [Except.ok.injEq, Prod.mk.injEq] at h
      rw [← h.1]
      intro hidf
      exact hw.2 hidf

/-- An idle header decoder has a fully done stage chain. -/
theorem headerChain_done (s : HeaderDecoder)
    (hi : headerDec.isIdle s = true) : headerChain.done s = true := by
  simp only [headerDec, Bool.and_eq_true] at hi
  obtain ⟨⟨⟨⟨h1, h2⟩, h3⟩, h4⟩, h5⟩ := hi
  unfold headerChain hdrVersionPart hdrFlagsPart hdrOffPart hdrPadPart stepPart lastPart
  simp only
  rw [h1, h2, h3, h4, h5]
  rfl

/-- Chunk compatibility of the file-header decoder. -/
theorem headerChunk : ChunkProps headerDec HeaderWF2 where
  empty := by
    intro s hw
    rw [header_decode_eq]
    refine stepPart_empty HeaderWF2 s hw copyChunk3 (fun s hw => hw.1.1) ?_ ?_
    · intro u
      rfl
    · exact fun u hw _ => hdrVersionPart_empty u (headerWF2_toHW2 u hw)
  idleNC := by
    intro s buf eos hw hi
    rw [header_decode_eq]
    exact stepPart_idleNC (fun _ => True) s buf eos trivial (headerChain_done s hi)
      (fun s buf eos _ _ hd => hdrVersionPart_idleNC s buf eos hd)
  trunc := by
    intro s a b eos s' n hw hb h hn
    rw [header_decode_eq] at h ⊢
    exact stepPart_trunc HeaderWF2 HW2
      s a b eos s' n hw hb h hn copyChunk3 (fun s hw => hw.1.1)
      (fun s hw _ => headerWF2_toHW2 s hw)
      (fun s buf eos x n s₂ hw _ _ _ hi => by
        simp only [Except.ok.injEq] at hi
        rw [← hi]
        exact headerWF2_toHW2 s hw)
      (fun s a b eos s' n hw => hdrVersionPart_trunc s a b eos s' n hw)
  split := by
    intro s a b eos s' n hw hb h hn
    rw [header_decode_eq] at h
    obtain ⟨sm, h1, h2⟩ := stepPart_split HeaderWF2 HW2
      s a b eos s' n hw hb h hn copyChunk3 ((copyOk 3 (by omega)).toStep)
      (fun s hw => hw.1.1)
      (fun _ _ => rfl) (fun _ _ _ => rfl)
      (fun u s₂ hi => by
        simp only [Except.ok.injEq] at hi
        rw [← hi])
      hdrVersionPart_frame
      (fun s hw _ => headerWF2_toHW2 s hw)
      (fun s buf eos x n s₂ hw _ _ _ hi => by
        simp only [Except.ok.injEq] at hi
        rw [← hi]
        exact headerWF2_toHW2 s hw)
      (fun s a b eos s' n hw => hdrVersionPart_split s a b eos s' n hw)
    exact ⟨sm, by rw [header_decode_eq]; exact h1, by rw [header_decode_eq]; exact h2⟩
/-- The payload stage of the tag chain delivers the tight length invariant. -/
theorem tagLastPart_lenwf2 (s : TagDecoder) (buf : List Nat) (eos : Bool)
    (t : TagDecoder) (m : Nat) (h : tagLastPart.run s buf eos = .ok (t, m))
    (hw : TagLenWF s.data) :
    LenWF2 tagDataDec TagDataWF2 t.data := by
  unfold tagLastPart lastPart at h
  dsimp only at h
  by_cases hi : (lengthDec tagDataDec).isIdle s.data = true
  · rw [if_pos hi] at h
    simp only [Except.ok.injEq, Prod.mk.injEq] at h
    rw [← h.1]
    rcases hw with hw | ⟨hrem, tt, hinner⟩
    · exact hw
    · exfalso
      simp only [lengthDec, Bool.and_eq_true, decide_eq_true_eq] at hi
      have h2 := hi.2
      rw [hinner, tagData_notIdle_forType] at h2
      exact absurd h2 (by simp)
  · rw [if_neg hi] at h
    obtain ⟨⟨x, n₁⟩, hd1, h⟩ := bind_ok h
    dsimp only at h
    simp only [Except.ok.injEq, Prod.mk.injEq] at h
    rw [← h.1]
    rcases hw with hw | ⟨hrem, tt, hinner⟩
    · exact tagDataLenStepOk2.wf_decode _ _ _ _ _ hw hd1
    · obtain ⟨hdr, dta⟩ := s
      obtain ⟨i, exp, rem⟩ := dta
      have hrem' : rem = 0 := hrem
      have hin' : i = TagDataDecoder.forType tt := hinner
      subst hrem' hin'
      rw [length_zero_decode] at hd1
      obtain ⟨⟨i', n₂⟩, hd0, hd1⟩ := bind_ok hd1
      dsimp only at hd1
      simp only [Except.ok.injEq, Prod.mk.injEq] at hd1
      have hidle : tagDataDec.isIdle i' = true :=
        tagDataEosIdle2 _ _ _ _ (tagDataWF2_forType tt) hd0
      rw [← hd1.1]
      refine ⟨tagDataStepOk2.wf_decode _ _ _ _ _ (tagDataWF2_forType tt) hd0, ?_⟩
      constructor
      · intro _
        rfl
      · intro _
        exact hidle

/-- The strengthened tag invariant refines the plain one. -/
theorem tagWF2_toWF (s : TagDecoder) (hw : TagWF2 s) : TagWF s :=
  ⟨hw.1, fun hi => ⟨tagDataWF2_toWF _ (hw.2 hi).1, fun hi2 => ((hw.2 hi).2).mp hi2⟩⟩

/-- A successful tag decode preserves the strengthened invariant. -/
theorem tag_wf2_decode (s : TagDecoder) (buf : List Nat) (eos : Bool)
    (s' : TagDecoder) (n : Nat) (hw : TagWF2 s)
    (h : tagDec.decode s buf eos = .ok (s', n)) : TagWF2 s' := by
  refine ⟨(tag_decode_props s buf eos s' n (tagWF2_toWF s hw) h).1.1, ?_⟩
  rw [tag_decode_eq] at h
  unfold tagChain stepPart at h
  dsimp only at h
  by_cases hi : (peekDec tagHeaderDec).isIdle s.header = true
  · rw [if_pos hi] at h
    exact fun _ => tagLastPart_lenwf2 s buf eos s' n h (.inl (hw.2 hi))
  · rw [if_neg hi] at h
    obtain ⟨⟨x, n₁⟩, hd1, h⟩ := bind_ok h
    dsimp only at h
    by_cases hix : (peekDec tagHeaderDec).isIdle x = true
    · rw [if_pos hix] at h
      obtain ⟨s₂, hinst, h⟩ := bind_ok h
      obtain ⟨⟨t', m'⟩, hnx, h⟩ := bind_ok h
      dsimp only at h
      simp only [Except.ok.injEq, Prod.mk.injEq] at h
      rw [← h.1]
      intro _
      refine tagLastPart_lenwf2 s₂ _ eos t' m' hnx ?_
      unfold tagInst at hinst
      dsimp only at hinst
      rcases hit : x.item with _ | hd2
      · rw [hit] at hinst
        exact absurd hinst (by simp)
      · rw [hit] at hinst
        simp only [Except.ok.injEq] at hinst
        rw [← hinst]
        by_cases hds : hd2.data_size = 0
        · exact .inr ⟨hds, hd2.tag_type, rfl⟩
        · refine .inl ⟨tagDataWF2_forType _, ?_⟩
          constructor
          · intro hidle
            rw [tagData_notIdle_forType] at hidle
            exact absurd hidle (by simp)
          · intro h0
            exact absurd h0 hds
    · rw [if_neg (by simp [hix])] at h
      simp only [Except.ok.injEq, Prod.mk.injEq] at h
      rw [← h.1]
      intro hidf
      exact absurd hidf (by simpa using hix)

/-- Decode-side well-behavedness of the tag decoder at the strengthened
invariant. -/
theorem tagStepOk2 : StepOk tagDec TagWF2 where
  wf_decode := tag_wf2_decode
  consume_le := tagOk.consume_le
  consumes_all := fun s buf eos s' n hwf h hni =>
    (tag_decode_props s buf eos s' n (tagWF2_toWF s hwf) h).2.2 hni

/-- Decode-side well-behavedness of the end-of-stream tolerant wrapper. -/
theorem maybeEosStepOk {d : Dec σ α} {WF : σ → Prop} (o : StepOk d WF) :
    StepOk (maybeEosDec d) (fun s => WF s.inner) where
  wf_decode := by
    intro s buf eos s' n hwf h
    unfold maybeEosDec at h
    simp only at h
    split at h
    · simp only [Except.ok.injEq, Prod.mk.injEq] at h
      exact h.1 ▸ hwf
    · obtain ⟨⟨i₁, n₁⟩, hd1, h⟩ := bind_ok h
      simp only [Except.ok.injEq, Prod.mk.injEq] at h
      rw [← h.1]
      exact o.wf_decode _ _ _ _ _ hwf hd1
  consume_le := by
    intro s buf eos s' n h
    unfold maybeEosDec at h
    simp only at h
    split at h
    · simp only [Except.ok.injEq, Prod.mk.injEq] at h
      omega
    · obtain ⟨⟨i₁, n₁⟩, hd1, h⟩ := bind_ok h
      simp only [Except.ok.injEq, Prod.mk.injEq] at h
      have := o.consume_le _ _ _ _ _ hd1
      omega
  consumes_all := by
    intro s buf eos s' n hwf h hni
    unfold maybeEosDec at h
    simp only at h
    split at h
    · rename_i hc
      simp only [Except.ok.injEq, Prod.mk.injEq] at h
      rw [hc.2.1]
      simp only [List.length_nil]
      omega
    · obtain ⟨⟨i₁, n₁⟩, hd1, h⟩ := bind_ok h
      simp only [Except.ok.injEq, Prod.mk.injEq] at h
      rw [← h.1] at hni
      simp only [maybeEosDec] at hni
      have := o.consumes_all _ _ _ _ _ hwf hd1 hni
      omega

/-- Decode-side well-behavedness of the end-of-stream tolerant tag decoder at
the strengthened invariant. -/
theorem maybeTagStepOk2 : StepOk (maybeEosDec tagDec) (fun s => TagWF2 s.inner) :=
  maybeEosStepOk tagStepOk2

/-- Chunk compatibility of the end-of-stream tolerant tag decoder. -/
theorem maybeTagChunk : ChunkProps (maybeEosDec tagDec) (fun s => TagWF2 s.inner) :=
  maybeEosChunk tagChunk

/-- Decode-side well-behavedness of the sequential pair, from decode-side
facts of the components. -/
theorem tupleStepOk {d1 : Dec σ α} {d2 : Dec τ β} {W1 : σ → Prop} {W2 : τ → Prop}
    (o1 : StepOk d1 W1) (o2 : StepOk d2 W2) : StepOk (tupleDec d1 d2) (TupleWF W1 W2) where
  wf_decode := by
    intro s buf eos s' n hwf h
    unfold tupleDec at h
    simp only at h
    split at h
    · split at h
      · simp only [Except.ok.injEq, Prod.mk.injEq] at h
        exact h.1 ▸ hwf
      · obtain ⟨⟨t', m⟩, hd2, h⟩ := bind_ok h
        simp only [Except.ok.injEq, Prod.mk.injEq] at h
        rw [← h.1]
        exact ⟨hwf.1, o2.wf_decode _ _ _ _ _ hwf.2 hd2⟩
    · obtain ⟨⟨s₁, n₁⟩, hd1, h⟩ := bind_ok h
      have hw1 : W1 s₁ := o1.wf_decode _ _ _ _ _ hwf.1 hd1
      split at h
      · split at h
        · simp only [Except.ok.injEq, Prod.mk.injEq] at h
          rw [← h.1]
          exact ⟨hw1, hwf.2⟩
        · obtain ⟨⟨t', m⟩, hd2, h⟩ := bind_ok h
          simp only [Except.ok.injEq, Prod.mk.injEq] at h
          rw [← h.1]
          exact ⟨hw1, o2.wf_decode _ _ _ _ _ hwf.2 hd2⟩
      · simp only [Except.ok.injEq, Prod.mk.injEq] at h
        rw [← h.1]
        exact ⟨hw1, hwf.2⟩
  consume_le := by
    intro s buf eos s' n h
    unfold tupleDec at h
    simp only at h
    split at h
    · split at h
      · simp only [Except.ok.injEq, Prod.mk.injEq] at h
        omega
      · obtain ⟨⟨t', m⟩, hd2, h⟩ := bind_ok h
        simp only [Except.ok.injEq, Prod.mk.injEq] at h
        have := o2.consume_le _ _ _ _ _ hd2
        omega
    · obtain ⟨⟨s₁, n₁⟩, hd1, h⟩ := bind_ok h
      have hle1 := o1.consume_le _ _ _ _ _ hd1
      split at h
      · split at h
        · simp only [Except.ok.injEq, Prod.mk.injEq] at h
          omega
        · obtain ⟨⟨t', m⟩, hd2, h⟩ := bind_ok h
          simp only [Except.ok.injEq, Prod.mk.injEq] at h
          have hle2 := o2.consume_le _ _ _ _ _ hd2
          simp only [List.length_drop] at hle2
          omega
      · simp only [Except.ok.injEq, Prod.mk.injEq] at h
        omega
  consumes_all := by
    intro s buf eos s' n hwf h hni
    unfold tupleDec at h
    simp only at h
    split at h
    · rename_i hi1
      split at h
      · rename_i hi2
        simp only [Except.ok.injEq, Prod.mk.injEq] at h
        rw [← h.1] at hni
        simp only [tupleDec, hi1, hi2] at hni
        simp at hni
      · obtain ⟨⟨t', m⟩, hd2, h⟩ := bind_ok h
        simp only [Except.ok.injEq, Prod.mk.injEq] at h
        rw [← h.1] at hni
        simp only [tupleDec, Bool.and_eq_false_iff] at hni
        rcases hni with hni | hni
        · rw [hi1] at hni
          exact absurd hni (by simp)
        · have := o2.consumes_all _ _ _ _ _ hwf.2 hd2 hni
          omega
    · rename_i hi1
      obtain ⟨⟨s₁, n₁⟩, hd1, h⟩ := bind_ok h
      split at h
      · rename_i hio1
        split at h
        · rename_i hi2
          simp only [Except.ok.injEq, Prod.mk.injEq] at h
          rw [← h.1] at hni
          simp only [tupleDec, hio1, hi2] at hni
          simp at hni
        · obtain ⟨⟨t', m⟩, hd2, h⟩ := bind_ok h
          simp only [Except.ok.injEq, Prod.mk.injEq] at h
          rw [← h.1] at hni
          simp only [tupleDec, Bool.and_eq_false_iff] at hni
          rcases hni with hni | hni
          · rw [hio1] at hni
            exact absurd hni (by simp)
          · have hall1 := o1.consumes_all _ _ _ _ _ hwf.1 hd1
            have := o2.consumes_all _ _ _ _ _ hwf.2 hd2 hni
            simp only [List.length_drop] at this
            have hle1 := o1.consume_le _ _ _ _ _ hd1
            omega
      · rename_i hio1
        simp only [Except.ok.injEq, Prod.mk.injEq] at h
        have := o1.consumes_all _ _ _ _ _ hwf.1 hd1 (by simpa using hio1)
        omega

/-- A failed peek finish means no item was cached. -/
theorem peek_finish_error {d : Dec σ α} (s : PeekState σ α) (e : DecodeError)
    (h : (peekDec d).finish s = .error e) : s.item = none := by
  unfold peekDec at h
  dsimp only at h
  rcases hit : s.item with _ | a
  · rfl
  · rw [hit] at h
    exact absurd h (by simp)

/-- A successful peek finish leaves the cache empty. -/
theorem peek_finish_ok {d : Dec σ α} (s : PeekState σ α) (st : PeekState σ α) (a : α)
    (h : (peekDec d).finish s = .ok (st, a)) : (peekDec d).isIdle st = false := by
  unfold peekDec at h ⊢
  dsimp only at h ⊢
  rcases hit : s.item with _ | b
  · rw [hit] at h
    dsimp only at h
    obtain ⟨⟨i', a'⟩, hf, h⟩ := bind_ok h
    dsimp only at h
    simp only [Except.ok.injEq, Prod.mk.injEq] at h
    rw [← h.1]
    rfl
  · rw [hit] at h
    dsimp only at h
    simp only [Except.ok.injEq, Prod.mk.injEq] at h
    rw [← h.1]
    rfl

/-- After a header finish the data offset is no longer peekable. -/
theorem header_finish_off (s s' : HeaderDecoder) (a : Header)
    (h : headerDec.finish s = .ok (s', a)) :
    (peekDec u32Dec).isIdle s'.data_offset = false := by
  unfold headerDec at h
  dsimp only at h
  obtain ⟨⟨sg₁, sig⟩, hf1, h⟩ := bind_ok h
  dsimp only at h
  split at h
  · exact absurd h (by simp)
  · obtain ⟨⟨v₁, ver⟩, hf2, h⟩ := bind_ok h
    dsimp only at h
    split at h
    · exact absurd h (by simp)
    · obtain ⟨⟨f₁, fl⟩, hf3, h⟩ := bind_ok h
      dsimp only at h
      simp only [Except.ok.injEq, Prod.mk.injEq] at h
      rw [← h.1]
      dsimp only
      rcases hpf : (peekDec u32Dec).finish s.data_offset with e | ⟨st, u⟩
      · dsimp only
        simp [peekDec, peek_finish_error _ _ hpf]
      · dsimp only
        exact peek_finish_ok _ _ _ hpf

/-- Well-behavedness of the file-header decoder at the strengthened
invariant. -/
theorem headerOk2 : DecOk headerDec HeaderWF2 where
  wf_decode := header_wf2_decode
  wf_finish := by
    intro s s' a hwf h
    refine ⟨headerOk.wf_finish _ _ _ hwf.1 h, ?_⟩
    intro hidf
    rw [header_finish_off s s' a h] at hidf
    exact absurd hidf (by simp)
  fresh_finish := fun s s' a hwf h => headerOk.fresh_finish _ _ _ hwf.1 h
  consume_le := headerOk.consume_le
  consumes_all := fun s buf eos s' n hwf h => headerOk.consumes_all _ _ _ _ _ hwf.1 h

/-- Well-behavedness of the composite file-header decoder at the
strengthened invariant. -/
theorem fileHeaderOk2 :
    DecOk fileHeaderDec (PeekWF (tupleDec headerDec u32Dec) (TupleWF HeaderWF2 (CopyWF 4))) :=
  peekOk (tupleOk headerOk2 u32Ok)

/-- Chunk compatibility of the composite file-header decoder. -/
theorem fileHeaderChunk :
    ChunkProps fileHeaderDec (PeekWF (tupleDec headerDec u32Dec) (TupleWF HeaderWF2 (CopyWF 4))) :=
  peekChunk (tupleStepOk headerOk2.toStep u32Ok.toStep)
    (tupleChunk headerOk2.toStep u32Ok.toStep headerChunk u32Chunk')
/-- The trailing previous-tag-size stage of the file decoder. -/
abbrev filePrevPart : PartDec FileDecoder :=
  lastPart u32Dec (fun s => s.prev_tag_size) (fun s x => ⟨s.header, s.tag, x⟩)

/-- The tag stage of the file decoder and what follows it. -/
abbrev fileTagPart : PartDec FileDecoder :=
  stepPart (maybeEosDec tagDec) (fun s => s.tag) (fun s x => ⟨s.header, x, s.prev_tag_size⟩)
    .ok filePrevPart

/-- Validation of the peeked first previous-tag-size (`FileDecoder::decode`):
it must equal zero. -/
def fileInst (s : FileDecoder) : Except DecodeError FileDecoder :=
  if (s.header.item.map (fun t => t.2)) ≠ some 0 then .error (.invalidInput none)
  else .ok s

/-- The file decoder as a chain of stages. -/
abbrev fileChain : PartDec FileDecoder :=
  stepPart fileHeaderDec (fun s => s.header) (fun s x => ⟨x, s.tag, s.prev_tag_size⟩)
    fileInst fileTagPart

/-- Offset form of the previous-tag-size stage. -/
theorem filePrevPart_eq (hdr : PeekState (HeaderDecoder × List Nat) (Header × Nat))
    (tg : MaybeEosState TagDecoder) (pv : List Nat)
    (buf : List Nat) (o : Nat) (eos : Bool) :
    (do
      let (p, o₃, _) ← tryStep u32Dec pv buf o eos
      (.ok ((⟨hdr, tg, p⟩ : FileDecoder), o₃) :
        Except DecodeError (FileDecoder × Nat))) =
      (filePrevPart.run ⟨hdr, tg, pv⟩ (buf.drop o) eos).map (fun t => (t.1, o + t.2)) := by
  rw [tryStep_bind_eq]
  unfold filePrevPart lastPart
  dsimp only
  by_cases hi : u32Dec.isIdle pv = true
  · rw [if_pos hi, if_pos hi, except_map_ok]
    dsimp only
    rw [Nat.add_zero]
  · rw [if_neg hi, if_neg hi]
    rcases hx : u32Dec.decode pv (buf.drop o) eos with e | ⟨x, n⟩
    · rw [error_bind, except_map_error]
    · simp only [ok_bind, except_map_ok]

/-- Offset form of the tag and previous-tag-size stages. -/
theorem fileTagPart_eq (hdr : PeekState (HeaderDecoder × List Nat) (Header × Nat))
    (tg : MaybeEosState TagDecoder) (pv : List Nat)
    (buf : List Nat) (o : Nat) (eos : Bool) :
    (do
      let (t, o₂, stop₂) ← tryStep (maybeEosDec tagDec) tg buf o eos
      if stop₂ then (.ok ((⟨hdr, t, pv⟩ : FileDecoder), o₂) :
        Except DecodeError (FileDecoder × Nat))
      else do
        let (p, o₃, _) ← tryStep u32Dec pv buf o₂ eos
        .ok (⟨hdr, t, p⟩, o₃)) =
      (fileTagPart.run ⟨hdr, tg, pv⟩ (buf.drop o) eos).map (fun t => (t.1, o + t.2)) := by
  rw [tryStep_bind_eq]
  unfold fileTagPart stepPart
  dsimp only
  by_cases hi : (maybeEosDec tagDec).isIdle tg = true
  · rw [if_pos hi, if_pos hi]
    exact filePrevPart_eq hdr tg pv buf o eos
  · rw [if_neg hi, if_neg hi]
    rcases hx : (maybeEosDec tagDec).decode tg (buf.drop o) eos with e | ⟨x, n⟩
    · rw [error_bind, except_map_error]
    · simp only [ok_bind]
      by_cases hix : (maybeEosDec tagDec).isIdle x = true
      · rw [if_neg (by simp [hix]), if_pos hix]
        rw [show (tryStep u32Dec pv buf (o + n) eos >>=
            (fun p => (.ok ((⟨hdr, x, p.1⟩ : FileDecoder), p.2.1) :
              Except DecodeError (FileDecoder × Nat)))) =
          (do
            let (p, o₃, _) ← tryStep u32Dec pv buf (o + n) eos
            (.ok ((⟨hdr, x, p⟩ : FileDecoder), o₃) :
              Except DecodeError (FileDecoder × Nat))) from rfl]
        rw [filePrevPart_eq hdr x pv buf (o + n) eos]
        rw [show buf.drop (o + n) = (buf.drop o).drop n from by
          rw [List.drop_drop, Nat.add_comm]]
        rcases hx2 : filePrevPart.run ⟨hdr, x, pv⟩ ((buf.drop o).drop n) eos
            with e | ⟨t, m⟩
        · simp only [error_bind, except_map_error]
        · simp only [ok_bind, except_map_ok]
          rw [Nat.add_assoc]
      · rw [if_pos (by simp [hix]), if_neg (by simp [hix]), except_map_ok]

/-- The file decode is the chain of its stages. -/
theorem file_decode_eq (s : FileDecoder) (buf : List Nat) (eos : Bool) :
    fileDec.decode s buf eos = fileChain.run s buf eos := by
  obtain ⟨hdr, tg, pv⟩ := s
  show (if fileHeaderDec.isIdle hdr then do
      let (t, o₂, stop₂) ← tryStep (maybeEosDec tagDec) tg buf 0 eos
      if stop₂ then (.ok ((⟨hdr, t, pv⟩ : FileDecoder), o₂) :
        Except DecodeError (FileDecoder × Nat))
      else do
        let (p, o₃, _) ← tryStep u32Dec pv buf o₂ eos
        .ok (⟨hdr, t, p⟩, o₃)
    else do
      let (h, o₁, stop₁) ← tryStep fileHeaderDec hdr buf 0 eos
      if stop₁ then .ok (⟨h, tg, pv⟩, o₁)
      else if (h.item.map (fun t => t.2)) ≠ some 0 then .error (.invalidInput none)
      else do
        let (t, o₂, stop₂) ← tryStep (maybeEosDec tagDec) tg buf o₁ eos
        if stop₂ then .ok (⟨h, t, pv⟩, o₂)
        else do
          let (p, o₃, _) ← tryStep u32Dec pv buf o₂ eos
          .ok (⟨h, t, p⟩, o₃)) = fileChain.run ⟨hdr, tg, pv⟩ buf eos
  unfold fileChain stepPart
  dsimp only
  by_cases hi : fileHeaderDec.isIdle hdr = true
  · rw [if_pos hi, if_pos hi]
    have := fileTagPart_eq hdr tg pv buf 0 eos
    rw [List.drop_zero] at this
    rw [this]
    rcases hx : fileTagPart.run ⟨hdr, tg, pv⟩ buf eos with e | ⟨t, m⟩
    · rw [except_map_error]
    · rw [except_map_ok]
      dsimp only
      rw [Nat.zero_add]
  · rw [if_neg hi, if_neg hi]
    rw [tryStep_bind_eq, if_neg hi]
    simp only [List.drop_zero]
    rcases hx : fileHeaderDec.decode hdr buf eos with e | ⟨x, n⟩
    · exact error_bind.symm
    · simp only [ok_bind]
      by_cases hix : fileHeaderDec.isIdle x = true
      · rw [if_neg (by simp [hix]), if_pos hix]
        unfold fileInst
        dsimp only
        by_cases hchk : (x.item.map (fun t => t.2)) ≠ some 0
        · rw [if_pos hchk, if_pos hchk]
          rfl
        · rw [if_neg hchk, if_neg hchk]
          simp only [ok_bind, Nat.zero_add]
          rw [fileTagPart_eq x tg pv buf n eos]
          rcases hx2 : fileTagPart.run ⟨x, tg, pv⟩ (buf.drop n) eos with e | ⟨t, m⟩
          · rfl
          · rfl
      · rw [if_pos (by simp [hix]), if_neg (by simp [hix]), Nat.zero_add]

/-- Strengthened invariant of the file decoder state. -/
@[reducible]
def FileWF2 (s : FileDecoder) : Prop :=
  PeekWF (tupleDec headerDec u32Dec) (TupleWF HeaderWF2 (CopyWF 4)) s.header ∧
    TagWF2 s.tag.inner ∧ CopyWF 4 s.prev_tag_size ∧
    (fileHeaderDec.isIdle s.header = false → (maybeEosDec tagDec).isIdle s.tag = false)

/-- The file validation is the identity on success. -/
theorem fileInst_ok (u s₂ : FileDecoder) (hinst : fileInst u = .ok s₂) : s₂ = u := by
  unfold fileInst at hinst
  split at hinst
  · exact absurd hinst (by simp)
  · simp only [Except.ok.injEq] at hinst
    exact hinst.symm

/-- The previous-tag-size stage leaves the earlier fields alone. -/
theorem filePrevPart_frame (s : FileDecoder) (buf : List Nat) (eos : Bool)
    (t : FileDecoder) (m : Nat) (h : filePrevPart.run s buf eos = .ok (t, m)) :
    t.header = s.header ∧ t.tag = s.tag :=
  ⟨lastPart_frame s buf eos t m h (fun s => s.header) (fun _ _ => rfl),
   lastPart_frame s buf eos t m h (fun s => s.tag) (fun _ _ => rfl)⟩

/-- The tag stage leaves the header alone. -/
theorem fileTagPart_frame (s : FileDecoder) (buf : List Nat) (eos : Bool)
    (t : FileDecoder) (m : Nat) (h : fileTagPart.run s buf eos = .ok (t, m)) :
    t.header = s.header :=
  stepPart_frame s buf eos t m h (fun s => s.header) (fun _ _ => rfl)
    (fun u s₂ hi => by
      simp only [Except.ok.injEq] at hi
      rw [← hi])
    (fun s buf eos t m h => (filePrevPart_frame s buf eos t m h).1)

/-- Granular chunk facts for the previous-tag-size stage. -/
theorem filePrevPart_empty (s : FileDecoder) (hw : CopyWF 4 s.prev_tag_size) :
    filePrevPart.run s [] false = .ok (s, 0) := by
  refine lastPart_empty (fun s => CopyWF 4 s.prev_tag_size) s hw
    u32Chunk' (fun s hw => hw) ?_
  intro u
  rfl

theorem filePrevPart_idleNC (s : FileDecoder) (buf : List Nat) (eos : Bool)
    (hi : filePrevPart.done s = true) : filePrevPart.run s buf eos = .ok (s, 0) :=
  lastPart_idleNC s buf eos hi

theorem filePrevPart_trunc (s : FileDecoder) (a b : List Nat) (eos : Bool)
    (s' : FileDecoder) (n : Nat) (hw : CopyWF 4 s.prev_tag_size) (hb : b ≠ [])
    (h : filePrevPart.run s (a ++ b) eos = .ok (s', n)) (hn : n ≤ a.length) :
    filePrevPart.run s a false = .ok (s', n) :=
  lastPart_trunc (fun s => CopyWF 4 s.prev_tag_size) s a b eos s' n hw hb h hn
    u32Chunk' (fun s hw => hw)

theorem filePrevPart_split (s : FileDecoder) (a b : List Nat) (eos : Bool)
    (s' : FileDecoder) (n : Nat) (hw : CopyWF 4 s.prev_tag_size) (hb : b ≠ [])
    (h : filePrevPart.run s (a ++ b) eos = .ok (s', n)) (hn : a.length ≤ n) :
    ∃ sm, filePrevPart.run s a false = .ok (sm, a.length) ∧
      filePrevPart.run sm b eos = .ok (s', n - a.length) :=
  lastPart_split (fun s => CopyWF 4 s.prev_tag_size) s a b eos s' n hw hb h hn
    u32Chunk' u32Ok.toStep (fun s hw => hw)
    (fun _ _ => rfl) (fun _ _ _ => rfl)

/-- Granular chunk facts for the tag stage. -/
theorem fileTagPart_empty (s : FileDecoder)
    (hw : TagWF2 s.tag.inner ∧ CopyWF 4 s.prev_tag_size) :
    fileTagPart.run s [] false = .ok (s, 0) := by
  refine stepPart_empty (fun s => TagWF2 s.tag.inner ∧ CopyWF 4 s.prev_tag_size)
    s hw maybeTagChunk (fun s hw => hw.1) ?_ ?_
  · intro u
    rfl
  · exact fun u hw _ => filePrevPart_empty u hw.2

theorem fileTagPart_idleNC (s : FileDecoder) (buf : List Nat) (eos : Bool)
    (hi : fileTagPart.done s = true) : fileTagPart.run s buf eos = .ok (s, 0) :=
  stepPart_idleNC (fun _ => True) s buf eos trivial hi
    (fun s buf eos _ _ hd => filePrevPart_idleNC s buf eos hd)

theorem fileTagPart_trunc (s : FileDecoder) (a b : List Nat) (eos : Bool)
    (s' : FileDecoder) (n : Nat)
    (hw : TagWF2 s.tag.inner ∧ CopyWF 4 s.prev_tag_size) (hb : b ≠ [])
    (h : fileTagPart.run s (a ++ b) eos = .ok (s', n)) (hn : n ≤ a.length) :
    fileTagPart.run s a false = .ok (s', n) :=
  stepPart_trunc (fun s => TagWF2 s.tag.inner ∧ CopyWF 4 s.prev_tag_size)
    (fun s => CopyWF 4 s.prev_tag_size)
    s a b eos s' n hw hb h hn maybeTagChunk (fun s hw => hw.1)
    (fun s hw _ => hw.2)
    (fun s buf eos x n s₂ hw _ _ _ hi => by
      simp only [Except.ok.injEq] at hi
      rw [← hi]
      exact hw.2)
    (fun s a b eos s' n hw => filePrevPart_trunc s a b eos s' n hw)

theorem fileTagPart_split (s : FileDecoder) (a b : List Nat) (eos : Bool)
    (s' : FileDecoder) (n : Nat)
    (hw : TagWF2 s.tag.inner ∧ CopyWF 4 s.prev_tag_size) (hb : b ≠ [])
    (h : fileTagPart.run s (a ++ b) eos = .ok (s', n)) (hn : a.length ≤ n) :
    ∃ sm, fileTagPart.run s a false = .ok (sm, a.length) ∧
      fileTagPart.run sm b eos = .ok (s', n - a.length) :=
  stepPart_split (fun s => TagWF2 s.tag.inner ∧ CopyWF 4 s.prev_tag_size)
    (fun s => CopyWF 4 s.prev_tag_size)
    s a b eos s' n hw hb h hn maybeTagChunk maybeTagStepOk2 (fun s hw => hw.1)
    (fun _ _ => rfl) (fun _ _ _ => rfl)
    (fun u s₂ hi => by
      simp only [Except.ok.injEq] at hi
      rw [← hi])
    (fun t buf eos t' m h => (filePrevPart_frame t buf eos t' m h).2)
    (fun s hw _ => hw.2)
    (fun s buf eos x n s₂ hw _ _ _ hi => by
      simp only [Except.ok.injEq] at hi
      rw [← hi]
      exact hw.2)
    (fun s a b eos s' n hw => filePrevPart_split s a b eos s' n hw)

/-- At the strengthened invariant, an idle file decoder has a fully done
stage chain. -/
theorem fileChain_done (s : FileDecoder) (hw : FileWF2 s)
    (hi : fileDec.isIdle s = true) : fileChain.done s = true := by
  simp only [fileDec, Bool.and_eq_true] at hi
  have hh : fileHeaderDec.isIdle s.header = true := by
    rcases hz : fileHeaderDec.isIdle s.header with _ | _
    · exact absurd hi.1 (by rw [hw.2.2.2 hz]; simp)
    · rfl
  unfold fileChain fileTagPart filePrevPart stepPart lastPart
  simp only
  rw [hh, hi.1, hi.2]
  rfl

/-- Chunk compatibility of the file decoder. -/
theorem fileChunk : ChunkProps fileDec FileWF2 where
  empty := by
    intro s hw
    rw [file_decode_eq]
    refine stepPart_empty FileWF2 s hw fileHeaderChunk (fun s hw => hw.1) ?_ ?_
    · intro u
      rfl
    · exact fun u hw _ => fileTagPart_empty u ⟨hw.2.1, hw.2.2.1⟩
  idleNC := by
    intro s buf eos hw hi
    rw [file_decode_eq]
    exact stepPart_idleNC (fun _ => True) s buf eos trivial (fileChain_done s hw hi)
      (fun s buf eos _ _ hd => fileTagPart_idleNC s buf eos hd)
  trunc := by
    intro s a b eos s' n hw hb h hn
    rw [file_decode_eq] at h ⊢
    exact stepPart_trunc FileWF2
      (fun s => TagWF2 s.tag.inner ∧ CopyWF 4 s.prev_tag_size)
      s a b eos s' n hw hb h hn fileHeaderChunk (fun s hw => hw.1)
      (fun s hw _ => ⟨hw.2.1, hw.2.2.1⟩)
      (fun s buf eos x n s₂ hw _ _ _ hi => by
        rw [fileInst_ok _ _ hi]
        exact ⟨hw.2.1, hw.2.2.1⟩)
      (fun s a b eos s' n hw => fileTagPart_trunc s a b eos s' n hw)
  split := by
    intro s a b eos s' n hw hb h hn
    rw [file_decode_eq] at h
    obtain ⟨sm, h1, h2⟩ := stepPart_split FileWF2
      (fun s => TagWF2 s.tag.inner ∧ CopyWF 4 s.prev_tag_size)
      s a b eos s' n hw hb h hn fileHeaderChunk fileHeaderOk2.toStep (fun s hw => hw.1)
      (fun _ _ => rfl) (fun _ _ _ => rfl)
      (fun u s₂ hi => by rw [fileInst_ok _ _ hi])
      fileTagPart_frame
      (fun s hw _ => ⟨hw.2.1, hw.2.2.1⟩)
      (fun s buf eos x n s₂ hw _ _ _ hi => by
        rw [fileInst_ok _ _ hi]
        exact ⟨hw.2.1, hw.2.2.1⟩)
      (fun s a b eos s' n hw => fileTagPart_split s a b eos s' n hw)
    exact ⟨sm, by rw [file_decode_eq]; exact h1, by rw [file_decode_eq]; exact h2⟩
/-- The strengthened file invariant yields the plain one. -/
theorem fileWF2_toWF (s : FileDecoder) (hw : FileWF2 s) : FileWF s :=
  ⟨⟨⟨hw.1.1.1.1, hw.1.1.2⟩, hw.1.2⟩, tagWF2_toWF _ hw.2.1, hw.2.2.1⟩

/-- The strengthened file invariant survives a decode step. -/
theorem file_wf2_decode (s : FileDecoder) (buf : List Nat) (eos : Bool)
    (s' : FileDecoder) (n : Nat) (hw : FileWF2 s)
    (h : fileDec.decode s buf eos = .ok (s', n)) : FileWF2 s' := by
  unfold fileDec at h
  simp only at h
  split at h
  · rename_i hi
    obtain ⟨⟨t, o₂, stop₂⟩, hstep₂, h⟩ := bind_ok h
    have hwt := tryStep_wf maybeTagStepOk2 hw.2.1 hstep₂
    split at h
    · simp only [Except.ok.injEq, Prod.mk.injEq] at h
      rw [← h.1]
      refine ⟨hw.1, hwt, hw.2.2.1, ?_⟩
      intro hx
      rw [hx] at hi
      exact absurd hi (by simp)
    · obtain ⟨⟨p, o₃, stop₃⟩, hstep₃, h⟩ := bind_ok h
      have hwp := tryStep_wf u32Ok.toStep hw.2.2.1 hstep₃
      simp only [Except.ok.injEq, Prod.mk.injEq] at h
      rw [← h.1]
      refine ⟨hw.1, hwt, hwp, ?_⟩
      intro hx
      rw [hx] at hi
      exact absurd hi (by simp)
  · rename_i hi
    obtain ⟨⟨hh, o₁, stop₁⟩, hstep₁, h⟩ := bind_ok h
    have hwh := tryStep_wf fileHeaderOk2.toStep hw.1 hstep₁
    split at h
    · simp only [Except.ok.injEq, Prod.mk.injEq] at h
      rw [← h.1]
      refine ⟨hwh, hw.2.1, hw.2.2.1, ?_⟩
      intro _
      exact hw.2.2.2 (by simpa using hi)
    · rename_i hst
      have hst' : stop₁ = false := by simpa using hst
      rw [hst'] at hstep₁
      have hhidle := tryStep_false hstep₁
      dsimp only at h
      split at h
      · exact absurd h (by simp)
      · obtain ⟨⟨t, o₂, stop₂⟩, hstep₂, h⟩ := bind_ok h
        have hwt := tryStep_wf maybeTagStepOk2 hw.2.1 hstep₂
        split at h
        · simp only [Except.ok.injEq, Prod.mk.injEq] at h
          rw [← h.1]
          refine ⟨hwh, hwt, hw.2.2.1, ?_⟩
          intro hx
          rw [hx] at hhidle
          exact absurd hhidle (by simp)
        · obtain ⟨⟨p, o₃, stop₃⟩, hstep₃, h⟩ := bind_ok h
          have hwp := tryStep_wf u32Ok.toStep hw.2.2.1 hstep₃
          simp only [Except.ok.injEq, Prod.mk.injEq] at h
          rw [← h.1]
          refine ⟨hwh, hwt, hwp, ?_⟩
          intro hx
          rw [hx] at hhidle
          exact absurd hhidle (by simp)

/-- Decode-side well-behavedness of the file decoder at the strengthened
invariant. -/
theorem fileStepOk2 : StepOk fileDec FileWF2 where
  wf_decode := file_wf2_decode
  consume_le := fileStepOk.consume_le
  consumes_all := fun s buf eos s' n hw h hni =>
    fileStepOk.consumes_all _ _ _ _ _ (fileWF2_toWF s hw) h hni

/-- The strengthened tag invariant survives a finish. -/
theorem tag_wf2_finish (s s' : TagDecoder) (a : Tag) (hw : TagWF2 s)
    (h : tagDec.finish s = .ok (s', a)) : TagWF2 s' := by
  unfold tagDec at h
  simp only at h
  obtain ⟨⟨h', hd⟩, hf1, h⟩ := bind_ok h
  obtain ⟨⟨d', data⟩, hf2, h⟩ := bind_ok h
  dsimp only at h
  simp only [Except.ok.injEq, Prod.mk.injEq] at h
  rw [← h.1]
  refine ⟨(peekOk tagHeaderOk).wf_finish _ _ _ hw.1 hf1, ?_⟩
  intro hidle
  rw [peek_finish_ok _ _ _ hf1] at hidle
  exact absurd hidle (by simp)

/-- The strengthened file invariant survives a finish. -/
theorem file_wf2_finish (s s' : FileDecoder) (a : Tag) (hw : FileWF2 s)
    (h : fileDec.finish s = .ok (s', a)) : FileWF2 s' := by
  unfold fileDec at h
  simp only at h
  obtain ⟨⟨t', tag⟩, hf1, h⟩ := bind_ok h
  obtain ⟨⟨p', pts⟩, hf2, h⟩ := bind_ok h
  dsimp only at h
  split at h
  · exact absurd h (by simp)
  · simp only [Except.ok.injEq, Prod.mk.injEq] at h
    rw [← h.1]
    unfold maybeEosDec at hf1
    simp only at hf1
    obtain ⟨⟨i', a'⟩, hft, hf1⟩ := bind_ok hf1
    dsimp only at hf1
    simp only [Except.ok.injEq, Prod.mk.injEq] at hf1
    rw [← hf1.1]
    refine ⟨hw.1, tag_wf2_finish _ _ _ hw.2.1 hft, u32Ok.wf_finish _ _ _ hw.2.2.1 hf2, ?_⟩
    intro _
    show tagDec.isIdle i' = false
    exact tagOk.fresh_finish _ _ _ (tagWF2_toWF _ hw.2.1) hft

/-- The fresh file decoder satisfies the strengthened invariant. -/
theorem fileWF2_init : FileWF2 FileDecoder.init := by
  refine ⟨⟨⟨⟨⟨by decide, by decide, by decide, ⟨by decide, by decide⟩,
    ⟨trivial, fun _ => rfl⟩, fun _ => rfl⟩, fun hx => absurd hx (by decide)⟩,
    by decide⟩, by decide⟩, ⟨⟨by decide, by decide⟩, fun hx => absurd hx (by decide)⟩,
    by decide, fun _ => by decide⟩
/-- One-step unfolding of the chunk loop on at least two chunks. -/
theorem runChunks_cons_cons {σ α : Type} (d : Dec σ α) (fuel : Nat) (s : σ)
    (c c₂ : List Nat) (rest : List (List Nat)) :
    runChunks d fuel s (c :: c₂ :: rest) =
      match runDec d fuel s c false with
      | none => none
      | some (.error e) => some (.error e)
      | some (.ok (s', items, left)) =>
        match runChunks d fuel s' ((left ++ c₂) :: rest) with
        | none => none
        | some (.error e) => some (.error e)
        | some (.ok (sf, items₂, l)) => some (.ok (sf, items ++ items₂, l)) := by
  rw [runChunks]

/-- More fuel never changes a completed run. -/
theorem runDec_mono {σ α : Type} {d : Dec σ α} :
    ∀ (f f' : Nat) (s : σ) (bs : List Nat) (eos : Bool)
      (r : Except DecodeError (σ × List α × List Nat)), f ≤ f' →
      runDec d f s bs eos = some r → runDec d f' s bs eos = some r := by
  intro f
  induction f with
  | zero => intro f' s bs eos r _ h; simp [runDec] at h
  | succ k ih =>
    intro f' s bs eos r hle h
    obtain ⟨k', rfl⟩ : ∃ k', f' = k' + 1 := ⟨f' - 1, by omega⟩
    unfold runDec at h ⊢
    cases hd : d.decode s bs eos with
    | error e =>
      rw [hd] at h
      dsimp only at h ⊢
      exact h
    | ok p =>
      rw [hd] at h
      obtain ⟨s', n⟩ := p
      dsimp only at h ⊢
      split at h
      · rename_i hi
        rw [if_pos hi]
        cases hfn : d.finish s' with
        | error e =>
          rw [hfn] at h
          dsimp only at h ⊢
          exact h
        | ok q =>
          rw [hfn] at h
          obtain ⟨s'', x⟩ := q
          dsimp only at h ⊢
          cases hr : runDec d k s'' (bs.drop n) eos with
          | none => rw [hr] at h; exact absurd h (by simp)
          | some rr =>
            rw [hr] at h
            rw [ih k' s'' (bs.drop n) eos rr (by omega) hr]
            exact h
      · rename_i hi
        rw [if_neg hi]
        exact h

/-- A completed run over a buffer with a nonempty tail splits at the
boundary: the head is driven to exhaustion mid-stream, the tail continues
from the state so reached, and the items concatenate. -/
theorem runDec_split {σ α : Type} {d : Dec σ α} {W : σ → Prop}
    (c : ChunkProps d W) (o : StepOk d W)
    (hfin : ∀ s s' x, W s → d.finish s = .ok (s', x) → W s') :
    ∀ (fuel : Nat) (s : σ) (a b : List Nat) (eos : Bool) (sf : σ)
      (items : List α) (left : List Nat), W s → b ≠ [] →
      runDec d fuel s (a ++ b) eos = some (.ok (sf, items, left)) →
      ∃ s₁ items₁ items₂, runDec d fuel s a false = some (.ok (s₁, items₁, [])) ∧
        runDec d fuel s₁ b eos = some (.ok (sf, items₂, left)) ∧
        items = items₁ ++ items₂ ∧ W s₁ := by
  intro fuel
  induction fuel with
  | zero => intro s a b eos sf items left _ _ h; simp [runDec] at h
  | succ k ih =>
    intro s a b eos sf items left hw hb h
    unfold runDec at h
    cases hd : d.decode s (a ++ b) eos with
    | error e => rw [hd] at h; simp at h
    | ok p =>
      rw [hd] at h
      obtain ⟨s', n⟩ := p
      simp only at h
      split at h
      · rename_i hi
        cases hfn : d.finish s' with
        | error e => rw [hfn] at h; simp at h
        | ok q =>
          rw [hfn] at h
          obtain ⟨s'', x⟩ := q
          simp only at h
          cases hr : runDec d k s'' ((a ++ b).drop n) eos with
          | none => rw [hr] at h; simp at h
          | some rr =>
            rw [hr] at h
            cases rr with
            | error e => simp at h
            | ok t =>
              obtain ⟨sf', items', left'⟩ := t
              simp only [Option.some.injEq, Except.ok.injEq, Prod.mk.injEq] at h
              obtain ⟨hsf, hitems, hleft⟩ := h
              have hw'' : W s'' := hfin _ _ _ (o.wf_decode _ _ _ _ _ hw hd) hfn
              by_cases hn : n ≤ a.length
              · have htr := c.trunc s a b eos s' n hw hb hd hn
                rw [List.drop_append_of_le_length hn] at hr
                obtain ⟨s₁, items₁, items₂, hA, hB, hcat, hw₁⟩ :=
                  ih s'' (a.drop n) b eos sf' items' left' hw'' hb hr
                refine ⟨s₁, x :: items₁, items₂, ?_, ?_, ?_, hw₁⟩
                · unfold runDec
                  rw [htr]
                  simp only
                  rw [if_pos hi, hfn]
                  simp only
                  rw [hA]
                · rw [hsf, hleft] at hB
                  exact runDec_mono k (k + 1) s₁ b eos _ (by omega) hB
                · rw [← hitems, hcat]
                  rfl
              · push_neg at hn
                obtain ⟨sm, h1, h2⟩ :=
                  c.split s a b eos s' n hw hb hd (by omega)
                have hwm : W sm := o.wf_decode _ _ _ _ _ hw h1
                have him : d.isIdle sm = false := by
                  rcases hz : d.isIdle sm with _ | _
                  · rfl
                  · exfalso
                    rw [c.idleNC sm b eos hwm hz] at h2
                    simp only [Except.ok.injEq, Prod.mk.injEq] at h2
                    omega
                refine ⟨sm, [], x :: items', ?_, ?_, ?_, hwm⟩
                · unfold runDec
                  rw [h1]
                  simp only
                  rw [if_neg (by simp [him]), List.drop_length]
                · unfold runDec
                  rw [h2]
                  simp only
                  rw [if_pos hi, hfn]
                  simp only
                  have hdrop : (a ++ b).drop n = b.drop (n - a.length) := by
                    rw [List.drop_append_eq_append_drop]
                    rw [List.drop_eq_nil_of_le (le_of_lt hn), List.nil_append]
                  rw [hdrop] at hr
                  rw [hr, hsf, hleft]
                · rw [← hitems]
                  rfl
      · rename_i hi
        simp only [Option.some.injEq, Except.ok.injEq, Prod.mk.injEq] at h
        obtain ⟨hsf, hitems, hleft⟩ := h
        have hni : d.isIdle s' = false := by simpa using hi
        have hnall := o.consumes_all _ _ _ _ _ hw hd hni
        rw [List.length_append] at hnall
        have hbl : 0 < b.length := List.length_pos.mpr hb
        obtain ⟨sm, h1, h2⟩ :=
          c.split s a b eos s' n hw hb hd (by omega)
        have hwm : W sm := o.wf_decode _ _ _ _ _ hw h1
        have him : d.isIdle sm = false := by
          rcases hz : d.isIdle sm with _ | _
          · rfl
          · exfalso
            rw [c.idleNC sm b eos hwm hz] at h2
            simp only [Except.ok.injEq, Prod.mk.injEq] at h2
            omega
        refine ⟨sm, [], [], ?_, ?_, by rw [← hitems]; rfl, hwm⟩
        · unfold runDec
          rw [h1]
          simp only
          rw [if_neg (by simp [him]), List.drop_length]
        · unfold runDec
          rw [h2]
          simp only
          rw [if_neg (by simp [hni]), hsf]
          have : b.drop (n - a.length) = [] :=
            List.drop_eq_nil_of_le (by omega)
          rw [this, ← hleft]
          have : (a ++ b).drop n = [] :=
            List.drop_eq_nil_of_le (by rw [List.length_append]; omega)
          rw [this]

/-- A completed run over the flattening of a nonempty list of nonempty
chunks is reproduced verbatim by the chunked loop. -/
theorem runChunks_assemble {σ α : Type} {d : Dec σ α} {W : σ → Prop}
    (c : ChunkProps d W) (o : StepOk d W)
    (hfin : ∀ s s' x, W s → d.finish s = .ok (s', x) → W s') (fuel : Nat) :
    ∀ (cs : List (List Nat)) (s sf : σ) (items : List α) (left : List Nat),
      W s → cs ≠ [] → (∀ ch ∈ cs, ch ≠ []) →
      runDec d fuel s cs.flatten true = some (.ok (sf, items, left)) →
      runChunks d fuel s cs = some (.ok (sf, items, left)) := by
  intro cs
  induction cs with
  | nil => intro s sf items left _ hcs _ _; exact absurd rfl hcs
  | cons ch rest ih =>
    intro s sf items left hw _ hne h
    cases rest with
    | nil =>
      rw [show ([ch] : List (List Nat)).flatten = ch from by simp] at h
      rw [show runChunks d fuel s [ch] = runDec d fuel s ch true from by
        rw [runChunks]]
      exact h
    | cons ch₂ rest₂ =>
      rw [show (ch :: ch₂ :: rest₂).flatten = ch ++ (ch₂ :: rest₂).flatten from rfl] at h
      have hb : (ch₂ :: rest₂).flatten ≠ [] := by
        intro hx
        rw [List.flatten_eq_nil_iff] at hx
        exact absurd (hx ch₂ (by simp)) (hne ch₂ (by simp))
      obtain ⟨s₁, items₁, items₂, hA, hB, hcat, hw₁⟩ :=
        runDec_split c o hfin fuel s ch _ true sf items left hw hb h
      have hih := ih s₁ sf items₂ left hw₁ (by simp)
        (fun x hx => hne x (List.mem_cons_of_mem _ hx)) hB
      rw [runChunks_cons_cons, hA]
      simp only
      rw [List.nil_append, hih]
      simp only
      rw [hcat]
/-- C2: feeding the file decoder's driving loop any partition of a byte
stream into nonempty consecutive chunks reproduces exactly the result — in
particular the decoded `Tag` sequence — of feeding the whole stream as one
contiguous buffer. -/
theorem C2_chunked_invariance (cs : List (List Nat)) (sf : FileDecoder)
    (items : List Tag) (left : List Nat)
    (h1 : cs ≠ []) (h2 : ∀ ch ∈ cs, ch ≠ [])
    (h : runFile cs.flatten = some (.ok (sf, items, left))) :
    runFileChunks cs = some (.ok (sf, items, left)) := by
  unfold runFile at h
  unfold runFileChunks
  exact runChunks_assemble fileChunk fileStepOk2 file_wf2_finish
    (bufFuel cs.flatten) cs FileDecoder.init sf items left fileWF2_init h1 h2 h

/-- A 33-byte FLV file holding one AAC audio tag. -/
def c2File : List Nat :=
  [70, 76, 86, 1, 5, 0, 0, 0, 9, 0, 0, 0, 0,
   8, 0, 0, 5, 0, 0, 0, 0, 0, 0, 0, 175, 1, 10, 11, 12, 0, 0, 0, 16]

/-- The single-byte chunking of that file. -/
def c2Chunks : List (List Nat) := c2File.map (fun b => [b])

/-- The file decoder state left after decoding that file. -/
def c2FinalState : FileDecoder :=
  ⟨⟨(⟨[], [], [], ⟨[], none⟩, ⟨false, 0, 0⟩⟩, []), some (⟨true, true⟩, 0)⟩,
   ⟨⟨⟨tagHeaderInit, none⟩, ⟨TagDataDecoder.none, 5, 5⟩⟩, false⟩, []⟩

/-- The tag sequence decoded from that file. -/
def c2Items : List Tag :=
  [Tag.audio ⟨⟨0⟩, ⟨0⟩, SoundFormat.aac, SoundRate.khz44, SoundSize.bit16,
    SoundType.stereo, some AacPacketType.raw, [10, 11, 12]⟩]

theorem C2_chunked_invariance_witness :
    c2Chunks ≠ [] ∧ (∀ ch ∈ c2Chunks, ch ≠ []) ∧
      runFile c2Chunks.flatten = some (.ok (c2FinalState, c2Items, [])) ∧
      runFileChunks c2Chunks = some (.ok (c2FinalState, c2Items, [])) :=
  ⟨by decide, by decide, by rfl,
    C2_chunked_invariance c2Chunks c2FinalState c2Items []
      (by decide) (by decide) (by rfl)⟩
